import Mathlib

/-!
# BuildBag `config.js`: key templating, dependency resolver, flat-text codec, domains

A shallow embedding of the core of `src/main/resources/static/config.js`.

JavaScript strings are modelled as lists of characters (`Str`), one per code
point.  Case conversion (`toLowerCase`, `toUpperCase`, and `Canonicalize` of the
regular-expression flag `i`) follows the Unicode Default Case Conversion with
the mappings of the Unicode Character Database, version 14.0.
-/

namespace BuildBag

/-! ## Strings -/

/-- A JavaScript string, as the list of its characters. -/
abbrev Str := List Char

/-- The characters removed by `String.prototype.trim`: ECMAScript `WhiteSpace`
and `LineTerminator`. -/
def isWhiteSpace (c : Char) : Bool :=
  let n := c.toNat
  n == 0x09 || n == 0x0A || n == 0x0B || n == 0x0C || n == 0x0D || n == 0x20 ||
  n == 0xA0 || n == 0x1680 || (0x2000 ≤ n && n ≤ 0x200A) || n == 0x2028 ||
  n == 0x2029 || n == 0x202F || n == 0x205F || n == 0x3000 || n == 0xFEFF

/-- `s.trimStart()`. -/
def trimStart (s : Str) : Str := s.dropWhile isWhiteSpace

/-- `s.trimEnd()`. -/
def trimEnd (s : Str) : Str := (s.reverse.dropWhile isWhiteSpace).reverse

/-- `s.trim()`. -/
def trim (s : Str) : Str := trimEnd (trimStart s)

/-! ### Case conversion

`String.prototype.toLowerCase` and `toUpperCase` follow the Unicode Default Case
Conversion: the mappings of `UnicodeData.txt`, the unconditional mappings of
`SpecialCasing.txt` and the condition `Final_Sigma`. A string is the list of
its code points. -/

/-- The simple lower-case mappings of the Unicode Character Database (version 14.0)
outside ASCII, as rules `(lo, hi, step, target)`: the code points `lo, lo + step,
...` up to `hi` are mapped to `target, target + step, ...`. -/
def lowerRules : List (Nat × Nat × Nat × Nat) :=
  [
   (192, 214, 1, 224), (216, 222, 1, 248), (256, 302, 2, 257), (306, 310, 2, 307), (313, 327, 2, 314),
   (330, 374, 2, 331), (376, 376, 1, 255), (377, 381, 2, 378), (385, 385, 1, 595), (386, 388, 2, 387),
   (390, 390, 1, 596), (391, 391, 1, 392), (393, 394, 1, 598), (395, 395, 1, 396), (398, 398, 1, 477),
   (399, 399, 1, 601), (400, 400, 1, 603), (401, 401, 1, 402), (403, 403, 1, 608), (404, 404, 1, 611),
   (406, 406, 1, 617), (407, 407, 1, 616), (408, 408, 1, 409), (412, 412, 1, 623), (413, 413, 1, 626),
   (415, 415, 1, 629), (416, 420, 2, 417), (422, 422, 1, 640), (423, 423, 1, 424), (425, 425, 1, 643),
   (428, 428, 1, 429), (430, 430, 1, 648), (431, 431, 1, 432), (433, 434, 1, 650), (435, 437, 2, 436),
   (439, 439, 1, 658), (440, 440, 1, 441), (444, 444, 1, 445), (452, 452, 1, 454), (453, 453, 1, 454),
   (455, 455, 1, 457), (456, 456, 1, 457), (458, 458, 1, 460), (459, 475, 2, 460), (478, 494, 2, 479),
   (497, 497, 1, 499), (498, 500, 2, 499), (502, 502, 1, 405), (503, 503, 1, 447), (504, 542, 2, 505),
   (544, 544, 1, 414), (546, 562, 2, 547), (570, 570, 1, 11365), (571, 571, 1, 572), (573, 573, 1, 410),
   (574, 574, 1, 11366), (577, 577, 1, 578), (579, 579, 1, 384), (580, 580, 1, 649), (581, 581, 1, 652),
   (582, 590, 2, 583), (880, 882, 2, 881), (886, 886, 1, 887), (895, 895, 1, 1011), (902, 902, 1, 940),
   (904, 906, 1, 941), (908, 908, 1, 972), (910, 911, 1, 973), (913, 929, 1, 945), (931, 939, 1, 963),
   (975, 975, 1, 983), (984, 1006, 2, 985), (1012, 1012, 1, 952), (1015, 1015, 1, 1016), (1017, 1017, 1, 1010),
   (1018, 1018, 1, 1019), (1021, 1023, 1, 891), (1024, 1039, 1, 1104), (1040, 1071, 1, 1072), (1120, 1152, 2, 1121),
   (1162, 1214, 2, 1163), (1216, 1216, 1, 1231), (1217, 1229, 2, 1218), (1232, 1326, 2, 1233), (1329, 1366, 1, 1377),
   (4256, 4293, 1, 11520), (4295, 4295, 1, 11559), (4301, 4301, 1, 11565), (5024, 5103, 1, 43888), (5104, 5109, 1, 5112),
   (7312, 7354, 1, 4304), (7357, 7359, 1, 4349), (7680, 7828, 2, 7681), (7838, 7838, 1, 223), (7840, 7934, 2, 7841),
   (7944, 7951, 1, 7936), (7960, 7965, 1, 7952), (7976, 7983, 1, 7968), (7992, 7999, 1, 7984), (8008, 8013, 1, 8000),
   (8025, 8031, 2, 8017), (8040, 8047, 1, 8032), (8072, 8079, 1, 8064), (8088, 8095, 1, 8080), (8104, 8111, 1, 8096),
   (8120, 8121, 1, 8112), (8122, 8123, 1, 8048), (8124, 8124, 1, 8115), (8136, 8139, 1, 8050), (8140, 8140, 1, 8131),
   (8152, 8153, 1, 8144), (8154, 8155, 1, 8054), (8168, 8169, 1, 8160), (8170, 8171, 1, 8058), (8172, 8172, 1, 8165),
   (8184, 8185, 1, 8056), (8186, 8187, 1, 8060), (8188, 8188, 1, 8179), (8486, 8486, 1, 969), (8490, 8490, 1, 107),
   (8491, 8491, 1, 229), (8498, 8498, 1, 8526), (8544, 8559, 1, 8560), (8579, 8579, 1, 8580), (9398, 9423, 1, 9424),
   (11264, 11311, 1, 11312), (11360, 11360, 1, 11361), (11362, 11362, 1, 619), (11363, 11363, 1, 7549), (11364, 11364, 1, 637),
   (11367, 11371, 2, 11368), (11373, 11373, 1, 593), (11374, 11374, 1, 625), (11375, 11375, 1, 592), (11376, 11376, 1, 594),
   (11378, 11378, 1, 11379), (11381, 11381, 1, 11382), (11390, 11391, 1, 575), (11392, 11490, 2, 11393), (11499, 11501, 2, 11500),
   (11506, 11506, 1, 11507), (42560, 42604, 2, 42561), (42624, 42650, 2, 42625), (42786, 42798, 2, 42787), (42802, 42862, 2, 42803),
   (42873, 42875, 2, 42874), (42877, 42877, 1, 7545), (42878, 42886, 2, 42879), (42891, 42891, 1, 42892), (42893, 42893, 1, 613),
   (42896, 42898, 2, 42897), (42902, 42920, 2, 42903), (42922, 42922, 1, 614), (42923, 42923, 1, 604), (42924, 42924, 1, 609),
   (42925, 42925, 1, 620), (42926, 42926, 1, 618), (42928, 42928, 1, 670), (42929, 42929, 1, 647), (42930, 42930, 1, 669),
   (42931, 42931, 1, 43859), (42932, 42946, 2, 42933), (42948, 42948, 1, 42900), (42949, 42949, 1, 642), (42950, 42950, 1, 7566),
   (42951, 42953, 2, 42952), (42960, 42960, 1, 42961), (42966, 42968, 2, 42967), (42997, 42997, 1, 42998), (65313, 65338, 1, 65345),
   (66560, 66599, 1, 66600), (66736, 66771, 1, 66776), (66928, 66938, 1, 66967), (66940, 66954, 1, 66979), (66956, 66962, 1, 66995),
   (66964, 66965, 1, 67003), (68736, 68786, 1, 68800), (71840, 71871, 1, 71872), (93760, 93791, 1, 93792), (125184, 125217, 1, 125218)]

/-- The simple upper-case mappings of the Unicode Character Database (version 14.0)
outside ASCII, as rules `(lo, hi, step, target)`. -/
def upperRules : List (Nat × Nat × Nat × Nat) :=
  [
   (181, 181, 1, 924), (224, 246, 1, 192), (248, 254, 1, 216), (255, 255, 1, 376), (257, 303, 2, 256),
   (305, 305, 1, 73), (307, 311, 2, 306), (314, 328, 2, 313), (331, 375, 2, 330), (378, 382, 2, 377),
   (383, 383, 1, 83), (384, 384, 1, 579), (387, 389, 2, 386), (392, 392, 1, 391), (396, 396, 1, 395),
   (402, 402, 1, 401), (405, 405, 1, 502), (409, 409, 1, 408), (410, 410, 1, 573), (414, 414, 1, 544),
   (417, 421, 2, 416), (424, 424, 1, 423), (429, 429, 1, 428), (432, 432, 1, 431), (436, 438, 2, 435),
   (441, 441, 1, 440), (445, 445, 1, 444), (447, 447, 1, 503), (453, 453, 1, 452), (454, 454, 1, 452),
   (456, 456, 1, 455), (457, 457, 1, 455), (459, 459, 1, 458), (460, 460, 1, 458), (462, 476, 2, 461),
   (477, 477, 1, 398), (479, 495, 2, 478), (498, 498, 1, 497), (499, 499, 1, 497), (501, 501, 1, 500),
   (505, 543, 2, 504), (547, 563, 2, 546), (572, 572, 1, 571), (575, 576, 1, 11390), (578, 578, 1, 577),
   (583, 591, 2, 582), (592, 592, 1, 11375), (593, 593, 1, 11373), (594, 594, 1, 11376), (595, 595, 1, 385),
   (596, 596, 1, 390), (598, 599, 1, 393), (601, 601, 1, 399), (603, 603, 1, 400), (604, 604, 1, 42923),
   (608, 608, 1, 403), (609, 609, 1, 42924), (611, 611, 1, 404), (613, 613, 1, 42893), (614, 614, 1, 42922),
   (616, 616, 1, 407), (617, 617, 1, 406), (618, 618, 1, 42926), (619, 619, 1, 11362), (620, 620, 1, 42925),
   (623, 623, 1, 412), (625, 625, 1, 11374), (626, 626, 1, 413), (629, 629, 1, 415), (637, 637, 1, 11364),
   (640, 640, 1, 422), (642, 642, 1, 42949), (643, 643, 1, 425), (647, 647, 1, 42929), (648, 648, 1, 430),
   (649, 649, 1, 580), (650, 651, 1, 433), (652, 652, 1, 581), (658, 658, 1, 439), (669, 669, 1, 42930),
   (670, 670, 1, 42928), (837, 837, 1, 921), (881, 883, 2, 880), (887, 887, 1, 886), (891, 893, 1, 1021),
   (940, 940, 1, 902), (941, 943, 1, 904), (945, 961, 1, 913), (962, 962, 1, 931), (963, 971, 1, 931),
   (972, 972, 1, 908), (973, 974, 1, 910), (976, 976, 1, 914), (977, 977, 1, 920), (981, 981, 1, 934),
   (982, 982, 1, 928), (983, 983, 1, 975), (985, 1007, 2, 984), (1008, 1008, 1, 922), (1009, 1009, 1, 929),
   (1010, 1010, 1, 1017), (1011, 1011, 1, 895), (1013, 1013, 1, 917), (1016, 1016, 1, 1015), (1019, 1019, 1, 1018),
   (1072, 1103, 1, 1040), (1104, 1119, 1, 1024), (1121, 1153, 2, 1120), (1163, 1215, 2, 1162), (1218, 1230, 2, 1217),
   (1231, 1231, 1, 1216), (1233, 1327, 2, 1232), (1377, 1414, 1, 1329), (4304, 4346, 1, 7312), (4349, 4351, 1, 7357),
   (5112, 5117, 1, 5104), (7296, 7296, 1, 1042), (7297, 7297, 1, 1044), (7298, 7298, 1, 1054), (7299, 7300, 1, 1057),
   (7301, 7301, 1, 1058), (7302, 7302, 1, 1066), (7303, 7303, 1, 1122), (7304, 7304, 1, 42570), (7545, 7545, 1, 42877),
   (7549, 7549, 1, 11363), (7566, 7566, 1, 42950), (7681, 7829, 2, 7680), (7835, 7835, 1, 7776), (7841, 7935, 2, 7840),
   (7936, 7943, 1, 7944), (7952, 7957, 1, 7960), (7968, 7975, 1, 7976), (7984, 7991, 1, 7992), (8000, 8005, 1, 8008),
   (8017, 8023, 2, 8025), (8032, 8039, 1, 8040), (8048, 8049, 1, 8122), (8050, 8053, 1, 8136), (8054, 8055, 1, 8154),
   (8056, 8057, 1, 8184), (8058, 8059, 1, 8170), (8060, 8061, 1, 8186), (8112, 8113, 1, 8120), (8126, 8126, 1, 921),
   (8144, 8145, 1, 8152), (8160, 8161, 1, 8168), (8165, 8165, 1, 8172), (8526, 8526, 1, 8498), (8560, 8575, 1, 8544),
   (8580, 8580, 1, 8579), (9424, 9449, 1, 9398), (11312, 11359, 1, 11264), (11361, 11361, 1, 11360), (11365, 11365, 1, 570),
   (11366, 11366, 1, 574), (11368, 11372, 2, 11367), (11379, 11379, 1, 11378), (11382, 11382, 1, 11381), (11393, 11491, 2, 11392),
   (11500, 11502, 2, 11499), (11507, 11507, 1, 11506), (11520, 11557, 1, 4256), (11559, 11559, 1, 4295), (11565, 11565, 1, 4301),
   (42561, 42605, 2, 42560), (42625, 42651, 2, 42624), (42787, 42799, 2, 42786), (42803, 42863, 2, 42802), (42874, 42876, 2, 42873),
   (42879, 42887, 2, 42878), (42892, 42892, 1, 42891), (42897, 42899, 2, 42896), (42900, 42900, 1, 42948), (42903, 42921, 2, 42902),
   (42933, 42947, 2, 42932), (42952, 42954, 2, 42951), (42961, 42961, 1, 42960), (42967, 42969, 2, 42966), (42998, 42998, 1, 42997),
   (43859, 43859, 1, 42931), (43888, 43967, 1, 5024), (65345, 65370, 1, 65313), (66600, 66639, 1, 66560), (66776, 66811, 1, 66736),
   (66967, 66977, 1, 66928), (66979, 66993, 1, 66940), (66995, 67001, 1, 66956), (67003, 67004, 1, 66964), (68800, 68850, 1, 68736),
   (71872, 71903, 1, 71840), (93792, 93823, 1, 93760), (125218, 125251, 1, 125184)]

/-- The unconditional upper-case mappings of `SpecialCasing.txt` to more than one
character, as code points. -/
def upperSpecial : List (Nat × List Nat) :=
  [
   (223, [83, 83]), (329, [700, 78]), (496, [74, 780]), (912, [921, 776, 769]),
   (944, [933, 776, 769]), (1415, [1333, 1362]), (7830, [72, 817]), (7831, [84, 776]),
   (7832, [87, 778]), (7833, [89, 778]), (7834, [65, 702]), (8016, [933, 787]),
   (8018, [933, 787, 768]), (8020, [933, 787, 769]), (8022, [933, 787, 834]), (8064, [7944, 921]),
   (8065, [7945, 921]), (8066, [7946, 921]), (8067, [7947, 921]), (8068, [7948, 921]),
   (8069, [7949, 921]), (8070, [7950, 921]), (8071, [7951, 921]), (8072, [7944, 921]),
   (8073, [7945, 921]), (8074, [7946, 921]), (8075, [7947, 921]), (8076, [7948, 921]),
   (8077, [7949, 921]), (8078, [7950, 921]), (8079, [7951, 921]), (8080, [7976, 921]),
   (8081, [7977, 921]), (8082, [7978, 921]), (8083, [7979, 921]), (8084, [7980, 921]),
   (8085, [7981, 921]), (8086, [7982, 921]), (8087, [7983, 921]), (8088, [7976, 921]),
   (8089, [7977, 921]), (8090, [7978, 921]), (8091, [7979, 921]), (8092, [7980, 921]),
   (8093, [7981, 921]), (8094, [7982, 921]), (8095, [7983, 921]), (8096, [8040, 921]),
   (8097, [8041, 921]), (8098, [8042, 921]), (8099, [8043, 921]), (8100, [8044, 921]),
   (8101, [8045, 921]), (8102, [8046, 921]), (8103, [8047, 921]), (8104, [8040, 921]),
   (8105, [8041, 921]), (8106, [8042, 921]), (8107, [8043, 921]), (8108, [8044, 921]),
   (8109, [8045, 921]), (8110, [8046, 921]), (8111, [8047, 921]), (8114, [8122, 921]),
   (8115, [913, 921]), (8116, [902, 921]), (8118, [913, 834]), (8119, [913, 834, 921]),
   (8124, [913, 921]), (8130, [8138, 921]), (8131, [919, 921]), (8132, [905, 921]),
   (8134, [919, 834]), (8135, [919, 834, 921]), (8140, [919, 921]), (8146, [921, 776, 768]),
   (8147, [921, 776, 769]), (8150, [921, 834]), (8151, [921, 776, 834]), (8162, [933, 776, 768]),
   (8163, [933, 776, 769]), (8164, [929, 787]), (8166, [933, 834]), (8167, [933, 776, 834]),
   (8178, [8186, 921]), (8179, [937, 921]), (8180, [911, 921]), (8182, [937, 834]),
   (8183, [937, 834, 921]), (8188, [937, 921]), (64256, [70, 70]), (64257, [70, 73]),
   (64258, [70, 76]), (64259, [70, 70, 73]), (64260, [70, 70, 76]), (64261, [83, 84]),
   (64262, [83, 84]), (64275, [1348, 1350]), (64276, [1348, 1333]), (64277, [1348, 1339]),
   (64278, [1358, 1350]), (64279, [1348, 1341])]

/-- The code points with the property `Cased` that are not `Case_Ignorable`, as
ranges `(lo, hi)`. -/
def casedRanges : List (Nat × Nat) :=
  [
   (65, 90), (97, 122), (170, 170), (181, 181), (186, 186), (192, 214), (216, 246), (248, 442),
   (444, 447), (452, 659), (661, 687), (880, 883), (886, 887), (891, 893), (895, 895), (902, 902),
   (904, 906), (908, 908), (910, 929), (931, 1013), (1015, 1153), (1162, 1327), (1329, 1366), (1376, 1416),
   (4256, 4293), (4295, 4295), (4301, 4301), (4304, 4346), (4349, 4351), (5024, 5109), (5112, 5117), (7296, 7304),
   (7312, 7354), (7357, 7359), (7424, 7467), (7531, 7543), (7545, 7578), (7680, 7957), (7960, 7965), (7968, 8005),
   (8008, 8013), (8016, 8023), (8025, 8025), (8027, 8027), (8029, 8029), (8031, 8061), (8064, 8116), (8118, 8124),
   (8126, 8126), (8130, 8132), (8134, 8140), (8144, 8147), (8150, 8155), (8160, 8172), (8178, 8180), (8182, 8188),
   (8450, 8450), (8455, 8455), (8458, 8467), (8469, 8469), (8473, 8477), (8484, 8484), (8486, 8486), (8488, 8488),
   (8490, 8493), (8495, 8500), (8505, 8505), (8508, 8511), (8517, 8521), (8526, 8526), (8544, 8575), (8579, 8580),
   (9398, 9449), (11264, 11387), (11390, 11492), (11499, 11502), (11506, 11507), (11520, 11557), (11559, 11559), (11565, 11565),
   (42560, 42605), (42624, 42651), (42786, 42863), (42865, 42887), (42891, 42894), (42896, 42954), (42960, 42961), (42963, 42963),
   (42965, 42969), (42997, 42998), (43002, 43002), (43824, 43866), (43872, 43880), (43888, 43967), (64256, 64262), (64275, 64279),
   (65313, 65338), (65345, 65370), (66560, 66639), (66736, 66771), (66776, 66811), (66928, 66938), (66940, 66954), (66956, 66962),
   (66964, 66965), (66967, 66977), (66979, 66993), (66995, 67001), (67003, 67004), (68736, 68786), (68800, 68850), (71840, 71903),
   (93760, 93823), (119808, 119892), (119894, 119964), (119966, 119967), (119970, 119970), (119973, 119974), (119977, 119980), (119982, 119993),
   (119995, 119995), (119997, 120003), (120005, 120069), (120071, 120074), (120077, 120084), (120086, 120092), (120094, 120121), (120123, 120126),
   (120128, 120132), (120134, 120134), (120138, 120144), (120146, 120485), (120488, 120512), (120514, 120538), (120540, 120570), (120572, 120596),
   (120598, 120628), (120630, 120654), (120656, 120686), (120688, 120712), (120714, 120744), (120746, 120770), (120772, 120779), (122624, 122633),
   (122635, 122654), (125184, 125251), (127280, 127305), (127312, 127337), (127344, 127369)]

/-- The code points with the property `Case_Ignorable`, as ranges `(lo, hi)`. -/
def caseIgnorableRanges : List (Nat × Nat) :=
  [
   (39, 39), (46, 46), (58, 58), (94, 94), (96, 96), (168, 168), (173, 173), (175, 175),
   (180, 180), (183, 184), (688, 879), (884, 885), (890, 890), (900, 901), (903, 903), (1155, 1161),
   (1369, 1369), (1375, 1375), (1425, 1469), (1471, 1471), (1473, 1474), (1476, 1477), (1479, 1479), (1524, 1524),
   (1536, 1541), (1552, 1562), (1564, 1564), (1600, 1600), (1611, 1631), (1648, 1648), (1750, 1757), (1759, 1768),
   (1770, 1773), (1807, 1807), (1809, 1809), (1840, 1866), (1958, 1968), (2027, 2037), (2042, 2042), (2045, 2045),
   (2070, 2093), (2137, 2139), (2184, 2184), (2192, 2193), (2200, 2207), (2249, 2306), (2362, 2362), (2364, 2364),
   (2369, 2376), (2381, 2381), (2385, 2391), (2402, 2403), (2417, 2417), (2433, 2433), (2492, 2492), (2497, 2500),
   (2509, 2509), (2530, 2531), (2558, 2558), (2561, 2562), (2620, 2620), (2625, 2626), (2631, 2632), (2635, 2637),
   (2641, 2641), (2672, 2673), (2677, 2677), (2689, 2690), (2748, 2748), (2753, 2757), (2759, 2760), (2765, 2765),
   (2786, 2787), (2810, 2815), (2817, 2817), (2876, 2876), (2879, 2879), (2881, 2884), (2893, 2893), (2901, 2902),
   (2914, 2915), (2946, 2946), (3008, 3008), (3021, 3021), (3072, 3072), (3076, 3076), (3132, 3132), (3134, 3136),
   (3142, 3144), (3146, 3149), (3157, 3158), (3170, 3171), (3201, 3201), (3260, 3260), (3263, 3263), (3270, 3270),
   (3276, 3277), (3298, 3299), (3328, 3329), (3387, 3388), (3393, 3396), (3405, 3405), (3426, 3427), (3457, 3457),
   (3530, 3530), (3538, 3540), (3542, 3542), (3633, 3633), (3636, 3642), (3654, 3662), (3761, 3761), (3764, 3772),
   (3782, 3782), (3784, 3789), (3864, 3865), (3893, 3893), (3895, 3895), (3897, 3897), (3953, 3966), (3968, 3972),
   (3974, 3975), (3981, 3991), (3993, 4028), (4038, 4038), (4141, 4144), (4146, 4151), (4153, 4154), (4157, 4158),
   (4184, 4185), (4190, 4192), (4209, 4212), (4226, 4226), (4229, 4230), (4237, 4237), (4253, 4253), (4348, 4348),
   (4957, 4959), (5906, 5908), (5938, 5939), (5970, 5971), (6002, 6003), (6068, 6069), (6071, 6077), (6086, 6086),
   (6089, 6099), (6103, 6103), (6109, 6109), (6155, 6159), (6211, 6211), (6277, 6278), (6313, 6313), (6432, 6434),
   (6439, 6440), (6450, 6450), (6457, 6459), (6679, 6680), (6683, 6683), (6742, 6742), (6744, 6750), (6752, 6752),
   (6754, 6754), (6757, 6764), (6771, 6780), (6783, 6783), (6823, 6823), (6832, 6862), (6912, 6915), (6964, 6964),
   (6966, 6970), (6972, 6972), (6978, 6978), (7019, 7027), (7040, 7041), (7074, 7077), (7080, 7081), (7083, 7085),
   (7142, 7142), (7144, 7145), (7149, 7149), (7151, 7153), (7212, 7219), (7222, 7223), (7288, 7293), (7376, 7378),
   (7380, 7392), (7394, 7400), (7405, 7405), (7412, 7412), (7416, 7417), (7468, 7530), (7544, 7544), (7579, 7679),
   (8125, 8125), (8127, 8129), (8141, 8143), (8157, 8159), (8173, 8175), (8189, 8190), (8203, 8207), (8216, 8217),
   (8228, 8228), (8231, 8231), (8234, 8238), (8288, 8292), (8294, 8303), (8305, 8305), (8319, 8319), (8336, 8348),
   (8400, 8432), (11388, 11389), (11503, 11505), (11631, 11631), (11647, 11647), (11744, 11775), (11823, 11823), (12293, 12293),
   (12330, 12333), (12337, 12341), (12347, 12347), (12441, 12446), (12540, 12542), (40981, 40981), (42232, 42237), (42508, 42508),
   (42607, 42610), (42612, 42621), (42623, 42623), (42652, 42655), (42736, 42737), (42752, 42785), (42864, 42864), (42888, 42890),
   (42994, 42996), (43000, 43001), (43010, 43010), (43014, 43014), (43019, 43019), (43045, 43046), (43052, 43052), (43204, 43205),
   (43232, 43249), (43263, 43263), (43302, 43309), (43335, 43345), (43392, 43394), (43443, 43443), (43446, 43449), (43452, 43453),
   (43471, 43471), (43493, 43494), (43561, 43566), (43569, 43570), (43573, 43574), (43587, 43587), (43596, 43596), (43632, 43632),
   (43644, 43644), (43696, 43696), (43698, 43700), (43703, 43704), (43710, 43711), (43713, 43713), (43741, 43741), (43756, 43757),
   (43763, 43764), (43766, 43766), (43867, 43871), (43881, 43883), (44005, 44005), (44008, 44008), (44013, 44013), (64286, 64286),
   (64434, 64450), (65024, 65039), (65043, 65043), (65056, 65071), (65106, 65106), (65109, 65109), (65279, 65279), (65287, 65287),
   (65294, 65294), (65306, 65306), (65342, 65342), (65344, 65344), (65392, 65392), (65438, 65439), (65507, 65507), (65529, 65531),
   (66045, 66045), (66272, 66272), (66422, 66426), (67456, 67461), (67463, 67504), (67506, 67514), (68097, 68099), (68101, 68102),
   (68108, 68111), (68152, 68154), (68159, 68159), (68325, 68326), (68900, 68903), (69291, 69292), (69446, 69456), (69506, 69509),
   (69633, 69633), (69688, 69702), (69744, 69744), (69747, 69748), (69759, 69761), (69811, 69814), (69817, 69818), (69821, 69821),
   (69826, 69826), (69837, 69837), (69888, 69890), (69927, 69931), (69933, 69940), (70003, 70003), (70016, 70017), (70070, 70078),
   (70089, 70092), (70095, 70095), (70191, 70193), (70196, 70196), (70198, 70199), (70206, 70206), (70367, 70367), (70371, 70378),
   (70400, 70401), (70459, 70460), (70464, 70464), (70502, 70508), (70512, 70516), (70712, 70719), (70722, 70724), (70726, 70726),
   (70750, 70750), (70835, 70840), (70842, 70842), (70847, 70848), (70850, 70851), (71090, 71093), (71100, 71101), (71103, 71104),
   (71132, 71133), (71219, 71226), (71229, 71229), (71231, 71232), (71339, 71339), (71341, 71341), (71344, 71349), (71351, 71351),
   (71453, 71455), (71458, 71461), (71463, 71467), (71727, 71735), (71737, 71738), (71995, 71996), (71998, 71998), (72003, 72003),
   (72148, 72151), (72154, 72155), (72160, 72160), (72193, 72202), (72243, 72248), (72251, 72254), (72263, 72263), (72273, 72278),
   (72281, 72283), (72330, 72342), (72344, 72345), (72752, 72758), (72760, 72765), (72767, 72767), (72850, 72871), (72874, 72880),
   (72882, 72883), (72885, 72886), (73009, 73014), (73018, 73018), (73020, 73021), (73023, 73029), (73031, 73031), (73104, 73105),
   (73109, 73109), (73111, 73111), (73459, 73460), (78896, 78904), (92912, 92916), (92976, 92982), (92992, 92995), (94031, 94031),
   (94095, 94111), (94176, 94177), (94179, 94180), (110576, 110579), (110581, 110587), (110589, 110590), (113821, 113822), (113824, 113827),
   (118528, 118573), (118576, 118598), (119143, 119145), (119155, 119170), (119173, 119179), (119210, 119213), (119362, 119364), (121344, 121398),
   (121403, 121452), (121461, 121461), (121476, 121476), (121499, 121503), (121505, 121519), (122880, 122886), (122888, 122904), (122907, 122913),
   (122915, 122916), (122918, 122922), (123184, 123197), (123566, 123566), (123628, 123631), (125136, 125142), (125252, 125259), (127995, 127999),
   (917505, 917505), (917536, 917631), (917760, 917999)]

/-- Lower-case form of an ASCII character. -/
def asciiLower (c : Char) : Char :=
  if 65 ≤ c.toNat ∧ c.toNat ≤ 90 then Char.ofNat (c.toNat + 32) else c

/-- Upper-case form of an ASCII character. -/
def asciiUpper (c : Char) : Char :=
  if 97 ≤ c.toNat ∧ c.toNat ≤ 122 then Char.ofNat (c.toNat - 32) else c

/-- The code point a list of rules `(lo, hi, step, target)` maps `n` to. -/
def caseRule (rules : List (Nat × Nat × Nat × Nat)) (n : Nat) : Nat :=
  match rules.find? (fun r => r.1 ≤ n && n ≤ r.2.1 && (n - r.1) % r.2.2.1 == 0) with
  | some r => r.2.2.2 + (n - r.1)
  | none => n

/-- The code point lies in one of the ranges. -/
def inRanges (ranges : List (Nat × Nat)) (n : Nat) : Bool :=
  ranges.any fun r => r.1 ≤ n && n ≤ r.2

/-- The full lower-case mapping of one character, without context: `U+0130`
is the one character mapped to two. -/
def lowerFull (c : Char) : Str :=
  if c.toNat < 128 then [asciiLower c]
  else if c.toNat = 304 then [Char.ofNat 105, Char.ofNat 775]
  else [Char.ofNat (caseRule lowerRules c.toNat)]

/-- The full upper-case mapping of one character. -/
def upperFull (c : Char) : Str :=
  if c.toNat < 128 then [asciiUpper c]
  else
    match upperSpecial.lookup c.toNat with
    | some codes => codes.map Char.ofNat
    | none => [Char.ofNat (caseRule upperRules c.toNat)]

/-- `Case_Ignorable`. -/
def isCaseIgnorable (c : Char) : Bool := inRanges caseIgnorableRanges c.toNat

/-- `Cased`, for a character that is not `Case_Ignorable`. -/
def isCased (c : Char) : Bool := inRanges casedRanges c.toNat

/-- The condition `Final_Sigma` for a capital sigma: `before` holds the
characters in front of it, the nearest first, `after` those behind it. The
sigma follows a cased letter and no cased letter follows it, characters that
are `Case_Ignorable` being passed over. -/
def finalSigma (before after : Str) : Bool :=
  (match before.dropWhile isCaseIgnorable with
    | c :: _ => isCased c
    | [] => false) &&
  (match after.dropWhile isCaseIgnorable with
    | c :: _ => !isCased c
    | [] => true)

/-- The loop of `toLowerCase`: `before` holds the characters already passed,
the nearest first. -/
def toLowerCaseGo : Str → Str → Str
  | _, [] => []
  | before, c :: cs =>
    (if c.toNat = 931 then [Char.ofNat (if finalSigma before cs then 962 else 963)]
      else lowerFull c) ++ toLowerCaseGo (c :: before) cs

/-- `s.toLowerCase()`. -/
def toLowerCase (s : Str) : Str := toLowerCaseGo [] s

/-- `s.toUpperCase()`. -/
def toUpperCase (s : Str) : Str := s.flatMap upperFull

/-- `s.charAt(0).toUpperCase()` for the first character `c` of `s`: `charAt`
gives one UTF-16 code unit, so a character outside the Basic Multilingual
Plane is cut into two surrogates, which have no case. -/
def upperFirst (c : Char) : Str :=
  if 65536 ≤ c.toNat then [c] else upperFull c

/-- `String(n)` for a non-negative integer. -/
def natToStr (n : Nat) : Str := Nat.toDigits 10 n

/-- The values the program handles: strings (input values, `data-*`
attributes), booleans (`checked`) and non-negative integers (domain ids). -/
inductive JsValue where
  | str (s : Str)
  | bool (b : Bool)
  | num (n : Nat)
  deriving DecidableEq, Repr

/-- `String(value)`. -/
def jsString : JsValue → Str
  | .str s => s
  | .bool true => "true".toList
  | .bool false => "false".toList
  | .num n => natToStr n

/-- The truthiness of a value: `value ? ... : ...`. -/
def jsTruthy : JsValue → Bool
  | .str s => !s.isEmpty
  | .bool b => b
  | .num n => n != 0

/-! ## `normalizeBooleanValue`, `valuesMatch` (lines 2493-2516) -/

/-- `normalizeBooleanValue(value)`. -/
def normalizeBooleanValue (value : JsValue) : Str :=
  let strValue := trim (toLowerCase (jsString value))
  if strValue = "true".toList ∨ strValue = "1".toList ∨ strValue = "on".toList ∨
      strValue = "yes".toList then "true".toList
  else if strValue = "false".toList ∨ strValue = "0".toList ∨ strValue = "off".toList ∨
      strValue = "no".toList then "false".toList
  else strValue

/-- `valuesMatch(currentValue, expectedValue)`. -/
def valuesMatch (currentValue expectedValue : JsValue) : Bool :=
  let normalizedCurrent := normalizeBooleanValue currentValue
  let normalizedExpected := normalizeBooleanValue expectedValue
  decide (normalizedCurrent = normalizedExpected)

/-- The spellings the specification maps to `"true"`. -/
def specTrueSpellings : List Str :=
  ["true".toList, "1".toList, "on".toList, "yes".toList]

/-- The spellings the specification maps to `"false"`. -/
def specFalseSpellings : List Str :=
  ["false".toList, "0".toList, "off".toList, "no".toList]

/-- The comparison key of the specification of `valuesMatch`: the value
converted to a string, lower-cased and trimmed, then `true/1/on/yes` mapped to
`"true"` and `false/0/off/no` mapped to `"false"`. -/
def specComparisonKey (v : JsValue) : Str :=
  let s := trim (toLowerCase (jsString v))
  if s ∈ specTrueSpellings then "true".toList
  else if s ∈ specFalseSpellings then "false".toList
  else s

/-! ## Regular expressions of the key-templating functions

Every regular expression built by `checkIfDomainProperty`,
`convertToDomainTemplate` and the `{N}` expansion is a sequence of literal
characters and `\d+` runs: the pattern text is escaped with
`replace(/[.*+?^${}()|[\]\\]/g, '\\$&')`, which makes every character of it a
literal, before `\d+` is put in. -/

/-- One atom of such a regular expression. -/
inductive Atom where
  /-- A literal character. -/
  | lit (c : Char)
  /-- The greedy run `\d+`. -/
  | digits
  /-- The class `[lo-hi]` of one character range. -/
  | range (lo hi : Char)
  /-- The greedy run `[\s\S]*` of any characters. -/
  | anyStar
  /-- The assertion `$` (without the flag `m`): the end of the input. -/
  | eol
  deriving DecidableEq, Repr

/-- The class `\d`: the ten ASCII digits. -/
def isDecimalDigit (c : Char) : Bool := decide (48 ≤ c.toNat) && decide (c.toNat ≤ 57)

/-- `Canonicalize(ch)` under the flag `i`, without the flag `u`: the character
is upper-cased as a string of its own; the result stands when it is one UTF-16
code unit, and no character outside ASCII is mapped into ASCII. A character
outside the Basic Multilingual Plane is two surrogates, which have no case. -/
def canonicalChar (c : Char) : Char :=
  if c.toNat < 128 then asciiUpper c
  else if 65536 ≤ c.toNat then c
  else
    match upperFull c with
    | [u] => if u.toNat < 128 ∨ 65536 ≤ u.toNat then c else u
    | _ => c

/-- `Canonicalize(ch)`: upper-casing under the flag `i`, the identity without. -/
def canonicalize (ignoreCase : Bool) (c : Char) : Char :=
  if ignoreCase then canonicalChar c else c

/-- The run `\d+` followed by the continuation `k`: one digit is consumed, then
the longer runs are tried before the continuation (greedy, backtracking).
Returns the number of characters matched. -/
def digitsThen (k : Str → Option Nat) : Str → Option Nat
  | [] => none
  | c :: cs =>
    if isDecimalDigit c then
      match digitsThen k cs with
      | some n => some (n + 1)
      | none => (k cs).map (· + 1)
    else none

/-- The run `[\s\S]*` followed by the continuation `k`: the longer runs are
tried before the shorter ones (greedy, backtracking). -/
def anyStarThen (k : Str → Option Nat) : Str → Option Nat
  | [] => k []
  | c :: cs =>
    match anyStarThen k cs with
    | some n => some (n + 1)
    | none => k (c :: cs)

/-- The character matches the class `[lo-hi]`: its canonical form is that of a
character of the range. -/
def inRange (ignoreCase : Bool) (lo hi c : Char) : Bool :=
  (List.range (hi.toNat + 1 - lo.toNat)).any fun i =>
    canonicalize ignoreCase (Char.ofNat (lo.toNat + i)) = canonicalize ignoreCase c

/-- Match the atoms at the start of the string, as the backtracking matcher
does; returns the length of the match found. -/
def matchAtoms (ignoreCase : Bool) : List Atom → Str → Option Nat
  | [], _ => some 0
  | .lit _ :: _, [] => none
  | .lit c :: atoms, x :: xs =>
    if canonicalize ignoreCase x = canonicalize ignoreCase c then
      (matchAtoms ignoreCase atoms xs).map (· + 1)
    else none
  | .digits :: atoms, s => digitsThen (matchAtoms ignoreCase atoms) s
  | .range _ _ :: _, [] => none
  | .range lo hi :: atoms, x :: xs =>
    if inRange ignoreCase lo hi x then (matchAtoms ignoreCase atoms xs).map (· + 1)
    else none
  | .anyStar :: atoms, s => anyStarThen (matchAtoms ignoreCase atoms) s
  | .eol :: atoms, s => if s.isEmpty then matchAtoms ignoreCase atoms s else none

/-- `regex.test(key)` for a regex without the flag `g`: some position of the
key starts a match. -/
def regexTest (ignoreCase : Bool) (atoms : List Atom) (key : Str) : Bool :=
  key.tails.any fun t => (matchAtoms ignoreCase atoms t).isSome

/-- The text of an escaped string, read back by `new RegExp`: literals only. -/
def literalAtoms (s : Str) : List Atom := s.map Atom.lit

/-- The placeholder token `{N}`. -/
def placeholder : Str := "{N}".toList

/-- The regex of lines 140-142: the pattern escaped, then every escaped `{N}`
replaced by `\d+`. -/
def patternAtoms : Str → List Atom
  | '{' :: 'N' :: '}' :: rest => .digits :: patternAtoms rest
  | c :: rest => .lit c :: patternAtoms rest
  | [] => []

/-- `checkIfDomainProperty(key, pattern)` (lines 136-153). -/
def checkIfDomainProperty (key pattern : Str) : Bool :=
  if pattern.isEmpty || key.isEmpty then false
  else
    let regex := patternAtoms pattern
    let templateRegex := literalAtoms pattern
    regexTest true regex key || regexTest true templateRegex key

/-- One step of `GetSubstitution` at a `$`: `rest` is the replacement template
after the `$`; returns the text the `$` pattern stands for and the number of
characters of `rest` it takes up (no named groups). -/
def dollarPattern (matched before after : Str) (captures : List Str) (rest : Str) :
    Str × Nat :=
  match rest with
  | [] => (['$'], 0)
  | d :: rest1 =>
    if d = '$' then (['$'], 1)
    else if d = '&' then (matched, 1)
    else if d = Char.ofNat 96 then (before, 1)
    else if d = Char.ofNat 39 then (after, 1)
    else if isDecimalDigit d then
      let one := d.toNat - 48
      let two := match rest1 with
        | [] => 0
        | e :: _ => if isDecimalDigit e then 10 * one + (e.toNat - 48) else 0
      if 1 ≤ two ∧ two ≤ captures.length then (captures.getD (two - 1) [], 2)
      else if 1 ≤ one ∧ one ≤ captures.length then (captures.getD (one - 1) [], 1)
      else (['$'], 0)
    else (['$'], 0)

/-- `GetSubstitution`: expansion of the `$` patterns of a replacement template.
`skip` counts the characters of the current `$` pattern still to pass over. -/
def getSubstitutionGo (matched before after : Str) (captures : List Str) : Nat → Str → Str
  | _, [] => []
  | skip + 1, _ :: rest => getSubstitutionGo matched before after captures skip rest
  | 0, c :: rest =>
    if c = '$' then
      (dollarPattern matched before after captures rest).1 ++
        getSubstitutionGo matched before after captures
          (dollarPattern matched before after captures rest).2 rest
    else c :: getSubstitutionGo matched before after captures 0 rest

/-- `GetSubstitution(matched, str, position, captures, undefined, template)`. -/
def getSubstitution (matched before after : Str) (captures : List Str) (template : Str) : Str :=
  getSubstitutionGo matched before after captures 0 template

/-- `str.replace(regex, ...)` for a regex with the flag `g`: the matches are
taken left to right without overlap, each replaced by `subst matched before
after`. `skip` counts the characters of the current match still to pass over,
`before` is the text already passed. -/
def regexReplaceAllGo (ignoreCase : Bool) (atoms : List Atom) (subst : Str → Str → Str → Str) :
    Nat → Str → Str → Str
  | _, before, [] =>
    match matchAtoms ignoreCase atoms [] with
    | some _ => subst [] before []
    | none => []
  | skip + 1, before, c :: cs => regexReplaceAllGo ignoreCase atoms subst skip (before ++ [c]) cs
  | 0, before, c :: cs =>
    match matchAtoms ignoreCase atoms (c :: cs) with
    | some 0 => subst [] before (c :: cs) ++
        c :: regexReplaceAllGo ignoreCase atoms subst 0 (before ++ [c]) cs
    | some (n + 1) => subst ((c :: cs).take (n + 1)) before ((c :: cs).drop (n + 1)) ++
        regexReplaceAllGo ignoreCase atoms subst n (before ++ [c]) cs
    | none => c :: regexReplaceAllGo ignoreCase atoms subst 0 (before ++ [c]) cs

/-- `str.replace(regex, ...)` for a regex with the flag `g`. -/
def regexReplaceAll (ignoreCase : Bool) (atoms : List Atom) (subst : Str → Str → Str → Str)
    (str : Str) : Str :=
  regexReplaceAllGo ignoreCase atoms subst 0 [] str

/-- `str.split(sep)` for a non-empty separator string. `skip` counts the
characters of the current separator still to pass over, `cur` is the part being
read. -/
def jsSplitGo (sep : Str) : Nat → Str → Str → List Str
  | _, cur, [] => [cur]
  | skip + 1, cur, _ :: cs => jsSplitGo sep skip cur cs
  | 0, cur, c :: cs =>
    if sep.isPrefixOf (c :: cs) then cur :: jsSplitGo sep (sep.length - 1) [] cs
    else jsSplitGo sep 0 (cur ++ [c]) cs

/-- `str.split(sep)` for a non-empty separator string. -/
def jsSplit (sep str : Str) : List Str := jsSplitGo sep 0 [] str

/-- `convertToDomainTemplate(key, pattern)` (lines 157-174). The regex is
`escapedPrefix(\d+)escapedSuffix` with the flags `gi`; its capture group is the
part of the match between the prefix and the suffix. -/
def convertToDomainTemplate (key pattern : Str) : Str :=
  if pattern.isEmpty || key.isEmpty then key
  else
    match jsSplit placeholder pattern with
    | [pre, suf] =>
      let regex := literalAtoms pre ++ [Atom.digits] ++ literalAtoms suf
      regexReplaceAll true regex
        (fun matched before after =>
          getSubstitution matched before after
            [(matched.drop pre.length).take (matched.length - pre.length - suf.length)]
            (pre ++ placeholder ++ suf))
        key
    | _ => key

/-- The expansion `key.replace(/\{N\}/g, id)` of a template key (lines 1001
and 2116). -/
def expandDomainKey (key : Str) (id : Nat) : Str :=
  regexReplaceAll false (literalAtoms placeholder)
    (fun matched before after => getSubstitution matched before after [] (natToStr id)) key


/-- Two strings are equal when compared case-insensitively, as a regular
expression with the flag `i` compares a text with literal characters: character
by character, after `Canonicalize`. -/
def ciEq (a b : Str) : Prop := a.map canonicalChar = b.map canonicalChar

instance (a b : Str) : Decidable (ciEq a b) := by
  unfold ciEq; infer_instance

/-- The text `m` is a numeric occurrence of the pattern with the parts `pre` and
`suf`: the prefix, one or more decimal digits, the suffix, the two literal
parts compared case-insensitively. -/
def NumericOccurrence (pre suf m : Str) : Prop :=
  ∃ x ds y, m = x ++ ds ++ y ∧ ciEq x pre ∧ ds ≠ [] ∧
    (∀ c ∈ ds, isDecimalDigit c = true) ∧ ciEq y suf

/-! ## The dependency resolver (lines 2400-2573)

The document is the list of its `.property-row` elements in document order.
Every element that carries `data-key` is rendered inside such a row (lines
1070-1255, 1353-1400, 1558-1604, 1660-1690), and `data-depends-on` is only put
on the rows themselves.  The `style.display` of the rows is kept apart from the
rows: it is the only thing the resolver writes. -/

/-- `style.display` of a row: `''`, `'block'` or `'none'`. -/
inductive Display where
  | unset
  | block
  | none
  deriving DecidableEq, Repr

/-- An element carrying `data-key`. -/
structure Input where
  /-- The attribute `data-key`. -/
  dataKey : Str
  /-- `type === 'checkbox'`. -/
  isCheckbox : Bool
  /-- `checked`. -/
  checked : Bool
  /-- `value`. -/
  value : Str
  deriving DecidableEq, Repr

/-- A `.property-row` element. -/
structure Row where
  /-- The attributes `data-depends-on` and `data-depends-value`, when present. -/
  dependsOn : Option (Str × Str)
  /-- The elements with `data-key` inside the row, in document order. -/
  inputs : List Input
  deriving DecidableEq, Repr

/-- The `style.display` of every row, by row index. -/
abbrev Displays := Nat → Display

/-- `field.type === 'checkbox' ? String(field.checked) : field.value`. -/
def fieldValue (field : Input) : Str :=
  if field.isCheckbox then jsString (.bool field.checked) else field.value

/-- `document.querySelector('[data-key="key"]')`, searching the rows from index
`i` on: the first element with that `data-key`, with the index of its row. -/
def querySelectorFrom (key : Str) : Nat → List Row → Option (Nat × Input)
  | _, [] => none
  | i, row :: rows =>
    match row.inputs.find? (fun input => input.dataKey = key) with
    | some input => some (i, input)
    | none => querySelectorFrom key (i + 1) rows

/-- `document.querySelector('[data-key="key"]')`. -/
def querySelector (rows : List Row) (key : Str) : Option (Nat × Input) :=
  querySelectorFrom key 0 rows

/-- A `forEach` over the rows from index `i` on, threading a state through a
body that may not return. -/
def forEachRow {σ : Type} (body : σ → Nat → Row → Option σ) : Nat → List Row → σ → Option σ
  | _, [], s => some s
  | i, row :: rows, s =>
    match body s i row with
    | some s' => forEachRow body (i + 1) rows s'
    | none => none

/-- `isFieldParentVisible(field)` for the row of index `i` (lines 2554-2573).
`fuel` bounds the depth of the recursion; `none` means the bound was reached. -/
def isFieldParentVisible (rows : List Row) (disp : Displays) : Nat → Nat → Option Bool
  | 0, _ => none
  | fuel + 1, i =>
    match rows[i]?.bind (·.dependsOn) with
    | none => some true
    | some (dependsOn, _) =>
      if dependsOn.isEmpty then some true
      else
        match querySelector rows dependsOn with
        | none => some true
        | some (sourceRow, _) =>
          if disp sourceRow = Display.none then some false
          else isFieldParentVisible rows disp fuel sourceRow

/-- The body of the `forEach` of `handleDependencies` for one row that depends
on the key (lines 2521-2546); `recur` is the recursive call. -/
def handleDependentRow (rows : List Row) (fuel : Nat)
    (recur : Displays → Str → Str → Option Displays) (value : Str)
    (disp : Displays) (i : Nat) (row : Row) (dependsValue : Str) : Option Displays :=
  let shouldShow := valuesMatch (.str value) (.str dependsValue)
  match isFieldParentVisible rows disp fuel i with
  | none => none
  | some isParentVisible =>
    let finalShow := shouldShow && isParentVisible
    let disp' := Function.update disp i (if finalShow then Display.block else Display.none)
    match row.inputs.head? with
    | none => some disp'
    | some input =>
      let childKey := input.dataKey
      let childValue := fieldValue input
      if !finalShow then recur disp' childKey "__HIDDEN__".toList
      else recur disp' childKey childValue

/-- The selector `[data-depends-on="key"]` of `handleDependencies` (line 2520),
applied to one row of the document: the rows that depend on the key go through
`handleDependentRow`, the other rows are passed over. -/
def selectDependentRow (rows : List Row) (fuel : Nat)
    (recur : Displays → Str → Str → Option Displays) (key value : Str)
    (disp : Displays) (i : Nat) (row : Row) : Option Displays :=
  match row.dependsOn with
  | none => some disp
  | some (dependsOn, dependsValue) =>
    if dependsOn = key then handleDependentRow rows fuel recur value disp i row dependsValue
    else some disp

/-- `handleDependencies(key, value)` (lines 2519-2551). `fuel` bounds the depth
of the recursion; `none` means the bound was reached. -/
def handleDependencies (rows : List Row) : Nat → Displays → Str → Str → Option Displays
  | 0, _, _, _ => none
  | fuel + 1, disp, key, value =>
    forEachRow (selectDependentRow rows fuel (handleDependencies rows fuel) key value) 0 rows disp

/-- `fieldsWithDependents.add(field.dataset.dependsOn)` (line 2406). -/
def addDependsOn (keys : List Str) (row : Row) : List Str :=
  match row.dependsOn with
  | none => keys
  | some (dependsOn, _) => if dependsOn ∈ keys then keys else keys ++ [dependsOn]

/-- The `Set` of the `data-depends-on` keys, in insertion order (lines
2403-2407). -/
def fieldsWithDependents (rows : List Row) : List Str :=
  rows.foldl addDependsOn []

/-- The first pass of `initializeDependencies` (lines 2410-2418). -/
def triggerSources (rows : List Row) (fuel : Nat) (disp : Displays) : Option Displays :=
  (fieldsWithDependents rows).foldlM (fun disp key =>
    match querySelector rows key with
    | none => some disp
    | some (_, sourceField) => handleDependencies rows fuel disp key (fieldValue sourceField)) disp

/-- The body of the `forEach` of the cascade loop for one row (lines
2429-2461); the state is the displays and the flag `changed`. -/
def cascadeRow (rows : List Row) (state : Displays × Bool) (i : Nat) (row : Row) :
    Displays × Bool :=
  match row.dependsOn with
  | none => state
  | some (dependsOn, dependsValue) =>
    if state.1 i = Display.none then state
    else
      match querySelector rows dependsOn with
      | none => (Function.update state.1 i Display.none, true)
      | some (sourceRow, sourceField) =>
        if state.1 sourceRow = Display.none then (Function.update state.1 i Display.none, true)
        else if !valuesMatch (.str (fieldValue sourceField)) (.str dependsValue) then
          (Function.update state.1 i Display.none, true)
        else state

/-- One iteration of the cascade loop: the `forEach` over the rows from index
`i` on. -/
def cascadePassFrom (all : List Row) : Nat → List Row → Displays × Bool → Displays × Bool
  | _, [], state => state
  | i, row :: rows, state => cascadePassFrom all (i + 1) rows (cascadeRow all state i row)

/-- One iteration of the cascade loop, started with `changed = false`. -/
def cascadePass (rows : List Row) (disp : Displays) : Displays × Bool :=
  cascadePassFrom rows 0 rows (disp, false)

/-- `maxIterations` (line 2423). -/
def maxIterations : Nat := 10

/-- The cascade loop `while (changed && iterations < maxIterations)` with
`remaining = maxIterations - iterations`; returns the displays and the number
of iterations run. -/
def cascadeLoop (rows : List Row) : Nat → Displays → Displays × Nat
  | 0, disp => (disp, 0)
  | remaining + 1, disp =>
    let pass := cascadePass rows disp
    if pass.2 then
      let rest := cascadeLoop rows remaining pass.1
      (rest.1, rest.2 + 1)
    else (pass.1, 1)

/-- `initializeDependencies()` (lines 2401-2466), without the messages of the
empty categories. -/
def initializeDependencies (rows : List Row) (fuel : Nat) (disp : Displays) : Option Displays :=
  match triggerSources rows fuel disp with
  | none => none
  | some disp' => some (cascadeLoop rows maxIterations disp').1

/-- A row is visible when its `style.display` is not `'none'`. -/
def isVisible (disp : Displays) (i : Nat) : Bool := disp i != Display.none

/-- The displays of a freshly rendered document: no `style.display` is set. -/
def freshDisplays : Displays := fun _ => Display.unset

/-- The key of the first keyed element of a row: the key `handleDependencies`
cascades to. -/
def Row.childKey (row : Row) : Option Str := row.inputs.head?.map Input.dataKey

/-- The key a row depends on. -/
def Row.dependsOnKey (row : Row) : Option Str := row.dependsOn.map Prod.fst

/-- The property with the key `k'` depends on the key `k`: some row carries
`data-depends-on = k` and its first keyed element has the key `k'`. This is
the step from `handleDependencies(k, _)` to `handleDependencies(k', _)`. -/
def CascadeEdge (rows : List Row) (k k' : Str) : Prop :=
  ∃ row ∈ rows, row.dependsOnKey = some k ∧ row.childKey = some k'

instance (rows : List Row) (k k' : Str) : Decidable (CascadeEdge rows k k') := by
  unfold CascadeEdge; infer_instance

/-- The keys `keys` lie on dependency cycles: the list is not empty and every
key of it is depended on by a property whose key is in the list again. A
cycle of `dependsOn` edges is such a list. -/
def OnCycle (rows : List Row) (keys : List Str) : Prop :=
  keys ≠ [] ∧ ∀ k ∈ keys, ∃ k' ∈ keys, CascadeEdge rows k k'

instance (rows : List Row) (keys : List Str) : Decidable (OnCycle rows keys) := by
  unfold OnCycle; infer_instance

/-- The rank respects the row: the key the row depends on ranks below the key
of every keyed element of the row. -/
def RankOk (rank : Str → Nat) (row : Row) : Prop :=
  match row.dependsOn with
  | none => True
  | some (k, _) => ∀ input ∈ row.inputs, rank k < rank input.dataKey

instance (rank : Str → Nat) (row : Row) : Decidable (RankOk rank row) := by
  unfold RankOk
  cases row.dependsOn with
  | none => exact isTrue trivial
  | some p => exact inferInstanceAs (Decidable (∀ input ∈ row.inputs, _))

/-- The `dependsOn` edges form an acyclic graph: the keys can be ranked so that
every property ranks above the key it depends on. -/
def Acyclic (rows : List Row) : Prop :=
  ∃ rank : Str → Nat, ∀ row ∈ rows, RankOk rank row

/-- The visibility rule of the specification for a row, in the displays
`disp`: a row without dependency is not constrained; a row that depends on the
key `K` with the value `V` asks for `valuesMatch(current value of K, V)` and
for the row that owns `K` to be visible. A key that no element carries is an
unmet dependency. -/
def dependencyMet (rows : List Row) (disp : Displays) (row : Row) : Bool :=
  match row.dependsOn with
  | none => true
  | some (dependsOn, dependsValue) =>
    match querySelector rows dependsOn with
    | none => false
    | some (sourceRow, sourceField) =>
      valuesMatch (.str (fieldValue sourceField)) (.str dependsValue) && isVisible disp sourceRow

/-- Every dependency refers to a field of the document: the key a row depends
on is not empty and some element carries it. -/
def ReferencesResolve (rows : List Row) : Prop :=
  ∀ row ∈ rows,
    match row.dependsOn with
    | none => True
    | some (dependsOn, _) => dependsOn ≠ [] ∧ (querySelector rows dependsOn).isSome = true

instance (rows : List Row) : Decidable (ReferencesResolve rows) := by
  unfold ReferencesResolve
  refine @List.decidableBAll _ _ (fun row => ?_) rows
  cases row.dependsOn with
  | none => exact isTrue trivial
  | some p => exact inferInstanceAs (Decidable (_ ∧ _))

/-- One field per row and no key twice: every row holds at most one keyed
element, and every keyed element is the one `querySelector` finds for its
key. -/
def KeysUnique (rows : List Row) : Prop :=
  ∀ p ∈ rows.enum, p.2.inputs.length ≤ 1 ∧
    ∀ input ∈ p.2.inputs, querySelector rows input.dataKey = some (p.1, input)

instance (rows : List Row) : Decidable (KeysUnique rows) := by
  unfold KeysUnique; infer_instance

/-- A document as the form renderer produces it from a schema that keeps the
invariants of the data model: acyclic dependencies, every dependency referring
to a rendered field, one field per row and no key twice. -/
structure WellFormed (rows : List Row) : Prop where
  acyclic : Acyclic rows
  resolve : ReferencesResolve rows
  unique : KeysUnique rows

/-- The index of the row that owns the key the row `x` depends on. -/
def parentRow (rows : List Row) (x : Nat) : Option Nat :=
  match rows[x]?.bind (·.dependsOn) with
  | none => none
  | some (dependsOn, _) => (querySelector rows dependsOn).map Prod.fst

/-- The row `x` depends, directly or through other rows, on a key of the row
`o`. -/
inductive Descends (rows : List Row) : Nat → Nat → Prop where
  | child {x o : Nat} : parentRow rows x = some o → Descends rows x o
  | step {x y o : Nat} : parentRow rows x = some y → Descends rows y o → Descends rows x o

/-- The row `i` follows the visibility rule in the displays `disp`: a row with
a dependency is visible exactly when its dependency is met. -/
def Consistent (rows : List Row) (disp : Displays) (i : Nat) : Prop :=
  ∀ row, rows[i]? = some row → row.dependsOn.isSome = true →
    isVisible disp i = dependencyMet rows disp row

/-- The row `o` and every row above it are consistent. -/
def ChainOK (rows : List Row) (s : Displays) (o : Nat) : Prop :=
  Consistent rows s o ∧ ∀ y, Descends rows o y → Consistent rows s y


/-- The number of dependent fields: the rows that carry `data-depends-on`. -/
def dependentCount (rows : List Row) : Nat :=
  rows.countP fun row => row.dependsOn.isSome

/-- The number of dependent fields that are visible in the displays `disp`. -/
def visibleDependents (rows : List Row) (disp : Displays) : Nat :=
  rows.enum.countP fun p => p.2.dependsOn.isSome && isVisible disp p.1
/-! ## The flat-text codec: schema and form -/

/-- The directive `repeatBasedOn` of a property. -/
structure RepeatBasedOn where
  /-- The key of the property that holds the count. -/
  key : Str
  /-- The placeholder of the index in the key; empty when absent. -/
  placeholder : Str := []
  /-- The label of the repeated fields; empty when absent. -/
  label : Str := []
  deriving DecidableEq, Repr

/-- A property of the schema, with the fields the codec and the form read. An
absent string field is the empty string; `default` is a string, the array
default of a repeatable property is `defaultArray`. -/
structure Property where
  key : Str
  label : Str := []
  type : Str := "text".toList
  default : Str := []
  defaultArray : List Str := []
  needsConfirmation : Bool := false
  description : Str := []
  booleanType : Str := []
  checkService : Bool := false
  autoFillDomainId : Bool := false
  repeatBasedOn : Option RepeatBasedOn := none
  /-- The key of the directive `dynamicOptionsFrom`. -/
  dynamicOptionsFrom : Option Str := none
  deriving DecidableEq, Repr

/-- A category: a named group of properties. -/
structure Category where
  category : Str
  properties : List Property
  deriving DecidableEq, Repr

/-- The part of `configData` the codec reads; an absent `domainKeyPattern` is
the empty string. -/
structure ConfigData where
  domainKeyPattern : Str := []
  globalProperties : List Category
  domainProperties : List Category
  deriving DecidableEq, Repr

/-- A domain instance: its id and its saved values by template key, in
insertion order. -/
structure Domain where
  id : Nat
  properties : List (Str × JsValue)
  deriving DecidableEq, Repr

/-- The kind of a form control. -/
inductive Tag where
  | input
  | select
  | textarea
  deriving DecidableEq, Repr

/-- A control of the form, as the program reads it. -/
structure FormElement where
  tag : Tag := .input
  /-- The attribute `id`. -/
  id : Str
  /-- The attribute `data-key`; empty when absent. -/
  dataKey : Str := []
  /-- `type === 'checkbox'`. -/
  isCheckbox : Bool := false
  /-- `classList.contains('toggle-checkbox')`. -/
  isToggle : Bool := false
  /-- `dataset.booleanType`. -/
  booleanType : Str := []
  checked : Bool := false
  value : Str := []
  /-- The control lies in `#domainPropertiesContainer`. -/
  inDomainContainer : Bool := false
  /-- The attribute `data-repeat-index` of a repeated field. -/
  repeatIndex : Option Nat := none
  /-- `type === 'number'`. -/
  isNumber : Bool := false
  deriving DecidableEq, Repr

/-- The controls of the document in document order. -/
abbrev Form := List FormElement

/-- `document.getElementById(id)`. -/
def getElementById (form : Form) (id : Str) : Option FormElement :=
  form.find? (fun el => el.id = id)

/-- `document.querySelector('[data-key="key"]')` on the controls. An absent
`data-key` is held as the empty text, so the empty key finds nothing. -/
def querySelectorKey (form : Form) (key : Str) : Option FormElement :=
  if key.isEmpty then none else form.find? (fun el => el.dataKey = key)

/-- `object.hasOwnProperty(key) ? object[key] : undefined` on an object held as
the list of its own properties in insertion order. -/
def objectGet {α : Type} (object : List (Str × α)) (key : Str) : Option α :=
  (object.find? (fun entry => entry.1 = key)).map Prod.snd

/-- `object[key] = value` for a primitive value: a new key is added last, a key
already there keeps its place; the key `__proto__` reaches the setter of
`Object.prototype`, which ignores a primitive. -/
def objectSet {α : Type} (object : List (Str × α)) (key : Str) (value : α) : List (Str × α) :=
  if key = "__proto__".toList then object
  else if object.any (fun entry => entry.1 = key) then
    object.map (fun entry => if entry.1 = key then (key, value) else entry)
  else object ++ [(key, value)]

/-- The body of the `forEach` of `saveDomainValues` for one control (lines
1903-1912). -/
def saveDomainValue (properties : List (Str × JsValue)) (input : FormElement) :
    List (Str × JsValue) :=
  if input.dataKey.isEmpty then properties
  else if input.isCheckbox && input.isToggle then
    objectSet properties input.dataKey (.bool input.checked)
  else if !input.isCheckbox then objectSet properties input.dataKey (.str input.value)
  else properties

/-- `container.querySelectorAll('input, select')` on the domain container. -/
def domainInputs (form : Form) : List FormElement :=
  form.filter fun el => el.inDomainContainer && (el.tag != Tag.textarea)

/-- The control makes `saveDomainValues` write into the current domain. -/
def savesValue (input : FormElement) : Bool :=
  !input.dataKey.isEmpty && ((input.isCheckbox && input.isToggle) || !input.isCheckbox)

/-- `saveDomainValues()` (lines 1898-1912): the values of the controls of the
domain container are stored in the current domain. `none` is the `TypeError`
raised when there is no current domain to write into. -/
def saveDomainValues (form : Form) (domains : List Domain) (currentDomainIndex : Nat) :
    Option (List Domain) :=
  match domains[currentDomainIndex]? with
  | some domain =>
    some (domains.set currentDomainIndex
      { domain with properties := (domainInputs form).foldl saveDomainValue domain.properties })
  | none => if (domainInputs form).any savesValue then none else some domains

/-- The value of a digit in the radix, for `parseInt`. -/
def digitValue (radix : Nat) (c : Char) : Option Nat :=
  let n := c.toNat
  let v := if 48 ≤ n ∧ n ≤ 57 then n - 48
    else if 97 ≤ n ∧ n ≤ 122 then n - 87
    else if 65 ≤ n ∧ n ≤ 90 then n - 55
    else radix
  if v < radix then some v else none

/-- `parseInt(string)`: `none` is `NaN`. The result is the exact integer, which
is the program's number for results below `2^53`. -/
def parseInt (string : Str) : Option Int :=
  let s := trimStart string
  let negative := s.head? = some '-'
  let s := if s.head? = some '-' ∨ s.head? = some '+' then s.drop 1 else s
  let hex := s.take 2 = "0x".toList ∨ s.take 2 = "0X".toList
  let radix := if hex then 16 else 10
  let s := if hex then s.drop 2 else s
  let digits := s.takeWhile (fun c => (digitValue radix c).isSome)
  if digits.isEmpty then none
  else
    let n := digits.foldl (fun acc c => acc * radix + (digitValue radix c).getD 0) 0
    some (if negative then -(n : Int) else (n : Int))

/-- `str.replace(searchString, replacement)` with a string pattern: the first
occurrence is replaced. The replacement holds no `$`. -/
def replaceFirst (searchString replacement : Str) : Str → Str
  | [] => if searchString.isEmpty then replacement else []
  | c :: cs =>
    if searchString.isPrefixOf (c :: cs) then
      replacement ++ (c :: cs).drop searchString.length
    else c :: replaceFirst searchString replacement cs

/-! ## The flat-text codec: encoding (lines 2016-2153) -/

/-- A line of the flat text. -/
inductive Line where
  /-- The comment line `# text`. -/
  | comment (text : Str)
  /-- An empty line. -/
  | blank
  /-- The line `key=value`. -/
  | pair (key value : Str)
  deriving DecidableEq, Repr

/-- The text of a line, with its line break. -/
def Line.render : Line → Str
  | .comment text => "# ".toList ++ text ++ ['\n']
  | .blank => ['\n']
  | .pair key value => key ++ ['='] ++ value ++ ['\n']

/-- The text of a list of lines. -/
def renderLines (lines : List Line) : Str := lines.flatMap Line.render

/-- The `key=value` pairs among the lines, in order. -/
def writtenPairs (lines : List Line) : List (Str × Str) :=
  lines.filterMap fun line =>
    match line with
    | .pair key value => some (key, value)
    | _ => none

/-- The comment line of the description, when there is one (lines 2096-2098). -/
def descriptionLines (prop : Property) : List Line :=
  if prop.description.isEmpty then [] else [.comment prop.description]

/-- The placeholder of a repeatable property: `placeholder || '[N]'`. -/
def repeatPlaceholder (basedOn : RepeatBasedOn) : Str :=
  if basedOn.placeholder.isEmpty then "[N]".toList else basedOn.placeholder

/-- The key of the field number `i` of a repeatable property (lines 1554 and
2043). -/
def repeatFieldKey (key placeholder : Str) (i : Nat) : Str :=
  replaceFirst "{N}".toList (natToStr i)
    (replaceFirst "[N]".toList (natToStr i) (replaceFirst placeholder (natToStr i) key))

/-- The count `parseInt(countInput.value) || 0` read from the control of the
source property, `0` when there is no such control (lines 2039-2040). -/
def sourceCount (form : Form) (basedOnKey : Str) : Int :=
  match querySelectorKey form basedOnKey with
  | none => 0
  | some countInput => (parseInt countInput.value).getD 0

/-- The value of the control with the id `global-` + key, empty when there is
none. -/
def globalInputValue (form : Form) (key : Str) : Str :=
  match getElementById form ("global-".toList ++ key) with
  | none => []
  | some input => input.value

/-- The lines of a repeatable global property (lines 2036-2051). -/
def repeatableLines (form : Form) (prop : Property) (basedOn : RepeatBasedOn) : List Line :=
  (List.range (sourceCount form basedOn.key).toNat).flatMap fun j =>
    let i := j + 1
    let fieldKey := repeatFieldKey prop.key (repeatPlaceholder basedOn) i
    [.comment (prop.label ++ " ".toList ++ natToStr i),
      .pair fieldKey (globalInputValue form fieldKey)]

/-- The lines of the legacy property of type `dynamicLanguages` (lines
2066-2074). -/
def dynamicLanguagesLines (form : Form) (languageCount : Nat) : List Line :=
  (List.range languageCount).flatMap fun j =>
    let i := j + 1
    let key := "portal.languages.language".toList ++ natToStr i
    [.comment ("Código del idioma ".toList ++ natToStr i), .pair key (globalInputValue form key)]

/-- The two spellings of a boolean: `'true'`/`'false'` for the boolean type
`'string'`, `'1'`/`'0'` for every other. -/
def booleanText (booleanType : Str) (state : Bool) : Str :=
  if booleanType = "string".toList then (if state then "true".toList else "false".toList)
  else (if state then "1".toList else "0".toList)

/-- The value of a global property read from its control, or its default
(lines 2076-2093). -/
def globalValue (form : Form) (prop : Property) : Str :=
  match getElementById form ("global-".toList ++ prop.key) with
  | some input =>
    if input.isCheckbox && input.isToggle then booleanText input.booleanType input.checked
    else if !input.isCheckbox then input.value
    else []
  | none => prop.default

/-- The test `prop.dynamicOptionsFrom && prop.dynamicOptionsFrom.key`. -/
def hasDynamicOptions (prop : Property) : Bool :=
  match prop.dynamicOptionsFrom with
  | some key => !key.isEmpty
  | none => false

/-- The lines of a global property that is not repeatable (lines 2053-2099). -/
def plainPropertyLines (form : Form) (languageCount : Nat) (prop : Property) : List Line :=
  if hasDynamicOptions prop then
    descriptionLines prop ++ [.pair prop.key (globalInputValue form prop.key)]
  else if prop.type = "dynamicLanguages".toList then dynamicLanguagesLines form languageCount
  else descriptionLines prop ++ [.pair prop.key (globalValue form prop)]

/-- The lines of one global property (lines 2034-2100). -/
def globalPropertyLines (form : Form) (languageCount : Nat) (prop : Property) : List Line :=
  match prop.repeatBasedOn with
  | some basedOn =>
    if !basedOn.key.isEmpty then repeatableLines form prop basedOn
    else plainPropertyLines form languageCount prop
  | none => plainPropertyLines form languageCount prop

/-- The lines of one global category (lines 2029-2102). -/
def globalCategoryLines (form : Form) (languageCount : Nat) (category : Category) : List Line :=
  [.comment (List.replicate 50 '-'), .comment (toUpperCase category.category),
    .comment (List.replicate 50 '-')] ++
  category.properties.flatMap (globalPropertyLines form languageCount) ++ [.blank]

/-- The value written for a domain property (lines 2117-2140). -/
def domainValue (domain : Domain) (prop : Property) : Str :=
  match objectGet domain.properties prop.key with
  | some savedValue =>
    if prop.type = "boolean".toList then booleanText prop.booleanType (jsTruthy savedValue)
    else jsString savedValue
  | none =>
    if prop.autoFillDomainId then natToStr domain.id
    else if prop.type = "boolean".toList then
      if !prop.default.isEmpty then prop.default else booleanText prop.booleanType false
    else prop.default

/-- The lines of one domain property for one domain (lines 2115-2147). -/
def domainPropertyLines (domain : Domain) (prop : Property) : List Line :=
  descriptionLines prop ++ [.pair (expandDomainKey prop.key domain.id) (domainValue domain prop)]

/-- The lines of one domain category for one domain (lines 2110-2149). -/
def domainCategoryLines (domain : Domain) (category : Category) : List Line :=
  [.comment (List.replicate 40 '-'), .comment category.category,
    .comment (List.replicate 40 '-')] ++
  category.properties.flatMap (domainPropertyLines domain) ++ [.blank]

/-- The lines of one domain (lines 2105-2150). -/
def domainLines (configData : ConfigData) (domain : Domain) : List Line :=
  [.comment (List.replicate 50 '='), .comment ("DOMINIO ".toList ++ natToStr domain.id),
    .comment (List.replicate 50 '='), .blank] ++
  configData.domainProperties.flatMap (domainCategoryLines domain)

/-- The call `domain.properties.hasOwnProperty(...)` of line 2120 is reached and
fails: the schema has a domain property and a saved value named
`hasOwnProperty` hides the method. -/
def hasOwnPropertyFails (configData : ConfigData) (domain : Domain) : Bool :=
  configData.domainProperties.any (fun category => !category.properties.isEmpty) &&
    (objectGet domain.properties "hasOwnProperty".toList).isSome

/-- The state the program keeps and `generatePropertiesContent` reads: the
schema, the domains, the index of the current domain, the legacy language
count and the controls of the document. -/
structure EncoderState where
  configData : ConfigData
  domains : List Domain
  currentDomainIndex : Nat
  languageCount : Nat
  form : Form
  deriving DecidableEq, Repr

/-- The header lines (lines 2022-2026); `timestamp` is
`new Date().toLocaleString('es-MX')`. -/
def headerLines (timestamp : Str) : List Line :=
  [.comment (List.replicate 44 '='), .comment "Archivo de Configuración SeguriSign".toList,
    .comment ("Generado: ".toList ++ timestamp), .comment (List.replicate 44 '='), .blank]

/-- The lines `generatePropertiesContent()` writes (lines 2016-2153); `none` is
a `TypeError`. -/
def generatePropertiesLines (st : EncoderState) (timestamp : Str) : Option (List Line) :=
  match saveDomainValues st.form st.domains st.currentDomainIndex with
  | none => none
  | some domains =>
    if domains.any (hasOwnPropertyFails st.configData) then none
    else some (headerLines timestamp ++
      st.configData.globalProperties.flatMap (globalCategoryLines st.form st.languageCount) ++
      domains.flatMap (domainLines st.configData))

/-- `generatePropertiesContent()` (lines 2016-2153). -/
def generatePropertiesContent (st : EncoderState) (timestamp : Str) : Option Str :=
  (generatePropertiesLines st timestamp).map renderLines

/-- The id of the control of a property (lines 1000-1002): `domainIndex` is
`none` for a global property. -/
def fieldId (prop : Property) (domainIndex : Option Nat) : Str :=
  match domainIndex with
  | some index =>
    "domain-".toList ++ natToStr index ++ "-".toList ++ expandDomainKey prop.key index
  | none => "global-".toList ++ prop.key

/-! ## The flat-text codec: decoding (lines 504-650 and 2694-2813) -/

/-- The index `line.search(/[=:]/)` of the first separator. -/
def separatorIndex (line : Str) : Option Nat :=
  let i := line.findIdx (fun c => c = '=' ∨ c = ':')
  if i < line.length then some i else none

/-- The line rules shared by `parsePropertiesFile` (lines 512-522) and
`parsePropertiesFileForEditor` (lines 2699-2708): the key and the value of a
line, or `none` for a line that is skipped. -/
def decodeLine (rawLine : Str) : Option (Str × Str) :=
  let line := trim rawLine
  if line.isEmpty || line.head? = some '#' || line.head? = some '!' then none
  else
    match separatorIndex line with
    | none => none
    | some i => some (trim (line.take i), trim (line.drop (i + 1)))

/-- The `(key, value)` pairs of the lines of a flat text that are not skipped,
in file order. -/
def decodeLines (content : Str) : List (Str × Str) :=
  (jsSplit ['\n'] content).filterMap decodeLine

/-- The type and the boolean type inferred from a value (lines 546-563 and
2711-2727); the boolean type is empty for `null`. The regex `/^\d+$/` can only
match from the start of the value. -/
def inferType (value : Str) : Str × Str :=
  if value = "true".toList ∨ value = "false".toList then ("boolean".toList, "string".toList)
  else if value = "1".toList ∨ value = "0".toList then ("boolean".toList, "number".toList)
  else if (matchAtoms false [Atom.digits, Atom.eol] value).isSome then ("number".toList, [])
  else if "http://".toList.isPrefixOf value || "https://".toList.isPrefixOf value then
    ("url".toList, [])
  else if regexTest true [Atom.lit '<', Atom.range 'a' 'z', Atom.anyStar, Atom.lit '>'] value then
    ("html".toList, [])
  else ("text".toList, [])

/-- An ASCII letter. -/
def isAsciiLetter (c : Char) : Bool :=
  (decide (65 ≤ c.toNat) && decide (c.toNat ≤ 90)) ||
    (decide (97 ≤ c.toNat) && decide (c.toNat ≤ 122))

/-- The value holds an HTML tag pattern: a `<` directly followed by an ASCII
letter and, somewhere after it, a `>`. -/
def HasTagPattern (value : Str) : Prop :=
  ∃ a c b d, value = a ++ '<' :: c :: (b ++ '>' :: d) ∧ isAsciiLetter c = true

/-- The value is a non-empty text of decimal digits only. -/
def AllDigits (value : Str) : Prop := value ≠ [] ∧ ∀ c ∈ value, isDecimalDigit c = true

/-- The category of a key: its first two dot-separated segments, `General` when
it has fewer (lines 532-538 and 2730-2734). -/
def categoryOf (key : Str) : Str :=
  let parts := jsSplit ['.'] key
  if 2 ≤ parts.length then List.intercalate ['.'] (parts.take 2) else "General".toList

/-- `getDomainKeyPattern()` (lines 125-131); the argument is the
`domainKeyPattern` of the configuration loaded at that time, empty when there
is none. -/
def getDomainKeyPattern (domainKeyPattern : Str) : Str :=
  if domainKeyPattern.isEmpty then "domain{N}".toList else domainKeyPattern

/-- `s.replace(/([A-Z])/g, ' $1')`. -/
def spaceCapitals (s : Str) : Str :=
  regexReplaceAll false [Atom.range 'A' 'Z']
    (fun matched before after => getSubstitution matched before after [matched] " $1".toList) s

/-- The label of `parsePropertiesFile` (line 572). -/
def importLabel (key : Str) : Str :=
  trim (spaceCapitals ((jsSplit ['.'] key).getLast?.getD []))

/-- `word.charAt(0).toUpperCase() + word.slice(1)`. -/
def capitalizeFirst : Str → Str
  | [] => []
  | c :: cs => upperFirst c ++ cs

/-- `word.charAt(0).toUpperCase() + word.slice(1).toLowerCase()`. -/
def titleCase : Str → Str
  | [] => []
  | c :: cs => upperFirst c ++ toLowerCase cs

/-- `generateLabel(key)` (lines 2762-2772). -/
def generateLabel (key : Str) : Str :=
  let lastPart := (jsSplit ['.'] key).getLast?.getD []
  let spaced := (spaceCapitals lastPart).map fun c => if c = '_' ∨ c = '-' then ' ' else c
  List.intercalate [' '] ((jsSplit [' '] (trim spaced)).map titleCase)

/-- The words of the specification, "inserting a space before each capital
letter": every letter `A` to `Z` gets a blank in front of it. -/
def insertSpaces (s : Str) : Str :=
  s.flatMap fun c => if 65 ≤ c.toNat ∧ c.toNat ≤ 90 then [' ', c] else [c]

/-- `formatCategoryName(name)` (lines 653-660). -/
def formatCategoryName (name : Str) : Str :=
  trim (spaceCapitals (List.intercalate " - ".toList ((jsSplit ['.'] name).map capitalizeFirst)))

/-- The index a key stands for when it is an array index: the canonical decimal
text of an integer below `2^32 - 1`. -/
def arrayIndex (key : Str) : Option Nat :=
  if key ≠ [] ∧ key.all isDecimalDigit = true ∧ (key = ['0'] ∨ key.head? ≠ some '0') then
    let n := key.foldl (fun acc c => acc * 10 + (c.toNat - 48)) 0
    if n < 4294967295 then some n else none
  else none

/-- `Object.keys(object)`: the array indices in ascending order, then the other
keys in insertion order. -/
def objectKeys {α : Type} (object : List (Str × α)) : List Str :=
  let keys := object.map Prod.fst
  (keys.filter fun key => (arrayIndex key).isSome).insertionSort
      (fun a b => (arrayIndex a).getD 0 ≤ (arrayIndex b).getD 0) ++
    keys.filter fun key => (arrayIndex key).isNone

/-- The object `properties` of `parsePropertiesFile` after the lines are read
(lines 506-528). -/
def importedProperties (content : Str) : List (Str × Str) :=
  (decodeLines content).foldl (fun properties line => objectSet properties line.1 line.2) []

/-- `categories[name].push(x)`, the list created on first use (lines 540-542 and
588, 2784-2787). The names are held in insertion order. -/
def pushToCategory {α : Type} (categories : List (Str × List α)) (name : Str) (x : α) :
    List (Str × List α) :=
  if categories.any (fun entry => entry.1 = name) then
    categories.map fun entry => if entry.1 = name then (entry.1, entry.2 ++ [x]) else entry
  else categories ++ [(name, [x])]

/-- The property `parsePropertiesFile` builds for a key and its value (lines
545-586). -/
def importedProperty (key value : Str) : Property :=
  let inferred := inferType value
  { key := key
    label := importLabel key
    type := inferred.1
    default := value
    needsConfirmation := inferred.1 = "text".toList ∨ inferred.1 = "url".toList
    description := "Propiedad importada: ".toList ++ key
    booleanType := inferred.2
    checkService := inferred.1 = "url".toList }

/-- The properties of `parsePropertiesFile` in the order in which lines 531-589
build them: that of `Object.keys(properties)`. -/
def importedInKeyOrder (content : Str) : List Property :=
  let properties := importedProperties content
  (objectKeys properties).map fun key =>
    importedProperty key ((objectGet properties key).getD [])

/-- The object `categories` of `parsePropertiesFile` (lines 531-589): the
properties in the order of `Object.keys(properties)`, grouped by category. A
category name is `General` or holds a dot, so it is no array index and
`Object.keys(categories)` is the insertion order. -/
def importedCategories (content : Str) : List (Str × List Property) :=
  let properties := importedProperties content
  (objectKeys properties).foldl
    (fun categories key =>
      pushToCategory categories (categoryOf key)
        (importedProperty key ((objectGet properties key).getD [])))
    []

/-- The properties of `parsePropertiesFile` before the categories are split
into global and domain categories, category by category. -/
def importedList (content : Str) : List Property :=
  (importedCategories content).flatMap Prod.snd

/-- The test `/domain\d+|domain\{N\}/i.test(key)` of line 597. -/
def hasDomainMarker (key : Str) : Bool :=
  regexTest true (literalAtoms "domain".toList ++ [Atom.digits]) key ||
    regexTest true (literalAtoms "domain{N}".toList) key

/-- The removal of the later properties with a key already seen (lines
608-615). -/
def uniqueProps (props : List Property) : List Property :=
  (props.foldl
    (fun (state : List Property × List Str) p =>
      if p.key ∈ state.2 then state else (state.1 ++ [p], state.2 ++ [p.key]))
    ([], [])).1

/-- The domain category emitted for a category with a domain marker (lines
600-620). -/
def domainCategoryOf (domainPattern name : Str) (props : List Property) : Category :=
  { category := regexReplaceAll true (literalAtoms "domain".toList ++ [Atom.digits])
      (fun matched before after => getSubstitution matched before after [] "Dominio".toList) name
    properties := uniqueProps
      (props.map fun p => { p with key := convertToDomainTemplate p.key domainPattern }) }

/-- `parsePropertiesFile(content, fileName)` (lines 504-650), the categories of
the result; `domainKeyPattern` is that of the configuration loaded at that
time. The result has no `domainKeyPattern` of its own. -/
def parsePropertiesFile (domainKeyPattern content : Str) : ConfigData :=
  let domainPattern := getDomainKeyPattern domainKeyPattern
  let categories := importedCategories content
  let globalCategories := categories.filterMap fun entry =>
    if entry.2.any (fun p => hasDomainMarker p.key) then none
    else some { category := formatCategoryName entry.1, properties := entry.2 : Category }
  let domainCategories := categories.filterMap fun entry =>
    if entry.2.any (fun p => hasDomainMarker p.key) then
      some (domainCategoryOf domainPattern entry.1 entry.2)
    else none
  { globalProperties :=
      if globalCategories.isEmpty then
        [{ category := "Propiedades Generales".toList, properties := [] }]
      else globalCategories
    domainProperties :=
      if domainCategories.isEmpty then
        [{ category := "Configuración del Dominio".toList, properties := [] }]
      else domainCategories }

/-- A property of the editor (lines 2740-2755). -/
structure EditorProperty where
  id : Str
  key : Str
  label : Str
  type : Str
  default : Str
  needsConfirmation : Bool
  description : Str
  category : Str
  isDomain : Bool
  booleanType : Str
  checkService : Bool
  deriving DecidableEq, Repr

/-- The property `parsePropertiesFileForEditor` builds for the line number
`index` with a key and a value (lines 2710-2755). -/
def editorProperty (domainPattern : Str) (index : Nat) (key value : Str) : EditorProperty :=
  let inferred := inferType value
  { id := "prop_".toList ++ natToStr index
    key := key
    label := generateLabel key
    type := inferred.1
    default := value
    needsConfirmation := inferred.1 = "text".toList ∨ inferred.1 = "url".toList
    description := "Propiedad: ".toList ++ key
    category := categoryOf key
    isDomain := checkIfDomainProperty key domainPattern
    booleanType := inferred.2
    checkService := inferred.1 = "url".toList }

/-- `parsePropertiesFileForEditor(content, fileName)` (lines 2694-2759);
`domainKeyPattern` is that of the configuration loaded at that time. -/
def parsePropertiesFileForEditor (domainKeyPattern content : Str) : List EditorProperty :=
  (jsSplit ['\n'] content).enum.filterMap fun (index, line) =>
    (decodeLine line).map fun (key, value) =>
      editorProperty (getDomainKeyPattern domainKeyPattern) index key value

/-- A category of the editor (lines 2791-2798). -/
structure EditorCategory where
  id : Str
  name : Str
  originalName : Str
  properties : List EditorProperty
  isDomain : Bool
  deriving DecidableEq, Repr

/-- The categories `openJsonEditor(properties, fileName)` builds (lines
2779-2799). -/
def openJsonEditor (properties : List EditorProperty) : List EditorCategory :=
  ((properties.foldl (fun categoryMap prop => pushToCategory categoryMap prop.category prop)
    []).enum).map fun (index, entry) =>
      { id := "cat_".toList ++ natToStr index
        name := formatCategoryName entry.1
        originalName := entry.1
        properties := entry.2
        isDomain := entry.2.any fun p => p.isDomain }

/-- The key `buildConfigJsonFromEditor` stores for a property (line 3589). -/
def editorStoredKey (prop : EditorProperty) : Str :=
  if prop.isDomain then
    regexReplaceAll false [Atom.digits]
      (fun matched before after => getSubstitution matched before after [] "{N}".toList) prop.key
  else prop.key

/-- The schema property `buildConfigJsonFromEditor` builds (lines 3587-3606) for
a property that came from `parsePropertiesFileForEditor`. -/
def editorPropData (prop : EditorProperty) : Property :=
  { key := editorStoredKey prop
    label := prop.label
    type := prop.type
    default := prop.default
    needsConfirmation := prop.needsConfirmation
    description := prop.description
    booleanType := prop.booleanType
    checkService := prop.checkService }

/-- `buildConfigJsonFromEditor()` (lines 3573-3629), the categories and the
pattern of the result; `editorDomainKeyPattern` is the value of the control
`editorDomainKeyPattern`. -/
def buildConfigJsonFromEditor (editorCategories : List EditorCategory)
    (editorDomainKeyPattern : Str) : ConfigData :=
  let categoryData := fun (category : EditorCategory) =>
    ({ category := category.name, properties := category.properties.map editorPropData } :
      Category)
  { domainKeyPattern :=
      if editorDomainKeyPattern.isEmpty then "domain{N}".toList else editorDomainKeyPattern
    globalProperties := (editorCategories.filter fun c => !c.isDomain).map categoryData
    domainProperties := (editorCategories.filter fun c => c.isDomain).map categoryData }

/-- The schema the editor path gives for a flat text when nothing is edited:
`parsePropertiesFileForEditor`, `openJsonEditor`, `buildConfigJsonFromEditor`;
`openJsonEditor` sets the pattern control to `domain{N}` (line 2805). -/
def editorSchema (domainKeyPattern content : Str) : ConfigData :=
  buildConfigJsonFromEditor (openJsonEditor (parsePropertiesFileForEditor domainKeyPattern content))
    "domain{N}".toList

/-- The properties of a list whose key is neither among `seen` nor the key of an
earlier property of the list: the first property of each key. -/
def firstByKey : List Str → List Property → List Property
  | _, [] => []
  | seen, p :: ps =>
    if p.key ∈ seen then firstByKey seen ps else p :: firstByKey (seen ++ [p.key]) ps

/-- The keys of a list in the order of their first appearance. -/
def firstOccurrences (keys : List Str) : List Str :=
  keys.foldl (fun seen key => if key ∈ seen then seen else seen ++ [key]) []

/-- A key that the decoder reads back as written: not empty, trimmed, without
line break, `=` or `:`, and not starting with `#` or `!`. -/
def CleanKey (key : Str) : Prop :=
  key ≠ [] ∧ trim key = key ∧ '\n' ∉ key ∧ '=' ∉ key ∧ ':' ∉ key ∧
    key.head? ≠ some '#' ∧ key.head? ≠ some '!'

/-- A value that the decoder reads back as written: trimmed and without line
break. -/
def CleanValue (value : Str) : Prop := trim value = value ∧ '\n' ∉ value

/-- A line that the decoder reads back as written. -/
def CleanLine : Line → Prop
  | .comment text => '\n' ∉ text
  | .blank => True
  | .pair key value => CleanKey key ∧ CleanValue value

instance (key : Str) : Decidable (CleanKey key) := by unfold CleanKey; infer_instance

instance (value : Str) : Decidable (CleanValue value) := by unfold CleanValue; infer_instance

instance (line : Line) : Decidable (CleanLine line) := by
  cases line <;> unfold CleanLine <;> infer_instance


/-- The number of occurrences of the placeholder `{N}` in a key: the positions
of the key at which `{N}` starts. -/
def placeholderCount : Str → Nat
  | [] => 0
  | c :: cs => (if placeholder.isPrefixOf (c :: cs) then 1 else 0) + placeholderCount cs
/-! ## The form: rendering (lines 983-1286 and 1530-1637)

The HTML text is not modelled: a control carries the attribute values its
template gives it, which is what the browser builds from the markup when the
keys hold no `"` and no `&`.  The value of a control follows the value
sanitisation of the HTML standard for its type. -/

/-- The value of a text or password control whose `value` is set to the text:
the line breaks are stripped. -/
def stripNewlines (s : Str) : Str := s.filter fun c => c != '\n' && c != '\r'

/-- A valid floating-point number of the HTML standard: an optional `-`, digits
with an optional fraction or a fraction alone, and an optional exponent. -/
def isValidFloatingPoint (s : Str) : Bool :=
  let s := if s.head? = some '-' then s.drop 1 else s
  let whole := s.takeWhile isDecimalDigit
  let s := s.dropWhile isDecimalDigit
  let fraction := if s.head? = some '.' then (s.drop 1).takeWhile isDecimalDigit else []
  let fractionOk := if s.head? = some '.' then !fraction.isEmpty else !whole.isEmpty
  let s := if s.head? = some '.' then (s.drop 1).dropWhile isDecimalDigit else s
  let exponent :=
    if s.head? = some 'e' ∨ s.head? = some 'E' then
      if (s.drop 1).head? = some '-' ∨ (s.drop 1).head? = some '+' then s.drop 2 else s.drop 1
    else []
  let exponentOk :=
    if s.head? = some 'e' ∨ s.head? = some 'E' then
      !exponent.isEmpty && exponent.all isDecimalDigit
    else s.isEmpty
  fractionOk && exponentOk

/-- The value a control takes when its `value` is set to the text. -/
def sanitizeValue (isNumber : Bool) (s : Str) : Str :=
  if isNumber then (if isValidFloatingPoint s then s else []) else stripNewlines s

/-- The variable `defaultValue` of `renderPropertyField` (lines 1014-1024). -/
def defaultValueOf (prop : Property) (domainIndex : Option Nat) : Str :=
  match domainIndex with
  | some index => if prop.autoFillDomainId then natToStr index else prop.default
  | none => prop.default

/-- The checkbox of a boolean property (lines 1066-1082); the attribute
`data-boolean-type` of a property without boolean type reads `undefined`. -/
def booleanControl (prop : Property) (domainIndex : Option Nat) : FormElement :=
  { id := fieldId prop domainIndex
    dataKey := prop.key
    isCheckbox := true
    isToggle := true
    booleanType := if prop.booleanType.isEmpty then "undefined".toList else prop.booleanType
    checked :=
      if prop.booleanType = "string".toList then
        defaultValueOf prop domainIndex = "true".toList
      else defaultValueOf prop domainIndex = "1".toList
    value := "on".toList
    inDomainContainer := domainIndex.isSome }

/-- The control of a text, url, password or number property (lines 1139-1202
and 1238-1251). -/
def valueControl (prop : Property) (domainIndex : Option Nat) : FormElement :=
  { id := fieldId prop domainIndex
    dataKey := prop.key
    value := sanitizeValue (prop.type = "number".toList) (defaultValueOf prop domainIndex)
    inDomainContainer := domainIndex.isSome
    isNumber := prop.type = "number".toList }

/-- The checkbox `buildConfirmCheckbox` adds for the control with this id (lines
1051-1063 and 1569-1576). -/
def confirmControl (controlId : Str) (inDomainContainer : Bool) : FormElement :=
  { id := controlId ++ "-confirm".toList
    isCheckbox := true
    value := "on".toList
    inDomainContainer := inDomainContainer }

/-- A container of repeated fields (`data-repeat-container`), with its
attributes and the controls it holds. -/
structure RepeatContainer where
  basedOn : Str
  keyTemplate : Str
  labelTemplate : Str
  placeholder : Str
  defaults : List Str
  needsConfirmation : Bool
  inDomainContainer : Bool
  fields : List FormElement
  deriving DecidableEq, Repr

/-- A node of the document that holds controls. -/
inductive Node where
  | control (el : FormElement)
  | repeatContainer (container : RepeatContainer)
  deriving DecidableEq, Repr

/-- The controls of a node in document order. -/
def Node.elements : Node → List FormElement
  | .control el => [el]
  | .repeatContainer container => container.fields

/-- The controls of a document in document order. -/
def formOf (document : List Node) : Form := document.flatMap Node.elements

/-- `renderRepeatableField(prop, context, domainIndex)` (lines 1586-1637): the
container, empty until `updateRepeatableFields` fills it. -/
def renderRepeatableField (prop : Property) (basedOn : RepeatBasedOn)
    (domainIndex : Option Nat) : RepeatContainer :=
  { basedOn := basedOn.key
    keyTemplate := prop.key
    labelTemplate := if basedOn.label.isEmpty then "Item".toList else basedOn.label
    placeholder := repeatPlaceholder basedOn
    defaults := prop.defaultArray
    needsConfirmation := prop.needsConfirmation
    inDomainContainer := domainIndex.isSome
    fields := [] }

/-- The kinds of field whose control takes its value from the options the
browser selects or from a text area, which the model does not cover. -/
def unmodelledKind (prop : Property) : Bool :=
  hasDynamicOptions prop || prop.type = "dynamicLanguages".toList ||
    prop.type = "select".toList || prop.type = "mexicoStates".toList ||
    prop.type = "paymentPeriods".toList || prop.type = "dynamicSelect".toList ||
    prop.type = "html".toList

/-- `renderPropertyField(prop, context, domainIndex)` (lines 983-1286): the
nodes with controls that the markup holds; `none` for a kind of field the model
does not cover. -/
def renderPropertyField (prop : Property) (domainIndex : Option Nat) : Option (List Node) :=
  match prop.repeatBasedOn with
  | some basedOn =>
    if !basedOn.key.isEmpty then
      some [.repeatContainer (renderRepeatableField prop basedOn domainIndex)]
    else renderPlain
  | none => renderPlain
where
  /-- The cases after the repeatable fields. -/
  renderPlain : Option (List Node) :=
    if unmodelledKind prop then none
    else if prop.type = "boolean".toList then some [.control (booleanControl prop domainIndex)]
    else
      some ([.control (valueControl prop domainIndex)] ++
        if prop.needsConfirmation then
          [.control (confirmControl (fieldId prop domainIndex) domainIndex.isSome)]
        else [])

/-- `Math.min(Math.max(count, 0), maxCount)` with `maxCount = 20` (lines
1542-1544). -/
def actualCount (count : Int) : Nat := min (max count 0).toNat 20

/-- The value a repeated field had before the container is rendered again
(lines 1547-1550): that of the last field with the index. -/
def savedRepeatValue (container : RepeatContainer) (i : Nat) : Option Str :=
  ((container.fields.filter fun el => el.repeatIndex = some i).getLast?).map (·.value)

/-- The controls of the repeated field number `i` (lines 1554-1578). -/
def repeatedField (container : RepeatContainer) (i : Nat) : List FormElement :=
  let fieldKey := repeatFieldKey container.keyTemplate container.placeholder i
  let fieldId := "global-".toList ++ fieldKey
  let savedValue :=
    match savedRepeatValue container i with
    | some value => value
    | none => container.defaults.getD (i - 1) []
  [{ id := fieldId
     dataKey := fieldKey
     value := stripNewlines savedValue
     inDomainContainer := container.inDomainContainer
     repeatIndex := some i }] ++
    if container.needsConfirmation then [confirmControl fieldId container.inDomainContainer]
    else []

/-- The body of the `forEach` of `updateRepeatableFields` for one container
(lines 1532-1581); `form` holds the controls of the document at that time. -/
def updateRepeatContainer (form : Form) (container : RepeatContainer) : RepeatContainer :=
  match querySelectorKey form container.basedOn with
  | none => container
  | some countInput =>
    let count := (parseInt countInput.value).getD 0
    { container with
      fields := (List.range (actualCount count)).flatMap fun j => repeatedField container (j + 1) }

/-- The repeated fields of a container: its controls with `data-repeat-index`. -/
def repeatedFields (container : RepeatContainer) : List FormElement :=
  container.fields.filter fun el => el.repeatIndex.isSome

/-- `updateRepeatableFields()` (lines 1530-1583) from the node after `before`
on: the containers are filled one after the other. -/
def updateRepeatableFieldsFrom (before : List Node) : List Node → List Node
  | [] => before
  | .control el :: rest => updateRepeatableFieldsFrom (before ++ [.control el]) rest
  | .repeatContainer container :: rest =>
    updateRepeatableFieldsFrom
      (before ++ [.repeatContainer
        (updateRepeatContainer (formOf (before ++ .repeatContainer container :: rest))
          container)])
      rest

/-- `updateRepeatableFields()` (lines 1530-1583). -/
def updateRepeatableFields (document : List Node) : List Node :=
  updateRepeatableFieldsFrom [] document

/-! ## The domain instances (lines 736-768, 1833-2005 and 2576-2604) -/

/-- The key under which a new domain holds its id. -/
def domainIdKey : Str := "hrvertical.portalfirma.domain{N}.iddomain".toList

/-- The key of the global property that holds the number of domains. -/
def totalDomainsKey : Str := "hrvertical.portalfirma.dominios.totalconfigurados".toList

/-- The domain pushed by `initializeDomains`, `addDomain` and
`handleDomainsCountChange`: it holds only its own id. -/
def newDomain (id : Nat) : Domain := { id := id, properties := [(domainIdKey, .num id)] }

/-- `getDefaultValue(key)` (lines 762-768); `none` is `null`. -/
def getDefaultValue (configData : ConfigData) (key : Str) : Option Str :=
  configData.globalProperties.findSome? fun category =>
    (category.properties.find? fun p => p.key = key).map (·.default)

/-- `parseInt(getDefaultValue(key)) || 2` (line 747). -/
def defaultTotalDomains (configData : ConfigData) : Int :=
  match (getDefaultValue configData totalDomainsKey).bind parseInt with
  | none => 2
  | some n => if n = 0 then 2 else n

/-- `initializeDomains()` (lines 736-759): the list `domains` it builds. -/
def initializeDomains (configData : ConfigData) : List Domain :=
  if configData.domainProperties.any (fun category => !category.properties.isEmpty) then
    (List.range (defaultTotalDomains configData).toNat).map fun j => newDomain (j + 1)
  else []

/-- The variables `domains` and `currentDomainIndex`. -/
structure DomainState where
  domains : List Domain
  currentDomainIndex : Nat
  deriving DecidableEq, Repr

/-- `element.value = value` on the control with the id, when there is one. -/
def setValueById (form : Form) (id value : Str) : Form :=
  match form.findIdx? (fun el => el.id = id) with
  | none => form
  | some i => form.modify (fun el => { el with value := sanitizeValue el.isNumber value }) i

/-- `addDomain()` (lines 1957-1978): the variables after the call. `none` is
the `TypeError` of the first `saveDomainValues`, raised before anything is
changed. The markup that is rendered anew is not part of the result. -/
def addDomain (form : Form) (state : DomainState) : Option DomainState :=
  match saveDomainValues form state.domains state.currentDomainIndex with
  | none => none
  | some saved =>
    let pushed := saved ++ [newDomain (saved.length + 1)]
    let form' := setValueById form ("global-".toList ++ totalDomainsKey) (natToStr pushed.length)
    match saveDomainValues form' pushed state.currentDomainIndex with
    | none => none
    | some saved' => some { domains := saved', currentDomainIndex := pushed.length - 1 }

/-- `removeDomain()` (lines 1981-2005): the variables after the call. -/
def removeDomain (state : DomainState) : DomainState :=
  if state.domains.length ≤ 1 then state
  else
    { domains := state.domains.dropLast
      currentDomainIndex :=
        if state.domains.dropLast.length ≤ state.currentDomainIndex then
          state.domains.dropLast.length - 1
        else state.currentDomainIndex }

/-- The loop `while (domains.length < newCount)` of lines 2582-2591, run at most
`steps` times. -/
def growDomains (newCount : Nat) : Nat → List Domain → List Domain
  | 0, domains => domains
  | steps + 1, domains =>
    if domains.length < newCount then
      growDomains newCount steps (domains ++ [newDomain (domains.length + 1)])
    else domains

/-- The loop `while (domains.length > newCount)` of lines 2593-2595, run at most
`steps` times. -/
def shrinkDomains (newCount : Nat) : Nat → List Domain → List Domain
  | 0, domains => domains
  | steps + 1, domains =>
    if newCount < domains.length then shrinkDomains newCount steps domains.dropLast
    else domains

/-- The count after lines 2577-2578. -/
def clampCount (newCount : Int) : Nat :=
  if newCount < 1 then 1 else if 10 < newCount then 10 else newCount.toNat

/-- `handleDomainsCountChange(newCount)` (lines 2576-2604) for an integer
count: the variables after the call. `none` is the `TypeError` of
`saveDomainValues`, raised before anything is changed. Either loop runs as
often as its test holds: the bounds given are never reached. -/
def handleDomainsCountChange (form : Form) (state : DomainState) (newCount : Int) :
    Option DomainState :=
  match saveDomainValues form state.domains state.currentDomainIndex with
  | none => none
  | some saved =>
    let grown := growDomains (clampCount newCount) (clampCount newCount) saved
    let shrunk := shrinkDomains (clampCount newCount) grown.length grown
    some
      { domains := shrunk
        currentDomainIndex :=
          if shrunk.length ≤ state.currentDomainIndex then shrunk.length - 1
          else state.currentDomainIndex }

/-- The ids of the domains are `1, 2, ...` in the order of the list. -/
def IdsInOrder (domains : List Domain) : Prop :=
  ∀ i (h : i < domains.length), (domains.get ⟨i, h⟩).id = i + 1

instance (domains : List Domain) : Decidable (IdsInOrder domains) := by
  unfold IdsInOrder; infer_instance

/-! ## Loading a schema (lines 15-57, 791-843 and 1833-1954) -/

/-- The nodes rendered for a list of categories; `none` when the model does not
cover one of the fields. -/
def renderCategories (categories : List Category) (domainIndex : Option Nat) :
    Option (List Node) :=
  ((categories.flatMap (·.properties)).mapM fun prop => renderPropertyField prop domainIndex).map
    fun nodes => nodes.flatMap id

/-- The body of the `forEach` of `restoreDomainValues` for one control (lines
1930-1944). A `select`, which takes a value only when it has such an option,
is left as it is: the model renders none. -/
def restoreControl (properties : List (Str × JsValue)) (el : FormElement) : FormElement :=
  if el.tag != Tag.input || el.dataKey.isEmpty then el
  else
    match objectGet properties el.dataKey with
    | none => el
    | some value =>
      if el.isCheckbox && el.isToggle then { el with checked := jsTruthy value }
      else if !el.isCheckbox then { el with value := sanitizeValue el.isNumber (jsString value) }
      else el

/-- `restoreDomainValues` on a node of the domain container. -/
def restoreNode (properties : List (Str × JsValue)) : Node → Node
  | .control el => .control (restoreControl properties el)
  | .repeatContainer container =>
    .repeatContainer { container with fields := container.fields.map (restoreControl properties) }

/-- Lines 1873-1876: the control of the domain id takes the id when it is empty
or `0`. -/
def fillDomainId (domain : Domain) (el : FormElement) : FormElement :=
  if el.id = "domain-".toList ++ natToStr domain.id ++ "-hrvertical.portalfirma.domain".toList ++
      natToStr domain.id ++ ".iddomain".toList ∧ (el.value.isEmpty ∨ el.value = "0".toList) then
    { el with value := sanitizeValue el.isNumber (natToStr domain.id) }
  else el

/-- `renderDomainProperties()` (lines 1833-1885): the nodes of the domain
container. Without a current domain nothing is rendered. The ids that start
with `domain-` are those of the plain controls of this container, at most one
per key. -/
def renderDomainProperties (configData : ConfigData) (domains : List Domain)
    (currentDomainIndex : Nat) : Option (List Node) :=
  match domains[currentDomainIndex]? with
  | none => some []
  | some domain =>
    (renderCategories configData.domainProperties (some domain.id)).map fun nodes =>
      (nodes.map fun node =>
        match node with
        | .control el => Node.control (fillDomainId domain el)
        | other => other).map (restoreNode domain.properties)

/-- The state after `loadConfigFromData(data)` (lines 15-57) for a schema whose
fields the model covers; `domainFirst` tells whether the page puts the domain
container before the global one. -/
def loadConfigFromData (data : ConfigData) (domainFirst : Bool) : Option EncoderState :=
  let domains := initializeDomains data
  match renderCategories data.globalProperties none, renderDomainProperties data domains 0 with
  | some globalNodes, some domainNodes =>
    some
      { configData := data
        domains := domains
        currentDomainIndex := 0
        languageCount := 3
        form := formOf (updateRepeatableFields
          (if domainFirst then domainNodes ++ globalNodes else globalNodes ++ domainNodes)) }
  | _, _ => none

/-! ## Example documents -/

/-- A document with a field `A` holding `"no"`, a field `B` shown when `A` is
`"yes"` and a field `C` shown when `B` is `"on"`; `B` holds `"on"`. -/
def exampleABC : List Row :=
  [⟨none, [⟨"A".toList, false, false, "no".toList⟩]⟩,
   ⟨some ("A".toList, "yes".toList), [⟨"B".toList, false, false, "on".toList⟩]⟩,
   ⟨some ("B".toList, "on".toList), [⟨"C".toList, false, false, [] ⟩]⟩]

/-- A rank for `exampleABC`. -/
def exampleRank (k : Str) : Nat :=
  if k = "A".toList then 0 else if k = "B".toList then 1 else 2

/-- The key `k1`, `k2`, ... of the field number `i` of `exampleChain`. -/
def chainKey (i : Nat) : Str := 'k' :: natToStr i

/-- The row of the field `k`*i*: a text field holding `"v"`, shown when the
field `k`*(i-1)* holds `"v"`; the first field refers to the key `Z`. -/
def chainRow (i : Nat) : Row :=
  ⟨some (if i = 1 then "Z".toList else chainKey (i - 1), "v".toList),
    [⟨chainKey i, false, false, "v".toList⟩]⟩

/-- A chain of `n` fields written in reverse order, last field first; no field
has the key `Z` the first field refers to. -/
def exampleChain (n : Nat) : List Row := (List.range n).map (fun j => chainRow (n - j))

/-- A rank for `exampleChain`: the number of the field. -/
def chainRank (k : Str) : Nat :=
  match k with
  | 'k' :: '1' :: '0' :: [] => 10
  | 'k' :: '1' :: '1' :: [] => 11
  | 'k' :: d :: [] => d.toNat - 48
  | _ => 0

/-- A field `A` holding `value`, a row shown when `A` is `yes` that holds the
two keyed fields `B1` and `B2` (as the row of a repeatable property does), and
a field `C` shown when `B2` holds `x`. -/
def exampleTwoKeys (value : Str) : List Row :=
  [⟨none, [⟨"A".toList, false, false, value⟩]⟩,
   ⟨some ("A".toList, "yes".toList),
     [⟨"B1".toList, false, false, "x".toList⟩, ⟨"B2".toList, false, false, "x".toList⟩]⟩,
   ⟨some ("B2".toList, "x".toList), [⟨"C".toList, false, false, []⟩]⟩]

/-- Two fields that depend on each other. -/
def exampleCycle : List Row :=
  [⟨some ("B".toList, "true".toList), [⟨"A".toList, true, true, []⟩]⟩,
   ⟨some ("A".toList, "true".toList), [⟨"B".toList, true, true, []⟩]⟩]

/-- A field that depends on itself. -/
def exampleSelfCycle : List Row :=
  [⟨some ("A".toList, "true".toList), [⟨"A".toList, true, true, []⟩]⟩]


/-- A schema with one global text property and one domain property. -/
def exampleSchema : ConfigData :=
  { globalProperties :=
      [{ category := "App".toList
         properties := [{ key := "app.name".toList, description := "Nombre".toList }] }]
    domainProperties :=
      [{ category := "Dominio".toList
         properties := [{ key := "app.domain{N}.name".toList, default := "Acme".toList }] }] }

/-- A state of the form for `exampleSchema`: the global control holds
`value`, the only domain has no saved value. -/
def exampleState (value : Str) : EncoderState :=
  { configData := exampleSchema
    domains := [{ id := 1, properties := [] }]
    currentDomainIndex := 0
    languageCount := 3
    form := [{ id := "global-app.name".toList, dataKey := "app.name".toList, value := value }] }

/-- The lines written for `exampleState value`. -/
def exampleLines (timestamp value : Str) : List Line :=
  [.comment (List.replicate 44 '='), .comment "Archivo de Configuración SeguriSign".toList,
    .comment ("Generado: ".toList ++ timestamp), .comment (List.replicate 44 '='), .blank,
    .comment (List.replicate 50 '-'), .comment "APP".toList,
    .comment (List.replicate 50 '-'), .comment "Nombre".toList,
    .pair "app.name".toList value, .blank,
    .comment (List.replicate 50 '='), .comment "DOMINIO 1".toList,
    .comment (List.replicate 50 '='), .blank,
    .comment (List.replicate 40 '-'), .comment "Dominio".toList,
    .comment (List.replicate 40 '-'),
    .pair "app.domain1.name".toList "Acme".toList, .blank]

/-- A flat text with the same domain key on two lines. -/
def exampleRepeatedKey : Str := "a.b.domain1.x=A\na.b.domain2.x=B\na.b.domain1.x=C".toList

/-- The domain category `parsePropertiesFile` emits for `exampleRepeatedKey`. -/
def exampleDomainCategory : Category :=
  { category := "a.b".toList
    properties := [{ importedProperty "a.b.domain1.x".toList "C".toList with
      key := "a.b.domain{N}.x".toList }] }

/-- A repeatable global property `item[N].name` that follows the property
`items.count`. -/
def exampleRepeatable : Property :=
  { key := "item[N].name".toList
    label := "Item".toList
    repeatBasedOn := some { key := "items.count".toList } }

/-- A form whose control of `items.count` holds the text `count`. -/
def exampleCountForm (count : Str) : Form :=
  [{ id := "global-items.count".toList, dataKey := "items.count".toList, value := count,
     isNumber := true }]

/-- A document with the control of `items.count` holding `25` and, behind it,
the container of the repeatable property `item[N].name`, not yet filled. -/
def exampleCountDocument : List Node :=
  [.control { id := "global-items.count".toList, dataKey := "items.count".toList,
              value := "25".toList, isNumber := true },
   .repeatContainer
     (renderRepeatableField exampleRepeatable { key := "items.count".toList } none)]

/-- A boolean domain property written as `1`/`0`. -/
def exampleFlag : Property :=
  { key := "app.domain{N}.flag".toList, type := "boolean".toList,
    booleanType := "number".toList }

/-- A state whose only domain has the saved value `true` for `exampleFlag`. -/
def exampleFlagState : EncoderState :=
  { configData :=
      { globalProperties := []
        domainProperties := [{ category := "Dominio".toList, properties := [exampleFlag] }] }
    domains := [{ id := 1, properties := [("app.domain{N}.flag".toList, .bool true)] }]
    currentDomainIndex := 0
    languageCount := 3
    form := [] }

/-- A flat file without comments: a boolean line, a domain line and a text
line. -/
def exampleFlatFile : Str :=
  "feature.enabled=true\napp.domain1.name=Acme\nsite.title=Hello world".toList

/-- The lines of `exampleFlatFile` in another order. -/
def exampleFlatFileReordered : Str :=
  "site.title=Hello world\napp.domain1.name=Acme\nfeature.enabled=true".toList

/-- The flat file of `exampleFlatFile` with the text line
`hrvertical.portalfirma.dominios.totalconfigurados=-1`. -/
def exampleFlatFileNegativeCount : Str :=
  ("feature.enabled=true\napp.domain1.name=Acme\n" ++
    "hrvertical.portalfirma.dominios.totalconfigurados=-1").toList

/-- The flat file of `exampleFlatFile` with the text line `__proto__=x`. -/
def exampleFlatFileProto : Str :=
  "feature.enabled=true\napp.domain1.name=Acme\n__proto__=x".toList

/-- A form whose domain container holds a text control of the key
`app.domain{N}.name` with the value `Acme`. -/
def exampleDomainForm : Form :=
  [{ id := "domain-1-app.domain1.name".toList, dataKey := "app.domain{N}.name".toList,
     value := "Acme".toList, inDomainContainer := true }]

/-- Two domains as `initializeDomains` builds them, the first one current. -/
def exampleDomainState : DomainState :=
  { domains := [newDomain 1, newDomain 2], currentDomainIndex := 0 }
/-! ## Theorems -/

/-! ### Case conversion -/

theorem canonicalChar_ascii (c : Char) (h : c.toNat < 128) : canonicalChar c = asciiUpper c := by
  unfold canonicalChar
  rw [if_pos h]

theorem canonicalChar_ge (c : Char) (h : 128 ≤ c.toNat) : 128 ≤ (canonicalChar c).toNat := by
  unfold canonicalChar
  rw [if_neg (by omega)]
  split
  · exact h
  · split
    · split
      · exact h
      · rename_i hu
        omega
    · exact h

theorem asciiUpper_of_not_lower (c : Char) (h : ¬ (97 ≤ c.toNat ∧ c.toNat ≤ 122)) :
    asciiUpper c = c := by
  unfold asciiUpper
  rw [if_neg h]

theorem asciiUpper_toNat (c : Char) (h : 97 ≤ c.toNat ∧ c.toNat ≤ 122) :
    (asciiUpper c).toNat = c.toNat - 32 := by
  unfold asciiUpper
  rw [if_pos h]
  generalize c.toNat = k at h
  obtain ⟨h1, h2⟩ := h
  interval_cases k <;> rfl

/-- A character that is no small ASCII letter and is taken to an ASCII character
by `Canonicalize` is that character. -/
theorem canonicalChar_of_not_lower (c : Char) (hl : ¬ (97 ≤ c.toNat ∧ c.toNat ≤ 122)) (t : Char)
    (ht : t.toNat < 128) (h : canonicalChar c = t) : c = t := by
  by_cases hc : c.toNat < 128
  · rw [canonicalChar_ascii c hc, asciiUpper_of_not_lower c hl] at h
    exact h
  · have := canonicalChar_ge c (by omega)
    rw [h] at this
    omega

/-- `Canonicalize` takes no character to an ASCII character that is no capital
letter, that character apart. -/
theorem canonicalChar_eq_nonletter (c t : Char) (ht : t.toNat < 128)
    (hnl : ¬ (65 ≤ t.toNat ∧ t.toNat ≤ 90)) (h : canonicalChar c = t) : c = t := by
  by_cases hl : 97 ≤ c.toNat ∧ c.toNat ≤ 122
  · exfalso
    rw [canonicalChar_ascii c (by omega)] at h
    have := asciiUpper_toNat c hl
    rw [h] at this
    omega
  · exact canonicalChar_of_not_lower c hl t ht h

set_option maxRecDepth 4000 in
/-- Case conversion at a few strings: a capital sigma at the end of a word
becomes the final sigma, a sharp s becomes two capital letters, and `İ`
becomes `i` with a combining dot. -/
theorem case_conversion_examples :
    toLowerCase "ΟΔΟΣ ΣΟΦΟΣ".toList = "οδος σοφος".toList ∧
    toUpperCase "straße".toList = "STRASSE".toList ∧
    toLowerCase "SÍ".toList = "sí".toList ∧
    toLowerCase "İ".toList = [Char.ofNat 105, Char.ofNat 775] ∧
    canonicalChar 'ñ' = 'Ñ' ∧ canonicalChar 'ß' = 'ß' ∧
    canonicalChar (Char.ofNat 383) = Char.ofNat 383 := by
  refine ⟨by decide, by decide, by decide, by decide, by decide, by decide, by decide⟩

/-! ### The matcher -/



theorem digitsThen_isSome (k : Str → Option Nat) (s : Str) :
    (digitsThen k s).isSome = true ↔
      ∃ ds rest, s = ds ++ rest ∧ ds ≠ [] ∧ (∀ c ∈ ds, isDecimalDigit c = true) ∧
        (k rest).isSome = true := by
  induction s with
  | nil =>
    simp only [digitsThen, Option.isSome_none, Bool.false_eq_true, false_iff]
    rintro ⟨ds, rest, h, hne, -, -⟩
    cases ds with
    | nil => exact hne rfl
    | cons d ds => simp at h
  | cons c cs ih =>
    unfold digitsThen
    by_cases hc : isDecimalDigit c = true
    · simp only [hc, if_true]
      constructor
      · intro h
        cases hrec : digitsThen k cs with
        | some n =>
          obtain ⟨ds, rest, h1, -, h3, h4⟩ := ih.mp (by simp [hrec])
          exact ⟨c :: ds, rest, by simp [h1], by simp, by
            intro x hx
            rcases List.mem_cons.mp hx with rfl | hx
            · exact hc
            · exact h3 x hx, h4⟩
        | none =>
          rw [hrec] at h
          refine ⟨[c], cs, rfl, by simp, by simpa using hc, ?_⟩
          cases hk : k cs with
          | none => simp [hk] at h
          | some m => rfl
      · rintro ⟨ds, rest, h1, hne, h3, h4⟩
        cases ds with
        | nil => exact absurd rfl hne
        | cons d ds =>
          simp only [List.cons_append, List.cons.injEq] at h1
          obtain ⟨rfl, rfl⟩ := h1
          cases hrec : digitsThen k (ds ++ rest) with
          | some n => rfl
          | none =>
            have hno : ¬ (digitsThen k (ds ++ rest)).isSome = true := by simp [hrec]
            rw [ih] at hno
            cases ds with
            | nil =>
              simp only [List.nil_append]
              cases hk : k rest with
              | none => simp [hk] at h4
              | some m => rfl
            | cons e es =>
              exact absurd ⟨e :: es, rest, rfl, by simp, fun x hx => h3 x (List.mem_cons_of_mem _ hx), h4⟩ hno
    · simp only [hc, Bool.false_eq_true, if_false, Option.isSome_none, false_iff]
      rintro ⟨ds, rest, h1, hne, h3, -⟩
      cases ds with
      | nil => exact hne rfl
      | cons d ds =>
        simp only [List.cons_append, List.cons.injEq] at h1
        exact hc (h1.1 ▸ h3 d (List.mem_cons_self _ _))

theorem matchAtoms_lits (ic : Bool) (p : Str) (atoms : List Atom) (s : Str) (n : Nat) :
    matchAtoms ic (literalAtoms p ++ atoms) s = some n ↔
      ∃ x rest m, s = x ++ rest ∧ x.map (canonicalize ic) = p.map (canonicalize ic) ∧
        matchAtoms ic atoms rest = some m ∧ n = p.length + m := by
  induction p generalizing s n with
  | nil =>
    simp only [literalAtoms, List.map_nil, List.nil_append, List.map_eq_nil_iff, List.length_nil,
      Nat.zero_add]
    constructor
    · intro h; exact ⟨[], s, n, rfl, rfl, h, rfl⟩
    · rintro ⟨x, rest, m, rfl, rfl, h, rfl⟩; exact h
  | cons c p ih =>
    cases s with
    | nil =>
      simp only [literalAtoms, List.map_cons, List.cons_append, matchAtoms]
      refine ⟨fun h => by simp at h, ?_⟩
      rintro ⟨x, rest, m, h1, h2, -, -⟩
      cases x with
      | nil => simp at h2
      | cons a x => simp at h1
    | cons a s =>
      simp only [literalAtoms, List.map_cons, List.cons_append, matchAtoms]
      by_cases hc : canonicalize ic a = canonicalize ic c
      · simp only [hc, if_true, Option.map_eq_some']
        constructor
        · rintro ⟨m, hm, rfl⟩
          obtain ⟨x, rest, m', rfl, hx, hm', rfl⟩ := (ih s m).mp hm
          exact ⟨a :: x, rest, m', rfl, by simp [hc, hx], hm', by simp; omega⟩
        · rintro ⟨x, rest, m, h1, h2, h3, rfl⟩
          cases x with
          | nil => simp at h2
          | cons b x =>
            simp only [List.cons_append, List.cons.injEq] at h1
            obtain ⟨rfl, rfl⟩ := h1
            simp only [List.map_cons, List.cons.injEq] at h2
            exact ⟨p.length + m, (ih _ _).mpr ⟨x, rest, m, rfl, h2.2, h3, rfl⟩, by simp; omega⟩
      · simp only [hc, if_false]
        refine ⟨fun h => by simp at h, ?_⟩
        rintro ⟨x, rest, m, h1, h2, -, -⟩
        cases x with
        | nil => simp at h2
        | cons b x =>
          simp only [List.cons_append, List.cons.injEq] at h1
          simp only [List.map_cons, List.cons.injEq] at h2
          exact absurd (h1.1 ▸ h2.1) hc



theorem digitsThen_eq_some (k : Str → Option Nat) (s : Str) (n : Nat) :
    digitsThen k s = some n ↔
      ∃ ds rest m, s = ds ++ rest ∧ ds ≠ [] ∧ (∀ c ∈ ds, isDecimalDigit c = true) ∧
        k rest = some m ∧ n = ds.length + m ∧
        ∀ ds' rest', s = ds' ++ rest' → (∀ c ∈ ds', isDecimalDigit c = true) →
          ds.length < ds'.length → k rest' = none := by
  induction s generalizing n with
  | nil =>
    simp only [digitsThen]
    refine ⟨fun h => by simp at h, ?_⟩
    rintro ⟨ds, rest, m, h, hne, -⟩
    cases ds with
    | nil => exact absurd rfl hne
    | cons d ds => simp at h
  | cons c cs ih =>
    unfold digitsThen
    by_cases hc : isDecimalDigit c = true
    · simp only [hc, if_true]
      cases hrec : digitsThen k cs with
      | some n0 =>
        obtain ⟨ds, rest, m, h1, h2, h3, h4, h5, h6⟩ := (ih n0).mp hrec
        simp only [Option.some.injEq]
        constructor
        · rintro rfl
          refine ⟨c :: ds, rest, m, by simp [h1], by simp, ?_, h4, by simp [h5]; omega, ?_⟩
          · intro x hx
            rcases List.mem_cons.mp hx with rfl | hx
            · exact hc
            · exact h3 x hx
          · intro ds' rest' e1 e2 e3
            cases ds' with
            | nil => simp at e3
            | cons d' ds' =>
              simp only [List.cons_append, List.cons.injEq] at e1
              exact h6 ds' rest' e1.2 (fun x hx => e2 x (List.mem_cons_of_mem _ hx))
                (by simpa using e3)
        · rintro ⟨ds2, rest2, m2, g1, g2, g3, g4, g5, g6⟩
          cases ds2 with
          | nil => exact absurd rfl g2
          | cons d2 ds2 =>
            simp only [List.cons_append, List.cons.injEq] at g1
            obtain ⟨rfl, g1⟩ := g1
            -- both decompositions of cs are maximal, so they agree
            have hlen : ds.length = ds2.length := by
              rcases Nat.lt_trichotomy ds.length ds2.length with hlt | heq | hgt
              · have := h6 ds2 rest2 g1 (fun x hx => g3 x (List.mem_cons_of_mem _ hx)) hlt
                rw [this] at g4; cases g4
              · exact heq
              · have := g6 (c :: ds) rest (by simp [h1]) (by
                  intro x hx
                  rcases List.mem_cons.mp hx with rfl | hx
                  · exact hc
                  · exact h3 x hx) (by simpa using hgt)
                rw [this] at h4; cases h4
            have hds : ds = ds2 ∧ rest = rest2 := by
              have := h1.symm.trans g1
              exact List.append_inj this hlen
            obtain ⟨rfl, rfl⟩ := hds
            rw [h4] at g4
            cases g4
            simp [g5, h5]; omega
      | none =>
        simp only [Option.map_eq_some']
        have hnone : ∀ ds rest, cs = ds ++ rest → ds ≠ [] → (∀ x ∈ ds, isDecimalDigit x = true) →
            k rest = none := by
          intro ds rest e1 e2 e3
          by_contra hk
          have : (digitsThen k cs).isSome = true := by
            rw [digitsThen_isSome]
            exact ⟨ds, rest, e1, e2, e3, by
              cases hk' : k rest with
              | none => exact absurd hk' hk
              | some v => rfl⟩
          simp [hrec] at this
        constructor
        · rintro ⟨m, hm, rfl⟩
          refine ⟨[c], cs, m, rfl, by simp, by simpa using hc, hm, by simp; omega, ?_⟩
          intro ds' rest' e1 e2 e3
          cases ds' with
          | nil => simp at e3
          | cons d' ds' =>
            simp only [List.cons_append, List.cons.injEq] at e1
            cases ds' with
            | nil => simp at e3
            | cons d'' ds'' =>
              exact hnone (d'' :: ds'') rest' e1.2 (by simp)
                (fun x hx => e2 x (List.mem_cons_of_mem _ hx))
        · rintro ⟨ds2, rest2, m2, g1, g2, g3, g4, g5, -⟩
          cases ds2 with
          | nil => exact absurd rfl g2
          | cons d2 ds2 =>
            simp only [List.cons_append, List.cons.injEq] at g1
            obtain ⟨rfl, g1⟩ := g1
            cases ds2 with
            | nil =>
              simp only [List.nil_append] at g1
              subst g1
              exact ⟨m2, g4, by simp [g5]; omega⟩
            | cons d3 ds3 =>
              have := hnone (d3 :: ds3) rest2 g1 (by simp)
                (fun x hx => g3 x (List.mem_cons_of_mem _ hx))
              rw [this] at g4; cases g4
    · simp only [hc, Bool.false_eq_true, if_false]
      refine ⟨fun h => by simp at h, ?_⟩
      rintro ⟨ds, rest, m, h1, hne, h3, -⟩
      cases ds with
      | nil => exact absurd rfl hne
      | cons d ds =>
        simp only [List.cons_append, List.cons.injEq] at h1
        exact absurd (h1.1 ▸ h3 d (List.mem_cons_self _ _)) hc




theorem patternAtoms_cons_of_not_placeholder (c : Char) (cs : Str)
    (h : placeholder.isPrefixOf (c :: cs) = false) :
    patternAtoms (c :: cs) = Atom.lit c :: patternAtoms cs := by
  conv_lhs => unfold patternAtoms
  split
  · rename_i rest heq
    simp only [List.cons.injEq] at heq
    obtain ⟨rfl, rfl⟩ := heq
    simp [placeholder, List.isPrefixOf] at h
  · rename_i c' rest hne heq
    simp only [List.cons.injEq] at heq
    obtain ⟨rfl, rfl⟩ := heq
    rfl
  · rename_i heq
    simp at heq

theorem jsSplitGo_ne_nil (sep : Str) (skip : Nat) (cur str : Str) :
    jsSplitGo sep skip cur str ≠ [] := by
  induction str generalizing skip cur with
  | nil => simp [jsSplitGo]
  | cons c cs ih =>
    cases skip with
    | zero =>
      unfold jsSplitGo
      split
      · simp
      · exact ih _ _
    | succ k =>
      unfold jsSplitGo
      exact ih _ _

theorem placeholder_isPrefixOf (c : Char) (cs : Str)
    (h : placeholder.isPrefixOf (c :: cs) = true) :
    ∃ rest, c :: cs = '{' :: 'N' :: '}' :: rest := by
  have := List.isPrefixOf_iff_prefix.mp h
  obtain ⟨t, ht⟩ := this
  exact ⟨t, by rw [← ht]; rfl⟩

theorem jsSplitGo_singleton (cur str y : Str)
    (h : jsSplitGo placeholder 0 cur str = [y]) :
    y = cur ++ str ∧ patternAtoms str = literalAtoms str := by
  induction str generalizing cur with
  | nil =>
    simp only [jsSplitGo, List.cons.injEq, and_true] at h
    simp [h, patternAtoms, literalAtoms]
  | cons c cs ih =>
    unfold jsSplitGo at h
    by_cases hp : placeholder.isPrefixOf (c :: cs) = true
    · simp only [hp, if_true] at h
      obtain ⟨rest, hr⟩ := placeholder_isPrefixOf c cs hp
      simp only [List.cons.injEq] at hr
      obtain ⟨rfl, rfl⟩ := hr
      simp only [placeholder, String.toList, List.length_cons, List.length_nil, jsSplitGo,
        List.cons.injEq] at h
      exact absurd h.2 (jsSplitGo_ne_nil _ _ _ _)
    · simp only [hp, Bool.false_eq_true, if_false] at h
      obtain ⟨h1, h2⟩ := ih _ h
      refine ⟨by simp [h1], ?_⟩
      rw [patternAtoms_cons_of_not_placeholder c cs ((Bool.not_eq_true _).mp hp), h2]
      rfl

theorem jsSplitGo_pair (cur str x y : Str)
    (h : jsSplitGo placeholder 0 cur str = [x, y]) :
    ∃ x', x = cur ++ x' ∧ str = x' ++ placeholder ++ y ∧
      patternAtoms str = literalAtoms x' ++ [Atom.digits] ++ literalAtoms y := by
  induction str generalizing cur with
  | nil => simp [jsSplitGo] at h
  | cons c cs ih =>
    unfold jsSplitGo at h
    by_cases hp : placeholder.isPrefixOf (c :: cs) = true
    · simp only [hp, if_true] at h
      obtain ⟨rest, hr⟩ := placeholder_isPrefixOf c cs hp
      simp only [List.cons.injEq] at hr
      obtain ⟨rfl, rfl⟩ := hr
      simp only [placeholder, String.toList, List.length_cons, List.length_nil, jsSplitGo,
        List.cons.injEq] at h
      obtain ⟨rfl, h⟩ := h
      obtain ⟨h1, h2⟩ := jsSplitGo_singleton [] rest y h
      simp only [List.nil_append] at h1
      subst h1
      refine ⟨[], by simp, by simp [placeholder], ?_⟩
      simp [patternAtoms, h2, literalAtoms]
    · simp only [hp, Bool.false_eq_true, if_false] at h
      obtain ⟨x', h1, h2, h3⟩ := ih _ h
      refine ⟨c :: x', by simp [h1], by simp [h2], ?_⟩
      rw [patternAtoms_cons_of_not_placeholder c cs ((Bool.not_eq_true _).mp hp), h3]
      rfl

theorem jsSplit_pair (pattern pre suf : Str) (h : jsSplit placeholder pattern = [pre, suf]) :
    pattern = pre ++ placeholder ++ suf ∧
      patternAtoms pattern = literalAtoms pre ++ [Atom.digits] ++ literalAtoms suf := by
  obtain ⟨x', h1, h2, h3⟩ := jsSplitGo_pair [] pattern pre suf h
  simp only [List.nil_append] at h1
  subst h1
  exact ⟨h2, h3⟩

theorem regexTest_iff (ic : Bool) (atoms : List Atom) (key : Str) :
    regexTest ic atoms key = true ↔
      ∃ a t, key = a ++ t ∧ (matchAtoms ic atoms t).isSome = true := by
  simp only [regexTest, List.any_eq_true, List.mem_tails]
  constructor
  · rintro ⟨t, ⟨a, rfl⟩, h⟩; exact ⟨a, t, rfl, h⟩
  · rintro ⟨a, t, rfl, h⟩; exact ⟨t, ⟨a, rfl⟩, h⟩


theorem canonicalize_true : canonicalize true = canonicalChar := by
  funext c; simp [canonicalize]

theorem matchAtoms_lits_isSome (ic : Bool) (p : Str) (atoms : List Atom) (s : Str) :
    (matchAtoms ic (literalAtoms p ++ atoms) s).isSome = true ↔
      ∃ x rest, s = x ++ rest ∧ x.map (canonicalize ic) = p.map (canonicalize ic) ∧
        (matchAtoms ic atoms rest).isSome = true := by
  rw [Option.isSome_iff_exists]
  constructor
  · rintro ⟨n, hn⟩
    obtain ⟨x, rest, m, h1, h2, h3, -⟩ := (matchAtoms_lits ic p atoms s n).mp hn
    exact ⟨x, rest, h1, h2, by simp [h3]⟩
  · rintro ⟨x, rest, h1, h2, h3⟩
    obtain ⟨m, hm⟩ := Option.isSome_iff_exists.mp h3
    exact ⟨p.length + m, (matchAtoms_lits ic p atoms s _).mpr ⟨x, rest, m, h1, h2, hm, rfl⟩⟩

theorem matchAtoms_numeric_isSome (pre suf t : Str) :
    (matchAtoms true (literalAtoms pre ++ [Atom.digits] ++ literalAtoms suf) t).isSome = true ↔
      ∃ x ds y b, t = x ++ ds ++ y ++ b ∧ ciEq x pre ∧ ds ≠ [] ∧
        (∀ c ∈ ds, isDecimalDigit c = true) ∧ ciEq y suf := by
  have hd : ∀ r, matchAtoms true ([Atom.digits] ++ literalAtoms suf) r
      = digitsThen (matchAtoms true (literalAtoms suf)) r := by
    intro r; simp [matchAtoms]
  rw [List.append_assoc, matchAtoms_lits_isSome]
  simp only [hd, digitsThen_isSome]
  have hs : ∀ r, (matchAtoms true (literalAtoms suf) r).isSome = true ↔
      ∃ y b, r = y ++ b ∧ ciEq y suf := by
    intro r
    have := matchAtoms_lits_isSome true suf [] r
    rw [List.append_nil] at this
    rw [this]
    simp [matchAtoms, ciEq, canonicalize_true]
  simp only [hs, canonicalize_true]
  constructor
  · rintro ⟨x, rest, rfl, hx, ds, rest', rfl, hne, hd, y, b, rfl, hy⟩
    exact ⟨x, ds, y, b, by simp, hx, hne, hd, hy⟩
  · rintro ⟨x, ds, y, b, rfl, hx, hne, hd, hy⟩
    exact ⟨x, ds ++ (y ++ b), by simp, hx, ds, y ++ b, rfl, hne, hd, y, b, rfl, hy⟩

theorem matchAtoms_literal_isSome (pattern t : Str) :
    (matchAtoms true (literalAtoms pattern) t).isSome = true ↔
      ∃ m b, t = m ++ b ∧ ciEq m pattern := by
  have := matchAtoms_lits_isSome true pattern [] t
  rw [List.append_nil] at this
  rw [this]
  simp [matchAtoms, ciEq, canonicalize_true]

/-! ### Global replacement -/


theorem digitsThen_le (k : Str → Option Nat) (hk : ∀ s n, k s = some n → n ≤ s.length)
    (s : Str) (n : Nat) (h : digitsThen k s = some n) : n ≤ s.length := by
  induction s generalizing n with
  | nil => simp [digitsThen] at h
  | cons c cs ih =>
    unfold digitsThen at h
    split at h
    · cases hrec : digitsThen k cs with
      | some m =>
        rw [hrec] at h
        simp only [Option.some.injEq] at h
        have := ih m hrec
        simp; omega
      | none =>
        rw [hrec] at h
        simp only [Option.map_eq_some'] at h
        obtain ⟨m, hm, rfl⟩ := h
        have := hk cs m hm
        simp; omega
    · cases h

theorem anyStarThen_le (k : Str → Option Nat) (hk : ∀ s n, k s = some n → n ≤ s.length)
    (s : Str) (n : Nat) (h : anyStarThen k s = some n) : n ≤ s.length := by
  induction s generalizing n with
  | nil => exact hk [] n (by simpa [anyStarThen] using h)
  | cons c cs ih =>
    unfold anyStarThen at h
    cases hrec : anyStarThen k cs with
    | some m =>
      rw [hrec] at h
      simp only [Option.some.injEq] at h
      have := ih m hrec
      simp; omega
    | none =>
      rw [hrec] at h
      exact hk _ n h

theorem matchAtoms_le (ic : Bool) (atoms : List Atom) (s : Str) (n : Nat)
    (h : matchAtoms ic atoms s = some n) : n ≤ s.length := by
  induction atoms generalizing s n with
  | nil =>
    simp only [matchAtoms, Option.some.injEq] at h
    omega
  | cons a atoms ih =>
    cases a with
    | lit c =>
      cases s with
      | nil => simp [matchAtoms] at h
      | cons x xs =>
        simp only [matchAtoms] at h
        split at h
        · simp only [Option.map_eq_some'] at h
          obtain ⟨m, hm, rfl⟩ := h
          have := ih xs m hm
          simp; omega
        · cases h
    | digits =>
      simp only [matchAtoms] at h
      exact digitsThen_le _ (fun s n => ih s n) s n h
    | range lo hi =>
      cases s with
      | nil => simp [matchAtoms] at h
      | cons x xs =>
        simp only [matchAtoms] at h
        split at h
        · simp only [Option.map_eq_some'] at h
          obtain ⟨m, hm, rfl⟩ := h
          have := ih xs m hm
          simp; omega
        · cases h
    | anyStar =>
      simp only [matchAtoms] at h
      exact anyStarThen_le _ (fun s n => ih s n) s n h
    | eol =>
      simp only [matchAtoms] at h
      split at h
      · exact ih s n h
      · cases h

section Replace

variable (ic : Bool) (atoms : List Atom) (subst : Str → Str → Str → Str)

theorem regexReplaceAllGo_skip (skip : Nat) (before s : Str) (h : skip ≤ s.length) :
    regexReplaceAllGo ic atoms subst skip before s
      = regexReplaceAllGo ic atoms subst 0 (before ++ s.take skip) (s.drop skip) := by
  induction skip generalizing before s with
  | zero => simp
  | succ k ih =>
    cases s with
    | nil => simp at h
    | cons c cs =>
      simp only [regexReplaceAllGo, List.take_succ_cons, List.drop_succ_cons]
      rw [ih _ _ (by simpa using h)]
      simp

theorem regexReplaceAllGo_cons_none (before : Str) (c : Char) (cs : Str)
    (h : matchAtoms ic atoms (c :: cs) = none) :
    regexReplaceAllGo ic atoms subst 0 before (c :: cs)
      = c :: regexReplaceAllGo ic atoms subst 0 (before ++ [c]) cs := by
  rw [regexReplaceAllGo]
  simp only [h]

theorem regexReplaceAllGo_cons_some (before : Str) (c : Char) (cs : Str) (n : Nat)
    (h : matchAtoms ic atoms (c :: cs) = some (n + 1)) :
    regexReplaceAllGo ic atoms subst 0 before (c :: cs)
      = subst ((c :: cs).take (n + 1)) before ((c :: cs).drop (n + 1)) ++
        regexReplaceAllGo ic atoms subst n (before ++ [c]) cs := by
  rw [regexReplaceAllGo]
  simp only [h]

/-- No position of the string starts a match: the string is unchanged. -/
theorem regexReplaceAllGo_no_match (before s : Str)
    (h : ∀ a t, s = a ++ t → matchAtoms ic atoms t = none) :
    regexReplaceAllGo ic atoms subst 0 before s = s := by
  induction s generalizing before with
  | nil =>
    have := h [] [] rfl
    simp [regexReplaceAllGo, this]
  | cons c cs ih =>
    have h0 := h [] (c :: cs) rfl
    rw [regexReplaceAllGo_cons_none _ _ _ _ _ _ h0, ih]
    intro a t e
    exact h (c :: a) t (by simp [e])

/-- The first match: what precedes it is copied, the match is substituted and
the replacement goes on after the match. -/
theorem regexReplaceAllGo_first_match (before a t : Str) (n : Nat)
    (hno : ∀ a1 a2, a = a1 ++ a2 → a2 ≠ [] → matchAtoms ic atoms (a2 ++ t) = none)
    (hm : matchAtoms ic atoms t = some (n + 1)) :
    regexReplaceAllGo ic atoms subst 0 before (a ++ t)
      = a ++ subst (t.take (n + 1)) (before ++ a) (t.drop (n + 1)) ++
          regexReplaceAllGo ic atoms subst 0 (before ++ a ++ t.take (n + 1)) (t.drop (n + 1)) := by
  induction a generalizing before with
  | nil =>
    have hlen := matchAtoms_le ic atoms t (n + 1) hm
    cases t with
    | nil => simp at hlen
    | cons c cs =>
      rw [List.nil_append, regexReplaceAllGo_cons_some _ _ _ _ _ _ _ hm,
        regexReplaceAllGo_skip _ _ _ _ _ _ (by simpa using hlen)]
      simp
  | cons c cs ih =>
    have h0 := hno [] (c :: cs) rfl (by simp)
    simp only [List.cons_append] at h0
    rw [List.cons_append, regexReplaceAllGo_cons_none _ _ _ _ _ _ h0, ih]
    · simp
    · intro a1 a2 e hne
      exact hno (c :: a1) a2 (by simp [e]) hne

end Replace

/-! ### Substitution and expansion -/


theorem isDecimalDigit_digitChar (m : Nat) (h : m < 10) :
    isDecimalDigit (Nat.digitChar m) = true := by
  interval_cases m <;> decide

theorem toDigitsCore_digits (fuel n : Nat) (ds : List Char)
    (h : ∀ c ∈ ds, isDecimalDigit c = true) :
    ∀ c ∈ Nat.toDigitsCore 10 fuel n ds, isDecimalDigit c = true := by
  induction fuel generalizing n ds with
  | zero => simpa [Nat.toDigitsCore] using h
  | succ f ih =>
    have hd : ∀ c ∈ Nat.digitChar (n % 10) :: ds, isDecimalDigit c = true := by
      intro c hc
      rcases List.mem_cons.mp hc with rfl | hc
      · exact isDecimalDigit_digitChar _ (Nat.mod_lt _ (by decide))
      · exact h c hc
    simp only [Nat.toDigitsCore]
    split
    · exact hd
    · exact ih _ _ hd

theorem toDigitsCore_ne_nil (fuel n : Nat) (ds : List Char) (h : ds ≠ [] ∨ 0 < fuel) :
    Nat.toDigitsCore 10 fuel n ds ≠ [] := by
  induction fuel generalizing n ds with
  | zero =>
    rcases h with h | h
    · simpa [Nat.toDigitsCore] using h
    · omega
  | succ f ih =>
    simp only [Nat.toDigitsCore]
    split
    · simp
    · exact ih _ _ (Or.inl (by simp))

theorem natToStr_digits (n : Nat) : ∀ c ∈ natToStr n, isDecimalDigit c = true :=
  toDigitsCore_digits _ _ _ (by simp)

theorem natToStr_ne_nil (n : Nat) : natToStr n ≠ [] :=
  toDigitsCore_ne_nil _ _ _ (Or.inr (Nat.succ_pos n))

theorem getSubstitutionGo_no_dollar (matched before after : Str) (captures : List Str)
    (template : Str) (h : '$' ∉ template) :
    getSubstitutionGo matched before after captures 0 template = template := by
  induction template with
  | nil => rfl
  | cons c rest ih =>
    have hc : c ≠ '$' := fun e => h (e ▸ List.mem_cons_self _ _)
    have hr : '$' ∉ rest := fun e => h (List.mem_cons_of_mem _ e)
    simp only [getSubstitutionGo, hc, if_false, ih hr]

theorem getSubstitution_no_dollar (matched before after : Str) (captures : List Str)
    (template : Str) (h : '$' ∉ template) :
    getSubstitution matched before after captures template = template :=
  getSubstitutionGo_no_dollar _ _ _ _ _ h

theorem natToStr_no_dollar (n : Nat) : '$' ∉ natToStr n := by
  intro h
  have := natToStr_digits n _ h
  revert this
  decide

/-- The regex `\{N\}` matches exactly at the occurrences of the placeholder. -/
theorem matchAtoms_placeholder (s : Str) :
    matchAtoms false (literalAtoms placeholder) s
      = if placeholder.isPrefixOf s then some 3 else none := by
  match s with
  | [] => rfl
  | [a] =>
    by_cases h : '{' = a
    · subst h; rfl
    · simp [literalAtoms, placeholder, matchAtoms, canonicalize, h, Ne.symm h]
  | [a, b] =>
    by_cases h : '{' = a
    · subst h
      by_cases h2 : 'N' = b
      · subst h2; rfl
      · simp [literalAtoms, placeholder, matchAtoms, canonicalize, h2, Ne.symm h2]
    · simp [literalAtoms, placeholder, matchAtoms, canonicalize, h, Ne.symm h]
  | a :: b :: c :: rest =>
    by_cases h : '{' = a
    · subst h
      by_cases h2 : 'N' = b
      · subst h2
        by_cases h3 : '}' = c
        · subst h3
          simp [literalAtoms, placeholder, matchAtoms, canonicalize]
        · simp [literalAtoms, placeholder, matchAtoms, canonicalize, h3, Ne.symm h3]
      · simp [literalAtoms, placeholder, matchAtoms, canonicalize, h2, Ne.symm h2]
    · simp [literalAtoms, placeholder, matchAtoms, canonicalize, h, Ne.symm h]

theorem intercalate_cons_of_ne_nil (r x : Str) (l : List Str) (h : l ≠ []) :
    List.intercalate r (x :: l) = x ++ r ++ List.intercalate r l := by
  cases l with
  | nil => exact absurd rfl h
  | cons y l => simp [List.intercalate, List.intersperse, List.flatten]

theorem regexReplaceAllGo_placeholder (r : Str) (skip : Nat) (before cur s : Str) :
    cur ++ regexReplaceAllGo false (literalAtoms placeholder) (fun _ _ _ => r) skip before s
      = List.intercalate r (jsSplitGo placeholder skip cur s) := by
  induction s generalizing skip before cur with
  | nil =>
    have h0 : matchAtoms false (literalAtoms placeholder) [] = none := rfl
    cases skip <;> simp [regexReplaceAllGo, jsSplitGo, h0, List.intercalate]
  | cons c cs ih =>
    cases skip with
    | succ k =>
      simp only [regexReplaceAllGo, jsSplitGo]
      exact ih _ _ _
    | zero =>
      by_cases hp : placeholder.isPrefixOf (c :: cs) = true
      · have hm : matchAtoms false (literalAtoms placeholder) (c :: cs) = some (2 + 1) := by
          rw [matchAtoms_placeholder, if_pos hp]
        rw [regexReplaceAllGo_cons_some _ _ _ _ _ _ _ hm, jsSplitGo, if_pos hp,
          intercalate_cons_of_ne_nil _ _ _ (jsSplitGo_ne_nil _ _ _ _)]
        have := ih 2 (before ++ [c]) []
        simp only [List.nil_append] at this
        have h2 : placeholder.length - 1 = 2 := rfl
        rw [h2, ← this]
        simp
      · have hm : matchAtoms false (literalAtoms placeholder) (c :: cs) = none := by
          rw [matchAtoms_placeholder, if_neg hp]
        rw [regexReplaceAllGo_cons_none _ _ _ _ _ _ hm, jsSplitGo, if_neg hp, ← ih 0 (before ++ [c])]
        simp

/-- The expansion replaces every occurrence of the placeholder: it is the
parts of the key around its placeholders, joined by the decimal string. -/
theorem expandDomainKey_eq_intercalate (key : Str) (id : Nat) :
    expandDomainKey key id = List.intercalate (natToStr id) (jsSplit placeholder key) := by
  have hs : (fun matched before after : Str =>
      getSubstitution matched before after [] (natToStr id)) = fun _ _ _ => natToStr id := by
    funext m b a
    exact getSubstitution_no_dollar _ _ _ _ _ (natToStr_no_dollar id)
  unfold expandDomainKey regexReplaceAll jsSplit
  rw [hs, ← regexReplaceAllGo_placeholder (natToStr id) 0 [] [] key]
  simp



theorem regexReplaceAllGo_nil (ic : Bool) (atoms : List Atom) (subst : Str → Str → Str → Str)
    (skip : Nat) (before : Str) (h : matchAtoms ic atoms [] = none) :
    regexReplaceAllGo ic atoms subst skip before [] = [] := by
  cases skip <;> (rw [regexReplaceAllGo]; simp only [h])

theorem prefix_of_replace_placeholder (r : Str) (hr : r ≠ [])
    (hrd : ∀ c ∈ r, isDecimalDigit c = true) (w before s : Str)
    (hw : ∀ c ∈ w, isDecimalDigit c = false)
    (h : w <+: regexReplaceAllGo false (literalAtoms placeholder) (fun _ _ _ => r) 0 before s) :
    w <+: s := by
  induction s generalizing w before with
  | nil =>
    rw [regexReplaceAllGo_nil false (literalAtoms placeholder) _ _ _ rfl] at h
    exact h
  | cons c cs ih =>
    cases w with
    | nil => exact List.nil_prefix
    | cons x w =>
      by_cases hp : placeholder.isPrefixOf (c :: cs) = true
      · have hm : matchAtoms false (literalAtoms placeholder) (c :: cs) = some (2 + 1) := by
          rw [matchAtoms_placeholder, if_pos hp]
        rw [regexReplaceAllGo_cons_some _ _ _ _ _ _ _ hm] at h
        cases r with
        | nil => exact absurd rfl hr
        | cons d r =>
          rw [List.cons_append, List.cons_prefix_cons] at h
          have h1 := hw x (List.mem_cons_self _ _)
          have h2 := hrd d (List.mem_cons_self _ _)
          rw [h.1, h2] at h1
          cases h1
      · have hm : matchAtoms false (literalAtoms placeholder) (c :: cs) = none := by
          rw [matchAtoms_placeholder, if_neg hp]
        rw [regexReplaceAllGo_cons_none _ _ _ _ _ _ hm, List.cons_prefix_cons] at h
        rw [List.cons_prefix_cons]
        exact ⟨h.1, ih _ _ (fun c hc => hw c (List.mem_cons_of_mem _ hc)) h.2⟩

theorem infix_of_digits_append (r w X : Str) (hrd : ∀ c ∈ r, isDecimalDigit c = true)
    (hw : ∀ c ∈ w, isDecimalDigit c = false) (hne : w ≠ []) (h : w <:+: r ++ X) :
    w <:+: X := by
  induction r with
  | nil => simpa using h
  | cons d r ih =>
    rw [List.cons_append, List.infix_cons_iff] at h
    rcases h with h | h
    · cases w with
      | nil => exact absurd rfl hne
      | cons x w =>
        rw [List.cons_prefix_cons] at h
        have h1 := hw x (List.mem_cons_self _ _)
        have h2 := hrd d (List.mem_cons_self _ _)
        rw [h.1, h2] at h1
        cases h1
    · exact ih (fun c hc => hrd c (List.mem_cons_of_mem _ hc)) h

theorem placeholder_not_digit : ∀ c ∈ placeholder, isDecimalDigit c = false := by decide

theorem no_placeholder_in_replace (r : Str) (hr : r ≠ [])
    (hrd : ∀ c ∈ r, isDecimalDigit c = true) (skip : Nat) (before s : Str) :
    ¬ placeholder <:+:
      regexReplaceAllGo false (literalAtoms placeholder) (fun _ _ _ => r) skip before s := by
  induction s generalizing skip before with
  | nil =>
    rw [regexReplaceAllGo_nil false (literalAtoms placeholder) _ _ _ rfl]
    simp [placeholder]
  | cons c cs ih =>
    cases skip with
    | succ k =>
      simp only [regexReplaceAllGo]
      exact ih _ _
    | zero =>
      by_cases hp : placeholder.isPrefixOf (c :: cs) = true
      · have hm : matchAtoms false (literalAtoms placeholder) (c :: cs) = some (2 + 1) := by
          rw [matchAtoms_placeholder, if_pos hp]
        rw [regexReplaceAllGo_cons_some _ _ _ _ _ _ _ hm]
        intro h
        exact ih _ _ (infix_of_digits_append r _ _ hrd placeholder_not_digit (by decide) h)
      · have hm : matchAtoms false (literalAtoms placeholder) (c :: cs) = none := by
          rw [matchAtoms_placeholder, if_neg hp]
        intro h
        have h' := h
        rw [regexReplaceAllGo_cons_none _ _ _ _ _ _ hm, List.infix_cons_iff] at h'
        rcases h' with h' | h'
        · rw [← regexReplaceAllGo_cons_none _ _ _ _ _ _ hm] at h'
          have := prefix_of_replace_placeholder r hr hrd _ _ _ placeholder_not_digit h'
          exact hp (List.isPrefixOf_iff_prefix.mpr this)
        · exact ih _ _ h'

/-- The expanded key contains no placeholder. -/
theorem expandDomainKey_no_placeholder (key : Str) (id : Nat) :
    ¬ placeholder <:+: expandDomainKey key id := by
  have hs : (fun matched before after : Str =>
      getSubstitution matched before after [] (natToStr id)) = fun _ _ _ => natToStr id := by
    funext m b a
    exact getSubstitution_no_dollar _ _ _ _ _ (natToStr_no_dollar id)
  unfold expandDomainKey regexReplaceAll
  rw [hs]
  exact no_placeholder_in_replace _ (natToStr_ne_nil id) (natToStr_digits id) _ _ _



theorem ciEq_length {a b : Str} (h : ciEq a b) : a.length = b.length := by
  have := congrArg List.length h
  simpa using this

theorem matchAtoms_suffix_eq_some (suf r : Str) (m : Nat) :
    matchAtoms true (literalAtoms suf) r = some m ↔
      (∃ y b, r = y ++ b ∧ ciEq y suf) ∧ m = suf.length := by
  have := matchAtoms_lits true suf [] r m
  rw [List.append_nil] at this
  rw [this]
  simp only [matchAtoms, Option.some.injEq, canonicalize_true, ciEq]
  constructor
  · rintro ⟨x, rest, m', rfl, h1, rfl, rfl⟩
    exact ⟨⟨x, rest, rfl, h1⟩, by simp⟩
  · rintro ⟨⟨y, b, rfl, h1⟩, rfl⟩
    exact ⟨y, b, 0, rfl, h1, rfl, by simp⟩

theorem matchAtoms_suffix_eq_none (suf r : Str) :
    matchAtoms true (literalAtoms suf) r = none ↔ ¬ ∃ y b, r = y ++ b ∧ ciEq y suf := by
  constructor
  · intro h hex
    have := (matchAtoms_suffix_eq_some suf r suf.length).mpr ⟨hex, rfl⟩
    rw [h] at this
    cases this
  · intro h
    cases hm : matchAtoms true (literalAtoms suf) r with
    | none => rfl
    | some m => exact absurd ((matchAtoms_suffix_eq_some suf r m).mp hm).1 h

/-- The matcher of `prefix(\d+)suffix` finds the numeric occurrence starting
here with the longest run of digits. -/
theorem matchAtoms_numeric_eq_some (pre suf t : Str) (n : Nat) :
    matchAtoms true (literalAtoms pre ++ [Atom.digits] ++ literalAtoms suf) t = some n ↔
      ∃ x ds y b, t = x ++ ds ++ y ++ b ∧ ciEq x pre ∧ ds ≠ [] ∧
        (∀ c ∈ ds, isDecimalDigit c = true) ∧ ciEq y suf ∧
        n = x.length + ds.length + y.length ∧
        ∀ ds' y' b', ds ++ y ++ b = ds' ++ y' ++ b' → (∀ c ∈ ds', isDecimalDigit c = true) →
          ciEq y' suf → ds'.length ≤ ds.length := by
  have hd : ∀ r, matchAtoms true ([Atom.digits] ++ literalAtoms suf) r
      = digitsThen (matchAtoms true (literalAtoms suf)) r := by
    intro r; simp [matchAtoms]
  rw [List.append_assoc, matchAtoms_lits]
  simp only [hd, digitsThen_eq_some, matchAtoms_suffix_eq_some, matchAtoms_suffix_eq_none,
    canonicalize_true]
  constructor
  · rintro ⟨x, rest, m, rfl, hx, ⟨ds, rest', m', rfl, hne, hds, ⟨⟨y, b, rfl, hy⟩, rfl⟩, rfl, hg⟩, rfl⟩
    refine ⟨x, ds, y, b, by simp, hx, hne, hds, hy, ?_, ?_⟩
    · have h1 := ciEq_length hx
      have h2 := ciEq_length hy
      omega
    · intro ds' y' b' e hd' hy'
      by_contra hlt
      exact hg ds' (y' ++ b') (by simpa using e) hd' (by omega) ⟨y', b', rfl, hy'⟩
  · rintro ⟨x, ds, y, b, rfl, hx, hne, hds, hy, rfl, hg⟩
    refine ⟨x, ds ++ y ++ b, ds.length + suf.length, by simp, hx,
      ⟨ds, y ++ b, suf.length, by simp, hne, hds, ⟨⟨y, b, rfl, hy⟩, rfl⟩, rfl, ?_⟩, ?_⟩
    · rintro ds' rest' e hd' hlt ⟨y', b', rfl, hy'⟩
      have := hg ds' y' b' (by simpa using e) hd' hy'
      omega
    · have h1 := ciEq_length hx
      have h2 := ciEq_length hy
      omega

/-! ### `convertToDomainTemplate` -/


theorem regexReplaceAllGo_before (ic : Bool) (atoms : List Atom) (r : Str) (skip : Nat)
    (before before' s : Str) :
    regexReplaceAllGo ic atoms (fun _ _ _ => r) skip before s
      = regexReplaceAllGo ic atoms (fun _ _ _ => r) skip before' s := by
  induction s generalizing skip before before' with
  | nil => cases skip <;> simp [regexReplaceAllGo]
  | cons c cs ih =>
    cases skip with
    | succ k =>
      simp only [regexReplaceAllGo]
      exact ih _ _ _
    | zero =>
      rw [regexReplaceAllGo, regexReplaceAllGo]
      rw [ih 0 (before ++ [c]) (before' ++ [c])]
      cases matchAtoms ic atoms (c :: cs) with
      | none => rfl
      | some n =>
        cases n with
        | zero => rfl
        | succ n => simp only; rw [ih n (before ++ [c]) (before' ++ [c])]

theorem isEmpty_eq_false_of_ne_nil {s : Str} (h : s ≠ []) : s.isEmpty = false := by
  cases s with
  | nil => exact absurd rfl h
  | cons _ _ => rfl

/-- The numeric regex never matches the empty string. -/
theorem matchAtoms_numeric_nil (pre suf : Str) :
    matchAtoms true (literalAtoms pre ++ [Atom.digits] ++ literalAtoms suf) [] = none := by
  cases h : matchAtoms true (literalAtoms pre ++ [Atom.digits] ++ literalAtoms suf) [] with
  | none => rfl
  | some n =>
    obtain ⟨x, ds, y, b, e, -, hne, -⟩ := (matchAtoms_numeric_eq_some pre suf [] n).mp h
    have := congrArg List.length e
    cases ds with
    | nil => exact absurd rfl hne
    | cons d ds => simp at this; omega

/-- With a pattern that splits into two parts and holds no `$`, templating is
the global replacement of the numeric regex by the pattern text. -/
theorem convertToDomainTemplate_eq (key pattern pre suf : Str)
    (hsplit : jsSplit placeholder pattern = [pre, suf]) (hd : '$' ∉ pattern) :
    convertToDomainTemplate key pattern
      = regexReplaceAllGo true (literalAtoms pre ++ [Atom.digits] ++ literalAtoms suf)
          (fun _ _ _ => pattern) 0 [] key := by
  obtain ⟨hpat, -⟩ := jsSplit_pair pattern pre suf hsplit
  have hpne : pattern ≠ [] := by rw [hpat]; simp [placeholder]
  have hs : (fun matched before after : Str =>
      getSubstitution matched before after
        [(matched.drop pre.length).take (matched.length - pre.length - suf.length)]
        (pre ++ placeholder ++ suf)) = fun _ _ _ => pattern := by
    funext m b a
    rw [← hpat]
    exact getSubstitution_no_dollar _ _ _ _ _ hd
  cases key with
  | nil =>
    rw [regexReplaceAllGo_nil _ _ _ _ _ (matchAtoms_numeric_nil pre suf)]
    simp [convertToDomainTemplate]
  | cons c cs =>
    simp only [convertToDomainTemplate, isEmpty_eq_false_of_ne_nil hpne, List.isEmpty_cons,
      Bool.or_self, Bool.false_eq_true, if_false, hsplit, regexReplaceAll, hs]

theorem numericOccurrence_ne_nil {pre suf m : Str} (h : NumericOccurrence pre suf m) : m ≠ [] := by
  obtain ⟨x, ds, y, rfl, -, hne, -⟩ := h
  cases ds with
  | nil => exact absurd rfl hne
  | cons d ds => simp

theorem matchAtoms_numeric_eq_none (pre suf t : Str) :
    matchAtoms true (literalAtoms pre ++ [Atom.digits] ++ literalAtoms suf) t = none ↔
      ¬ ∃ m b, t = m ++ b ∧ NumericOccurrence pre suf m := by
  rw [← Option.not_isSome_iff_eq_none, matchAtoms_numeric_isSome]
  constructor
  · rintro h ⟨m, b, rfl, x, ds, y, rfl, h1⟩
    exact h ⟨x, ds, y, b, rfl, h1⟩
  · rintro h ⟨x, ds, y, b, rfl, h1⟩
    exact h ⟨x ++ ds ++ y, b, rfl, x, ds, y, rfl, h1⟩

/-- Templating a key without numeric occurrence leaves it unchanged. -/
theorem convertToDomainTemplate_no_occurrence (key pattern pre suf : Str)
    (hsplit : jsSplit placeholder pattern = [pre, suf]) (hd : '$' ∉ pattern)
    (hno : ∀ a m b, key = a ++ m ++ b → ¬ NumericOccurrence pre suf m) :
    convertToDomainTemplate key pattern = key := by
  rw [convertToDomainTemplate_eq key pattern pre suf hsplit hd]
  apply regexReplaceAllGo_no_match
  intro a t e
  rw [matchAtoms_numeric_eq_none]
  rintro ⟨m, b, rfl, hm⟩
  exact hno a m b (by simp [e]) hm

/-- Templating at the first numeric occurrence, the longest one starting there:
the text before it is kept, the occurrence becomes the pattern text and
templating goes on after it. -/
theorem convertToDomainTemplate_first_occurrence (key pattern pre suf a m b : Str)
    (hsplit : jsSplit placeholder pattern = [pre, suf]) (hd : '$' ∉ pattern)
    (hkey : key = a ++ m ++ b) (hm : NumericOccurrence pre suf m)
    (hfirst : ∀ a' m' b', key = a' ++ m' ++ b' → NumericOccurrence pre suf m' →
      a.length ≤ a'.length)
    (hlong : ∀ m' b', m ++ b = m' ++ b' → NumericOccurrence pre suf m' → m'.length ≤ m.length) :
    convertToDomainTemplate key pattern = a ++ pattern ++ convertToDomainTemplate b pattern := by
  rw [convertToDomainTemplate_eq key pattern pre suf hsplit hd,
    convertToDomainTemplate_eq b pattern pre suf hsplit hd]
  have hmne := numericOccurrence_ne_nil hm
  obtain ⟨n, hn⟩ : ∃ n, m.length = n + 1 := by
    cases m with
    | nil => exact absurd rfl hmne
    | cons c cs => exact ⟨cs.length, rfl⟩
  have hmatch : matchAtoms true (literalAtoms pre ++ [Atom.digits] ++ literalAtoms suf) (m ++ b)
      = some (n + 1) := by
    obtain ⟨x, ds, y, rfl, hx, hne, hds, hy⟩ := hm
    rw [matchAtoms_numeric_eq_some]
    refine ⟨x, ds, y, b, rfl, hx, hne, hds, hy, by simpa [Nat.add_assoc] using hn.symm, ?_⟩
    intro ds' y' b' e hds' hy'
    have hne' : ds' ≠ [] ∨ ds' = [] := by tauto
    rcases hne' with hne' | rfl
    · have := hlong (x ++ ds' ++ y') b' (by simp [← e]) ⟨x, ds', y', rfl, hx, hne', hds', hy'⟩
      have h1 := ciEq_length hy
      have h2 := ciEq_length hy'
      simp at this
      omega
    · simp
  have hno : ∀ a1 a2, a = a1 ++ a2 → a2 ≠ [] →
      matchAtoms true (literalAtoms pre ++ [Atom.digits] ++ literalAtoms suf) (a2 ++ (m ++ b))
        = none := by
    intro a1 a2 e hne
    rw [matchAtoms_numeric_eq_none]
    rintro ⟨m', b', e', hm'⟩
    have := hfirst a1 m' b' (by rw [hkey, e, List.append_assoc, List.append_assoc, e']; simp) hm'
    have hlen : 0 < a2.length := List.length_pos.mpr hne
    have hl : a.length = a1.length + a2.length := by rw [e]; simp
    omega
  have hk2 : key = a ++ (m ++ b) := by rw [hkey, List.append_assoc]
  rw [hk2, regexReplaceAllGo_first_match _ _ _ _ _ _ _ hno hmatch]
  have ht : (m ++ b).take (n + 1) = m := by rw [← hn]; simp
  have hdr : (m ++ b).drop (n + 1) = b := by rw [← hn]; simp
  rw [ht, hdr, regexReplaceAllGo_before _ _ _ _ _ []]



theorem isDecimalDigit_canonicalChar (c : Char) :
    isDecimalDigit (canonicalChar c) = isDecimalDigit c := by
  by_cases hc : c.toNat < 128
  · rw [canonicalChar_ascii c hc]
    unfold asciiUpper
    split
    · rename_i h
      have h1 : isDecimalDigit c = false := by
        simp only [isDecimalDigit, Bool.and_eq_false_imp, decide_eq_true_eq,
          decide_eq_false_iff_not]
        omega
      rw [h1]
      generalize c.toNat = k at h
      obtain ⟨h2, h3⟩ := h
      interval_cases k <;> decide
    · rfl
  · have h1 := canonicalChar_ge c (by omega)
    have h2 : isDecimalDigit c = false := by
      simp only [isDecimalDigit, Bool.and_eq_false_imp, decide_eq_true_eq,
        decide_eq_false_iff_not]
      omega
    have h3 : isDecimalDigit (canonicalChar c) = false := by
      simp only [isDecimalDigit, Bool.and_eq_false_imp, decide_eq_true_eq,
        decide_eq_false_iff_not]
      omega
    rw [h2, h3]

/-- Number of decimal digits of a string. -/
theorem countP_digit_of_ciEq {x y : Str} (h : ciEq x y) :
    x.countP isDecimalDigit = y.countP isDecimalDigit := by
  have hx : ∀ s : Str, (s.map canonicalChar).countP isDecimalDigit = s.countP isDecimalDigit := by
    intro s
    induction s with
    | nil => rfl
    | cons c cs ih =>
      simp only [List.map_cons, List.countP_cons, isDecimalDigit_canonicalChar] at ih ⊢
      rw [ih]
  rw [← hx x, ← hx y, h]

theorem countP_digit_eq_length {ds : Str} (h : ∀ c ∈ ds, isDecimalDigit c = true) :
    ds.countP isDecimalDigit = ds.length :=
  List.countP_eq_length.mpr h

theorem countP_digit_eq_zero {s : Str} (h : ∀ c ∈ s, isDecimalDigit c = false) :
    s.countP isDecimalDigit = 0 :=
  List.countP_eq_zero.mpr (fun c hc => by simp [h c hc])

theorem ciEq_refl (s : Str) : ciEq s s := rfl

/-- A key without decimal digit holds no numeric occurrence. -/
theorem no_occurrence_of_no_digit (pre suf key : Str)
    (h : ∀ c ∈ key, isDecimalDigit c = false) :
    ∀ a m b, key = a ++ m ++ b → ¬ NumericOccurrence pre suf m := by
  rintro a m b rfl ⟨x, ds, y, rfl, -, hne, hds, -⟩
  cases ds with
  | nil => exact absurd rfl hne
  | cons d ds =>
    have h1 := h d (by simp)
    have h2 := hds d (List.mem_cons_self _ _)
    rw [h1] at h2
    cases h2

/-- The longest-match property of the matcher, for a found match. -/
theorem matchAtoms_numeric_longest (pre suf t : Str) (n : Nat)
    (h : matchAtoms true (literalAtoms pre ++ [Atom.digits] ++ literalAtoms suf) t = some n) :
    ∀ m' b', t = m' ++ b' → NumericOccurrence pre suf m' → m'.length ≤ n := by
  obtain ⟨x, ds, y, b, rfl, hx, hne, hds, hy, rfl, hg⟩ := (matchAtoms_numeric_eq_some pre suf t n).mp h
  rintro m' b' e ⟨x', ds', y', rfl, hx', hne', hds', hy'⟩
  have hlx : x'.length = x.length := (ciEq_length hx').trans (ciEq_length hx).symm
  have e2 : x ++ (ds ++ y ++ b) = x' ++ (ds' ++ y' ++ b') := by simpa using e
  obtain ⟨rfl, e3⟩ := List.append_inj e2 hlx.symm
  have := hg ds' y' b' e3 hds' hy'
  have h1 := ciEq_length hy
  have h2 := ciEq_length hy'
  simp
  omega

/-! ### The leftmost match -/

/-- Among the positions of a string that start a match there is a leftmost
one. -/
theorem exists_leftmost_match (M : Str → Option Nat) (s : Str)
    (h : ∃ a t, s = a ++ t ∧ (M t).isSome = true) :
    ∃ a t, s = a ++ t ∧ (M t).isSome = true ∧
      ∀ a1 a2, a = a1 ++ a2 → a2 ≠ [] → M (a2 ++ t) = none := by
  induction s with
  | nil =>
    obtain ⟨a, t, e, ht⟩ := h
    obtain ⟨rfl, rfl⟩ := List.append_eq_nil.mp e.symm
    exact ⟨[], [], rfl, ht, fun a1 a2 e2 hne => absurd (List.append_eq_nil.mp e2.symm).2 hne⟩
  | cons c cs ih =>
    by_cases h0 : (M (c :: cs)).isSome = true
    · exact ⟨[], c :: cs, rfl, h0,
        fun a1 a2 e2 hne => absurd (List.append_eq_nil.mp e2.symm).2 hne⟩
    · obtain ⟨a, t, e, ht⟩ := h
      cases a with
      | nil =>
        rw [List.nil_append] at e
        rw [← e] at ht
        exact absurd ht h0
      | cons x a =>
        rw [List.cons_append, List.cons.injEq] at e
        obtain ⟨rfl, rfl⟩ := e
        obtain ⟨a', t', e', ht', hno⟩ := ih ⟨a, t, rfl, ht⟩
        refine ⟨c :: a', t', by rw [e']; rfl, ht', ?_⟩
        intro a1 a2 e2 hne
        cases a1 with
        | nil =>
          rw [List.nil_append] at e2
          rw [← e2, List.cons_append, ← e']
          simpa using h0
        | cons y a1 =>
          rw [List.cons_append, List.cons.injEq] at e2
          exact hno a1 a2 e2.2 hne

/-- A key with a numeric occurrence of the pattern is rewritten to a key that
holds the pattern itself. -/
theorem convertToDomainTemplate_holds_pattern (key pattern pre suf : Str)
    (hsplit : jsSplit placeholder pattern = [pre, suf]) (hd : '$' ∉ pattern)
    (h : regexTest true (literalAtoms pre ++ [Atom.digits] ++ literalAtoms suf) key = true) :
    ∃ a rest, convertToDomainTemplate key pattern = a ++ pattern ++ rest := by
  rw [regexTest_iff] at h
  obtain ⟨a, t, hkey, ht, hno⟩ := exists_leftmost_match _ key h
  obtain ⟨n, hn⟩ := Option.isSome_iff_exists.mp ht
  have hpos : ∃ k, n = k + 1 := by
    obtain ⟨x, ds, y, b, -, -, hne, -, -, rfl, -⟩ :=
      (matchAtoms_numeric_eq_some pre suf t n).mp hn
    have : 0 < ds.length := List.length_pos.mpr hne
    exact ⟨x.length + ds.length + y.length - 1, by omega⟩
  obtain ⟨k, rfl⟩ := hpos
  rw [convertToDomainTemplate_eq key pattern pre suf hsplit hd, hkey,
    regexReplaceAllGo_first_match true _ (fun _ _ _ => pattern) [] a t k hno hn]
  exact ⟨a, _, rfl⟩

/-! ### The pattern `domain{N}`: templating twice -/

/-- A numeric occurrence of `domain{N}` at the start of a text: six characters
that read `domain` in any letter case, then a decimal digit. -/
theorem matchAtoms_domain_isSome (t : Str) :
    (matchAtoms true (literalAtoms "domain".toList ++ [Atom.digits] ++ literalAtoms []) t).isSome
        = true ↔
      ∃ x d r, t = x ++ d :: r ∧ ciEq x "domain".toList ∧ isDecimalDigit d = true := by
  rw [matchAtoms_numeric_isSome]
  constructor
  · rintro ⟨x, ds, y, b, rfl, hx, hne, hds, -⟩
    cases ds with
    | nil => exact absurd rfl hne
    | cons d ds =>
      exact ⟨x, d, ds ++ y ++ b, by simp, hx, hds d (List.mem_cons_self _ _)⟩
  · rintro ⟨x, d, r, rfl, hx, hd⟩
    refine ⟨x, [d], [], r, by simp, hx, by simp, ?_, rfl⟩
    intro c hc
    rw [List.mem_singleton] at hc
    rw [hc]
    exact hd

theorem matchAtoms_domain_seventh (t : Str)
    (h : (matchAtoms true (literalAtoms "domain".toList ++ [Atom.digits] ++ literalAtoms []) t).isSome
      = true) : ∃ d, t[6]? = some d ∧ isDecimalDigit d = true := by
  obtain ⟨x, d, r, rfl, hx, hd⟩ := (matchAtoms_domain_isSome t).mp h
  have hl : x.length = 6 := ciEq_length hx
  refine ⟨d, ?_, hd⟩
  rw [List.getElem?_append_right (by omega), hl]
  simp

theorem matchAtoms_domain_head (t : Str)
    (h : (matchAtoms true (literalAtoms "domain".toList ++ [Atom.digits] ++ literalAtoms []) t).isSome
      = true) : ∃ c r, t = c :: r ∧ canonicalChar c = 'D' := by
  obtain ⟨x, d, r, rfl, hx, -⟩ := (matchAtoms_domain_isSome t).mp h
  cases x with
  | nil => exact absurd (ciEq_length hx) (by decide)
  | cons c x =>
    refine ⟨c, x ++ d :: r, rfl, ?_⟩
    unfold ciEq at hx
    have := congrArg List.head? hx
    simpa using this

theorem matchAtoms_domain_congr (t t' : Str) (ht : t.take 7 = t'.take 7)
    (h : (matchAtoms true (literalAtoms "domain".toList ++ [Atom.digits] ++ literalAtoms []) t).isSome
      = true) :
    (matchAtoms true (literalAtoms "domain".toList ++ [Atom.digits] ++ literalAtoms []) t').isSome
      = true := by
  obtain ⟨x, d, r, rfl, hx, hd⟩ := (matchAtoms_domain_isSome t).mp h
  have hl : x.length = 6 := ciEq_length hx
  rw [matchAtoms_domain_isSome]
  refine ⟨x, d, t'.drop 7, ?_, hx, hd⟩
  have h7 : (x ++ d :: r).take 7 = x ++ [d] := by
    rw [List.take_append_eq_append_take, List.take_of_length_le (by omega), hl]
    rfl
  rw [h7] at ht
  conv_lhs => rw [← List.take_append_drop 7 t', ← ht]
  simp

theorem isSome_eq_false_iff_none {o : Option Nat} : ¬ (o.isSome = true) ↔ o = none := by
  cases o <;> simp

/-- The text that `convertToDomainTemplate` produces for the pattern
`domain{N}` holds no numeric occurrence of the pattern. -/
theorem replace_domain_no_occurrence (n : Nat) :
    ∀ s : Str, s.length ≤ n → ∀ u : Str,
      (∀ u1 u2, u = u1 ++ u2 → u2 ≠ [] →
        matchAtoms true (literalAtoms "domain".toList ++ [Atom.digits] ++ literalAtoms [])
          (u2 ++ s) = none) →
      ∀ v1 v2,
        u ++ regexReplaceAllGo true
            (literalAtoms "domain".toList ++ [Atom.digits] ++ literalAtoms [])
            (fun _ _ _ => "domain{N}".toList) 0 [] s = v1 ++ v2 →
        matchAtoms true (literalAtoms "domain".toList ++ [Atom.digits] ++ literalAtoms []) v2
          = none := by
  induction n with
  | zero =>
    intro s hs u hu v1 v2 e
    have hs0 : s = [] := List.length_eq_zero.mp (Nat.le_zero.mp hs)
    subst hs0
    rw [regexReplaceAllGo_nil _ _ _ _ _ (matchAtoms_numeric_nil _ _), List.append_nil] at e
    cases v2 with
    | nil => exact matchAtoms_numeric_nil _ _
    | cons y v2 =>
      have := hu v1 (y :: v2) e (List.cons_ne_nil _ _)
      simpa using this
  | succ n ih =>
    intro s hs u hu v1 v2 e
    cases s with
    | nil =>
      rw [regexReplaceAllGo_nil _ _ _ _ _ (matchAtoms_numeric_nil _ _), List.append_nil] at e
      cases v2 with
      | nil => exact matchAtoms_numeric_nil _ _
      | cons y v2 =>
        have := hu v1 (y :: v2) e (List.cons_ne_nil _ _)
        simpa using this
    | cons c cs =>
      have hcs : cs.length ≤ n := by simpa using hs
      cases hm : matchAtoms true
          (literalAtoms "domain".toList ++ [Atom.digits] ++ literalAtoms []) (c :: cs) with
      | none =>
        rw [regexReplaceAllGo_cons_none true _ _ [] c cs hm,
          regexReplaceAllGo_before true _ _ 0 ([] ++ [c]) [] cs] at e
        refine ih cs hcs (u ++ [c]) ?_ v1 v2 (by rw [← e]; simp)
        intro u1 u2 e2 hne
        rcases List.eq_nil_or_concat u2 with rfl | ⟨u2', c', rfl⟩
        · exact absurd rfl hne
        · rw [List.concat_eq_append] at e2 hne ⊢
          rw [← List.append_assoc] at e2
          have hc := List.append_inj_right' e2 rfl
          have hu' := List.append_inj_left' e2 rfl
          rw [List.singleton_inj] at hc
          subst hc
          cases u2' with
          | nil => simpa using hm
          | cons z u2' =>
            have := hu u1 (z :: u2') hu' (List.cons_ne_nil _ _)
            simpa using this
      | some k =>
        have hk : ∃ j, k = j + 1 := by
          obtain ⟨x, ds, y, b, -, -, hne, -, -, rfl, -⟩ :=
            (matchAtoms_numeric_eq_some _ _ _ _).mp hm
          have : 0 < ds.length := List.length_pos.mpr hne
          exact ⟨x.length + ds.length + y.length - 1, by omega⟩
        obtain ⟨j, rfl⟩ := hk
        have hle := matchAtoms_le _ _ _ _ hm
        have hj : j ≤ cs.length := by simpa using hle
        rw [regexReplaceAllGo_cons_some true _ _ [] c cs j hm,
          regexReplaceAllGo_skip true _ _ j _ cs hj,
          regexReplaceAllGo_before true _ _ 0 _ [] (cs.drop j)] at e
        have hb : (cs.drop j).length ≤ n := by
          rw [List.length_drop]; omega
        have hrest : ∀ w1 w2,
            regexReplaceAllGo true
              (literalAtoms "domain".toList ++ [Atom.digits] ++ literalAtoms [])
              (fun _ _ _ => "domain{N}".toList) 0 [] (cs.drop j) = w1 ++ w2 →
            matchAtoms true (literalAtoms "domain".toList ++ [Atom.digits] ++ literalAtoms []) w2
              = none := by
          intro w1 w2 ew
          exact ih (cs.drop j) hb [] (fun u1 u2 e2 hne =>
            absurd (List.append_eq_nil.mp e2.symm).2 hne) w1 w2 (by simpa using ew)
        generalize regexReplaceAllGo true
          (literalAtoms "domain".toList ++ [Atom.digits] ++ literalAtoms [])
          (fun _ _ _ => "domain{N}".toList) 0 [] (cs.drop j) = G at e hrest
        have hwhole : ∀ z : Str, matchAtoms true
            (literalAtoms "domain".toList ++ [Atom.digits] ++ literalAtoms [])
            ("domain{N}".toList ++ z) = none := by
          intro z
          rw [← isSome_eq_false_iff_none]
          intro h
          obtain ⟨d, hd, hdig⟩ := matchAtoms_domain_seventh _ h
          have : ("domain{N}".toList ++ z)[6]? = some '{' := rfl
          rw [this, Option.some.injEq] at hd
          subst hd
          exact absurd hdig (by decide)
        rcases List.append_eq_append_iff.mp e with ⟨a', rfl, e1⟩ | ⟨c', rfl, rfl⟩
        · rcases List.append_eq_append_iff.mp e1 with ⟨a'', rfl, e2⟩ | ⟨c'', e3, rfl⟩
          · exact hrest a'' v2 e2
          · cases a' with
            | nil =>
              rw [List.nil_append] at e3
              rw [← e3]
              exact hwhole G
            | cons a0 a' =>
              cases c'' with
              | nil => exact hrest [] G rfl
              | cons ch c'' =>
                rw [← isSome_eq_false_iff_none]
                intro h
                obtain ⟨ch', r, er, hD⟩ := matchAtoms_domain_head _ h
                rw [List.cons_append, List.cons.injEq] at er
                obtain ⟨rfl, -⟩ := er
                have hmem : ch ∈ "omain{N}".toList := by
                  have : "domain{N}".toList = 'd' :: "omain{N}".toList := rfl
                  rw [this, List.cons_append, List.cons.injEq] at e3
                  rw [e3.2]
                  simp
                have hall : ∀ x ∈ "omain{N}".toList, canonicalChar x ≠ 'D' := by decide
                exact hall ch hmem hD
        · cases c' with
          | nil => exact hwhole G
          | cons z c' =>
            have hnone := hu v1 (z :: c') rfl (List.cons_ne_nil _ _)
            rw [← isSome_eq_false_iff_none] at hnone ⊢
            intro h
            by_cases hlen : 7 ≤ (z :: c').length
            · apply hnone
              refine matchAtoms_domain_congr _ _ ?_ h
              rw [List.take_append_of_le_length hlen, List.take_append_of_le_length hlen]
            · obtain ⟨d, hd, hdig⟩ := matchAtoms_domain_seventh _ h
              have hlen' : (z :: c').length ≤ 6 := by omega
              rw [List.getElem?_append_right hlen',
                List.getElem?_append_left (by simp; omega)] at hd
              have hpos : 1 ≤ (z :: c').length := by simp
              generalize (z :: c').length = L at hd hlen' hpos
              interval_cases L <;> simp at hd <;> subst hd <;> exact absurd hdig (by decide)

/-! ### Counting the placeholders of a stored key -/

theorem placeholderCount_append_ge (l r : Str) :
    placeholderCount r ≤ placeholderCount (l ++ r) := by
  induction l with
  | nil => exact Nat.le_refl _
  | cons c l ih =>
    rw [List.cons_append, placeholderCount]
    omega

/-- In front of a text that starts with neither `N` nor `}`, a left part that
held no placeholder before the text was exchanged holds none afterwards. -/
theorem placeholderCount_context (l R R' : Str) (r0 : Char) (rs : Str) (hR : R = r0 :: rs)
    (h1 : r0 ≠ 'N') (h2 : r0 ≠ '}') (h0 : placeholderCount (l ++ R') = 0) :
    placeholderCount (l ++ R) = placeholderCount R := by
  induction l with
  | nil => rfl
  | cons c l ih =>
    rw [List.cons_append, placeholderCount] at h0
    have h0' : placeholderCount (l ++ R') = 0 := by omega
    have hp' : placeholder.isPrefixOf (c :: (l ++ R')) = false := by
      by_contra hp
      rw [Bool.not_eq_false] at hp
      rw [if_pos hp] at h0
      omega
    rw [List.cons_append, placeholderCount, ih h0']
    have hp : placeholder.isPrefixOf (c :: (l ++ R)) = false := by
      by_contra hp
      rw [Bool.not_eq_false] at hp
      obtain ⟨rest, e⟩ := placeholder_isPrefixOf c (l ++ R) hp
      rw [List.cons.injEq] at e
      obtain ⟨rfl, e⟩ := e
      match l, e, hp' with
      | [], e, _ =>
        rw [List.nil_append, hR, List.cons.injEq] at e
        exact h1 e.1
      | [c2], e, _ =>
        rw [List.singleton_append, List.cons.injEq, hR, List.cons.injEq] at e
        exact h2 e.2.1
      | c2 :: c3 :: l'', e, hp' =>
        rw [List.cons_append, List.cons_append, List.cons.injEq, List.cons.injEq] at e
        obtain ⟨rfl, rfl, -⟩ := e
        simp [placeholder, List.isPrefixOf] at hp'
    rw [hp]
    simp

theorem placeholderCount_domain (b : Str) :
    placeholderCount ("domain{N}".toList ++ b) = 1 + placeholderCount b := by
  show placeholderCount ('d' :: 'o' :: 'm' :: 'a' :: 'i' :: 'n' :: '{' :: 'N' :: '}' :: b) = _
  simp [placeholderCount, placeholder, List.isPrefixOf]

theorem placeholderCount_braces (b : Str) :
    placeholderCount ("{N}".toList ++ b) = 1 + placeholderCount b := by
  show placeholderCount ('{' :: 'N' :: '}' :: b) = _
  simp [placeholderCount, placeholder, List.isPrefixOf]

/-! ### Keys with one run of decimal digits -/

theorem takeWhile_digits (ds r : Str) (hds : ∀ c ∈ ds, isDecimalDigit c = true)
    (hr : ∀ e r', r = e :: r' → isDecimalDigit e = false) :
    (ds ++ r).takeWhile isDecimalDigit = ds := by
  rw [List.takeWhile_append_of_pos hds]
  cases r with
  | nil => simp
  | cons e r' =>
    rw [List.takeWhile_cons_of_neg (by simp [hr e r' rfl])]
    simp

theorem span_digits_unique (ds1 r1 ds2 r2 : Str) (e : ds1 ++ r1 = ds2 ++ r2)
    (h1 : ∀ c ∈ ds1, isDecimalDigit c = true) (h2 : ∀ c ∈ ds2, isDecimalDigit c = true)
    (hr1 : ∀ x r', r1 = x :: r' → isDecimalDigit x = false)
    (hr2 : ∀ x r', r2 = x :: r' → isDecimalDigit x = false) : ds1 = ds2 ∧ r1 = r2 := by
  have hd : ds1 = ds2 := by
    rw [← takeWhile_digits ds1 r1 h1 hr1, ← takeWhile_digits ds2 r2 h2 hr2, e]
  subst hd
  exact ⟨rfl, List.append_cancel_left e⟩

/-- In a key with one run of digits, a position that holds a digit lies in the
run. -/
theorem digit_suffix_in_run (a ds b front t : Str) (d : Char) (t' : Str)
    (ha : ∀ c ∈ a, isDecimalDigit c = false) (hb : ∀ c ∈ b, isDecimalDigit c = false)
    (hds : ∀ c ∈ ds, isDecimalDigit c = true)
    (e : front ++ t = a ++ ds ++ b) (ht : t = d :: t') (hd : isDecimalDigit d = true) :
    ∃ ds2, t = ds2 ++ b ∧ ∀ c ∈ ds2, isDecimalDigit c = true := by
  rw [List.append_assoc] at e
  rcases List.append_eq_append_iff.mp e with ⟨a', ea, et⟩ | ⟨c', -, e1⟩
  · cases a' with
    | nil => exact ⟨ds, by simpa using et, hds⟩
    | cons z a' =>
      rw [ht, List.cons_append, List.cons.injEq] at et
      have := ha z (by rw [ea]; simp)
      rw [← et.1, hd] at this
      cases this
  · rcases List.append_eq_append_iff.mp e1 with ⟨a'', -, eb⟩ | ⟨c'', eds, et⟩
    · have := hb d (by rw [eb, ht]; simp)
      rw [hd] at this
      cases this
    · exact ⟨c'', et, fun c hc => hds c (by rw [eds]; exact List.mem_append_right _ hc)⟩

theorem regexTest_eq_false_iff (ic : Bool) (atoms : List Atom) (key : Str) :
    regexTest ic atoms key = false ↔ ∀ a t, key = a ++ t → matchAtoms ic atoms t = none := by
  rw [← Bool.not_eq_true, regexTest_iff]
  constructor
  · intro h a t e
    by_contra hne
    exact h ⟨a, t, e, by
      cases hm : matchAtoms ic atoms t with
      | none => exact absurd hm hne
      | some n => rfl⟩
  · rintro h ⟨a, t, e, hs⟩
    rw [h a t e] at hs
    cases hs

theorem digitFree_no_numeric_match (pre suf b : Str) (hb : ∀ c ∈ b, isDecimalDigit c = false) :
    ∀ a t, b = a ++ t →
      matchAtoms true (literalAtoms pre ++ [Atom.digits] ++ literalAtoms suf) t = none := by
  intro a t e
  rw [matchAtoms_numeric_eq_none]
  rintro ⟨m, b', rfl, hocc⟩
  exact no_occurrence_of_no_digit pre suf b hb a m b' (by rw [e]; simp) hocc

/-- For the pattern `domain{N}`, a key with one run of digits is left as it is
or has its one numeric occurrence rewritten. -/
theorem convertToDomainTemplate_one_run (a ds b : Str)
    (ha : ∀ c ∈ a, isDecimalDigit c = false) (hds : ∀ c ∈ ds, isDecimalDigit c = true)
    (hb : ∀ c ∈ b, isDecimalDigit c = false) :
    convertToDomainTemplate (a ++ ds ++ b) "domain{N}".toList = a ++ ds ++ b ∨
    ∃ a1 x ds', a ++ ds ++ b = a1 ++ (x ++ ds' ++ b) ∧
      convertToDomainTemplate (a ++ ds ++ b) "domain{N}".toList = a1 ++ ("domain{N}".toList ++ b) := by
  have hsplit : jsSplit placeholder "domain{N}".toList = ["domain".toList, []] := by decide
  have hd : '$' ∉ "domain{N}".toList := by decide
  rw [convertToDomainTemplate_eq _ _ _ _ hsplit hd]
  by_cases hnum : regexTest true
      (literalAtoms "domain".toList ++ [Atom.digits] ++ literalAtoms []) (a ++ ds ++ b) = true
  · right
    rw [regexTest_iff] at hnum
    obtain ⟨a1, t, hkey, ht, hno⟩ := exists_leftmost_match _ _ hnum
    obtain ⟨n, hn⟩ := Option.isSome_iff_exists.mp ht
    obtain ⟨x, ds', y, b', rfl, hx, hne, hds', hy, rfl, hg⟩ :=
      (matchAtoms_numeric_eq_some _ _ _ _).mp hn
    have hy0 : y = [] := List.length_eq_zero.mp (ciEq_length hy)
    subst hy0
    have hb' : ∀ e r', b' = e :: r' → isDecimalDigit e = false := by
      intro e r' hb'
      by_contra hdig
      rw [Bool.not_eq_false] at hdig
      have := hg (ds' ++ [e]) [] r' (by rw [hb']; simp) (by
        intro c hc
        rcases List.mem_append.mp hc with hc | hc
        · exact hds' c hc
        · rw [List.mem_singleton] at hc; rw [hc]; exact hdig) (ciEq_refl _)
      simp at this
    cases ds' with
    | nil => exact absurd rfl hne
    | cons d0 ds0 =>
      obtain ⟨ds2, e2, hds2⟩ := digit_suffix_in_run a ds b (a1 ++ x) ((d0 :: ds0) ++ b') d0
        (ds0 ++ b') ha hb hds (by rw [hkey]; simp) rfl (hds' d0 (List.mem_cons_self _ _))
      obtain ⟨-, rfl⟩ := span_digits_unique (d0 :: ds0) b' ds2 b e2 hds' hds2 hb'
        (fun e r' hr => hb e (by rw [hr]; simp))
      refine ⟨a1, x, d0 :: ds0, by rw [hkey]; simp, ?_⟩
      have hpos : ∃ k, x.length + (d0 :: ds0).length + ([] : Str).length = k + 1 :=
        ⟨x.length + ds0.length, by simp; omega⟩
      obtain ⟨k, hk⟩ := hpos
      rw [hk] at hn
      rw [hkey, regexReplaceAllGo_first_match true _ (fun _ _ _ => "domain{N}".toList) [] a1 _ k
        hno hn]
      have hdrop : (x ++ d0 :: ds0 ++ [] ++ b').drop (k + 1) = b' := by
        rw [← hk]
        have : x ++ d0 :: ds0 ++ [] ++ b' = (x ++ d0 :: ds0) ++ b' := by simp
        rw [this, List.drop_append_eq_append_drop, List.drop_of_length_le (by simp),
          List.nil_append]
        have : x.length + (d0 :: ds0).length + ([] : Str).length - (x ++ d0 :: ds0).length = 0 := by
          simp
        rw [this]
        rfl
      rw [hdrop, regexReplaceAllGo_no_match true _ _ _ b'
        (digitFree_no_numeric_match _ _ b' hb)]
      simp
  · left
    rw [Bool.not_eq_true] at hnum
    exact regexReplaceAllGo_no_match true _ _ [] _ ((regexTest_eq_false_iff _ _ _).mp hnum)

theorem matchAtoms_digits_nondigit (c : Char) (cs : Str) (hc : isDecimalDigit c = false) :
    matchAtoms false [Atom.digits] (c :: cs) = none := by
  simp [matchAtoms, digitsThen, hc]

theorem digitFree_no_digits_match (b : Str) (hb : ∀ c ∈ b, isDecimalDigit c = false) :
    ∀ a t, b = a ++ t → matchAtoms false [Atom.digits] t = none := by
  intro a t e
  cases t with
  | nil => simp [matchAtoms, digitsThen]
  | cons c cs => exact matchAtoms_digits_nondigit c cs (hb c (by rw [e]; simp))

/-- The rewrite `key.replace(/\d+/g, '{N}')` of a key with one run of digits
puts one placeholder in the place of the run. -/
theorem replaceDigits_one_run (a ds b : Str) (hne : ds ≠ [])
    (ha : ∀ c ∈ a, isDecimalDigit c = false) (hds : ∀ c ∈ ds, isDecimalDigit c = true)
    (hb : ∀ c ∈ b, isDecimalDigit c = false) :
    regexReplaceAll false [Atom.digits]
      (fun matched before after => getSubstitution matched before after [] "{N}".toList)
      (a ++ ds ++ b) = a ++ ("{N}".toList ++ b) := by
  have hs : (fun matched before after : Str =>
      getSubstitution matched before after [] "{N}".toList) = fun _ _ _ => "{N}".toList := by
    funext m x y
    exact getSubstitution_no_dollar _ _ _ _ _ (by decide)
  rw [hs]
  unfold regexReplaceAll
  obtain ⟨k, hk⟩ : ∃ k, ds.length = k + 1 :=
    ⟨ds.length - 1, by have := List.length_pos.mpr hne; omega⟩
  have hm : matchAtoms false [Atom.digits] (ds ++ b) = some (k + 1) := by
    simp only [matchAtoms]
    rw [digitsThen_eq_some]
    refine ⟨ds, b, 0, rfl, hne, hds, rfl, by omega, ?_⟩
    intro ds' rest' e hds' hlt
    exfalso
    have hp1 : ds <+: ds ++ b := ⟨b, rfl⟩
    have hp2 : ds' <+: ds ++ b := ⟨rest', e.symm⟩
    obtain ⟨w, hw⟩ := List.prefix_of_prefix_length_le hp1 hp2 (Nat.le_of_lt hlt)
    cases w with
    | nil =>
      rw [List.append_nil] at hw
      rw [hw] at hlt
      omega
    | cons z w =>
      have hz : isDecimalDigit z = true := hds' z (by rw [← hw]; simp)
      have hzb : z ∈ b := by
        have : ds ++ b = ds ++ (z :: w ++ rest') := by rw [e, ← hw]; simp
        rw [List.append_cancel_left this]
        simp
      rw [hb z hzb] at hz
      cases hz
  have hno : ∀ a1 a2, a = a1 ++ a2 → a2 ≠ [] →
      matchAtoms false [Atom.digits] (a2 ++ (ds ++ b)) = none := by
    intro a1 a2 e hne2
    cases a2 with
    | nil => exact absurd rfl hne2
    | cons c a2 => exact matchAtoms_digits_nondigit c _ (ha c (by rw [e]; simp))
  rw [List.append_assoc, regexReplaceAllGo_first_match false _ (fun _ _ _ => "{N}".toList) [] a
    (ds ++ b) k hno hm]
  have hdrop : (ds ++ b).drop (k + 1) = b := by
    rw [← hk, List.drop_append_eq_append_drop, List.drop_of_length_le (Nat.le_refl _)]
    simp
  rw [hdrop, regexReplaceAllGo_no_match false _ _ _ b (digitFree_no_digits_match b hb)]
  simp

theorem replaceDigits_no_digit (key : Str) (h : ∀ c ∈ key, isDecimalDigit c = false) :
    regexReplaceAll false [Atom.digits]
      (fun matched before after => getSubstitution matched before after [] "{N}".toList) key
      = key :=
  regexReplaceAllGo_no_match false _ _ [] key (digitFree_no_digits_match key h)



/-! ### The resolver: loops -/

theorem forEachRow_none {σ : Type} (body : σ → Nat → Row → Option σ) (front : List Row)
    (row : Row) (back : List Row) (i : Nat) (s : σ)
    (h : ∀ s, body s (i + front.length) row = none) :
    forEachRow body i (front ++ row :: back) s = none := by
  induction front generalizing i s with
  | nil =>
    simp only [List.nil_append, forEachRow]
    have := h s
    simp only [List.length_nil, Nat.add_zero] at this
    rw [this]
  | cons r front ih =>
    simp only [List.cons_append, forEachRow]
    cases body s i r with
    | none => rfl
    | some s' =>
      apply ih
      intro s
      have := h s
      simp only [List.length_cons] at this
      rw [← this]
      congr 1
      omega

theorem forEachRow_isSome {σ : Type} (body : σ → Nat → Row → Option σ) (rows : List Row)
    (i : Nat) (s : σ) (h : ∀ s j row, row ∈ rows → (body s j row).isSome = true) :
    (forEachRow body i rows s).isSome = true := by
  induction rows generalizing i s with
  | nil => rfl
  | cons r rows ih =>
    simp only [forEachRow]
    have := h s i r (List.mem_cons_self _ _)
    cases hb : body s i r with
    | none => rw [hb] at this; cases this
    | some s' => exact ih _ _ (fun s j row hr => h s j row (List.mem_cons_of_mem _ hr))

theorem foldlM_none {σ α : Type} (f : σ → α → Option σ) (l : List α) (x : α) (hx : x ∈ l)
    (h : ∀ s, f s x = none) (s : σ) : l.foldlM f s = none := by
  induction l generalizing s with
  | nil => cases hx
  | cons a l ih =>
    simp only [List.foldlM_cons]
    rcases List.mem_cons.mp hx with rfl | hx
    · simp [h s]
    · cases f s a with
      | none => rfl
      | some s' => exact ih hx s'

theorem foldlM_isSome {σ α : Type} (f : σ → α → Option σ) (l : List α)
    (h : ∀ s, ∀ x ∈ l, (f s x).isSome = true) (s : σ) : (l.foldlM f s).isSome = true := by
  induction l generalizing s with
  | nil => rfl
  | cons a l ih =>
    simp only [List.foldlM_cons]
    have := h s a (List.mem_cons_self _ _)
    cases hf : f s a with
    | none => rw [hf] at this; cases this
    | some s' => exact ih (fun s x hx => h s x (List.mem_cons_of_mem _ hx)) s'

/-! ### The resolver: the document -/

theorem querySelectorFrom_some (key : Str) (i : Nat) (rows : List Row) (j : Nat) (input : Input)
    (h : querySelectorFrom key i rows = some (j, input)) :
    i ≤ j ∧ ∃ row, rows[j - i]? = some row ∧ input ∈ row.inputs ∧ input.dataKey = key := by
  induction rows generalizing i with
  | nil => simp [querySelectorFrom] at h
  | cons r rows ih =>
    simp only [querySelectorFrom] at h
    cases hf : r.inputs.find? (fun input => input.dataKey = key) with
    | some inp =>
      rw [hf] at h
      simp only [Option.some.injEq, Prod.mk.injEq] at h
      obtain ⟨rfl, rfl⟩ := h
      refine ⟨le_refl _, r, by simp, List.mem_of_find?_eq_some hf, ?_⟩
      simpa using List.find?_some hf
    | none =>
      rw [hf] at h
      obtain ⟨h1, row, h2, h3, h4⟩ := ih (i + 1) h
      refine ⟨by omega, row, ?_, h3, h4⟩
      have : j - i = (j - (i + 1)) + 1 := by omega
      rw [this, List.getElem?_cons_succ]
      exact h2

theorem querySelector_some (rows : List Row) (key : Str) (j : Nat) (input : Input)
    (h : querySelector rows key = some (j, input)) :
    ∃ row, rows[j]? = some row ∧ input ∈ row.inputs ∧ input.dataKey = key := by
  obtain ⟨-, row, h2, h3, h4⟩ := querySelectorFrom_some key 0 rows j input h
  exact ⟨row, by simpa using h2, h3, h4⟩

theorem querySelectorFrom_isSome (key : Str) (i : Nat) (rows : List Row) (row : Row)
    (hr : row ∈ rows) (input : Input) (hi : input ∈ row.inputs) (hk : input.dataKey = key) :
    (querySelectorFrom key i rows).isSome = true := by
  induction rows generalizing i with
  | nil => cases hr
  | cons r rows ih =>
    simp only [querySelectorFrom]
    cases hf : r.inputs.find? (fun input => input.dataKey = key) with
    | some inp => rfl
    | none =>
      rcases List.mem_cons.mp hr with rfl | hr
      · have := List.find?_eq_none.mp hf input hi
        simp [hk] at this
      · exact ih _ hr

theorem querySelector_isSome (rows : List Row) (row : Row) (hr : row ∈ rows) (input : Input)
    (hi : input ∈ row.inputs) : (querySelector rows input.dataKey).isSome = true :=
  querySelectorFrom_isSome _ 0 rows row hr input hi rfl

theorem mem_fieldsWithDependents_foldl (rows : List Row) (acc : List Str) (k : Str) :
    k ∈ rows.foldl addDependsOn acc ↔
      k ∈ acc ∨ ∃ row ∈ rows, row.dependsOnKey = some k := by
  induction rows generalizing acc with
  | nil => simp
  | cons r rows ih =>
    simp only [List.foldl_cons, ih, List.mem_cons, exists_eq_or_imp, addDependsOn]
    cases hd : r.dependsOn with
    | none => simp [Row.dependsOnKey, hd]
    | some p =>
      obtain ⟨d, v⟩ := p
      simp only [Row.dependsOnKey, hd, Option.map_some', Option.some.injEq]
      by_cases hm : d ∈ acc
      · simp only [hm, if_true]
        constructor
        · rintro (h | h)
          · exact Or.inl h
          · exact Or.inr (Or.inr h)
        · rintro (h | rfl | h)
          · exact Or.inl h
          · exact Or.inl hm
          · exact Or.inr h
      · simp only [hm, if_false, List.mem_append, List.mem_singleton]
        constructor
        · rintro ((h | rfl) | h)
          · exact Or.inl h
          · exact Or.inr (Or.inl rfl)
          · exact Or.inr (Or.inr h)
        · rintro (h | rfl | h)
          · exact Or.inl (Or.inl h)
          · exact Or.inl (Or.inr rfl)
          · exact Or.inr h

theorem mem_fieldsWithDependents (rows : List Row) (k : Str) :
    k ∈ fieldsWithDependents rows ↔ ∃ row ∈ rows, row.dependsOnKey = some k := by
  unfold fieldsWithDependents
  rw [mem_fieldsWithDependents_foldl]
  simp

/-! ### The resolver on a cycle -/

theorem handleDependencies_cycle (rows : List Row) (keys : List Str) (h : OnCycle rows keys)
    (fuel : Nat) : ∀ (disp : Displays) (k v : Str), k ∈ keys →
      handleDependencies rows fuel disp k v = none := by
  induction fuel with
  | zero => intro disp k v _; rfl
  | succ fuel ih =>
    intro disp k v hk
    obtain ⟨k', hk', row, hrow, hdep, hchild⟩ := h.2 k hk
    obtain ⟨front, back, rfl⟩ := List.append_of_mem hrow
    simp only [handleDependencies]
    unfold selectDependentRow
    apply forEachRow_none
    intro s
    cases hd : row.dependsOn with
    | none => simp [Row.dependsOnKey, hd] at hdep
    | some p =>
      obtain ⟨d, dv⟩ := p
      simp only [Row.dependsOnKey, hd, Option.map_some', Option.some.injEq] at hdep
      subst hdep
      simp only [if_true, handleDependentRow]
      cases isFieldParentVisible (front ++ row :: back) s fuel (0 + front.length) with
      | none => rfl
      | some b =>
        simp only
        cases hh : row.inputs.head? with
        | none => simp [Row.childKey, hh] at hchild
        | some input =>
          simp only [Row.childKey, hh, Option.map_some', Option.some.injEq] at hchild
          subst hchild
          simp only
          split <;> exact ih _ _ _ hk'

theorem initializeDependencies_cycle (rows : List Row) (keys : List Str)
    (h : OnCycle rows keys) (fuel : Nat) (disp : Displays) :
    initializeDependencies rows fuel disp = none := by
  obtain ⟨k0, hk0⟩ := List.exists_mem_of_ne_nil keys h.1
  obtain ⟨k, hk, row, hrow, hdep, hchild⟩ := h.2 k0 hk0
  obtain ⟨k2, hk2, row2, hrow2, hdep2, -⟩ := h.2 k hk
  have hmem : k ∈ fieldsWithDependents rows :=
    (mem_fieldsWithDependents rows k).mpr ⟨row2, hrow2, hdep2⟩
  have hq : (querySelector rows k).isSome = true := by
    cases hh : row.inputs.head? with
    | none => simp [Row.childKey, hh] at hchild
    | some input =>
      simp only [Row.childKey, hh, Option.map_some', Option.some.injEq] at hchild
      subst hchild
      exact querySelector_isSome rows row hrow input (List.mem_of_mem_head? hh)
  have ht : triggerSources rows fuel disp = none := by
    unfold triggerSources
    apply foldlM_none _ _ k hmem
    intro s
    cases hq' : querySelector rows k with
    | none => rw [hq'] at hq; cases hq
    | some p =>
      obtain ⟨j, src⟩ := p
      exact handleDependencies_cycle rows keys h fuel _ _ _ hk
  simp [initializeDependencies, ht]

theorem cascadeLoop_iterations_le (rows : List Row) (n : Nat) (disp : Displays) :
    (cascadeLoop rows n disp).2 ≤ n := by
  induction n generalizing disp with
  | zero => simp [cascadeLoop]
  | succ n ih =>
    simp only [cascadeLoop]
    split
    · have := ih (cascadePass rows disp).1
      simp only
      omega
    · simp



/-! ### Termination on acyclic documents -/

theorem exists_rank_bound (rank : Str → Nat) (rows : List Row) :
    ∃ B, ∀ row ∈ rows, ∀ input ∈ row.inputs, rank input.dataKey ≤ B := by
  induction rows with
  | nil => exact ⟨0, by simp⟩
  | cons r rows ih =>
    obtain ⟨B, hB⟩ := ih
    have hr : ∃ C, ∀ input ∈ r.inputs, rank input.dataKey ≤ C := by
      generalize r.inputs = l
      induction l with
      | nil => exact ⟨0, by simp⟩
      | cons a l ih2 =>
        obtain ⟨C, hC⟩ := ih2
        refine ⟨max C (rank a.dataKey), ?_⟩
        intro input hi
        rcases List.mem_cons.mp hi with rfl | hi
        · exact le_max_right _ _
        · exact le_trans (hC input hi) (le_max_left _ _)
    obtain ⟨C, hC⟩ := hr
    refine ⟨max B C, ?_⟩
    intro row hrow input hi
    rcases List.mem_cons.mp hrow with rfl | hrow
    · exact le_trans (hC input hi) (le_max_right _ _)
    · exact le_trans (hB row hrow input hi) (le_max_left _ _)

theorem rankOk_lt {rank : Str → Nat} {row : Row} (h : RankOk rank row) {k v : Str}
    (hd : row.dependsOn = some (k, v)) {input : Input} (hi : input ∈ row.inputs) :
    rank k < rank input.dataKey := by
  unfold RankOk at h
  rw [hd] at h
  exact h input hi

theorem isFieldParentVisible_isSome (rows : List Row) (rank : Str → Nat)
    (hrank : ∀ row ∈ rows, RankOk rank row) (disp : Displays) (f : Nat) :
    ∀ i, (∀ row K v, rows[i]? = some row → row.dependsOn = some (K, v) →
        ∀ j input, querySelector rows K = some (j, input) → rank K + 1 ≤ f) →
      (isFieldParentVisible rows disp (f + 1) i).isSome = true := by
  induction f with
  | zero =>
    intro i h
    simp only [isFieldParentVisible]
    cases hg : rows[i]? with
    | none => rfl
    | some row =>
      cases hd : row.dependsOn with
      | none => simp [hd]
      | some p =>
        obtain ⟨K, v⟩ := p
        simp only [Option.some_bind, hd]
        split
        · rfl
        · cases hq : querySelector rows K with
          | none => rfl
          | some q =>
            obtain ⟨j, input⟩ := q
            have := h row K v hg hd j input hq
            omega
  | succ f ih =>
    intro i h
    rw [isFieldParentVisible]
    cases hg : rows[i]? with
    | none => rfl
    | some row =>
      cases hd : row.dependsOn with
      | none => simp [hd]
      | some p =>
        obtain ⟨K, v⟩ := p
        simp only [Option.some_bind, hd]
        split
        · rfl
        · cases hq : querySelector rows K with
          | none => rfl
          | some q =>
            obtain ⟨j, input⟩ := q
            simp only
            split
            · rfl
            · apply ih
              intro row' K' v' hg' hd' j' input' hq'
              have h1 := h row K v hg hd j input hq
              obtain ⟨row'', hg'', hin, hkey⟩ := querySelector_some rows K j input hq
              rw [hg'] at hg''
              cases hg''
              have h2 := rankOk_lt (hrank row' (List.getElem?_mem hg')) hd' hin
              rw [hkey] at h2
              omega

theorem isFieldParentVisible_isSome_of_bound (rows : List Row) (rank : Str → Nat)
    (hrank : ∀ row ∈ rows, RankOk rank row) (B : Nat)
    (hB : ∀ row ∈ rows, ∀ input ∈ row.inputs, rank input.dataKey ≤ B)
    (disp : Displays) (f : Nat) (hf : B + 2 ≤ f) (i : Nat) :
    (isFieldParentVisible rows disp f i).isSome = true := by
  obtain ⟨f', rfl⟩ : ∃ f', f = f' + 1 := ⟨f - 1, by omega⟩
  apply isFieldParentVisible_isSome rows rank hrank
  intro row K v _ _ j input hq
  obtain ⟨row', hg', hin, hkey⟩ := querySelector_some rows K j input hq
  have := hB row' (List.getElem?_mem hg') input hin
  rw [hkey] at this
  omega

theorem handleDependencies_isSome (rows : List Row) (rank : Str → Nat)
    (hrank : ∀ row ∈ rows, RankOk rank row) (B : Nat)
    (hB : ∀ row ∈ rows, ∀ input ∈ row.inputs, rank input.dataKey ≤ B) (n : Nat) :
    ∀ (f : Nat) (k : Str) (disp : Displays) (v : Str), B + 1 ≤ rank k + n → n + B + 2 ≤ f →
      (handleDependencies rows (f + 1) disp k v).isSome = true := by
  induction n with
  | zero =>
    intro f k disp v h1 h2
    simp only [handleDependencies]
    unfold selectDependentRow
    apply forEachRow_isSome
    intro s j row hrow
    cases hd : row.dependsOn with
    | none => rfl
    | some p =>
      obtain ⟨d, dv⟩ := p
      simp only
      split
      · rename_i hdk
        subst hdk
        simp only [handleDependentRow]
        have hp := isFieldParentVisible_isSome_of_bound rows rank hrank B hB s f (by omega) j
        cases hfp : isFieldParentVisible rows s f j with
        | none => rw [hfp] at hp; cases hp
        | some b =>
          simp only
          cases hh : row.inputs.head? with
          | none => rfl
          | some input =>
            have hin := List.mem_of_mem_head? hh
            have h3 := rankOk_lt (hrank row hrow) hd hin
            have h4 := hB row hrow input hin
            omega
      · rfl
  | succ n ih =>
    intro f k disp v h1 h2
    simp only [handleDependencies]
    unfold selectDependentRow
    apply forEachRow_isSome
    intro s j row hrow
    cases hd : row.dependsOn with
    | none => rfl
    | some p =>
      obtain ⟨d, dv⟩ := p
      simp only
      split
      · rename_i hdk
        subst hdk
        simp only [handleDependentRow]
        have hp := isFieldParentVisible_isSome_of_bound rows rank hrank B hB s f (by omega) j
        cases hfp : isFieldParentVisible rows s f j with
        | none => rw [hfp] at hp; cases hp
        | some b =>
          simp only
          cases hh : row.inputs.head? with
          | none => rfl
          | some input =>
            have hin := List.mem_of_mem_head? hh
            have h3 := rankOk_lt (hrank row hrow) hd hin
            obtain ⟨f', rfl⟩ : ∃ f', f = f' + 1 := ⟨f - 1, by omega⟩
            simp only
            split <;> exact ih f' _ _ _ (by omega) (by omega)
      · rfl

/-- On an acyclic document the resolver returns, with any fuel from some bound
on. -/
theorem initializeDependencies_isSome (rows : List Row) (h : Acyclic rows) :
    ∃ fuel₀, ∀ fuel, fuel₀ ≤ fuel → ∀ disp,
      (initializeDependencies rows fuel disp).isSome = true := by
  obtain ⟨rank, hrank⟩ := h
  obtain ⟨B, hB⟩ := exists_rank_bound rank rows
  refine ⟨2 * B + 4, ?_⟩
  intro fuel hfuel disp
  have ht : (triggerSources rows fuel disp).isSome = true := by
    unfold triggerSources
    apply foldlM_isSome
    intro s key _
    cases hq : querySelector rows key with
    | none => rfl
    | some q =>
      obtain ⟨j, src⟩ := q
      obtain ⟨f', rfl⟩ : ∃ f', fuel = f' + 1 := ⟨fuel - 1, by omega⟩
      exact handleDependencies_isSome rows rank hrank B hB (B + 1) f' _ _ _ (by omega) (by omega)
  cases hts : triggerSources rows fuel disp with
  | none => rw [hts] at ht; cases ht
  | some s => simp [initializeDependencies, hts]



/-! ### The cascade loop -/

theorem cascadeRow_eq (rows : List Row) (state : Displays × Bool) (i : Nat) (row : Row) :
    cascadeRow rows state i row =
      if row.dependsOn.isSome = true ∧ isVisible state.1 i = true ∧
          dependencyMet rows state.1 row = false then
        (Function.update state.1 i Display.none, true)
      else state := by
  unfold cascadeRow dependencyMet isVisible
  cases hd : row.dependsOn with
  | none => simp
  | some p =>
    obtain ⟨K, V⟩ := p
    by_cases hi : state.1 i = Display.none
    · simp [hi]
    · cases hq : querySelector rows K with
      | none => simp [hi, hq]
      | some q =>
        obtain ⟨j, src⟩ := q
        by_cases hj : state.1 j = Display.none
        · simp [hi, hj, hq]
        · by_cases hv : valuesMatch (.str (fieldValue src)) (.str V) = true
          · simp [hi, hj, hv, hq]
          · simp [hi, hj, hv, hq]

theorem cascadeRow_none_mono (rows : List Row) (state : Displays × Bool) (i : Nat) (row : Row)
    (x : Nat) (h : state.1 x = Display.none) : (cascadeRow rows state i row).1 x = Display.none := by
  rw [cascadeRow_eq]
  split
  · by_cases hx : x = i
    · subst hx; simp
    · simp [Function.update, hx, h]
  · exact h

theorem cascadePassFrom_none_mono (all : List Row) (i : Nat) (rows : List Row)
    (state : Displays × Bool) (x : Nat) (h : state.1 x = Display.none) :
    (cascadePassFrom all i rows state).1 x = Display.none := by
  induction rows generalizing i state with
  | nil => exact h
  | cons r rows ih =>
    simp only [cascadePassFrom]
    exact ih _ _ (cascadeRow_none_mono all state i r x h)

theorem cascadePassFrom_unchanged (all : List Row) (i : Nat) (rows : List Row)
    (state : Displays × Bool) (h : (cascadePassFrom all i rows state).2 = false) :
    (cascadePassFrom all i rows state).1 = state.1 ∧ state.2 = false ∧
      ∀ n row, rows[n]? = some row → row.dependsOn.isSome = true →
        isVisible state.1 (i + n) = true → dependencyMet all state.1 row = true := by
  induction rows generalizing i state with
  | nil => exact ⟨rfl, h, by simp⟩
  | cons r rows ih =>
    simp only [cascadePassFrom] at h ⊢
    obtain ⟨h1, h2, h3⟩ := ih _ _ h
    by_cases hc : r.dependsOn.isSome = true ∧ isVisible state.1 i = true ∧
        dependencyMet all state.1 r = false
    · rw [cascadeRow_eq, if_pos hc] at h2
      cases h2
    · have hrow : cascadeRow all state i r = state := by rw [cascadeRow_eq, if_neg hc]
      rw [hrow] at h1 h2 h3 ⊢
      refine ⟨h1, h2, ?_⟩
      intro n row hn hd hv
      cases n with
      | zero =>
        simp only [List.getElem?_cons_zero, Option.some.injEq] at hn
        subst hn
        by_contra hm
        exact hc ⟨hd, by simpa using hv, by simpa using hm⟩
      | succ n =>
        simp only [List.getElem?_cons_succ] at hn
        have := h3 n row hn hd
        rw [show i + 1 + n = i + (n + 1) by omega] at this
        exact this hv

/-- A pass that records no change leaves the displays as they are, and every
visible dependent row has its dependency met. -/
theorem cascadePass_unchanged (rows : List Row) (disp : Displays)
    (h : (cascadePass rows disp).2 = false) :
    (cascadePass rows disp).1 = disp ∧
      ∀ i row, rows[i]? = some row → row.dependsOn.isSome = true →
        isVisible disp i = true → dependencyMet rows disp row = true := by
  obtain ⟨h1, -, h3⟩ := cascadePassFrom_unchanged rows 0 rows (disp, false) h
  refine ⟨h1, ?_⟩
  intro i row hi hd hv
  have := h3 i row hi hd
  simp only [Nat.zero_add] at this
  exact this hv

/-- After the row of index `x` was passed over by a pass, it is hidden or its
dependency was met when it was looked at; a row whose dependency is unmet in
every display state is hidden. -/
theorem cascadePassFrom_hides (all : List Row) (i : Nat) (rows : List Row)
    (state : Displays × Bool) (n : Nat) (row : Row) (hn : rows[n]? = some row)
    (hd : row.dependsOn.isSome = true)
    (hunmet : ∀ disp : Displays, (∀ x, state.1 x = Display.none → disp x = Display.none) →
      dependencyMet all disp row = false) :
    (cascadePassFrom all i rows state).1 (i + n) = Display.none := by
  induction rows generalizing i state n with
  | nil => simp at hn
  | cons r rows ih =>
    simp only [cascadePassFrom]
    cases n with
    | zero =>
      simp only [List.getElem?_cons_zero, Option.some.injEq] at hn
      subst hn
      apply cascadePassFrom_none_mono
      rw [cascadeRow_eq]
      by_cases hv : isVisible state.1 i = true
      · rw [if_pos ⟨hd, hv, hunmet state.1 (fun _ h => h)⟩]
        simp
      · rw [if_neg (fun h => hv h.2.1)]
        simpa [isVisible] using hv
    | succ n =>
      simp only [List.getElem?_cons_succ] at hn
      have := ih (i + 1) (cascadeRow all state i r) n hn (fun disp hdisp =>
        hunmet disp (fun x hx => hdisp x (cascadeRow_none_mono all state i r x hx)))
      rw [show i + 1 + n = i + (n + 1) by omega] at this
      exact this

theorem cascadePass_hides (rows : List Row) (disp : Displays) (n : Nat) (row : Row)
    (hn : rows[n]? = some row) (hd : row.dependsOn.isSome = true)
    (hunmet : ∀ disp' : Displays, (∀ x, disp x = Display.none → disp' x = Display.none) →
      dependencyMet rows disp' row = false) :
    (cascadePass rows disp).1 n = Display.none := by
  have := cascadePassFrom_hides rows 0 rows (disp, false) n row hn hd hunmet
  simpa using this

theorem cascadeLoop_none_mono (rows : List Row) (n : Nat) (disp : Displays) (x : Nat)
    (h : disp x = Display.none) : (cascadeLoop rows n disp).1 x = Display.none := by
  induction n generalizing disp with
  | zero => exact h
  | succ n ih =>
    simp only [cascadeLoop]
    have hp : (cascadePass rows disp).1 x = Display.none :=
      cascadePassFrom_none_mono rows 0 rows (disp, false) x h
    split
    · exact ih _ hp
    · exact hp



/-! ### Well-formed documents: the dependency forest -/

theorem wf_resolve {rows : List Row} (h : ReferencesResolve rows) {i : Nat} {row : Row}
    (hi : rows[i]? = some row) {K V : Str} (hd : row.dependsOn = some (K, V)) :
    K ≠ [] ∧ ∃ o src, querySelector rows K = some (o, src) := by
  have := h row (List.getElem?_mem hi)
  rw [hd] at this
  dsimp only at this
  refine ⟨this.1, ?_⟩
  cases hq : querySelector rows K with
  | none => rw [hq] at this; exact absurd this.2 (by simp)
  | some p => exact ⟨p.1, p.2, rfl⟩

theorem wf_owns {rows : List Row} (h : KeysUnique rows) {i : Nat} {row : Row}
    (hi : rows[i]? = some row) {input : Input} (hin : input ∈ row.inputs) :
    querySelector rows input.dataKey = some (i, input) := by
  have hm : (i, row) ∈ rows.enum := by
    rw [List.mk_mem_enum_iff_getElem?]
    exact hi
  exact (h (i, row) hm).2 input hin

theorem wf_single {rows : List Row} (h : KeysUnique rows) {i : Nat} {row : Row}
    (hi : rows[i]? = some row) : row.inputs.length ≤ 1 := by
  have hm : (i, row) ∈ rows.enum := by
    rw [List.mk_mem_enum_iff_getElem?]
    exact hi
  exact (h (i, row) hm).1

theorem wf_inputs_eq {rows : List Row} (h : KeysUnique rows) {i : Nat} {row : Row}
    (hi : rows[i]? = some row) {a b : Input} (ha : a ∈ row.inputs) (hb : b ∈ row.inputs) :
    a = b := by
  have hl := wf_single h hi
  match hrw : row.inputs, ha, hb, hl with
  | [x], ha, hb, _ =>
    simp only [List.mem_singleton] at ha hb
    rw [ha, hb]
  | x :: y :: l, _, _, hl => simp at hl

theorem parentRow_eq {rows : List Row} {x : Nat} {row : Row} (hx : rows[x]? = some row)
    {K V : Str} (hd : row.dependsOn = some (K, V)) {o : Nat} {src : Input}
    (hq : querySelector rows K = some (o, src)) : parentRow rows x = some o := by
  simp [parentRow, hx, hd, hq]

theorem parentRow_some {rows : List Row} {x o : Nat} (h : parentRow rows x = some o) :
    ∃ row K V src, rows[x]? = some row ∧ row.dependsOn = some (K, V) ∧
      querySelector rows K = some (o, src) := by
  unfold parentRow at h
  cases hx : rows[x]? with
  | none => simp [hx] at h
  | some row =>
    cases hd : row.dependsOn with
    | none => simp [hx, hd] at h
    | some p =>
      obtain ⟨K, V⟩ := p
      simp only [hx, hd, Option.some_bind, Option.map_eq_some', Prod.exists, exists_and_right,
        exists_eq_right] at h
      obtain ⟨src, hq⟩ := h
      exact ⟨row, K, V, src, rfl, hd, hq⟩

theorem parentRow_none_of_no_dependsOn {rows : List Row} {x : Nat} {row : Row}
    (hx : rows[x]? = some row) (hd : row.dependsOn = none) : parentRow rows x = none := by
  simp [parentRow, hx, hd]

theorem Descends.trans {rows : List Row} {x y z : Nat} (h1 : Descends rows x y)
    (h2 : Descends rows y z) : Descends rows x z := by
  induction h1 with
  | child hp => exact Descends.step hp h2
  | step hp _ ih => exact Descends.step hp (ih h2)

theorem Descends.has_parent {rows : List Row} {x o : Nat} (h : Descends rows x o) :
    ∃ y, parentRow rows x = some y := by
  cases h with
  | child hp => exact ⟨_, hp⟩
  | step hp _ => exact ⟨_, hp⟩

theorem descends_rank {rows : List Row} {rank : Str → Nat} (hrank : ∀ row ∈ rows, RankOk rank row)
    {x o : Nat} (h : Descends rows x o) :
    ∀ rowO K' V', rows[o]? = some rowO → rowO.dependsOn = some (K', V') →
      ∀ rowX K V, rows[x]? = some rowX → rowX.dependsOn = some (K, V) → rank K' < rank K := by
  induction h with
  | @child x o hp =>
    intro rowO K' V' hO hdO rowX K V hX hdX
    obtain ⟨row, K2, V2, src, h1, h2, h3⟩ := parentRow_some hp
    rw [hX] at h1; cases h1
    rw [hdX] at h2; cases h2
    obtain ⟨row', h4, h5, h6⟩ := querySelector_some rows K o src h3
    rw [hO] at h4; cases h4
    have := rankOk_lt (hrank rowO (List.getElem?_mem hO)) hdO h5
    rw [h6] at this
    exact this
  | @step x y o hp _ ih =>
    intro rowO K' V' hO hdO rowX K V hX hdX
    obtain ⟨row, K2, V2, src, h1, h2, h3⟩ := parentRow_some hp
    rw [hX] at h1; cases h1
    rw [hdX] at h2; cases h2
    obtain ⟨rowY, h4, h5, h6⟩ := querySelector_some rows K y src h3
    obtain ⟨z, hz⟩ := Descends.has_parent ‹Descends rows y o›
    obtain ⟨rowY', KY, VY, srcY, g1, g2, g3⟩ := parentRow_some hz
    rw [h4] at g1; cases g1
    have h7 := ih rowO K' V' hO hdO rowY KY VY h4 g2
    have h8 := rankOk_lt (hrank rowY (List.getElem?_mem h4)) g2 h5
    rw [h6] at h8
    omega

theorem not_descends_self {rows : List Row} (hac : Acyclic rows) (o : Nat) :
    ¬ Descends rows o o := by
  intro h
  obtain ⟨rank, hrank⟩ := hac
  obtain ⟨y, hy⟩ := h.has_parent
  obtain ⟨row, K, V, src, h1, h2, h3⟩ := parentRow_some hy
  have := descends_rank hrank h row K V h1 h2 row K V h1 h2
  omega

/-- Two rows above the same row lie on one chain. -/
theorem descends_chain {rows : List Row} {x o o' : Nat} (h : Descends rows x o)
    (h' : Descends rows x o') : o = o' ∨ Descends rows o o' ∨ Descends rows o' o := by
  induction h generalizing o' with
  | @child x o hp =>
    cases h' with
    | child hp' =>
      rw [hp] at hp'; cases hp'
      exact Or.inl rfl
    | step hp' hd' =>
      rw [hp] at hp'; cases hp'
      exact Or.inr (Or.inl hd')
  | @step x y o hp hd ih =>
    cases h' with
    | child hp' =>
      rw [hp] at hp'; cases hp'
      exact Or.inr (Or.inr hd)
    | step hp' hd' =>
      rw [hp] at hp'; cases hp'
      exact ih hd'

/-- A row below `o` is a child of `o` or lies below a child of `o`. -/
theorem descends_via_child {rows : List Row} {x o : Nat} (h : Descends rows x o) :
    ∃ c, parentRow rows c = some o ∧ (x = c ∨ Descends rows x c) := by
  induction h with
  | @child x o hp => exact ⟨x, hp, Or.inl rfl⟩
  | @step x y o hp _ ih =>
    obtain ⟨c, hc, hyc⟩ := ih
    refine ⟨c, hc, Or.inr ?_⟩
    rcases hyc with rfl | hyc
    · exact Descends.child hp
    · exact Descends.step hp hyc

/-- The subtrees of two different children of a row are disjoint. -/
theorem subtree_disjoint {rows : List Row} (hac : Acyclic rows) {o c n x : Nat}
    (hc : parentRow rows c = some o) (hn : parentRow rows n = some o) (hcn : c ≠ n)
    (hxc : x = c ∨ Descends rows x c) : ¬ (x = n ∨ Descends rows x n) := by
  have key : ∀ {a b : Nat}, parentRow rows a = some o → parentRow rows b = some o →
      Descends rows a b → False := by
    intro a b ha hb hab
    have hbo : Descends rows b o := Descends.child hb
    cases hab with
    | child hp =>
      rw [ha] at hp; cases hp
      exact not_descends_self hac _ hbo
    | step hp hd =>
      rw [ha] at hp; cases hp
      exact not_descends_self hac _ (hd.trans hbo)
  rintro (rfl | hxn)
  · rcases hxc with rfl | hxc
    · exact hcn rfl
    · exact key hn hc hxc
  · rcases hxc with rfl | hxc
    · exact key hc hn hxn
    · rcases descends_chain hxc hxn with h | h | h
      · exact hcn h
      · exact key hc hn h
      · exact key hn hc h



/-! ### Well-formed documents: `handleDependencies` -/

theorem forEachRow_invariant {σ : Type} (body : σ → Nat → Row → Option σ)
    (P : Nat → σ → Prop) (rows : List Row) (i : Nat) (s s' : σ) (h0 : P i s)
    (hstep : ∀ n row t t', rows[n]? = some row → P (i + n) t →
      body t (i + n) row = some t' → P (i + n + 1) t')
    (h : forEachRow body i rows s = some s') : P (i + rows.length) s' := by
  induction rows generalizing i s with
  | nil =>
    simp only [forEachRow, Option.some.injEq] at h
    subst h
    simpa using h0
  | cons r rows ih =>
    simp only [forEachRow] at h
    cases hb : body s i r with
    | none => rw [hb] at h; cases h
    | some t =>
      rw [hb] at h
      have h1 : P (i + 1) t := by
        have := hstep 0 r s t (by simp) (by simpa using h0) (by simpa using hb)
        simpa using this
      have := ih (i + 1) t h1 (fun n row u u' hn hP hbody => by
        have := hstep (n + 1) row u u' (by simpa using hn)
          (by rw [show i + (n + 1) = i + 1 + n by omega]; exact hP)
          (by rw [show i + (n + 1) = i + 1 + n by omega]; exact hbody)
        rw [show i + 1 + n + 1 = i + (n + 1) + 1 by omega]
        exact this) h
      rw [show i + (r :: rows).length = i + 1 + rows.length by simp; omega]
      exact this

/-- The displays of the row and of the row it depends on decide whether the row
is consistent. -/
theorem dependencyMet_congr {rows : List Row} {s t : Displays} {y : Nat} {row : Row}
    (hrow : rows[y]? = some row) (hp : ∀ p, parentRow rows y = some p → t p = s p) :
    dependencyMet rows t row = dependencyMet rows s row := by
  unfold dependencyMet
  cases hdep : row.dependsOn with
  | none => rfl
  | some p =>
    obtain ⟨K, V⟩ := p
    simp only
    cases hq : querySelector rows K with
    | none => rfl
    | some q =>
      obtain ⟨o, src⟩ := q
      simp only [isVisible]
      rw [hp o (parentRow_eq hrow hdep hq)]

theorem consistent_congr {rows : List Row} {s t : Displays} {y : Nat} (hy : t y = s y)
    (hp : ∀ p, parentRow rows y = some p → t p = s p) (h : Consistent rows s y) :
    Consistent rows t y := by
  intro row hrow hd
  have := h row hrow hd
  rw [dependencyMet_congr hrow hp, ← this]
  simp only [isVisible, hy]

theorem isFieldParentVisible_of_chainOK {rows : List Row} (hres : ReferencesResolve rows)
    {s : Displays} (fuel : Nat) : ∀ (o : Nat) (b : Bool), ChainOK rows s o →
      isVisible s o = true → isFieldParentVisible rows s fuel o = some b → b = true := by
  induction fuel with
  | zero => intro o b _ _ h; simp [isFieldParentVisible] at h
  | succ fuel ih =>
    intro o b hchain hvis h
    rw [isFieldParentVisible] at h
    cases hrow : rows[o]? with
    | none =>
      simp only [hrow, Option.none_bind, Option.some.injEq] at h
      exact h.symm
    | some row =>
      cases hd : row.dependsOn with
      | none =>
        simp only [hrow, Option.some_bind, hd, Option.some.injEq] at h
        exact h.symm
      | some p =>
        obtain ⟨K, V⟩ := p
        simp only [hrow, Option.some_bind, hd] at h
        obtain ⟨hne, q, src, hq⟩ := wf_resolve hres hrow hd
        rw [if_neg (by simpa using hne), hq] at h
        simp only at h
        have hcons := hchain.1 row hrow (by simp [hd])
        have hmet : dependencyMet rows s row = true := by
          rw [← hcons]
          exact hvis
        have hq_vis : isVisible s q = true := by
          simp only [dependencyMet, hd, hq, Bool.and_eq_true] at hmet
          exact hmet.2
        rw [if_neg (by simpa [isVisible] using hq_vis)] at h
        have hpar : parentRow rows o = some q := parentRow_eq hrow hd hq
        exact ih q b ⟨hchain.2 q (Descends.child hpar),
          fun y hy => hchain.2 y (Descends.step hpar hy)⟩ hq_vis h

theorem isFieldParentVisible_child {rows : List Row} (hres : ReferencesResolve rows)
    {s : Displays} {fuel n o : Nat} {row : Row} {K V : Str} {src : Input} {b : Bool}
    (hrow : rows[n]? = some row) (hd : row.dependsOn = some (K, V))
    (hq : querySelector rows K = some (o, src)) (hchain : ChainOK rows s o)
    (h : isFieldParentVisible rows s fuel n = some b) : b = isVisible s o := by
  cases fuel with
  | zero => simp [isFieldParentVisible] at h
  | succ fuel =>
    rw [isFieldParentVisible] at h
    simp only [hrow, Option.some_bind, hd] at h
    obtain ⟨hne, -⟩ := wf_resolve hres hrow hd
    rw [if_neg (by simpa using hne), hq] at h
    simp only at h
    by_cases ho : s o = Display.none
    · rw [if_pos ho] at h
      simp only [Option.some.injEq] at h
      simp [isVisible, ho, ← h]
    · rw [if_neg ho] at h
      have hv : isVisible s o = true := by simpa [isVisible] using ho
      rw [hv]
      exact isFieldParentVisible_of_chainOK hres fuel o b hchain hv h

/-- What `handleDependentRow` returns, step by step. -/
theorem handleDependentRow_some {rows : List Row} {fuel : Nat}
    {recur : Displays → Str → Str → Option Displays} {value : Str} {s : Displays} {i : Nat}
    {row : Row} {dv : Str} {s' : Displays}
    (h : handleDependentRow rows fuel recur value s i row dv = some s') :
    ∃ b, isFieldParentVisible rows s fuel i = some b ∧
      ((row.inputs.head? = none ∧
          s' = Function.update s i
            (if (valuesMatch (.str value) (.str dv) && b) = true then Display.block
              else Display.none)) ∨
        ∃ input, row.inputs.head? = some input ∧
          recur (Function.update s i
              (if (valuesMatch (.str value) (.str dv) && b) = true then Display.block
                else Display.none)) input.dataKey
            (if (valuesMatch (.str value) (.str dv) && b) = true then fieldValue input
              else "__HIDDEN__".toList) = some s') := by
  unfold handleDependentRow at h
  cases hb : isFieldParentVisible rows s fuel i with
  | none => simp [hb] at h
  | some b =>
    refine ⟨b, rfl, ?_⟩
    simp only [hb] at h
    cases hh : row.inputs.head? with
    | none =>
      simp only [hh, Option.some.injEq] at h
      exact Or.inl ⟨rfl, h.symm⟩
    | some input =>
      simp only [hh] at h
      refine Or.inr ⟨input, rfl, ?_⟩
      by_cases hf : (valuesMatch (.str value) (.str dv) && b) = true
      · simpa [hf] using h
      · simp only [hf] at h ⊢
        simpa using h

/-- What `selectDependentRow` returns. -/
theorem selectDependentRow_some {rows : List Row} {fuel : Nat}
    {recur : Displays → Str → Str → Option Displays} {key value : Str}
    {t t' : Displays} {n : Nat} {row : Row}
    (h : selectDependentRow rows fuel recur key value t n row = some t') :
    (row.dependsOnKey ≠ some key ∧ t' = t) ∨
      ∃ dv, row.dependsOn = some (key, dv) ∧
        handleDependentRow rows fuel recur value t n row dv = some t' := by
  unfold selectDependentRow at h
  cases hd : row.dependsOn with
  | none =>
    simp only [hd, Option.some.injEq] at h
    exact Or.inl ⟨by simp [Row.dependsOnKey, hd], h.symm⟩
  | some p =>
    obtain ⟨d, dv⟩ := p
    simp only [hd] at h
    by_cases hk : d = key
    · subst hk
      rw [if_pos rfl] at h
      exact Or.inr ⟨dv, rfl, h⟩
    · rw [if_neg hk] at h
      simp only [Option.some.injEq] at h
      exact Or.inl ⟨by simpa [Row.dependsOnKey, hd] using hk, h.symm⟩



/-- `handleDependencies(k, _)` writes only the displays of the rows below the
row that owns `k`. -/
theorem handleDependencies_frame {rows : List Row} (hwf : WellFormed rows) (fuel : Nat) :
    ∀ (s s' : Displays) (k v : Str) (o : Nat) (src : Input),
      querySelector rows k = some (o, src) →
      handleDependencies rows fuel s k v = some s' →
      ∀ x, ¬ Descends rows x o → s' x = s x := by
  induction fuel with
  | zero => intro s s' k v o src _ h; simp [handleDependencies] at h
  | succ fuel ih =>
    intro s s' k v o src hq h
    simp only [handleDependencies] at h
    refine forEachRow_invariant _ (fun _ t => ∀ x, ¬ Descends rows x o → t x = s x) rows 0 s s'
      (fun _ _ => rfl) ?_ h
    intro n row t t' hrow hP hbody
    simp only [Nat.zero_add] at hbody
    rcases selectDependentRow_some hbody with ⟨-, rfl⟩ | ⟨dv, hd, hres⟩
    · exact hP
    · obtain ⟨b, -, hcase⟩ := handleDependentRow_some hres
      have hdesc : Descends rows n o := Descends.child (parentRow_eq hrow hd hq)
      intro x hx
      have hxn : x ≠ n := fun e => hx (e ▸ hdesc)
      rcases hcase with ⟨-, rfl⟩ | ⟨input, hh, hrec⟩
      · rw [Function.update_noteq hxn]
        exact hP x hx
      · have hown := wf_owns hwf.unique hrow (List.mem_of_mem_head? hh)
        rw [ih _ _ _ _ n input hown hrec x (fun hxd => hx (hxd.trans hdesc)),
          Function.update_noteq hxn]
        exact hP x hx

/-- A row without keyed element has no row below it. -/
theorem no_descends_of_no_input {rows : List Row} {n : Nat} {row : Row}
    (hrow : rows[n]? = some row) (hh : row.inputs.head? = none) (x : Nat) :
    ¬ Descends rows x n := by
  intro h
  obtain ⟨c, hc, -⟩ := descends_via_child h
  obtain ⟨rowC, K, V, src, -, -, hq⟩ := parentRow_some hc
  obtain ⟨row', h1, h2, -⟩ := querySelector_some rows K n src hq
  rw [hrow] at h1
  cases h1
  cases hin : row.inputs with
  | nil => rw [hin] at h2; cases h2
  | cons a l => rw [hin] at hh; simp at hh

/-- The rows that `handleDependencies(k, v)` reaches are consistent afterwards,
when the row that owns `k` and the rows above it are consistent and `v` is the
current value of `k` (or the owner is hidden). -/
theorem handleDependencies_consistent {rows : List Row} (hwf : WellFormed rows) (fuel : Nat) :
    ∀ (s s' : Displays) (k v : Str) (o : Nat) (src : Input),
      querySelector rows k = some (o, src) → ChainOK rows s o →
      (v = fieldValue src ∨ s o = Display.none) →
      handleDependencies rows fuel s k v = some s' →
      ∀ x, Descends rows x o → Consistent rows s' x := by
  induction fuel with
  | zero => intro s s' k v o src _ _ _ h; simp [handleDependencies] at h
  | succ fuel ih =>
    intro s s' k v o src hq hchain hval h
    have hoo : ¬ Descends rows o o := not_descends_self hwf.acyclic o
    obtain ⟨rowO, hrowO, hsrcO, hkeyO⟩ := querySelector_some rows k o src hq
    simp only [handleDependencies] at h
    have hinv := forEachRow_invariant _ (fun n t =>
        (∀ x, ¬ Descends rows x o → t x = s x) ∧
        (∀ c, c < n → parentRow rows c = some o → ∀ x, (x = c ∨ Descends rows x c) →
          Consistent rows t x) ∧
        (∀ c, n ≤ c → parentRow rows c = some o → ∀ x, (x = c ∨ Descends rows x c) →
          t x = s x)) rows 0 s s' ⟨fun _ _ => rfl, fun c hc => absurd hc (Nat.not_lt_zero c),
            fun _ _ _ _ _ => rfl⟩ ?_ h
    · intro x hx
      obtain ⟨c, hc, hxc⟩ := descends_via_child hx
      obtain ⟨rowC, -, -, -, hrowC, -, -⟩ := parentRow_some hc
      have hlt : c < rows.length := by
        by_contra hge
        rw [List.getElem?_eq_none (by omega)] at hrowC
        cases hrowC
      exact hinv.2.1 c (by simpa using hlt) hc x hxc
    · intro n row t t' hrow ⟨hA, hB, hC⟩ hbody
      simp only [Nat.zero_add] at hbody hB hC ⊢
      rcases selectDependentRow_some hbody with ⟨hskip, rfl⟩ | ⟨dv, hd, hres⟩
      · -- the row does not depend on `k`: it is no child of `o`
        have hnot : parentRow rows n ≠ some o := by
          intro hp
          obtain ⟨row', K, V, src', h1, h2, h3⟩ := parentRow_some hp
          rw [hrow] at h1
          cases h1
          obtain ⟨rowO', g1, g2, g3⟩ := querySelector_some rows K o src' h3
          rw [hrowO] at g1
          cases g1
          have := wf_inputs_eq hwf.unique hrowO hsrcO g2
          subst this
          rw [hkeyO] at g3
          exact hskip (by simp [Row.dependsOnKey, h2, g3])
        refine ⟨hA, ?_, ?_⟩
        · intro c hc hpc x hx
          rcases Nat.lt_succ_iff_lt_or_eq.mp hc with hlt | rfl
          · exact hB c hlt hpc x hx
          · exact absurd hpc hnot
        · intro c hc hpc x hx
          exact hC c (by omega) hpc x hx
      · -- the row depends on `k`: it is a child of `o`
        obtain ⟨b, hfpv, hcase⟩ := handleDependentRow_some hres
        have hpar : parentRow rows n = some o := parentRow_eq hrow hd hq
        have hdesc : Descends rows n o := Descends.child hpar
        have hno : n ≠ o := fun e => hoo (e ▸ hdesc)
        -- the chain above `o` is as in `s`
        have hto : t o = s o := hA o hoo
        have hchain_t : ChainOK rows t o := by
          refine ⟨consistent_congr hto (fun p hp => hA p (fun hpo =>
              hoo ((Descends.child hp).trans hpo))) hchain.1, ?_⟩
          intro y hy
          exact consistent_congr (hA y (fun hyo => hoo (hy.trans hyo)))
            (fun p hp => hA p (fun hpo => hoo ((hy.trans (Descends.child hp)).trans hpo)))
            (hchain.2 y hy)
        have hb : b = isVisible t o := isFieldParentVisible_child hwf.resolve hrow hd hq hchain_t hfpv
        -- the display written to the row
        generalize hfinal : (valuesMatch (.str v) (.str dv) && b) = finalShow at hcase
        generalize ht1 : Function.update t n
          (if finalShow = true then Display.block else Display.none) = t1 at hcase
        have ht1n : t1 n = if finalShow = true then Display.block else Display.none := by
          rw [← ht1]; simp
        have ht1x : ∀ x, x ≠ n → t1 x = t x := by
          intro x hx; rw [← ht1]; exact Function.update_noteq hx _ _
        have hmet : dependencyMet rows t1 row = finalShow := by
          simp only [dependencyMet, hd, hq, isVisible]
          rw [ht1x o (Ne.symm hno), ← hfinal, hb]
          rcases hval with rfl | hso
          · rfl
          · simp [isVisible, hto, hso]
        have hcons_n : Consistent rows t1 n := by
          intro row' hrow' _
          rw [hrow] at hrow'
          cases hrow'
          rw [hmet]
          simp only [isVisible, ht1n]
          cases finalShow <;> rfl
        -- the displays after the row and the rows below it were handled
        have hafter : (∀ x, ¬ (x = n ∨ Descends rows x n) → t' x = t x) ∧ t' n = t1 n ∧
            (∀ x, Descends rows x n → Consistent rows t' x) := by
          rcases hcase with ⟨hh, rfl⟩ | ⟨input, hh, hrec⟩
          · refine ⟨fun x hx => ht1x x (fun e => hx (Or.inl e)), rfl, ?_⟩
            intro x hx
            exact absurd hx (no_descends_of_no_input hrow hh x)
          · have hown := wf_owns hwf.unique hrow (List.mem_of_mem_head? hh)
            have hframe := handleDependencies_frame hwf fuel t1 t' _ _ n input hown hrec
            have hchain1 : ChainOK rows t1 n := by
              refine ⟨hcons_n, ?_⟩
              intro y hy
              have hyn : y ≠ n := fun e => not_descends_self hwf.acyclic n (e ▸ hy)
              have hyc : Consistent rows t y := by
                cases hy with
                | child hp =>
                  rw [hpar] at hp
                  cases hp
                  exact hchain_t.1
                | step hp hd' =>
                  rw [hpar] at hp
                  cases hp
                  exact hchain_t.2 y hd'
              exact consistent_congr (ht1x y hyn) (fun p hp => ht1x p (fun e =>
                not_descends_self hwf.acyclic n (hy.trans (e ▸ Descends.child hp)))) hyc
            have hval1 : (if finalShow = true then fieldValue input else "__HIDDEN__".toList)
                = fieldValue input ∨ t1 n = Display.none := by
              by_cases hf : finalShow = true
              · left; simp [hf]
              · right; rw [ht1n]; simp [hf]
            refine ⟨fun x hx => ?_, hframe n (not_descends_self hwf.acyclic n), ?_⟩
            · rw [hframe x (fun h => hx (Or.inr h)), ht1x x (fun e => hx (Or.inl e))]
            · exact ih t1 t' _ _ n input hown hchain1 hval1 hrec
        obtain ⟨hF1, hF2, hF3⟩ := hafter
        have hsubo : ¬ (o = n ∨ Descends rows o n) := by
          rintro (e | e)
          · exact hno e.symm
          · exact hoo (e.trans hdesc)
        refine ⟨?_, ?_, ?_⟩
        · intro x hx
          rw [hF1 x (fun h => hx (by
            rcases h with rfl | h
            · exact hdesc
            · exact h.trans hdesc))]
          exact hA x hx
        · intro c hc hpc x hx
          rcases Nat.lt_succ_iff_lt_or_eq.mp hc with hlt | rfl
          · have hdis := subtree_disjoint hwf.acyclic hpc hpar (Nat.ne_of_lt hlt) hx
            refine consistent_congr (hF1 x hdis) (fun p hp => hF1 p ?_) (hB c hlt hpc x hx)
            rcases hx with rfl | hx
            · rw [hpc] at hp
              cases hp
              exact hsubo
            · have hpin : p = c ∨ Descends rows p c := by
                cases hx with
                | child hp' => rw [hp] at hp'; cases hp'; exact Or.inl rfl
                | step hp' hd' => rw [hp] at hp'; cases hp'; exact Or.inr hd'
              exact subtree_disjoint hwf.acyclic hpc hpar (Nat.ne_of_lt hlt) hpin
          · rcases hx with rfl | hx
            · refine consistent_congr hF2 (fun p hp => ?_) hcons_n
              rw [hpar] at hp
              cases hp
              rw [hF1 o hsubo, ht1x o (Ne.symm hno)]
            · exact hF3 x hx
        · intro c hc hpc x hx
          have hne : c ≠ n := by omega
          rw [hF1 x (subtree_disjoint hwf.acyclic hpc hpar hne hx)]
          exact hC c (by omega) hpc x hx



/-! ### Well-formed documents: `initializeDependencies` -/

theorem foldlM_invariant {σ α : Type} (f : σ → α → Option σ) (Inv : List α → σ → Prop)
    (l : List α) (hstep : ∀ done x t t', Inv done t → f t x = some t' → Inv (done ++ [x]) t') :
    ∀ (done : List α) (s s' : σ), Inv done s → l.foldlM f s = some s' → Inv (done ++ l) s' := by
  induction l with
  | nil =>
    intro done s s' h0 h
    simp only [List.foldlM_nil, Option.pure_def, Option.some.injEq] at h
    subst h
    simpa using h0
  | cons a l ih =>
    intro done s s' h0 h
    simp only [List.foldlM_cons, Option.bind_eq_bind] at h
    cases hf : f s a with
    | none => rw [hf] at h; cases h
    | some t =>
      rw [hf] at h
      have := ih (done ++ [a]) t s' (hstep done a s t h0 hf) h
      simpa using this

/-- After the first pass of `initializeDependencies` every row is
consistent. -/
theorem triggerSources_consistent {rows : List Row} (hwf : WellFormed rows) (fuel : Nat)
    (s s' : Displays) (h : triggerSources rows fuel s = some s') :
    ∀ x, Consistent rows s' x := by
  unfold triggerSources at h
  have hinv := foldlM_invariant _ (fun done t => ∀ x,
      (∀ y, (y = x ∨ Descends rows x y) → ∀ row K V, rows[y]? = some row →
        row.dependsOn = some (K, V) → K ∈ done) → Consistent rows t x)
    (fieldsWithDependents rows) ?_ [] s s' ?_ h
  · intro x
    apply hinv x
    intro y _ row K V hrow hd
    simp only [List.nil_append]
    exact (mem_fieldsWithDependents rows K).mpr
      ⟨row, List.getElem?_mem hrow, by simp [Row.dependsOnKey, hd]⟩
  · intro done k t t' hInv hstep x hx
    cases hq : querySelector rows k with
    | none =>
      rw [hq] at hstep
      simp only [Option.some.injEq] at hstep
      subst hstep
      apply hInv x
      intro y hy row K V hrow hd
      have := hx y hy row K V hrow hd
      rcases List.mem_append.mp this with h1 | h1
      · exact h1
      · simp only [List.mem_singleton] at h1
        subst h1
        obtain ⟨-, o, src, hq'⟩ := wf_resolve hwf.resolve hrow hd
        rw [hq] at hq'
        cases hq'
    | some q =>
      obtain ⟨o, src⟩ := q
      rw [hq] at hstep
      simp only at hstep
      have hoo : ¬ Descends rows o o := not_descends_self hwf.acyclic o
      -- a row that depends on `k` lies below `o`
      have hbelow : ∀ y row K V, rows[y]? = some row → row.dependsOn = some (K, V) → K = k →
          Descends rows y o := by
        intro y row K V hrow hd hK
        subst hK
        exact Descends.child (parentRow_eq hrow hd hq)
      by_cases hxo : Descends rows x o
      · have hup : ∀ y, (y = o ∨ Descends rows o y) → Consistent rows t y := by
          intro y hy
          apply hInv y
          intro z hz row K V hrow hd
          have hoz : z = o ∨ Descends rows o z := by
            rcases hy with rfl | hy
            · exact hz
            · rcases hz with rfl | hz
              · exact Or.inr hy
              · exact Or.inr (hy.trans hz)
          have hxz : Descends rows x z := by
            rcases hoz with rfl | hoz
            · exact hxo
            · exact hxo.trans hoz
          have := hx z (Or.inr hxz) row K V hrow hd
          rcases List.mem_append.mp this with h1 | h1
          · exact h1
          · simp only [List.mem_singleton] at h1
            have hzo := hbelow z row K V hrow hd h1
            rcases hoz with rfl | hoz
            · exact absurd hzo hoo
            · exact absurd (hoz.trans hzo) hoo
        exact handleDependencies_consistent hwf fuel t t' k _ o src hq
          ⟨hup o (Or.inl rfl), fun y hy => hup y (Or.inr hy)⟩ (Or.inl rfl) hstep x hxo
      · have hframe := handleDependencies_frame hwf fuel t t' k _ o src hq hstep
        have hcons : Consistent rows t x := by
          apply hInv x
          intro y hy row K V hrow hd
          have := hx y hy row K V hrow hd
          rcases List.mem_append.mp this with h1 | h1
          · exact h1
          · simp only [List.mem_singleton] at h1
            have hyo := hbelow y row K V hrow hd h1
            rcases hy with rfl | hy
            · exact absurd hyo hxo
            · exact absurd (hy.trans hyo) hxo
        exact consistent_congr (hframe x hxo)
          (fun p hp => hframe p (fun hpo => hxo (Descends.step hp hpo))) hcons
  · intro x hx row hrow hd
    cases hdep : row.dependsOn with
    | none => rw [hdep] at hd; cases hd
    | some p =>
      obtain ⟨K, V⟩ := p
      have := hx x (Or.inl rfl) row K V hrow hdep
      cases this

/-- On displays where every row is consistent an iteration of the cascade loop
changes nothing. -/
theorem cascadePassFrom_consistent {all : List Row} {s : Displays}
    (hcons : ∀ x, Consistent all s x) (i : Nat) (rows : List Row)
    (hrows : ∀ n row, rows[n]? = some row → all[i + n]? = some row) :
    cascadePassFrom all i rows (s, false) = (s, false) := by
  induction rows generalizing i with
  | nil => rfl
  | cons r rows ih =>
    simp only [cascadePassFrom]
    have hr : all[i]? = some r := by simpa using hrows 0 r (by simp)
    have hrow : cascadeRow all (s, false) i r = (s, false) := by
      rw [cascadeRow_eq, if_neg]
      rintro ⟨hd, hv, hm⟩
      have := hcons i r hr hd
      simp only at hv hm
      rw [hv, hm] at this
      cases this
    rw [hrow]
    apply ih
    intro n row hn
    have := hrows (n + 1) row (by simpa using hn)
    rw [show i + (n + 1) = i + 1 + n by omega] at this
    exact this

theorem cascadeLoop_consistent {rows : List Row} {s : Displays}
    (hcons : ∀ x, Consistent rows s x) (n : Nat) : (cascadeLoop rows (n + 1) s).1 = s := by
  have hp : cascadePass rows s = (s, false) :=
    cascadePassFrom_consistent hcons 0 rows (fun n row hn => by simpa using hn)
  simp [cascadeLoop, hp]

/-- After `initializeDependencies` every row is consistent. -/
theorem initializeDependencies_consistent {rows : List Row} (hwf : WellFormed rows)
    (fuel : Nat) (s s' : Displays) (h : initializeDependencies rows fuel s = some s') :
    ∀ x, Consistent rows s' x := by
  unfold initializeDependencies at h
  cases ht : triggerSources rows fuel s with
  | none => rw [ht] at h; cases h
  | some t =>
    rw [ht] at h
    simp only [Option.some.injEq] at h
    have hc := triggerSources_consistent hwf fuel s t ht
    have := cascadeLoop_consistent hc 9
    rw [show maxIterations = 9 + 1 from rfl, this] at h
    rw [← h]
    exact hc

/-- `handleDependencies` returns on an acyclic document, with any fuel from a
bound on. -/
theorem handleDependencies_isSome_of_acyclic (rows : List Row) (h : Acyclic rows) :
    ∃ fuel₀, ∀ fuel, fuel₀ ≤ fuel → ∀ disp k v,
      (handleDependencies rows fuel disp k v).isSome = true := by
  obtain ⟨rank, hrank⟩ := h
  obtain ⟨B, hB⟩ := exists_rank_bound rank rows
  refine ⟨2 * B + 4, ?_⟩
  intro fuel hfuel disp k v
  obtain ⟨f', rfl⟩ : ∃ f', fuel = f' + 1 := ⟨fuel - 1, by omega⟩
  exact handleDependencies_isSome rows rank hrank B hB (B + 1) f' _ _ _ (by omega) (by omega)

/-- After `handleDependencies(k, current value of k)`, started where every row
that does not depend on `k` is consistent, every row is consistent. -/
theorem handleDependencies_restores {rows : List Row} (hwf : WellFormed rows) (fuel : Nat)
    (s s' : Displays) (k : Str) (o : Nat) (src : Input)
    (hq : querySelector rows k = some (o, src))
    (hpre : ∀ i row, rows[i]? = some row → row.dependsOn.isSome = true →
      row.dependsOnKey ≠ some k → isVisible s i = dependencyMet rows s row)
    (h : handleDependencies rows fuel s k (fieldValue src) = some s') :
    ∀ x, Consistent rows s' x := by
  have hoo : ¬ Descends rows o o := not_descends_self hwf.acyclic o
  have hnb : ∀ y, ¬ Descends rows y o → Consistent rows s y := by
    intro y hy row hrow hd
    apply hpre y row hrow hd
    intro hk
    cases hdep : row.dependsOn with
    | none => rw [hdep] at hd; cases hd
    | some p =>
      obtain ⟨K, V⟩ := p
      simp only [Row.dependsOnKey, hdep, Option.map_some', Option.some.injEq] at hk
      subst hk
      exact hy (Descends.child (parentRow_eq hrow hdep hq))
  have hchain : ChainOK rows s o :=
    ⟨hnb o hoo, fun y hy => hnb y (fun hyo => hoo (hy.trans hyo))⟩
  have hframe := handleDependencies_frame hwf fuel s s' k _ o src hq h
  intro x
  by_cases hxo : Descends rows x o
  · exact handleDependencies_consistent hwf fuel s s' k _ o src hq hchain (Or.inl rfl) h x hxo
  · exact consistent_congr (hframe x hxo)
      (fun p hp => hframe p (fun hpo => hxo (Descends.step hp hpo))) (hnb x hxo)



theorem dependencyMet_congr_visible {rows : List Row} {s t : Displays} {y : Nat} {row : Row}
    (hrow : rows[y]? = some row)
    (hp : ∀ p, parentRow rows y = some p → isVisible t p = isVisible s p) :
    dependencyMet rows t row = dependencyMet rows s row := by
  unfold dependencyMet
  cases hdep : row.dependsOn with
  | none => rfl
  | some p =>
    obtain ⟨K, V⟩ := p
    simp only
    cases hq : querySelector rows K with
    | none => rfl
    | some q =>
      obtain ⟨o, src⟩ := q
      simp only
      rw [hp o (parentRow_eq hrow hdep hq)]

/-- The first pass of `initializeDependencies` leaves the rows without
dependency as they are. -/
theorem triggerSources_frame {rows : List Row} (hwf : WellFormed rows) (fuel : Nat)
    (s s' : Displays) (h : triggerSources rows fuel s = some s') :
    ∀ x, parentRow rows x = none → s' x = s x := by
  unfold triggerSources at h
  have hinv := foldlM_invariant _ (fun _ t => ∀ x, parentRow rows x = none → t x = s x)
    (fieldsWithDependents rows) ?_ [] s s' (fun _ _ => rfl) h
  · exact hinv
  · intro done k t t' hInv hstep x hx
    cases hq : querySelector rows k with
    | none =>
      rw [hq] at hstep
      simp only [Option.some.injEq] at hstep
      subst hstep
      exact hInv x hx
    | some q =>
      obtain ⟨o, src⟩ := q
      rw [hq] at hstep
      simp only at hstep
      rw [handleDependencies_frame hwf fuel t t' k _ o src hq hstep x (fun hd => by
        obtain ⟨y, hy⟩ := hd.has_parent
        rw [hx] at hy
        cases hy)]
      exact hInv x hx

/-- Two displays in which every row is consistent and which agree on the rows
without dependency show the same rows. -/
theorem consistent_visibility_unique {rows : List Row} (hwf : WellFormed rows)
    {s t : Displays} (hs : ∀ x, Consistent rows s x) (ht : ∀ x, Consistent rows t x)
    (hroot : ∀ x, parentRow rows x = none → isVisible t x = isVisible s x) :
    ∀ x, isVisible t x = isVisible s x := by
  obtain ⟨rank, hrank⟩ := hwf.acyclic
  have key : ∀ n x row K V, rows[x]? = some row → row.dependsOn = some (K, V) → rank K ≤ n →
      isVisible t x = isVisible s x := by
    intro n
    induction n with
    | zero =>
      intro x row K V hrow hd hn
      rw [hs x row hrow (by simp [hd]), ht x row hrow (by simp [hd])]
      apply dependencyMet_congr_visible hrow
      intro p hp
      obtain ⟨row', K', V', src, h1, h2, h3⟩ := parentRow_some hp
      rw [hrow] at h1; cases h1
      rw [hd] at h2; cases h2
      obtain ⟨rowP, g1, g2, g3⟩ := querySelector_some rows K p src h3
      cases hdp : rowP.dependsOn with
      | none => exact hroot p (parentRow_none_of_no_dependsOn g1 hdp)
      | some q =>
        obtain ⟨K2, V2⟩ := q
        have := rankOk_lt (hrank rowP (List.getElem?_mem g1)) hdp g2
        rw [g3] at this
        omega
    | succ n ih =>
      intro x row K V hrow hd hn
      rw [hs x row hrow (by simp [hd]), ht x row hrow (by simp [hd])]
      apply dependencyMet_congr_visible hrow
      intro p hp
      obtain ⟨row', K', V', src, h1, h2, h3⟩ := parentRow_some hp
      rw [hrow] at h1; cases h1
      rw [hd] at h2; cases h2
      obtain ⟨rowP, g1, g2, g3⟩ := querySelector_some rows K p src h3
      cases hdp : rowP.dependsOn with
      | none => exact hroot p (parentRow_none_of_no_dependsOn g1 hdp)
      | some q =>
        obtain ⟨K2, V2⟩ := q
        have := rankOk_lt (hrank rowP (List.getElem?_mem g1)) hdp g2
        rw [g3] at this
        exact ih p rowP K2 V2 g1 hdp (by omega)
  intro x
  cases hp : parentRow rows x with
  | none => exact hroot x hp
  | some p =>
    obtain ⟨row, K, V, src, h1, h2, -⟩ := parentRow_some hp
    exact key (rank K) x row K V h1 h2 (le_refl _)

/-- A second run of `initializeDependencies` shows the same rows as the
first. -/
theorem initializeDependencies_stable {rows : List Row} (hwf : WellFormed rows) (fuel : Nat)
    (s s1 s2 : Displays) (h1 : initializeDependencies rows fuel s = some s1)
    (h2 : initializeDependencies rows fuel s1 = some s2) :
    ∀ i, isVisible s2 i = isVisible s1 i := by
  have hc1 := initializeDependencies_consistent hwf fuel s s1 h1
  have hc2 := initializeDependencies_consistent hwf fuel s1 s2 h2
  apply consistent_visibility_unique hwf hc1 hc2
  intro x hx
  unfold initializeDependencies at h2
  cases ht : triggerSources rows fuel s1 with
  | none => rw [ht] at h2; cases h2
  | some t =>
    rw [ht] at h2
    simp only [Option.some.injEq] at h2
    have hc := triggerSources_consistent hwf fuel s1 t ht
    have := cascadeLoop_consistent hc 9
    rw [show maxIterations = 9 + 1 from rfl, this] at h2
    rw [← h2, isVisible, isVisible, triggerSources_frame hwf fuel s1 t ht x hx]

/-! ### Rows whose source is missing -/

/-- `handleDependencies` called for a key that some element carries never
writes the display of a row that depends on a key no element carries. -/
theorem handleDependencies_skips_missing {rows : List Row} {i : Nat} {row : Row}
    {key value : Str} (hrow : rows[i]? = some row) (hdep : row.dependsOn = some (key, value))
    (hmissing : querySelector rows key = none) (fuel : Nat) :
    ∀ (s s' : Displays) (k v : Str), (querySelector rows k).isSome = true →
      handleDependencies rows fuel s k v = some s' → s' i = s i := by
  induction fuel with
  | zero => intro s s' k v _ h; simp [handleDependencies] at h
  | succ fuel ih =>
    intro s s' k v hk h
    simp only [handleDependencies] at h
    refine forEachRow_invariant _ (fun _ t => t i = s i) rows 0 s s' rfl ?_ h
    intro n r t t' hn hP hbody
    simp only [Nat.zero_add] at hbody
    rcases selectDependentRow_some hbody with ⟨-, rfl⟩ | ⟨dv, hd, hres⟩
    · exact hP
    · have hni : i ≠ n := by
        intro e
        subst e
        rw [hrow, Option.some.injEq] at hn
        subst hn
        rw [hdep, Option.some.injEq, Prod.mk.injEq] at hd
        rw [← hd.1, hmissing] at hk
        cases hk
      obtain ⟨b, -, hcase⟩ := handleDependentRow_some hres
      rcases hcase with ⟨-, rfl⟩ | ⟨input, hh, hrec⟩
      · rw [Function.update_noteq hni]
        exact hP
      · have hmem : r ∈ rows := (List.getElem?_eq_some_iff.mp hn).2 ▸ List.getElem_mem _
        have hin : input ∈ r.inputs := List.mem_of_mem_head? hh
        rw [ih _ _ _ _ (querySelector_isSome rows r hmem input hin) hrec,
          Function.update_noteq hni]
        exact hP

/-! ### The number of visible dependent rows -/

theorem countP_lt_of_imp {α : Type} (p q : α → Bool) (l : List α)
    (hmono : ∀ x ∈ l, p x = true → q x = true)
    (hne : ∃ x ∈ l, q x = true ∧ p x = false) : l.countP p < l.countP q := by
  induction l with
  | nil => obtain ⟨x, hx, -⟩ := hne; cases hx
  | cons a l ih =>
    have hle : l.countP p ≤ l.countP q :=
      List.countP_mono_left (fun x hx => hmono x (List.mem_cons_of_mem _ hx))
    obtain ⟨x, hx, hq, hp⟩ := hne
    rcases List.mem_cons.mp hx with rfl | hx
    · rw [List.countP_cons_of_pos _ _ hq, List.countP_cons_of_neg _ _ (by simp [hp])]
      omega
    · have hlt := ih (fun y hy => hmono y (List.mem_cons_of_mem _ hy)) ⟨x, hx, hq, hp⟩
      by_cases hpa : p a = true
      · rw [List.countP_cons_of_pos _ _ hpa,
          List.countP_cons_of_pos _ _ (hmono a (List.mem_cons_self _ _) hpa)]
        omega
      · rw [List.countP_cons_of_neg _ _ hpa]
        by_cases hqa : q a = true
        · rw [List.countP_cons_of_pos _ _ hqa]; omega
        · rw [List.countP_cons_of_neg _ _ hqa]; exact hlt

/-- A pass that records a change hides a dependent row that was visible when
the pass started. -/
theorem cascadePassFrom_changed (all : List Row) (i : Nat) (rows : List Row)
    (state : Displays × Bool) (h0 : state.2 = false)
    (h : (cascadePassFrom all i rows state).2 = true) :
    ∃ n row, rows[n]? = some row ∧ row.dependsOn.isSome = true ∧
      isVisible state.1 (i + n) = true ∧
      (cascadePassFrom all i rows state).1 (i + n) = Display.none := by
  induction rows generalizing i state with
  | nil =>
    simp only [cascadePassFrom] at h
    rw [h0] at h
    cases h
  | cons r rows ih =>
    simp only [cascadePassFrom] at h ⊢
    by_cases hc : r.dependsOn.isSome = true ∧ isVisible state.1 i = true ∧
        dependencyMet all state.1 r = false
    · refine ⟨0, r, List.getElem?_cons_zero, hc.1, hc.2.1, ?_⟩
      apply cascadePassFrom_none_mono
      rw [cascadeRow_eq, if_pos hc]
      simp
    · have hrow : cascadeRow all state i r = state := by rw [cascadeRow_eq, if_neg hc]
      rw [hrow] at h ⊢
      obtain ⟨n, row, hn, hd, hv, hres⟩ := ih (i + 1) state h0 h
      refine ⟨n + 1, row, by simpa using hn, hd, ?_, ?_⟩
      · rw [show i + (n + 1) = i + 1 + n by omega]; exact hv
      · rw [show i + (n + 1) = i + 1 + n by omega]; exact hres

theorem cascadePass_changed (rows : List Row) (disp : Displays)
    (h : (cascadePass rows disp).2 = true) :
    ∃ x row, rows[x]? = some row ∧ row.dependsOn.isSome = true ∧
      isVisible disp x = true ∧ isVisible (cascadePass rows disp).1 x = false := by
  obtain ⟨n, row, hn, hd, hv, hres⟩ := cascadePassFrom_changed rows 0 rows (disp, false) rfl h
  simp only [Nat.zero_add] at hv hres
  exact ⟨n, row, hn, hd, hv, by simp [isVisible, cascadePass, hres]⟩

theorem cascadePass_none_mono (rows : List Row) (disp : Displays) (x : Nat)
    (h : isVisible disp x = false) : isVisible (cascadePass rows disp).1 x = false := by
  have h1 : disp x = Display.none := by simpa [isVisible] using h
  have := cascadePassFrom_none_mono rows 0 rows (disp, false) x h1
  simp [isVisible, cascadePass, this]

theorem visibleDependents_le (rows : List Row) (disp : Displays) :
    visibleDependents rows disp ≤ dependentCount rows := by
  unfold visibleDependents dependentCount
  have h1 : rows.enum.countP (fun p => p.2.dependsOn.isSome && isVisible disp p.1)
      ≤ rows.enum.countP (fun p => p.2.dependsOn.isSome) :=
    List.countP_mono_left (fun p _ hp => by
      simp only [Bool.and_eq_true] at hp
      exact hp.1)
  have h2 : rows.enum.countP (fun p => p.2.dependsOn.isSome)
      = rows.countP (fun row => row.dependsOn.isSome) := by
    have : rows.countP (fun row => row.dependsOn.isSome)
        = (rows.enum.map Prod.snd).countP (fun row => row.dependsOn.isSome) := by
      rw [List.enum_map_snd]
    rw [this, List.countP_map]
    rfl
  omega

theorem visibleDependents_pass_le (rows : List Row) (disp : Displays) :
    visibleDependents rows (cascadePass rows disp).1 ≤ visibleDependents rows disp := by
  unfold visibleDependents
  apply List.countP_mono_left
  intro p _ hp
  simp only [Bool.and_eq_true] at hp ⊢
  refine ⟨hp.1, ?_⟩
  by_contra hv
  have := cascadePass_none_mono rows disp p.1 (by simpa using hv)
  rw [this] at hp
  exact Bool.false_ne_true hp.2

theorem visibleDependents_pass_lt (rows : List Row) (disp : Displays)
    (h : (cascadePass rows disp).2 = true) :
    visibleDependents rows (cascadePass rows disp).1 < visibleDependents rows disp := by
  unfold visibleDependents
  apply countP_lt_of_imp
  · intro p _ hp
    simp only [Bool.and_eq_true] at hp ⊢
    refine ⟨hp.1, ?_⟩
    by_contra hv
    have := cascadePass_none_mono rows disp p.1 (by simpa using hv)
    rw [this] at hp
    exact Bool.false_ne_true hp.2
  · obtain ⟨x, row, hx, hd, hv, hres⟩ := cascadePass_changed rows disp h
    refine ⟨(x, row), ?_, ?_, ?_⟩
    · rw [List.mem_iff_getElem?]
      exact ⟨x, by rw [List.enum, List.getElem?_enumFrom, hx]; simp⟩
    · simp [hd, hv]
    · simp [hres]

theorem cascadeLoop_iterations_le_visible (rows : List Row) (remaining : Nat) (disp : Displays) :
    (cascadeLoop rows remaining disp).2 ≤ visibleDependents rows disp + 1 := by
  induction remaining generalizing disp with
  | zero => simp [cascadeLoop]
  | succ n ih =>
    simp only [cascadeLoop]
    split
    · rename_i hc
      have h1 := ih (cascadePass rows disp).1
      have h2 := visibleDependents_pass_lt rows disp hc
      show (cascadeLoop rows n (cascadePass rows disp).1).2 + 1 ≤ _
      omega
    · show 1 ≤ _
      omega

theorem cascadeLoop_fixed (rows : List Row) (remaining : Nat) (disp : Displays)
    (h : visibleDependents rows disp + 1 ≤ remaining) :
    cascadePass rows (cascadeLoop rows remaining disp).1
      = ((cascadeLoop rows remaining disp).1, false) := by
  induction remaining generalizing disp with
  | zero => omega
  | succ n ih =>
    simp only [cascadeLoop]
    split
    · rename_i hc
      have h2 := visibleDependents_pass_lt rows disp hc
      exact ih (cascadePass rows disp).1 (by omega)
    · rename_i hc
      have hf : (cascadePass rows disp).2 = false := by simpa using hc
      have h1 := (cascadePass_unchanged rows disp hf).1
      show cascadePass rows (cascadePass rows disp).1 = ((cascadePass rows disp).1, false)
      rw [h1]
      exact Prod.ext h1 hf

/-! ### The resolver: hiding along a chain -/

/-- `handleDependencies(k, _)` leaves the rows alone that depend on a key
ranked below `k`. -/
theorem handleDependencies_frame_rank {rows : List Row} {rank : Str → Nat}
    (hrank : ∀ row ∈ rows, RankOk rank row) {x : Nat} {rowx : Row} {kx vx : Str}
    (hx : rows[x]? = some rowx) (hxd : rowx.dependsOn = some (kx, vx)) (fuel : Nat) :
    ∀ (s s' : Displays) (k v : Str), rank kx < rank k →
      handleDependencies rows fuel s k v = some s' → s' x = s x := by
  induction fuel with
  | zero => intro s s' k v _ h; simp [handleDependencies] at h
  | succ fuel ih =>
    intro s s' k v hk h
    simp only [handleDependencies] at h
    refine forEachRow_invariant _ (fun _ t => t x = s x) rows 0 s s' rfl ?_ h
    intro n row t t' hn hP hbody
    simp only [Nat.zero_add] at hbody
    rcases selectDependentRow_some hbody with ⟨-, rfl⟩ | ⟨dv, hd, hres⟩
    · exact hP
    · have hxn : x ≠ n := by
        intro e
        subst e
        rw [hx, Option.some.injEq] at hn
        subst hn
        rw [hxd, Option.some.injEq, Prod.mk.injEq] at hd
        rw [hd.1] at hk
        exact Nat.lt_irrefl _ hk
      obtain ⟨b, -, hcase⟩ := handleDependentRow_some hres
      rcases hcase with ⟨-, rfl⟩ | ⟨input, hh, hrec⟩
      · rw [Function.update_noteq hxn]
        exact hP
      · have hmem : row ∈ rows := (List.getElem?_eq_some_iff.mp hn).2 ▸ List.getElem_mem _
        have hlt := rankOk_lt (hrank row hmem) hd (List.mem_of_mem_head? hh)
        rw [ih _ _ _ _ (Nat.lt_trans hk hlt) hrec, Function.update_noteq hxn]
        exact hP

/-- A row whose source lies in a hidden row has no visible parent. -/
theorem isFieldParentVisible_hidden {rows : List Row} {c b : Nat} {rowC : Row} {keyB V : Str}
    {srcB : Input} (hC : rows[c]? = some rowC) (hCd : rowC.dependsOn = some (keyB, V))
    (hne : keyB ≠ []) (hBk : querySelector rows keyB = some (b, srcB)) (t : Displays)
    (ht : t b = Display.none) (fuel : Nat) (r : Bool)
    (h : isFieldParentVisible rows t fuel c = some r) : r = false := by
  cases fuel with
  | zero => simp [isFieldParentVisible] at h
  | succ fuel =>
    unfold isFieldParentVisible at h
    rw [hC] at h
    simp only [Option.some_bind, hCd] at h
    rw [if_neg (by simpa using hne), hBk] at h
    simp only [] at h
    rw [if_pos ht, Option.some.injEq] at h
    exact h.symm

/-- While the row `b` is hidden, a call for a key ranked above the key `b`
depends on leaves `b` and the hidden row `c` hidden. -/
theorem handleDependencies_keeps_hidden {rows : List Row} {rank : Str → Nat}
    (hrank : ∀ row ∈ rows, RankOk rank row) {b c : Nat} {rowB rowC : Row}
    {keyA keyB yes V : Str} {srcB : Input} (hB : rows[b]? = some rowB)
    (hBd : rowB.dependsOn = some (keyA, yes)) (hC : rows[c]? = some rowC)
    (hCd : rowC.dependsOn = some (keyB, V)) (hne : keyB ≠ [])
    (hBk : querySelector rows keyB = some (b, srcB)) (hAB : rank keyA < rank keyB)
    (fuel : Nat) :
    ∀ (s s' : Displays) (k v : Str), rank keyA < rank k →
      handleDependencies rows fuel s k v = some s' →
      s b = Display.none → s c = Display.none →
      s' b = Display.none ∧ s' c = Display.none := by
  have hbc : b ≠ c := by
    intro e
    subst e
    rw [hB, Option.some.injEq] at hC
    subst hC
    rw [hBd, Option.some.injEq, Prod.mk.injEq] at hCd
    rw [hCd.1] at hAB
    exact Nat.lt_irrefl _ hAB
  induction fuel with
  | zero => intro s s' k v _ h; simp [handleDependencies] at h
  | succ fuel ih =>
    intro s s' k v hk h hsb hsc
    simp only [handleDependencies] at h
    refine forEachRow_invariant _ (fun _ t => t b = Display.none ∧ t c = Display.none)
      rows 0 s s' ⟨hsb, hsc⟩ ?_ h
    intro n row t t' hn hP hbody
    simp only [Nat.zero_add] at hbody
    rcases selectDependentRow_some hbody with ⟨-, rfl⟩ | ⟨dv, hd, hres⟩
    · exact hP
    · have hbn : b ≠ n := by
        intro e
        subst e
        rw [hB, Option.some.injEq] at hn
        subst hn
        rw [hBd, Option.some.injEq, Prod.mk.injEq] at hd
        rw [hd.1] at hk
        exact Nat.lt_irrefl _ hk
      obtain ⟨r, hr, hcase⟩ := handleDependentRow_some hres
      have hupd : ∀ d : Display,
          (n = c → d = Display.none) →
          (Function.update t n d) b = Display.none ∧ (Function.update t n d) c = Display.none := by
        intro d hd'
        refine ⟨by rw [Function.update_noteq hbn]; exact hP.1, ?_⟩
        by_cases hcn : c = n
        · subst hcn
          rw [Function.update_same]
          exact hd' rfl
        · rw [Function.update_noteq hcn]
          exact hP.2
      have hshow : n = c →
          (if (valuesMatch (.str v) (.str dv) && r) = true then Display.block
            else Display.none) = Display.none := by
        intro e
        subst e
        rw [hC, Option.some.injEq] at hn
        subst hn
        have := isFieldParentVisible_hidden hC hCd hne hBk t hP.1 fuel r hr
        rw [this]
        simp
      rcases hcase with ⟨-, rfl⟩ | ⟨input, hh, hrec⟩
      · exact hupd _ hshow
      · have hmem : row ∈ rows := (List.getElem?_eq_some_iff.mp hn).2 ▸ List.getElem_mem _
        have hlt := rankOk_lt (hrank row hmem) hd (List.mem_of_mem_head? hh)
        have h2 := hupd _ hshow
        exact ih _ _ _ _ (Nat.lt_trans hk hlt) hrec h2.1 h2.2

/-- While the row `b` is hidden, the call for the key of `b` hides the row
`c`. -/
theorem handleDependencies_hides_dependent {rows : List Row} {rank : Str → Nat}
    (hrank : ∀ row ∈ rows, RankOk rank row) {b c : Nat} {rowB rowC : Row}
    {keyA keyB yes V : Str} {srcB : Input} (hB : rows[b]? = some rowB)
    (hBd : rowB.dependsOn = some (keyA, yes)) (hC : rows[c]? = some rowC)
    (hCd : rowC.dependsOn = some (keyB, V)) (hne : keyB ≠ [])
    (hBk : querySelector rows keyB = some (b, srcB)) (hAB : rank keyA < rank keyB)
    (fuel : Nat) (s s' : Displays) (v : Str)
    (h : handleDependencies rows fuel s keyB v = some s') (hsb : s b = Display.none) :
    s' b = Display.none ∧ s' c = Display.none := by
  have hbc : b ≠ c := by
    intro e
    subst e
    rw [hB, Option.some.injEq] at hC
    subst hC
    rw [hBd, Option.some.injEq, Prod.mk.injEq] at hCd
    rw [hCd.1] at hAB
    exact Nat.lt_irrefl _ hAB
  cases fuel with
  | zero => simp [handleDependencies] at h
  | succ fuel =>
    simp only [handleDependencies] at h
    have hfin := forEachRow_invariant _
      (fun m t => t b = Display.none ∧ (c < m → t c = Display.none))
      rows 0 s s' ⟨hsb, fun hc => absurd hc (Nat.not_lt_zero _)⟩ ?_ h
    · refine ⟨hfin.1, hfin.2 ?_⟩
      have := (List.getElem?_eq_some_iff.mp hC).1
      omega
    intro n row t t' hn hP hbody
    simp only [Nat.zero_add] at hbody hP ⊢
    rcases selectDependentRow_some hbody with ⟨hnk, rfl⟩ | ⟨dv, hd, hres⟩
    · refine ⟨hP.1, fun hc => hP.2 ?_⟩
      have hcn : c ≠ n := by
        intro e
        subst e
        rw [hC, Option.some.injEq] at hn
        subst hn
        exact hnk (by simp [Row.dependsOnKey, hCd])
      omega
    · have hbn : b ≠ n := by
        intro e
        subst e
        rw [hB, Option.some.injEq] at hn
        subst hn
        rw [hBd, Option.some.injEq, Prod.mk.injEq] at hd
        rw [hd.1] at hAB
        exact Nat.lt_irrefl _ hAB
      obtain ⟨r, hr, hcase⟩ := handleDependentRow_some hres
      have hmem : row ∈ rows := (List.getElem?_eq_some_iff.mp hn).2 ▸ List.getElem_mem _
      by_cases hcn : c = n
      · subst hcn
        rw [hC, Option.some.injEq] at hn
        subst hn
        have hr' := isFieldParentVisible_hidden hC hCd hne hBk t hP.1 fuel r hr
        subst hr'
        simp only [Bool.and_false, Bool.false_eq_true, if_false] at hcase
        rcases hcase with ⟨-, rfl⟩ | ⟨input, hh, hrec⟩
        · exact ⟨by rw [Function.update_noteq hbn]; exact hP.1,
            fun _ => Function.update_same _ _ _⟩
        · have hlt := rankOk_lt (hrank _ hmem) hd (List.mem_of_mem_head? hh)
          have := handleDependencies_keeps_hidden hrank hB hBd hC hCd hne hBk hAB fuel _ _ _ _
            (Nat.lt_trans hAB hlt) hrec (by rw [Function.update_noteq hbn]; exact hP.1)
            (Function.update_same _ _ _)
          exact ⟨this.1, fun _ => this.2⟩
      · rcases hcase with ⟨-, rfl⟩ | ⟨input, hh, hrec⟩
        · refine ⟨by rw [Function.update_noteq hbn]; exact hP.1, fun hc => ?_⟩
          rw [Function.update_noteq hcn]
          exact hP.2 (by omega)
        · have hlt := rankOk_lt (hrank _ hmem) hd (List.mem_of_mem_head? hh)
          have hb' : t' b = Display.none := by
            rw [handleDependencies_frame_rank hrank hB hBd fuel _ _ _ _
              (Nat.lt_trans hAB hlt) hrec, Function.update_noteq hbn]
            exact hP.1
          refine ⟨hb', fun hc => ?_⟩
          have hc' : t c = Display.none := hP.2 (by omega)
          exact (handleDependencies_keeps_hidden hrank hB hBd hC hCd hne hBk hAB fuel _ _ _ _
            (Nat.lt_trans hAB hlt) hrec (by rw [Function.update_noteq hbn]; exact hP.1)
            (by rw [Function.update_noteq hcn]; exact hc')).2

/-- The call for the key `b` depends on, with a value that does not match,
hides `b` and `c`. -/
theorem handleDependencies_hides_chain {rows : List Row} {rank : Str → Nat}
    (hrank : ∀ row ∈ rows, RankOk rank row) {b c : Nat} {rowB rowC : Row}
    {keyA keyB yes V : Str} {srcB : Input} (hB : rows[b]? = some rowB)
    (hBd : rowB.dependsOn = some (keyA, yes)) (hC : rows[c]? = some rowC)
    (hCd : rowC.dependsOn = some (keyB, V)) (hne : keyB ≠ [])
    (hBk : querySelector rows keyB = some (b, srcB)) (hAB : rank keyA < rank keyB)
    (hhead : rowB.childKey = some keyB) (fuel : Nat)
    (s s' : Displays) (v : Str) (hv : valuesMatch (.str v) (.str yes) = false)
    (h : handleDependencies rows fuel s keyA v = some s') :
    s' b = Display.none ∧ s' c = Display.none := by
  have hbc : b ≠ c := by
    intro e
    subst e
    rw [hB, Option.some.injEq] at hC
    subst hC
    rw [hBd, Option.some.injEq, Prod.mk.injEq] at hCd
    rw [hCd.1] at hAB
    exact Nat.lt_irrefl _ hAB
  cases fuel with
  | zero => simp [handleDependencies] at h
  | succ fuel =>
    simp only [handleDependencies] at h
    have hfin := forEachRow_invariant _
      (fun m t => b < m → t b = Display.none ∧ t c = Display.none)
      rows 0 s s' (fun hb => absurd hb (Nat.not_lt_zero _)) ?_ h
    · refine hfin ?_
      have := (List.getElem?_eq_some_iff.mp hB).1
      omega
    intro n row t t' hn hP hbody
    simp only [Nat.zero_add] at hbody hP ⊢
    rcases selectDependentRow_some hbody with ⟨hnk, rfl⟩ | ⟨dv, hd, hres⟩
    · intro hb
      refine hP ?_
      have hbn : b ≠ n := by
        intro e
        subst e
        rw [hB, Option.some.injEq] at hn
        subst hn
        exact hnk (by simp [Row.dependsOnKey, hBd])
      omega
    · obtain ⟨r, hr, hcase⟩ := handleDependentRow_some hres
      have hmem : row ∈ rows := (List.getElem?_eq_some_iff.mp hn).2 ▸ List.getElem_mem _
      have hcn : c ≠ n := by
        intro e
        subst e
        rw [hC, Option.some.injEq] at hn
        subst hn
        rw [hCd, Option.some.injEq, Prod.mk.injEq] at hd
        rw [hd.1] at hAB
        exact Nat.lt_irrefl _ hAB
      by_cases hbn : b = n
      · subst hbn
        rw [hB, Option.some.injEq] at hn
        subst hn
        rw [hBd, Option.some.injEq, Prod.mk.injEq] at hd
        obtain ⟨-, rfl⟩ := hd
        simp only [hv, Bool.false_and, Bool.false_eq_true, if_false] at hcase
        intro _
        rcases hcase with ⟨hnone, rfl⟩ | ⟨input, hh, hrec⟩
        · exfalso
          unfold Row.childKey at hhead
          rw [hnone] at hhead
          cases hhead
        · have hk : input.dataKey = keyB := by
            unfold Row.childKey at hhead
            rw [hh] at hhead
            simpa using hhead
          rw [hk] at hrec
          exact handleDependencies_hides_dependent hrank hB hBd hC hCd hne hBk hAB fuel _ _ _
            hrec (Function.update_same _ _ _)
      · intro hb
        have hlt' : b < n := by omega
        have hPt := hP hlt'
        rcases hcase with ⟨-, rfl⟩ | ⟨input, hh, hrec⟩
        · exact ⟨by rw [Function.update_noteq hbn]; exact hPt.1,
            by rw [Function.update_noteq hcn]; exact hPt.2⟩
        · have hlt := rankOk_lt (hrank _ hmem) hd (List.mem_of_mem_head? hh)
          exact handleDependencies_keeps_hidden hrank hB hBd hC hCd hne hBk hAB fuel _ _ _ _
            hlt hrec (by rw [Function.update_noteq hbn]; exact hPt.1)
            (by rw [Function.update_noteq hcn]; exact hPt.2)

/-! ### Trimming -/

theorem trimStart_suffix (s : Str) : trimStart s <:+ s := List.dropWhile_suffix _

theorem trimEnd_initial (s : Str) : trimEnd s <+: s := List.rdropWhile_prefix _ _

theorem trim_eq_self_iff (s : Str) : trim s = s ↔ trimStart s = s ∧ trimEnd s = s := by
  constructor
  · intro h
    have h1 := (trimStart_suffix s).length_le
    have h2 := (trimEnd_initial (trimStart s)).length_le
    have h3 : (trimEnd (trimStart s)).length = s.length := by
      have := congrArg List.length h
      simpa [trim] using this
    have hs : trimStart s = s := (trimStart_suffix s).eq_of_length (by omega)
    refine ⟨hs, ?_⟩
    have := h
    unfold trim at this
    rwa [hs] at this
  · rintro ⟨h1, h2⟩
    unfold trim
    rw [h1, h2]

theorem trimStart_cons_of_not (c : Char) (s : Str) (h : isWhiteSpace c = false) :
    trimStart (c :: s) = c :: s := by
  simp [trimStart, List.dropWhile, h]

theorem trimEnd_append_of_ne (s t : Str) (ht : t ≠ []) (h : trimEnd t = t) :
    trimEnd (s ++ t) = s ++ t := by
  have e : ∀ x : Str, trimEnd x = x.rdropWhile isWhiteSpace := fun _ => rfl
  rw [e] at *
  rw [List.rdropWhile_eq_self_iff] at *
  intro hl
  have := h ht
  rwa [List.getLast_append_of_ne_nil ht]

theorem trimStart_eq_self_head (s : Str) (hs : s ≠ []) (h : trimStart s = s) :
    ∃ c t, s = c :: t ∧ isWhiteSpace c = false := by
  cases s with
  | nil => exact absurd rfl hs
  | cons c t =>
    refine ⟨c, t, rfl, ?_⟩
    by_contra hc
    have hc' : isWhiteSpace c = true := by simpa using hc
    have := (List.dropWhile_suffix isWhiteSpace (l := t)).length_le
    have h2 := congrArg List.length h
    simp [trimStart, List.dropWhile, hc'] at h2
    omega

theorem trim_nil : trim [] = [] := rfl

/-- A text that starts with a character that is no white space keeps it as its
first character when trimmed. -/
theorem trim_cons_head (c : Char) (s : Str) (h : isWhiteSpace c = false) :
    ∃ t, trim (c :: s) = c :: t := by
  unfold trim
  rw [trimStart_cons_of_not c s h]
  show ∃ t, (c :: s).rdropWhile isWhiteSpace = c :: t
  induction s using List.reverseRecOn with
  | nil =>
    refine ⟨[], ?_⟩
    have : [c] = [] ++ [c] := rfl
    rw [this, List.rdropWhile_concat_neg]
    simp [h]
  | append_singleton s x ih =>
    by_cases hx : isWhiteSpace x = true
    · obtain ⟨t, ht⟩ := ih
      refine ⟨t, ?_⟩
      rw [← List.cons_append, List.rdropWhile_concat_pos _ _ _ hx, ht]
    · refine ⟨s ++ [x], ?_⟩
      rw [← List.cons_append, List.rdropWhile_concat_neg _ _ _ hx]

/-! ### Splitting into lines -/

theorem jsSplitGo_newline_line (cur l rest : Str) (h : '\n' ∉ l) :
    jsSplitGo ['\n'] 0 cur (l ++ '\n' :: rest) = (cur ++ l) :: jsSplitGo ['\n'] 0 [] rest := by
  induction l generalizing cur with
  | nil => simp [jsSplitGo, List.isPrefixOf]
  | cons c cs ih =>
    have hc : c ≠ '\n' := fun e => h (by simp [e])
    have hcs : '\n' ∉ cs := fun e => h (by simp [e])
    have hp : List.isPrefixOf ['\n'] (c :: (cs ++ '\n' :: rest)) = false := by
      simp [List.isPrefixOf, Ne.symm hc]
    rw [List.cons_append, jsSplitGo, if_neg (by simp [hp]), ih _ hcs]
    simp

/-- The lines of a text made of lines without line break, each closed by a
line break. -/
theorem jsSplit_newline_lines (bodies : List Str) (h : ∀ l ∈ bodies, '\n' ∉ l) :
    jsSplit ['\n'] (bodies.flatMap fun l => l ++ ['\n']) = bodies ++ [[]] := by
  unfold jsSplit
  induction bodies with
  | nil => simp [jsSplitGo]
  | cons l ls ih =>
    rw [List.flatMap_cons, List.append_assoc, List.singleton_append,
      jsSplitGo_newline_line _ _ _ (h l (by simp)), ih (fun x hx => h x (by simp [hx]))]
    simp

/-! ### Reading back a written line -/

theorem decodeLine_nil : decodeLine [] = none := by decide

theorem decodeLine_comment (text : Str) : decodeLine ("# ".toList ++ text) = none := by
  obtain ⟨t, ht⟩ := trim_cons_head '#' (' ' :: text) (by decide)
  have e : "# ".toList ++ text = '#' :: ' ' :: text := rfl
  unfold decodeLine
  rw [e]
  simp [ht]

theorem findIdx_separator (key value : Str) (h1 : '=' ∉ key) (h2 : ':' ∉ key) :
    List.findIdx (fun c => decide (c = '=' ∨ c = ':')) (key ++ '=' :: value) = key.length := by
  induction key with
  | nil => simp [List.findIdx_cons]
  | cons c cs ih =>
    have hc1 : c ≠ '=' := fun e => h1 (by simp [e])
    have hc2 : c ≠ ':' := fun e => h2 (by simp [e])
    rw [List.cons_append, List.findIdx_cons]
    simp only [hc1, hc2, or_self, decide_False, cond_false, List.length_cons]
    rw [ih (fun e => h1 (by simp [e])) (fun e => h2 (by simp [e]))]

theorem decodeLine_pair (key value : Str) (hk : CleanKey key) (hv : CleanValue value) :
    decodeLine (key ++ ['='] ++ value) = some (key, value) := by
  obtain ⟨hne, hkt, -, hk1, hk2, hk3, hk4⟩ := hk
  obtain ⟨hvt, -⟩ := hv
  obtain ⟨hks, hke⟩ := (trim_eq_self_iff key).mp hkt
  obtain ⟨hvs, hve⟩ := (trim_eq_self_iff value).mp hvt
  obtain ⟨c, t, rfl, hc⟩ := trimStart_eq_self_head key hne hks
  have hline : trim ((c :: t) ++ ['='] ++ value) = (c :: t) ++ ['='] ++ value := by
    unfold trim
    rw [List.append_assoc, List.cons_append, trimStart_cons_of_not _ _ hc, ← List.cons_append]
    by_cases hv0 : value = []
    · subst hv0
      exact trimEnd_append_of_ne _ _ (by simp) (by decide)
    · rw [← List.append_assoc]
      exact trimEnd_append_of_ne _ _ hv0 hve
  have hidx : separatorIndex ((c :: t) ++ ['='] ++ value) = some (c :: t).length := by
    unfold separatorIndex
    rw [List.append_assoc, List.singleton_append, findIdx_separator _ _ hk1 hk2]
    simp
  unfold decodeLine
  rw [hline]
  have hh : ((c :: t) ++ ['='] ++ value).head? = some c := rfl
  have hc3 : c ≠ '#' := fun e => hk3 (by simp [e])
  have hc4 : c ≠ '!' := fun e => hk4 (by simp [e])
  have htake : ((c :: t) ++ ['='] ++ value).take (c :: t).length = c :: t := by
    rw [List.append_assoc, List.take_left']
    rfl
  have hdrop : ((c :: t) ++ ['='] ++ value).drop ((c :: t).length + 1) = value := by
    have : (c :: t).length + 1 = ((c :: t) ++ ['=']).length := by simp
    rw [this, List.drop_left']
    rfl
  simp only [hh, hidx, htake, hdrop, hkt, hvt]
  simp [hc3, hc4]

/-- The text of a line without its line break. -/
theorem render_eq_body (line : Line) :
    ∃ body, line.render = body ++ ['\n'] ∧
      (CleanLine line → '\n' ∉ body ∧
        decodeLine body = (match line with
          | .pair key value => some (key, value)
          | _ => none)) := by
  cases line with
  | comment text =>
    refine ⟨"# ".toList ++ text, rfl, fun h => ⟨?_, decodeLine_comment text⟩⟩
    have h' : '\n' ∉ text := h
    simp [h']
  | blank => exact ⟨[], rfl, fun _ => ⟨by simp, decodeLine_nil⟩⟩
  | pair key value =>
    refine ⟨key ++ ['='] ++ value, by simp [Line.render], fun h => ⟨?_, decodeLine_pair key value h.1 h.2⟩⟩
    have h1 : '\n' ∉ key := h.1.2.2.1
    have h2 : '\n' ∉ value := h.2.2
    simp [h1, h2]

/-- Reading back the text of clean lines gives the written pairs, in order. -/
theorem decodeLines_renderLines (lines : List Line) (h : ∀ line ∈ lines, CleanLine line) :
    decodeLines (renderLines lines) = writtenPairs lines := by
  have key : ∃ bodies : List Str, (renderLines lines = bodies.flatMap fun l => l ++ ['\n']) ∧
      (∀ l ∈ bodies, '\n' ∉ l) ∧ bodies.filterMap decodeLine = writtenPairs lines := by
    induction lines with
    | nil => exact ⟨[], rfl, by simp, rfl⟩
    | cons line rest ih =>
      obtain ⟨bodies, h1, h2, h3⟩ := ih (fun l hl => h l (by simp [hl]))
      obtain ⟨body, hb, hc⟩ := render_eq_body line
      obtain ⟨hc1, hc2⟩ := hc (h line (by simp))
      refine ⟨body :: bodies, ?_, ?_, ?_⟩
      · simp only [renderLines, List.flatMap_cons] at h1 ⊢
        rw [hb, h1]
      · intro l hl
        rcases List.mem_cons.mp hl with rfl | hl
        · exact hc1
        · exact h2 l hl
      · rw [List.filterMap_cons, hc2]
        cases line <;> simp [writtenPairs, List.filterMap_cons] <;> exact h3
  obtain ⟨bodies, h1, h2, h3⟩ := key
  unfold decodeLines
  rw [h1, jsSplit_newline_lines bodies h2, List.filterMap_append, h3]
  simp [decodeLine_nil]

theorem filterMap_enumFrom_map {β γ : Type} (F : Nat × Str → Option β) (G : β → γ)
    (D : Str → Option γ) (h : ∀ i l, (F (i, l)).map G = D l) (n : Nat) (ls : List Str) :
    ((ls.enumFrom n).filterMap F).map G = ls.filterMap D := by
  induction ls generalizing n with
  | nil => rfl
  | cons l ls ih =>
    rw [List.enumFrom_cons, List.filterMap_cons, List.filterMap_cons, ← h n l]
    cases F (n, l) with
    | none => exact ih (n + 1)
    | some b => simp only [Option.map_some', List.map_cons, ih (n + 1)]

/-- The keys and values of `parsePropertiesFileForEditor` are those of the line
rules, in file order. -/
theorem parsePropertiesFileForEditor_pairs (domainKeyPattern content : Str) :
    (parsePropertiesFileForEditor domainKeyPattern content).map (fun p => (p.key, p.default))
      = decodeLines content := by
  unfold parsePropertiesFileForEditor decodeLines List.enum
  apply filterMap_enumFrom_map
  intro i l
  rcases hd : decodeLine l with _ | ⟨k, v⟩
  · simp [hd]
  · simp [hd, editorProperty]

theorem objectSet_fresh {α : Type} (object : List (Str × α)) (key : Str) (value : α)
    (h1 : key ≠ "__proto__".toList) (h2 : key ∉ object.map Prod.fst) :
    objectSet object key value = object ++ [(key, value)] := by
  unfold objectSet
  rw [if_neg h1, if_neg]
  simp only [List.any_eq_true, decide_eq_true_eq, not_exists, not_and]
  intro e he hk
  exact h2 (hk ▸ List.mem_map_of_mem Prod.fst he)

/-- Writing pairs with distinct keys into an object that has none of them
appends them in order. -/
theorem foldl_objectSet_nodup {α : Type} (pairs object : List (Str × α))
    (h1 : "__proto__".toList ∉ pairs.map Prod.fst)
    (h2 : (object.map Prod.fst ++ pairs.map Prod.fst).Nodup) :
    pairs.foldl (fun o p => objectSet o p.1 p.2) object = object ++ pairs := by
  induction pairs generalizing object with
  | nil => simp
  | cons p ps ih =>
    have hp1 : p.1 ≠ "__proto__".toList :=
      fun e => h1 (e ▸ List.mem_map_of_mem Prod.fst (List.mem_cons_self p ps))
    have h1' : "__proto__".toList ∉ ps.map Prod.fst :=
      fun h => h1 (List.mem_cons_of_mem _ h)
    rw [List.map_cons, List.nodup_append] at h2
    obtain ⟨h2a, h2b, h2c⟩ := h2
    have hp2 : p.1 ∉ object.map Prod.fst := fun hmem => h2c hmem (List.mem_cons_self _ _)
    rw [List.foldl_cons, objectSet_fresh object p.1 p.2 hp1 hp2, ih _ h1']
    · rw [List.append_assoc]; rfl
    · rw [List.map_append, List.nodup_append]
      refine ⟨List.nodup_append.mpr ⟨h2a, List.nodup_singleton _, ?_⟩, (List.nodup_cons.mp h2b).2, ?_⟩
      · intro x hx hx'
        rw [List.map_cons, List.map_nil, List.mem_singleton] at hx'
        exact hp2 (hx' ▸ hx)
      · intro x hx hx'
        rcases List.mem_append.mp hx with hx | hx
        · exact h2c hx (List.mem_cons_of_mem _ hx')
        · rw [List.map_cons, List.map_nil, List.mem_singleton] at hx
          exact (List.nodup_cons.mp h2b).1 (hx ▸ hx')

/-! ### Objects and grouping -/

theorem objectKeys_perm {α : Type} (object : List (Str × α)) :
    (objectKeys object).Perm (object.map Prod.fst) := by
  unfold objectKeys
  refine ((List.perm_insertionSort _ _).append_right _).trans ?_
  have := List.filter_append_perm (fun key => (arrayIndex key).isSome) (object.map Prod.fst)
  refine List.Perm.trans ?_ this
  refine List.Perm.append_left _ ?_
  apply List.Perm.of_eq
  congr 1
  funext k
  cases arrayIndex k <;> rfl

theorem objectSet_proto {α : Type} (object : List (Str × α)) (value : α) :
    objectSet object "__proto__".toList value = object := by
  unfold objectSet
  rw [if_pos rfl]

theorem objectSet_present {α : Type} (object : List (Str × α)) (key : Str) (value : α)
    (h1 : key ≠ "__proto__".toList) (h2 : key ∈ object.map Prod.fst) :
    objectSet object key value
      = object.map (fun entry => if entry.1 = key then (key, value) else entry) := by
  unfold objectSet
  rw [if_neg h1, if_pos]
  obtain ⟨e, he, hk⟩ := List.mem_map.mp h2
  exact List.any_eq_true.mpr ⟨e, he, decide_eq_true hk⟩

theorem mem_objectSet {α : Type} (object : List (Str × α)) (key k : Str) (value v : α) :
    (k, v) ∈ objectSet object key value ↔
      if k = key ∧ key ≠ "__proto__".toList then v = value else (k, v) ∈ object := by
  by_cases h1 : key = "__proto__".toList
  · subst h1
    rw [objectSet_proto, if_neg (fun h => h.2 rfl)]
  · by_cases h2 : key ∈ object.map Prod.fst
    · rw [objectSet_present _ _ _ h1 h2]
      by_cases hk : k = key
      · subst hk
        rw [if_pos ⟨rfl, h1⟩]
        constructor
        · intro h
          obtain ⟨e, _, hf⟩ := List.mem_map.mp h
          by_cases hek : e.1 = k
          · rw [if_pos hek] at hf
            exact (Prod.mk.inj hf).2.symm
          · rw [if_neg hek] at hf
            exact absurd (congrArg Prod.fst hf) hek
        · rintro rfl
          obtain ⟨e, he, hek⟩ := List.mem_map.mp h2
          exact List.mem_map.mpr ⟨e, he, by rw [if_pos hek]⟩
      · rw [if_neg (fun h => hk h.1)]
        constructor
        · intro h
          obtain ⟨e, he, hf⟩ := List.mem_map.mp h
          by_cases hek : e.1 = key
          · rw [if_pos hek] at hf
            exact absurd (congrArg Prod.fst hf).symm hk
          · rw [if_neg hek] at hf
            exact hf ▸ he
        · intro h
          refine List.mem_map.mpr ⟨(k, v), h, ?_⟩
          rw [if_neg hk]
    · rw [objectSet_fresh _ _ _ h1 h2, List.mem_append, List.mem_singleton]
      by_cases hk : k = key
      · subst hk
        rw [if_pos ⟨rfl, h1⟩]
        constructor
        · rintro (h | h)
          · exact absurd (List.mem_map_of_mem Prod.fst h) h2
          · exact (Prod.mk.inj h).2
        · rintro rfl
          exact Or.inr rfl
      · rw [if_neg (fun h => hk h.1)]
        constructor
        · rintro (h | h)
          · exact h
          · exact absurd (Prod.mk.inj h).1 hk
        · exact Or.inl

theorem objectSet_keys_nodup {α : Type} (object : List (Str × α)) (key : Str) (value : α)
    (h : (object.map Prod.fst).Nodup) : ((objectSet object key value).map Prod.fst).Nodup := by
  by_cases h1 : key = "__proto__".toList
  · subst h1
    rwa [objectSet_proto]
  · by_cases h2 : key ∈ object.map Prod.fst
    · rw [objectSet_present _ _ _ h1 h2, List.map_map]
      have : (Prod.fst ∘ fun entry : Str × α => if entry.1 = key then (key, value) else entry)
          = Prod.fst := by
        funext e
        by_cases hk : e.1 = key
        · simp only [Function.comp, if_pos hk]; exact hk.symm
        · simp only [Function.comp, if_neg hk]
      rwa [this]
    · rw [objectSet_fresh _ _ _ h1 h2, List.map_append, List.nodup_append]
      refine ⟨h, List.nodup_singleton _, ?_⟩
      intro x hx hx'
      rw [List.map_cons, List.map_nil, List.mem_singleton] at hx'
      have hx2 : x = key := hx'
      exact h2 (hx2 ▸ hx)

theorem objectGet_of_mem {α : Type} (object : List (Str × α)) (k : Str) (v : α)
    (hnd : (object.map Prod.fst).Nodup) (h : (k, v) ∈ object) :
    objectGet object k = some v := by
  unfold objectGet
  induction object with
  | nil => cases h
  | cons e es ih =>
    rw [List.map_cons, List.nodup_cons] at hnd
    rcases List.mem_cons.mp h with h | h
    · subst h
      rw [List.find?_cons_of_pos _ (by exact decide_eq_true rfl)]
      rfl
    · have hne : e.1 ≠ k := fun hek => hnd.1 (hek ▸ List.mem_map_of_mem Prod.fst h)
      rw [List.find?_cons_of_neg _ (by simpa using hne)]
      exact ih hnd.2 h

/-- The object `properties` has each key once. -/
theorem importedProperties_nodup (content : Str) :
    ((importedProperties content).map Prod.fst).Nodup := by
  unfold importedProperties
  generalize decodeLines content = lines
  induction lines using List.reverseRecOn with
  | nil => exact List.nodup_nil
  | append_singleton ls x ih =>
    rw [List.foldl_append, List.foldl_cons, List.foldl_nil]
    exact objectSet_keys_nodup _ _ _ ih

/-- The object `properties` holds, for each key other than `__proto__`, the
value of the last line with that key. -/
theorem mem_importedProperties (content k v : Str) :
    (k, v) ∈ importedProperties content ↔
      k ≠ "__proto__".toList ∧
        ((decodeLines content).filter fun line => line.1 = k).getLast? = some (k, v) := by
  unfold importedProperties
  generalize decodeLines content = lines
  induction lines using List.reverseRecOn with
  | nil => simp
  | append_singleton ls x ih =>
    rw [List.foldl_append, List.foldl_cons, List.foldl_nil, mem_objectSet, List.filter_append]
    by_cases hk : k = x.1
    · subst hk
      have hf : List.filter (fun line : Str × Str => decide (line.1 = x.1)) [x] = [x] := by
        simp
      rw [hf, List.getLast?_append, List.getLast?_singleton]
      by_cases hp : x.1 = "__proto__".toList
      · rw [if_neg (fun h => h.2 hp)]
        constructor
        · intro h; exact absurd hp (ih.mp h).1
        · intro h; exact absurd hp h.1
      · rw [if_pos ⟨rfl, hp⟩]
        constructor
        · rintro rfl; exact ⟨hp, rfl⟩
        · intro h
          have := Option.some.inj h.2
          exact (congrArg Prod.snd this).symm
    · have hf : List.filter (fun line : Str × Str => decide (line.1 = k)) [x] = [] := by
        simp [Ne.symm hk]
      rw [hf, List.append_nil, if_neg (fun h => hk h.1)]
      exact ih

/-! ### Grouping by category -/

section Grouping

variable {α : Type}

theorem pushToCategory_present (cats : List (Str × List α)) (name : Str) (x : α)
    (h : name ∈ cats.map Prod.fst) :
    pushToCategory cats name x
      = cats.map fun entry => if entry.1 = name then (entry.1, entry.2 ++ [x]) else entry := by
  unfold pushToCategory
  rw [if_pos]
  obtain ⟨e, he, hk⟩ := List.mem_map.mp h
  exact List.any_eq_true.mpr ⟨e, he, decide_eq_true hk⟩

theorem pushToCategory_fresh (cats : List (Str × List α)) (name : Str) (x : α)
    (h : name ∉ cats.map Prod.fst) :
    pushToCategory cats name x = cats ++ [(name, [x])] := by
  unfold pushToCategory
  rw [if_neg]
  intro hany
  obtain ⟨e, he, hk⟩ := List.any_eq_true.mp hany
  exact h (of_decide_eq_true hk ▸ List.mem_map_of_mem Prod.fst he)

theorem pushToCategory_names (cats : List (Str × List α)) (name : Str) (x : α) :
    (pushToCategory cats name x).map Prod.fst
      = if name ∈ cats.map Prod.fst then cats.map Prod.fst else cats.map Prod.fst ++ [name] := by
  by_cases h : name ∈ cats.map Prod.fst
  · rw [pushToCategory_present _ _ _ h, if_pos h, List.map_map]
    apply List.map_congr_left
    intro e _
    by_cases hk : e.1 = name
    · simp only [Function.comp, if_pos hk]
    · simp only [Function.comp, if_neg hk]
  · rw [pushToCategory_fresh _ _ _ h, if_neg h, List.map_append]
    rfl

theorem pushToCategory_nodup (cats : List (Str × List α)) (name : Str) (x : α)
    (h : (cats.map Prod.fst).Nodup) : ((pushToCategory cats name x).map Prod.fst).Nodup := by
  rw [pushToCategory_names]
  split
  · exact h
  · rename_i hn
    rw [List.nodup_append]
    refine ⟨h, List.nodup_singleton _, ?_⟩
    intro y hy hy'
    rw [List.mem_singleton] at hy'
    exact hn (hy' ▸ hy)

theorem pushToCategory_perm (cats : List (Str × List α)) (name : Str) (x : α)
    (h : (cats.map Prod.fst).Nodup) :
    ((pushToCategory cats name x).flatMap Prod.snd).Perm (cats.flatMap Prod.snd ++ [x]) := by
  by_cases hn : name ∈ cats.map Prod.fst
  · rw [pushToCategory_present _ _ _ hn]
    induction cats with
    | nil => cases hn
    | cons e es ih =>
      rw [List.map_cons, List.nodup_cons] at h
      by_cases hk : e.1 = name
      · have hes : (es.map fun entry : Str × List α =>
            if entry.1 = name then (entry.1, entry.2 ++ [x]) else entry) = es := by
          conv_rhs => rw [← List.map_id es]
          apply List.map_congr_left
          intro e' he'
          have : e'.1 ≠ name := fun h' => h.1 (hk ▸ h' ▸ List.mem_map_of_mem Prod.fst he')
          rw [if_neg this]; rfl
        rw [List.map_cons, hes, if_pos hk, List.flatMap_cons, List.flatMap_cons]
        simp only [List.append_assoc]
        exact List.Perm.append_left _ List.perm_append_comm
      · have hn' : name ∈ es.map Prod.fst := by
          rcases List.mem_cons.mp hn with h' | h'
          · exact absurd h'.symm hk
          · exact h'
        rw [List.map_cons, if_neg hk, List.flatMap_cons, List.flatMap_cons, List.append_assoc]
        exact List.Perm.append_left _ (ih h.2 hn')
  · rw [pushToCategory_fresh _ _ _ hn, List.flatMap_append]
    simp

theorem mem_pushToCategory (cats : List (Str × List α)) (name n : Str) (x : α)
    (items : List α) :
    (n, items) ∈ pushToCategory cats name x ↔
      (n ≠ name ∧ (n, items) ∈ cats) ∨
      (n = name ∧ ((∃ old, (name, old) ∈ cats ∧ items = old ++ [x]) ∨
        (name ∉ cats.map Prod.fst ∧ items = [x]))) := by
  by_cases hn : name ∈ cats.map Prod.fst
  · rw [pushToCategory_present _ _ _ hn, List.mem_map]
    constructor
    · rintro ⟨e, he, hf⟩
      by_cases hk : e.1 = name
      · rw [if_pos hk] at hf
        obtain ⟨h1, h2⟩ := Prod.mk.inj hf
        refine Or.inr ⟨h1 ▸ hk, Or.inl ⟨e.2, ?_, h2.symm⟩⟩
        rw [← hk]; exact he
      · rw [if_neg hk] at hf
        subst hf
        exact Or.inl ⟨hk, he⟩
    · rintro (⟨h1, h2⟩ | ⟨rfl, ⟨old, h2, rfl⟩ | ⟨h2, -⟩⟩)
      · exact ⟨(n, items), h2, by rw [if_neg h1]⟩
      · exact ⟨(n, old), h2, by rw [if_pos rfl]⟩
      · exact absurd hn h2
  · rw [pushToCategory_fresh _ _ _ hn, List.mem_append, List.mem_singleton]
    constructor
    · rintro (h | h)
      · refine Or.inl ⟨?_, h⟩
        rintro rfl
        exact hn (List.mem_map_of_mem Prod.fst h)
      · obtain ⟨rfl, rfl⟩ := Prod.mk.inj h
        exact Or.inr ⟨rfl, Or.inr ⟨hn, rfl⟩⟩
    · rintro (⟨_, h2⟩ | ⟨rfl, ⟨old, h2, -⟩ | ⟨-, rfl⟩⟩)
      · exact Or.inl h2
      · exact absurd (List.mem_map_of_mem Prod.fst h2) hn
      · exact Or.inr rfl

/-- The groups built by pushing the elements of a list one by one: the names
are distinct and the group of a name is the list of the elements with that
name, in order. -/
theorem foldl_pushToCategory_spec (nameOf : α → Str) (xs : List α) :
    ((xs.foldl (fun cats x => pushToCategory cats (nameOf x) x) []).map Prod.fst).Nodup ∧
    ((xs.foldl (fun cats x => pushToCategory cats (nameOf x) x) []).flatMap Prod.snd).Perm xs ∧
    ∀ n items, (n, items) ∈ xs.foldl (fun cats x => pushToCategory cats (nameOf x) x) [] ↔
      (items = xs.filter (fun x => nameOf x = n) ∧ items ≠ []) := by
  induction xs using List.reverseRecOn with
  | nil => exact ⟨List.nodup_nil, List.Perm.refl _, by simp⟩
  | append_singleton xs x ih =>
    obtain ⟨ih1, ih2, ih3⟩ := ih
    rw [List.foldl_append, List.foldl_cons, List.foldl_nil]
    refine ⟨pushToCategory_nodup _ _ _ ih1,
      (pushToCategory_perm _ _ _ ih1).trans (List.Perm.append_right _ ih2), ?_⟩
    intro n items
    rw [mem_pushToCategory, List.filter_append]
    by_cases hn : n = nameOf x
    · subst hn
      have hf : List.filter (fun y => decide (nameOf y = nameOf x)) [x] = [x] := by simp
      rw [hf]
      constructor
      · rintro (⟨h, -⟩ | ⟨-, ⟨old, h, rfl⟩ | ⟨h, rfl⟩⟩)
        · exact absurd rfl h
        · exact ⟨by rw [((ih3 _ _).mp h).1], by simp⟩
        · have : xs.filter (fun y => decide (nameOf y = nameOf x)) = [] := by
            by_contra hne
            exact h (List.mem_map_of_mem Prod.fst ((ih3 (nameOf x) _).mpr ⟨rfl, hne⟩))
          exact ⟨by rw [this]; rfl, by simp⟩
      · rintro ⟨rfl, -⟩
        refine Or.inr ⟨rfl, ?_⟩
        by_cases hne : xs.filter (fun y => decide (nameOf y = nameOf x)) = []
        · refine Or.inr ⟨?_, by rw [hne]; rfl⟩
          intro hmem
          obtain ⟨e, he, hk⟩ := List.mem_map.mp hmem
          have := (ih3 e.1 e.2).mp he
          rw [hk] at this
          exact this.2 (this.1.trans hne)
        · exact Or.inl ⟨_, (ih3 _ _).mpr ⟨rfl, hne⟩, rfl⟩
    · have hf : List.filter (fun y => decide (nameOf y = n)) [x] = [] := by
        simp [Ne.symm hn]
      rw [hf, List.append_nil]
      constructor
      · rintro (⟨-, h⟩ | ⟨h, -⟩)
        · exact (ih3 _ _).mp h
        · exact absurd h hn
      · intro h
        exact Or.inl ⟨hn, (ih3 _ _).mpr h⟩

end Grouping

/-! ### The line rule -/

theorem separatorIndex_cons (x : Char) (xs : Str) :
    separatorIndex (x :: xs)
      = if x = '=' ∨ x = ':' then some 0 else (separatorIndex xs).map (· + 1) := by
  unfold separatorIndex
  simp only [List.findIdx_cons, List.length_cons]
  by_cases h : x = '=' ∨ x = ':'
  · simp [h]
  · simp only [h, decide_False, cond_false, if_false]
    by_cases h2 : List.findIdx (fun c => decide (c = '=' ∨ c = ':')) xs < xs.length
    · simp [h2]
    · simp [h2]

theorem separatorIndex_append (a b : Str) (c : Char) (hc : c = '=' ∨ c = ':')
    (h1 : '=' ∉ a) (h2 : ':' ∉ a) : separatorIndex (a ++ c :: b) = some a.length := by
  induction a with
  | nil => rw [List.nil_append, separatorIndex_cons, if_pos hc]; rfl
  | cons x xs ih =>
    have hx : ¬ (x = '=' ∨ x = ':') := by
      rintro (rfl | rfl)
      · exact h1 (List.mem_cons_self _ _)
      · exact h2 (List.mem_cons_self _ _)
    rw [List.cons_append, separatorIndex_cons, if_neg hx,
      ih (fun h => h1 (List.mem_cons_of_mem _ h)) (fun h => h2 (List.mem_cons_of_mem _ h))]
    rfl

theorem separatorIndex_spec (line : Str) :
    (separatorIndex line = none ∧ '=' ∉ line ∧ ':' ∉ line) ∨
    ∃ a c b, line = a ++ c :: b ∧ (c = '=' ∨ c = ':') ∧ '=' ∉ a ∧ ':' ∉ a := by
  induction line with
  | nil => exact Or.inl ⟨rfl, by simp, by simp⟩
  | cons x xs ih =>
    by_cases hx : x = '=' ∨ x = ':'
    · exact Or.inr ⟨[], x, xs, rfl, hx, by simp, by simp⟩
    · rcases ih with ⟨h0, h1, h2⟩ | ⟨a, c, b, rfl, hc, h1, h2⟩
      · refine Or.inl ⟨by rw [separatorIndex_cons, if_neg hx, h0]; rfl, ?_, ?_⟩
        · intro h
          rcases List.mem_cons.mp h with h | h
          · exact hx (Or.inl h.symm)
          · exact h1 h
        · intro h
          rcases List.mem_cons.mp h with h | h
          · exact hx (Or.inr h.symm)
          · exact h2 h
      · refine Or.inr ⟨x :: a, c, b, rfl, hc, ?_, ?_⟩
        · intro h
          rcases List.mem_cons.mp h with h | h
          · exact hx (Or.inl h.symm)
          · exact h1 h
        · intro h
          rcases List.mem_cons.mp h with h | h
          · exact hx (Or.inr h.symm)
          · exact h2 h

theorem mem_of_mem_trim {x : Char} {s : Str} (h : x ∈ trim s) : x ∈ s :=
  (trimStart_suffix s).subset ((trimEnd_initial _).subset h)

/-- What the line rule gives for a line: the trimmed texts around the first
separator of the trimmed line. -/
theorem decodeLine_eq_some (raw k v : Str) :
    decodeLine raw = some (k, v) ↔
      (trim raw).head? ≠ some '#' ∧ (trim raw).head? ≠ some '!' ∧
      ∃ a c b, trim raw = a ++ c :: b ∧ (c = '=' ∨ c = ':') ∧ '=' ∉ a ∧ ':' ∉ a ∧
        k = trim a ∧ v = trim b := by
  unfold decodeLine
  simp only []
  by_cases hskip : ((trim raw).isEmpty || decide ((trim raw).head? = some '#') ||
      decide ((trim raw).head? = some '!')) = true
  · rw [if_pos hskip]
    simp only [Bool.or_eq_true, decide_eq_true_eq, List.isEmpty_iff] at hskip
    constructor
    · intro h; cases h
    · rintro ⟨h1, h2, a, c, b, h3, -⟩
      rcases hskip with (h | h) | h
      · rw [h] at h3
        exact absurd h3 (by simp)
      · exact absurd h h1
      · exact absurd h h2
  · rw [if_neg hskip]
    simp only [Bool.or_eq_true, decide_eq_true_eq, List.isEmpty_iff, not_or] at hskip
    obtain ⟨⟨-, h1⟩, h2⟩ := hskip
    rcases separatorIndex_spec (trim raw) with ⟨h0, h3, h4⟩ | ⟨a, c, b, hl, hc, h3, h4⟩
    · rw [h0]
      constructor
      · intro h; cases h
      · rintro ⟨-, -, a, c, b, h5, hc, -⟩
        exfalso
        rcases hc with rfl | rfl
        · exact h3 (by rw [h5]; simp)
        · exact h4 (by rw [h5]; simp)
    · rw [hl, separatorIndex_append a b c hc h3 h4]
      have htake : (a ++ c :: b).take a.length = a := List.take_left' rfl
      have hdrop : (a ++ c :: b).drop (a.length + 1) = b := by
        have : a ++ c :: b = (a ++ [c]) ++ b := by simp
        rw [this]
        exact List.drop_left' (by simp)
      simp only [htake, hdrop, Option.some.injEq, Prod.mk.injEq]
      rw [← hl]
      constructor
      · rintro ⟨rfl, rfl⟩
        exact ⟨h1, h2, a, c, b, hl, hc, h3, h4, rfl, rfl⟩
      · rintro ⟨-, -, a', c', b', hl', hc', h3', h4', rfl, rfl⟩
        have e1 := separatorIndex_append a b c hc h3 h4
        have e2 := separatorIndex_append a' b' c' hc' h3' h4'
        rw [← hl] at e1
        rw [← hl'] at e2
        have hlen : a.length = a'.length := Option.some.inj (e1.symm.trans e2)
        have hall := hl.symm.trans hl'
        have ha : a = a' := List.append_inj_left hall hlen
        subst ha
        have hb := List.cons.inj (List.append_cancel_left hall)
        exact ⟨rfl, by rw [hb.2]⟩

/-- The lines that the line rule keeps. -/
theorem decodeLine_isSome (raw : Str) :
    (decodeLine raw).isSome = true ↔
      trim raw ≠ [] ∧ (trim raw).head? ≠ some '#' ∧ (trim raw).head? ≠ some '!' ∧
        ('=' ∈ trim raw ∨ ':' ∈ trim raw) := by
  constructor
  · intro h
    obtain ⟨⟨k, v⟩, hkv⟩ := Option.isSome_iff_exists.mp h
    obtain ⟨h1, h2, a, c, b, hl, hc, -⟩ := (decodeLine_eq_some raw k v).mp hkv
    refine ⟨by rw [hl]; simp, h1, h2, ?_⟩
    rcases hc with rfl | rfl
    · exact Or.inl (by rw [hl]; simp)
    · exact Or.inr (by rw [hl]; simp)
  · rintro ⟨-, h1, h2, h3⟩
    rcases separatorIndex_spec (trim raw) with ⟨-, h4, h5⟩ | ⟨a, c, b, hl, hc, h4, h5⟩
    · rcases h3 with h3 | h3
      · exact absurd h3 h4
      · exact absurd h3 h5
    · exact Option.isSome_iff_exists.mpr
        ⟨_, (decodeLine_eq_some raw (trim a) (trim b)).mpr
          ⟨h1, h2, a, c, b, hl, hc, h4, h5, rfl, rfl⟩⟩

/-- A decoded key holds no separator. -/
theorem decodeLine_key (raw k v : Str) (h : decodeLine raw = some (k, v)) :
    '=' ∉ k ∧ ':' ∉ k := by
  obtain ⟨-, -, a, c, b, -, -, h1, h2, rfl, -⟩ := (decodeLine_eq_some raw k v).mp h
  exact ⟨fun h => h1 (mem_of_mem_trim h), fun h => h2 (mem_of_mem_trim h)⟩

/-! ### The properties of `parsePropertiesFile` -/

theorem importedCategories_eq (content : Str) :
    importedCategories content
      = (importedInKeyOrder content).foldl
          (fun cats p => pushToCategory cats (categoryOf p.key) p) [] := by
  unfold importedCategories importedInKeyOrder
  simp only []
  rw [List.foldl_map]
  rfl

theorem importedInKeyOrder_pairs (content : Str) :
    ((importedInKeyOrder content).map fun p => (p.key, p.default)).Perm
      (importedProperties content) := by
  unfold importedInKeyOrder
  simp only []
  rw [List.map_map]
  have h1 := (objectKeys_perm (importedProperties content)).map
    (fun key => (key, (objectGet (importedProperties content) key).getD []))
  refine List.Perm.trans (List.Perm.of_eq ?_) (h1.trans (List.Perm.of_eq ?_))
  · rfl
  · rw [List.map_map]
    conv_rhs => rw [← List.map_id (importedProperties content)]
    apply List.map_congr_left
    rintro ⟨k, v⟩ hkv
    simp only [Function.comp, id]
    rw [objectGet_of_mem _ k v (importedProperties_nodup content) hkv]
    rfl

/-- The properties of `parsePropertiesFile`, as keys with their values, are the
entries of the object `properties`. -/
theorem importedList_pairs (content : Str) :
    ((importedList content).map fun p => (p.key, p.default)).Perm
      (importedProperties content) := by
  unfold importedList
  rw [importedCategories_eq]
  exact ((foldl_pushToCategory_spec (fun p : Property => categoryOf p.key)
    (importedInKeyOrder content)).2.1.map _).trans (importedInKeyOrder_pairs content)

/-! ### The regular expressions of the type rules -/

theorem anyStarThen_isSome (k : Str → Option Nat) (s : Str) :
    (anyStarThen k s).isSome = true ↔ ∃ x rest, s = x ++ rest ∧ (k rest).isSome = true := by
  induction s with
  | nil =>
    constructor
    · intro h
      exact ⟨[], [], rfl, by simpa [anyStarThen] using h⟩
    · rintro ⟨x, rest, h, hk⟩
      obtain ⟨rfl, rfl⟩ := List.append_eq_nil.mp h.symm
      simpa [anyStarThen] using hk
  | cons c cs ih =>
    unfold anyStarThen
    cases hrec : anyStarThen k cs with
    | some n =>
      obtain ⟨x, rest, hx, hk⟩ := ih.mp (by rw [hrec]; rfl)
      simp only [Option.isSome_some, true_iff]
      exact ⟨c :: x, rest, by rw [hx]; rfl, hk⟩
    | none =>
      simp only []
      constructor
      · intro h
        exact ⟨[], c :: cs, rfl, h⟩
      · rintro ⟨x, rest, hx, hk⟩
        cases x with
        | nil => rw [List.nil_append] at hx; rw [hx]; exact hk
        | cons y ys =>
          obtain ⟨-, hcs⟩ := List.cons.inj hx
          have := ih.mpr ⟨ys, rest, hcs, hk⟩
          rw [hrec] at this
          cases this

theorem allDigits_regex (value : Str) :
    (matchAtoms false [Atom.digits, Atom.eol] value).isSome = true ↔ AllDigits value := by
  have hk : ∀ rest : Str, (matchAtoms false [Atom.eol] rest).isSome = true ↔ rest = [] := by
    intro rest
    cases rest with
    | nil => simp [matchAtoms]
    | cons c cs => simp [matchAtoms]
  have e : matchAtoms false [Atom.digits, Atom.eol] value
      = digitsThen (matchAtoms false [Atom.eol]) value := by
    simp only [matchAtoms]
  rw [e, digitsThen_isSome]
  constructor
  · rintro ⟨ds, rest, rfl, hne, hds, hrest⟩
    rw [(hk rest).mp hrest, List.append_nil]
    exact ⟨hne, hds⟩
  · rintro ⟨hne, hds⟩
    exact ⟨value, [], by simp, hne, hds, (hk []).mpr rfl⟩

theorem canonicalChar_range (i : Nat) (h : i < 26) :
    canonicalChar (Char.ofNat (97 + i)) = Char.ofNat (65 + i) := by
  interval_cases i <;> decide

theorem isAsciiLetter_cases (c : Char) (h : isAsciiLetter c = true) :
    ∃ i, i < 26 ∧ (c = Char.ofNat (65 + i) ∨ c = Char.ofNat (97 + i)) := by
  unfold isAsciiLetter at h
  simp only [Bool.or_eq_true, Bool.and_eq_true, decide_eq_true_eq] at h
  have hc : c = Char.ofNat c.toNat := (Char.ofNat_toNat c).symm
  rcases h with ⟨h1, h2⟩ | ⟨h1, h2⟩
  · refine ⟨c.toNat - 65, by omega, Or.inl ?_⟩
    rw [show 65 + (c.toNat - 65) = c.toNat by omega]
    exact hc
  · refine ⟨c.toNat - 97, by omega, Or.inr ?_⟩
    rw [show 97 + (c.toNat - 97) = c.toNat by omega]
    exact hc

theorem isAsciiLetter_ofNat_upper (i : Nat) (h : i < 26) :
    isAsciiLetter (Char.ofNat (65 + i)) = true := by
  interval_cases i <;> decide

theorem isAsciiLetter_ofNat_lower (i : Nat) (h : i < 26) :
    isAsciiLetter (Char.ofNat (97 + i)) = true := by
  interval_cases i <;> decide

theorem canonicalChar_upper (i : Nat) (h : i < 26) :
    canonicalChar (Char.ofNat (65 + i)) = Char.ofNat (65 + i) := by
  interval_cases i <;> decide

/-- Under the flag `i` the class `[a-z]` is the class of the ASCII letters. -/
theorem inRange_letter (c : Char) : inRange true 'a' 'z' c = isAsciiLetter c := by
  rw [Bool.eq_iff_iff]
  unfold inRange
  rw [List.any_eq_true]
  have hlo : ('a' : Char).toNat = 97 := rfl
  have hhi : ('z' : Char).toNat + 1 - ('a' : Char).toNat = 26 := rfl
  rw [hhi, hlo]
  simp only [List.mem_range, decide_eq_true_eq, canonicalize, if_true]
  constructor
  · rintro ⟨i, hi, he⟩
    rw [canonicalChar_range i hi] at he
    by_cases hl : 97 ≤ c.toNat ∧ c.toNat ≤ 122
    · unfold isAsciiLetter
      simp [hl.1, hl.2]
    · have hc := canonicalChar_of_not_lower c hl (Char.ofNat (65 + i))
        (by revert hi; intro hi; interval_cases i <;> decide) he.symm
      rw [hc]
      exact isAsciiLetter_ofNat_upper i hi
  · intro h
    obtain ⟨i, hi, rfl | rfl⟩ := isAsciiLetter_cases c h
    · exact ⟨i, hi, by rw [canonicalChar_range i hi, canonicalChar_upper i hi]⟩
    · exact ⟨i, hi, rfl⟩

theorem hasTagPattern_regex (value : Str) :
    regexTest true [Atom.lit '<', Atom.range 'a' 'z', Atom.anyStar, Atom.lit '>'] value = true ↔
      HasTagPattern value := by
  have hgt : ∀ s : Str, (matchAtoms true [Atom.lit '>'] s).isSome = true ↔ ∃ d, s = '>' :: d := by
    intro s
    cases s with
    | nil => simp [matchAtoms]
    | cons x xs =>
      simp only [matchAtoms]
      by_cases hx : x = '>'
      · subst hx; simp [canonicalize]
      · have : ¬ canonicalize true x = canonicalize true '>' := by
          intro h
          apply hx
          simp only [canonicalize, if_true] at h
          by_cases hl : 97 ≤ x.toNat ∧ x.toNat ≤ 122
          · exfalso
            have hx2 : isAsciiLetter x = true := by unfold isAsciiLetter; simp [hl.1, hl.2]
            obtain ⟨i, hi, rfl | rfl⟩ := isAsciiLetter_cases x hx2
            · rw [canonicalChar_upper i hi] at h
              revert h; interval_cases i <;> decide
            · rw [canonicalChar_range i hi] at h
              revert h; interval_cases i <;> decide
          · exact canonicalChar_of_not_lower x hl _ (by decide) h
        simp [this, hx]
  have hlt : ∀ x : Char, canonicalize true x = canonicalize true '<' ↔ x = '<' := by
    intro x
    constructor
    · intro h
      simp only [canonicalize, if_true] at h
      by_cases hl : 97 ≤ x.toNat ∧ x.toNat ≤ 122
      · exfalso
        have hx2 : isAsciiLetter x = true := by unfold isAsciiLetter; simp [hl.1, hl.2]
        obtain ⟨i, hi, rfl | rfl⟩ := isAsciiLetter_cases x hx2
        · rw [canonicalChar_upper i hi] at h
          revert h; interval_cases i <;> decide
        · rw [canonicalChar_range i hi] at h
          revert h; interval_cases i <;> decide
      · exact canonicalChar_of_not_lower x hl _ (by decide) h
    · rintro rfl; rfl
  have hm : ∀ t : Str,
      (matchAtoms true [Atom.lit '<', Atom.range 'a' 'z', Atom.anyStar, Atom.lit '>'] t).isSome
        = true ↔ ∃ c b d, t = '<' :: c :: (b ++ '>' :: d) ∧ isAsciiLetter c = true := by
    intro t
    cases t with
    | nil => simp [matchAtoms]
    | cons x xs =>
      cases xs with
      | nil =>
        simp only [matchAtoms]
        split <;> simp [matchAtoms]
      | cons y ys =>
        simp only [matchAtoms, inRange_letter]
        by_cases hx : x = '<'
        · subst hx
          by_cases hy : isAsciiLetter y = true
          · simp only [if_true, hy, Option.isSome_map']
            rw [anyStarThen_isSome]
            constructor
            · rintro ⟨b, rest, rfl, hr⟩
              obtain ⟨d, rfl⟩ := (hgt rest).mp hr
              exact ⟨y, b, d, rfl, hy⟩
            · rintro ⟨c, b, d, h, -⟩
              obtain ⟨-, h2⟩ := List.cons.inj h
              obtain ⟨rfl, h3⟩ := List.cons.inj h2
              exact ⟨b, '>' :: d, h3, (hgt _).mpr ⟨d, rfl⟩⟩
          · simp only [if_true, hy, Bool.false_eq_true, if_false, Option.map_none',
              Option.isSome_none, false_iff]
            rintro ⟨c, b, d, h, hc⟩
            obtain ⟨-, h2⟩ := List.cons.inj h
            obtain ⟨rfl, -⟩ := List.cons.inj h2
            exact hy hc
        · have : ¬ canonicalize true x = canonicalize true '<' := fun h => hx ((hlt x).mp h)
          simp only [this, if_false, Option.isSome_none, Bool.false_eq_true, false_iff]
          rintro ⟨c, b, d, h, -⟩
          exact hx (List.cons.inj h).1
  rw [regexTest_iff]
  constructor
  · rintro ⟨a, t, rfl, ht⟩
    obtain ⟨c, b, d, rfl, hc⟩ := (hm t).mp ht
    exact ⟨a, c, b, d, rfl, hc⟩
  · rintro ⟨a, c, b, d, rfl, hc⟩
    exact ⟨a, _, rfl, (hm _).mpr ⟨c, b, d, rfl, hc⟩⟩

/-! ### Removal of the later properties with the same key -/

theorem uniqueProps_foldl (l acc : List Property) (seen : List Str) :
    l.foldl
        (fun (state : List Property × List Str) p =>
          if p.key ∈ state.2 then state else (state.1 ++ [p], state.2 ++ [p.key]))
        (acc, seen)
      = (acc ++ firstByKey seen l, seen ++ (firstByKey seen l).map Property.key) := by
  induction l generalizing acc seen with
  | nil => simp [firstByKey]
  | cons p ps ih =>
    rw [List.foldl_cons]
    by_cases h : p.key ∈ seen
    · simp only [h, if_true, firstByKey]
      exact ih acc seen
    · simp only [h, if_false, firstByKey]
      rw [ih]
      simp

theorem uniqueProps_eq (l : List Property) : uniqueProps l = firstByKey [] l := by
  unfold uniqueProps
  rw [uniqueProps_foldl]
  rfl

theorem firstByKey_sublist (seen : List Str) (l : List Property) :
    (firstByKey seen l).Sublist l := by
  induction l generalizing seen with
  | nil => exact List.Sublist.slnil
  | cons p ps ih =>
    unfold firstByKey
    split
    · exact (ih seen).cons _
    · exact (ih _).cons₂ _

theorem firstByKey_not_seen (seen : List Str) (l : List Property) :
    ∀ q ∈ firstByKey seen l, q.key ∉ seen := by
  induction l generalizing seen with
  | nil => intro q hq; cases hq
  | cons p ps ih =>
    intro q hq
    unfold firstByKey at hq
    split at hq
    · exact ih seen q hq
    · rename_i hp
      rcases List.mem_cons.mp hq with rfl | hq
      · exact hp
      · exact fun h => ih _ q hq (List.mem_append_left _ h)

theorem firstByKey_nodup (seen : List Str) (l : List Property) :
    ((firstByKey seen l).map Property.key).Nodup := by
  induction l generalizing seen with
  | nil => exact List.nodup_nil
  | cons p ps ih =>
    unfold firstByKey
    split
    · exact ih seen
    · rw [List.map_cons, List.nodup_cons]
      refine ⟨?_, ih _⟩
      intro h
      obtain ⟨q, hq, hk⟩ := List.mem_map.mp h
      exact firstByKey_not_seen _ ps q hq (by rw [hk]; simp)

/-- The property kept for a key that was not seen before is the first property
of the list with that key. -/
theorem firstByKey_find (seen : List Str) (l : List Property) (k : Str) (hk : k ∉ seen) :
    (firstByKey seen l).find? (fun q => q.key = k) = l.find? (fun q => q.key = k) := by
  induction l generalizing seen with
  | nil => rfl
  | cons p ps ih =>
    unfold firstByKey
    by_cases hp : p.key ∈ seen
    · rw [if_pos hp]
      have hne : p.key ≠ k := fun h => hk (h ▸ hp)
      rw [List.find?_cons_of_neg _ (by simpa using hne)]
      exact ih seen hk
    · rw [if_neg hp]
      by_cases hpk : p.key = k
      · rw [List.find?_cons_of_pos _ (by simpa using hpk),
          List.find?_cons_of_pos _ (by simpa using hpk)]
      · rw [List.find?_cons_of_neg _ (by simpa using hpk),
          List.find?_cons_of_neg _ (by simpa using hpk)]
        apply ih
        intro h
        rcases List.mem_append.mp h with h | h
        · exact hk h
        · exact hpk (List.mem_singleton.mp h).symm

theorem find_of_mem_nodup (l : List Property) (q : Property)
    (hnd : (l.map Property.key).Nodup) (hq : q ∈ l) :
    l.find? (fun x => x.key = q.key) = some q := by
  induction l with
  | nil => cases hq
  | cons p ps ih =>
    rw [List.map_cons, List.nodup_cons] at hnd
    rcases List.mem_cons.mp hq with rfl | hq
    · rw [List.find?_cons_of_pos _ (by simp)]
    · have hne : p.key ≠ q.key := fun h => hnd.1 (h ▸ List.mem_map_of_mem Property.key hq)
      rw [List.find?_cons_of_neg _ (by simpa using hne)]
      exact ih hnd.2 hq

/-- The properties of a domain category: their keys are distinct and each is
the first property of the category, in the order of the list, that has its
templated key. -/
theorem uniqueProps_spec (template : Str → Str) (props : List Property) :
    ((uniqueProps (props.map fun p => { p with key := template p.key })).map
        Property.key).Nodup ∧
    ∀ q ∈ uniqueProps (props.map fun p => { p with key := template p.key }),
      ∃ p, props.find? (fun p => template p.key = q.key) = some p ∧
        q = { p with key := template p.key } := by
  rw [uniqueProps_eq]
  refine ⟨firstByKey_nodup _ _, ?_⟩
  intro q hq
  have h1 := find_of_mem_nodup _ q (firstByKey_nodup _ _) hq
  rw [firstByKey_find [] _ q.key (by simp), List.find?_map] at h1
  obtain ⟨p, hp, hpq⟩ := Option.map_eq_some'.mp h1
  exact ⟨p, hp, hpq.symm⟩

/-- Every templated key of a category is the key of a kept property. -/
theorem uniqueProps_keys (l : List Property) (p : Property) (hp : p ∈ l) :
    ∃ q ∈ uniqueProps l, q.key = p.key := by
  rw [uniqueProps_eq]
  have h := firstByKey_find [] l p.key (by simp)
  have h2 : (l.find? (fun q => q.key = p.key)).isSome = true := by
    rw [List.find?_isSome]
    exact ⟨p, hp, by simp⟩
  rw [← h] at h2
  obtain ⟨q, hq⟩ := Option.isSome_iff_exists.mp h2
  exact ⟨q, List.mem_of_find?_eq_some hq, by simpa using List.find?_some hq⟩

/-! ### The order of first appearance -/

theorem mem_firstOccurrences (keys : List Str) (k : Str) :
    k ∈ firstOccurrences keys ↔ k ∈ keys := by
  unfold firstOccurrences
  induction keys using List.reverseRecOn with
  | nil => simp
  | append_singleton ks x ih =>
    rw [List.foldl_append, List.foldl_cons, List.foldl_nil]
    split
    · rename_i hx
      rw [ih, List.mem_append, List.mem_singleton]
      constructor
      · exact Or.inl
      · rintro (h | rfl)
        · exact h
        · exact ih.mp hx
    · rw [List.mem_append, List.mem_append, ih]

theorem firstOccurrences_append (keys : List Str) (k : Str) :
    firstOccurrences (keys ++ [k])
      = if k ∈ keys then firstOccurrences keys else firstOccurrences keys ++ [k] := by
  unfold firstOccurrences
  rw [List.foldl_append, List.foldl_cons, List.foldl_nil]
  have := mem_firstOccurrences keys k
  unfold firstOccurrences at this
  by_cases h : k ∈ keys
  · rw [if_pos (this.mpr h), if_pos h]
  · rw [if_neg (fun h' => h (this.mp h')), if_neg h]

theorem objectSet_keys {α : Type} (object : List (Str × α)) (key : Str) (value : α) :
    (objectSet object key value).map Prod.fst
      = if key = "__proto__".toList ∨ key ∈ object.map Prod.fst then object.map Prod.fst
        else object.map Prod.fst ++ [key] := by
  by_cases h1 : key = "__proto__".toList
  · subst h1
    rw [objectSet_proto, if_pos (Or.inl rfl)]
  · by_cases h2 : key ∈ object.map Prod.fst
    · rw [objectSet_present _ _ _ h1 h2, if_pos (Or.inr h2), List.map_map]
      apply List.map_congr_left
      intro e _
      by_cases hk : e.1 = key
      · simp only [Function.comp, if_pos hk]; exact hk.symm
      · simp only [Function.comp, if_neg hk]
    · rw [objectSet_fresh _ _ _ h1 h2, if_neg (by tauto), List.map_append]
      rfl

/-- The keys of the object `properties` are the keys of the lines other than
`__proto__`, in the order of their first appearance. -/
theorem importedProperties_keys (content : Str) :
    (importedProperties content).map Prod.fst
      = firstOccurrences (((decodeLines content).map Prod.fst).filter
          fun key => key ≠ "__proto__".toList) := by
  unfold importedProperties
  generalize decodeLines content = lines
  induction lines using List.reverseRecOn with
  | nil => rfl
  | append_singleton ls x ih =>
    rw [List.foldl_append, List.foldl_cons, List.foldl_nil, objectSet_keys, ih, List.map_append,
      List.filter_append]
    by_cases hp : x.1 = "__proto__".toList
    · have : List.filter (fun key => decide (key ≠ "__proto__".toList)) (List.map Prod.fst [x])
          = [] := by
        rw [List.map_cons, List.map_nil, List.filter_cons_of_neg (by simpa using hp)]
        rfl
      rw [this, List.append_nil, if_pos (Or.inl hp)]
    · have : List.filter (fun key => decide (key ≠ "__proto__".toList)) (List.map Prod.fst [x])
          = [x.1] := by
        rw [List.map_cons, List.map_nil, List.filter_cons_of_pos (by simpa using hp)]
        rfl
      rw [this, firstOccurrences_append]
      have hmem : x.1 ∈ firstOccurrences (List.filter
          (fun key => decide (key ≠ "__proto__".toList)) (List.map Prod.fst ls)) ↔
          x.1 ∈ List.filter (fun key => decide (key ≠ "__proto__".toList))
            (List.map Prod.fst ls) := mem_firstOccurrences _ _
      by_cases hx : x.1 ∈ List.filter (fun key => decide (key ≠ "__proto__".toList))
          (List.map Prod.fst ls)
      · rw [if_pos (Or.inr (hmem.mpr hx)), if_pos hx]
      · rw [if_neg (by rintro (h | h); exact hp h; exact hx (hmem.mp h)), if_neg hx]

/-- Without array index among the keys, `Object.keys` is the insertion order. -/
theorem objectKeys_of_no_index {α : Type} (object : List (Str × α))
    (h : ∀ key ∈ object.map Prod.fst, arrayIndex key = none) :
    objectKeys object = object.map Prod.fst := by
  unfold objectKeys
  simp only []
  have h1 : (object.map Prod.fst).filter (fun key => (arrayIndex key).isSome) = [] := by
    rw [List.filter_eq_nil_iff]
    intro k hk
    rw [h k hk]
    simp
  have h2 : (object.map Prod.fst).filter (fun key => (arrayIndex key).isNone)
      = object.map Prod.fst := by
    rw [List.filter_eq_self]
    intro k hk
    rw [h k hk]
    rfl
  rw [h1, h2]
  rfl

/-! ### The categories of `parsePropertiesFile` -/

theorem mem_importedInKeyOrder (content : Str) (p : Property)
    (hp : p ∈ importedInKeyOrder content) :
    (p.key, p.default) ∈ importedProperties content ∧
      p = importedProperty p.key p.default := by
  unfold importedInKeyOrder at hp
  simp only [] at hp
  obtain ⟨key, hkey, rfl⟩ := List.mem_map.mp hp
  have hk2 : key ∈ (importedProperties content).map Prod.fst :=
    (objectKeys_perm _).subset hkey
  obtain ⟨⟨k, v⟩, hkv, rfl⟩ := List.mem_map.mp hk2
  rw [objectGet_of_mem _ k v (importedProperties_nodup content) hkv]
  exact ⟨hkv, rfl⟩

theorem mem_importedCategories (content name : Str) (props : List Property)
    (h : (name, props) ∈ importedCategories content) :
    props = (importedInKeyOrder content).filter (fun p => categoryOf p.key = name) ∧
      props ≠ [] := by
  rw [importedCategories_eq] at h
  exact ((foldl_pushToCategory_spec (fun p : Property => categoryOf p.key)
    (importedInKeyOrder content)).2.2 name props).mp h

theorem mem_domainProperties (domainKeyPattern content : Str) (D : Category)
    (hD : D ∈ (parsePropertiesFile domainKeyPattern content).domainProperties) :
    D.properties = [] ∨
    ∃ name props, (name, props) ∈ importedCategories content ∧
      props.any (fun p => hasDomainMarker p.key) = true ∧
      D = domainCategoryOf (getDomainKeyPattern domainKeyPattern) name props := by
  unfold parsePropertiesFile at hD
  simp only [] at hD
  split at hD
  · left
    rw [List.mem_singleton] at hD
    rw [hD]
  · right
    obtain ⟨⟨name, props⟩, hmem, hf⟩ := List.mem_filterMap.mp hD
    by_cases hm : props.any (fun p => hasDomainMarker p.key) = true
    · simp only [hm, if_true, Option.some.injEq] at hf
      exact ⟨name, props, hmem, hm, hf.symm⟩
    · simp only [hm] at hf
      cases hf

/-! ### Labels -/

theorem inRange_capital (c : Char) :
    inRange false 'A' 'Z' c = true ↔ 65 ≤ c.toNat ∧ c.toNat ≤ 90 := by
  unfold inRange
  rw [List.any_eq_true]
  have hlo : ('A' : Char).toNat = 65 := rfl
  have hhi : ('Z' : Char).toNat + 1 - ('A' : Char).toNat = 26 := rfl
  rw [hhi, hlo]
  simp only [List.mem_range, decide_eq_true_eq, canonicalize, Bool.false_eq_true, if_false]
  constructor
  · rintro ⟨i, hi, rfl⟩
    revert hi
    intro hi
    interval_cases i <;> decide
  · intro h
    refine ⟨c.toNat - 65, by omega, ?_⟩
    rw [show 65 + (c.toNat - 65) = c.toNat by omega]
    exact Char.ofNat_toNat c

theorem spaceCapitals_subst (c : Char) (before after : Str) :
    getSubstitution [c] before after [[c]] " $1".toList = [' ', c] := by
  rfl

theorem spaceCapitalsGo_eq (before s : Str) :
    regexReplaceAllGo false [Atom.range 'A' 'Z']
      (fun matched before after => getSubstitution matched before after [matched] " $1".toList)
      0 before s = insertSpaces s := by
  induction s generalizing before with
  | nil => rfl
  | cons c cs ih =>
    unfold regexReplaceAllGo
    by_cases hc : 65 ≤ c.toNat ∧ c.toNat ≤ 90
    · have hm : matchAtoms false [Atom.range 'A' 'Z'] (c :: cs) = some (0 + 1) := by
        simp only [matchAtoms]
        rw [if_pos ((inRange_capital c).mpr hc)]
        rfl
      rw [hm]
      simp only [Nat.zero_add, List.take_succ_cons, List.take_zero, List.drop_succ_cons,
        List.drop_zero]
      rw [spaceCapitals_subst, ih]
      unfold insertSpaces
      rw [List.flatMap_cons, if_pos hc]
    · have hm : matchAtoms false [Atom.range 'A' 'Z'] (c :: cs) = none := by
        simp only [matchAtoms]
        rw [if_neg (fun h => hc ((inRange_capital c).mp h))]
      rw [hm]
      simp only []
      rw [ih]
      unfold insertSpaces
      rw [List.flatMap_cons, if_neg hc]
      rfl

theorem spaceCapitals_eq (s : Str) : spaceCapitals s = insertSpaces s :=
  spaceCapitalsGo_eq [] s

theorem getLast?_cons_of_ne_nil {α : Type} (a : α) (l : List α) (h : l ≠ []) :
    (a :: l).getLast? = l.getLast? := by
  cases l with
  | nil => exact absurd rfl h
  | cons b l => rfl

/-- The last part of `split('.')` is the text after the last dot. -/
theorem jsSplitGo_dot_last (cur s : Str) (hcur : '.' ∉ cur) :
    ∃ front, cur ++ s = front ++ (jsSplitGo ['.'] 0 cur s).getLast?.getD [] ∧
      '.' ∉ (jsSplitGo ['.'] 0 cur s).getLast?.getD [] ∧
      (front = [] ∨ front.getLast? = some '.') := by
  induction s generalizing cur with
  | nil => exact ⟨[], by simp [jsSplitGo], by simpa [jsSplitGo] using hcur, Or.inl rfl⟩
  | cons c cs ih =>
    unfold jsSplitGo
    by_cases hc : c = '.'
    · subst hc
      have hp : List.isPrefixOf ['.'] ('.' :: cs) = true := by simp [List.isPrefixOf]
      rw [if_pos hp, getLast?_cons_of_ne_nil _ _ (jsSplitGo_ne_nil _ _ _ _)]
      obtain ⟨front, h1, h2, h3⟩ := ih [] (List.not_mem_nil _)
      have hlen : List.length ['.'] - 1 = 0 := rfl
      rw [hlen]
      refine ⟨cur ++ '.' :: front, ?_, h2, Or.inr ?_⟩
      · rw [List.nil_append] at h1
        rw [List.append_assoc, List.cons_append, ← h1]
      · rcases h3 with rfl | h3
        · simp
        · rw [List.getLast?_append_of_ne_nil]
          · cases front with
            | nil => cases h3
            | cons x xs => rw [getLast?_cons_of_ne_nil _ _ (List.cons_ne_nil _ _)]; exact h3
          · exact List.cons_ne_nil _ _
    · have hp : ¬ List.isPrefixOf ['.'] (c :: cs) = true := by
        simp [List.isPrefixOf]
        exact fun e => hc e.symm
      rw [if_neg hp]
      have hcur' : '.' ∉ cur ++ [c] := by
        simp only [List.mem_append, List.mem_singleton, not_or]
        exact ⟨hcur, fun e => hc e.symm⟩
      obtain ⟨front, h1, h2, h3⟩ := ih (cur ++ [c]) hcur'
      exact ⟨front, by rw [← h1]; simp, h2, h3⟩

theorem mem_importedList (content : Str) (p : Property) (hp : p ∈ importedList content) :
    p ∈ importedInKeyOrder content := by
  unfold importedList at hp
  rw [importedCategories_eq] at hp
  exact ((foldl_pushToCategory_spec (fun p : Property => categoryOf p.key)
    (importedInKeyOrder content)).2.1.mem_iff).mp hp

theorem mem_parsePropertiesFileForEditor (domainKeyPattern content : Str) (p : EditorProperty)
    (hp : p ∈ parsePropertiesFileForEditor domainKeyPattern content) :
    ∃ index, p = editorProperty (getDomainKeyPattern domainKeyPattern) index p.key p.default := by
  unfold parsePropertiesFileForEditor at hp
  obtain ⟨⟨index, line⟩, -, h⟩ := List.mem_filterMap.mp hp
  rcases hd : decodeLine line with _ | ⟨k, v⟩
  · simp [hd] at h
  · simp only [hd, Option.map_some', Option.some.injEq] at h
    subst h
    exact ⟨index, rfl⟩

/-! ### Texts without repeated keys -/

theorem importedProperties_of_nodup (content : Str)
    (hnodup : ((decodeLines content).map Prod.fst).Nodup)
    (hproto : "__proto__".toList ∉ (decodeLines content).map Prod.fst) :
    importedProperties content = decodeLines content := by
  unfold importedProperties
  have := foldl_objectSet_nodup (decodeLines content) [] hproto (by simpa using hnodup)
  rw [this, List.nil_append]

/-! ### The lines of the encoder -/

theorem writtenPairs_append (a b : List Line) :
    writtenPairs (a ++ b) = writtenPairs a ++ writtenPairs b := by
  unfold writtenPairs
  exact List.filterMap_append _ _ _

theorem writtenPairs_descriptionLines (prop : Property) :
    writtenPairs (descriptionLines prop) = [] := by
  unfold descriptionLines
  split <;> rfl

theorem writtenPairs_flatMap {α : Type} (f : α → List Line) (l : List α) :
    writtenPairs (l.flatMap f) = l.flatMap fun x => writtenPairs (f x) := by
  induction l with
  | nil => rfl
  | cons x xs ih => rw [List.flatMap_cons, List.flatMap_cons, writtenPairs_append, ih]

theorem replaceFirst_absent (needle r s : Str) (c : Char) (cs : Str) (hn : needle = c :: cs)
    (h : c ∉ s) : replaceFirst needle r s = s := by
  subst hn
  induction s with
  | nil => rfl
  | cons x xs ih =>
    have hx : c ≠ x := fun e => h (e ▸ List.mem_cons_self _ _)
    have hp : (c :: cs).isPrefixOf (x :: xs) = false := by
      simp [List.isPrefixOf, hx]
    unfold replaceFirst
    rw [if_neg (by rw [hp]; exact Bool.false_ne_true), ih (fun h' => h (List.mem_cons_of_mem _ h'))]

theorem replaceFirst_first (needle r a b : Str) (c : Char) (cs : Str) (hn : needle = c :: cs)
    (h : c ∉ a) : replaceFirst needle r (a ++ needle ++ b) = a ++ r ++ b := by
  induction a with
  | nil =>
    subst hn
    have hp : (c :: cs).isPrefixOf (c :: (cs ++ b)) = true := by
      rw [List.isPrefixOf_iff_prefix, ← List.cons_append]
      exact List.prefix_append _ _
    rw [List.nil_append, List.nil_append, List.cons_append]
    unfold replaceFirst
    rw [if_pos hp]
    have : (c :: (cs ++ b)).drop (c :: cs).length = b := by
      rw [← List.cons_append]
      exact List.drop_left' rfl
    rw [this]
  | cons x xs ih =>
    have hx : c ≠ x := fun e => h (e ▸ List.mem_cons_self _ _)
    have hp : needle.isPrefixOf (x :: (xs ++ needle ++ b)) = false := by
      subst hn
      simp [List.isPrefixOf, hx]
    rw [List.cons_append, List.cons_append]
    unfold replaceFirst
    rw [if_neg (by rw [hp]; exact Bool.false_ne_true), ih (fun h' => h (List.mem_cons_of_mem _ h'))]
    rfl

theorem natToStr_not_mem (i : Nat) (c : Char) (hc : isDecimalDigit c = false) :
    c ∉ natToStr i := fun h => by
  rw [natToStr_digits i c h] at hc
  cases hc

/-- The lines of a global property are part of what the encoder writes. -/
theorem globalPropertyLines_infix (st : EncoderState) (timestamp : Str) (lines : List Line)
    (category : Category) (prop : Property)
    (h : generatePropertiesLines st timestamp = some lines)
    (hc : category ∈ st.configData.globalProperties) (hp : prop ∈ category.properties) :
    globalPropertyLines st.form st.languageCount prop <:+: lines := by
  unfold generatePropertiesLines at h
  split at h
  · cases h
  · split at h
    · cases h
    · rw [Option.some.injEq] at h
      subst h
      have h1 : globalPropertyLines st.form st.languageCount prop <:+:
          category.properties.flatMap (globalPropertyLines st.form st.languageCount) :=
        List.infix_of_mem_flatten (List.mem_map_of_mem _ hp)
      have h2 : category.properties.flatMap (globalPropertyLines st.form st.languageCount) <:+:
          globalCategoryLines st.form st.languageCount category :=
        ⟨_, [Line.blank], rfl⟩
      have h3 : globalCategoryLines st.form st.languageCount category <:+:
          st.configData.globalProperties.flatMap
            (globalCategoryLines st.form st.languageCount) :=
        List.infix_of_mem_flatten (List.mem_map_of_mem _ hc)
      refine (h1.trans (h2.trans h3)).trans ?_
      exact ⟨headerLines timestamp, _, rfl⟩

/-! ### Filling the containers of repeated fields -/

/-- `updateRepeatableFields` leaves the nodes already passed as they are and
puts one node in the place of every node. -/
theorem updateRepeatableFieldsFrom_prefix (before document : List Node) :
    ∃ tail, updateRepeatableFieldsFrom before document = before ++ tail ∧
      tail.length = document.length := by
  induction document generalizing before with
  | nil => exact ⟨[], by simp [updateRepeatableFieldsFrom], rfl⟩
  | cons node rest ih =>
    cases node with
    | control el =>
      obtain ⟨tail, h1, h2⟩ := ih (before ++ [.control el])
      refine ⟨.control el :: tail, ?_, by simp [h2]⟩
      rw [updateRepeatableFieldsFrom, h1]
      simp
    | repeatContainer container =>
      obtain ⟨tail, h1, h2⟩ := ih (before ++ [.repeatContainer
        (updateRepeatContainer (formOf (before ++ .repeatContainer container :: rest))
          container)])
      refine ⟨.repeatContainer
        (updateRepeatContainer (formOf (before ++ .repeatContainer container :: rest))
          container) :: tail, ?_, by simp [h2]⟩
      rw [updateRepeatableFieldsFrom, h1]
      simp

/-- A container of the document is filled by `updateRepeatContainer`, from the
controls of the document as it stands then: the nodes in front of the container
already updated, the container and the nodes behind it not yet. -/
theorem updateRepeatableFieldsFrom_container (before document : List Node) (i : Nat)
    (container : RepeatContainer) (h : document[i]? = some (.repeatContainer container)) :
    (updateRepeatableFieldsFrom before document)[before.length + i]?
      = some (.repeatContainer (updateRepeatContainer
          (formOf ((updateRepeatableFieldsFrom before document).take (before.length + i) ++
            document.drop i)) container)) := by
  induction document generalizing before i with
  | nil => simp at h
  | cons node rest ih =>
    cases i with
    | zero =>
      simp only [List.getElem?_cons_zero, Option.some.injEq] at h
      subst h
      rw [updateRepeatableFieldsFrom]
      obtain ⟨tail, h1, -⟩ := updateRepeatableFieldsFrom_prefix (before ++ [.repeatContainer
        (updateRepeatContainer (formOf (before ++ .repeatContainer container :: rest))
          container)]) rest
      rw [h1, Nat.add_zero, List.append_assoc, List.getElem?_append_right (Nat.le_refl _),
        Nat.sub_self, List.take_append_of_le_length (Nat.le_refl _), List.take_length,
        List.drop_zero]
      simp
    | succ j =>
      simp only [List.getElem?_cons_succ] at h
      cases node with
      | control el =>
        rw [updateRepeatableFieldsFrom]
        have := ih (before ++ [.control el]) j h
        simp only [List.length_append, List.length_singleton] at this
        rw [show before.length + (j + 1) = before.length + 1 + j by omega]
        simpa using this
      | repeatContainer c =>
        rw [updateRepeatableFieldsFrom]
        have := ih (before ++ [.repeatContainer
          (updateRepeatContainer (formOf (before ++ .repeatContainer c :: rest)) c)]) j h
        simp only [List.length_append, List.length_singleton] at this
        rw [show before.length + (j + 1) = before.length + 1 + j by omega]
        simpa using this

theorem updateRepeatableFields_container (document : List Node) (i : Nat)
    (container : RepeatContainer) (h : document[i]? = some (.repeatContainer container)) :
    (updateRepeatableFields document)[i]?
      = some (.repeatContainer (updateRepeatContainer
          (formOf ((updateRepeatableFields document).take i ++ document.drop i)) container)) := by
  have := updateRepeatableFieldsFrom_container [] document i container h
  simpa [updateRepeatableFields] using this

theorem globalPropertyLines_repeatable (form : Form) (languageCount : Nat) (prop : Property)
    (basedOn : RepeatBasedOn) (hrep : prop.repeatBasedOn = some basedOn)
    (hkey : basedOn.key ≠ []) :
    globalPropertyLines form languageCount prop = repeatableLines form prop basedOn := by
  unfold globalPropertyLines
  rw [hrep]
  simp only []
  rw [if_pos]
  cases hb : basedOn.key with
  | nil => exact absurd hb hkey
  | cons c cs => rfl

theorem writtenPairs_repeatableLines (form : Form) (prop : Property) (basedOn : RepeatBasedOn) :
    writtenPairs (repeatableLines form prop basedOn)
      = (List.range (sourceCount form basedOn.key).toNat).map fun j =>
          (repeatFieldKey prop.key (repeatPlaceholder basedOn) (j + 1),
            globalInputValue form (repeatFieldKey prop.key (repeatPlaceholder basedOn) (j + 1))) := by
  unfold repeatableLines
  rw [writtenPairs_flatMap]
  generalize List.range (sourceCount form basedOn.key).toNat = l
  induction l with
  | nil => rfl
  | cons x xs ih => rw [List.flatMap_cons, ih]; rfl

theorem toNat_max_zero (n : Int) : (max n 0).toNat = n.toNat := by
  rcases le_total n 0 with h | h
  · rw [max_eq_right h]
    simp [Int.toNat_of_nonpos h]
  · rw [max_eq_left h]

theorem repeatFieldKey_single (a b : Str) (c : Char) (cs : Str) (i : Nat)
    (h0 : c ∉ a) (h1 : '[' ∉ a) (h2 : '[' ∉ b) (h3 : '{' ∉ a) (h4 : '{' ∉ b) :
    repeatFieldKey (a ++ (c :: cs) ++ b) (c :: cs) i = a ++ natToStr i ++ b := by
  unfold repeatFieldKey
  rw [replaceFirst_first (c :: cs) (natToStr i) a b c cs rfl h0]
  have hb : '[' ∉ a ++ natToStr i ++ b := by
    intro h
    rcases List.mem_append.mp h with h | h
    · rcases List.mem_append.mp h with h | h
      · exact h1 h
      · exact natToStr_not_mem i '[' (by decide) h
    · exact h2 h
  have hc : '{' ∉ a ++ natToStr i ++ b := by
    intro h
    rcases List.mem_append.mp h with h | h
    · rcases List.mem_append.mp h with h | h
      · exact h3 h
      · exact natToStr_not_mem i '{' (by decide) h
    · exact h4 h
  rw [replaceFirst_absent "[N]".toList _ _ '[' ['N', ']'] rfl hb,
    replaceFirst_absent "{N}".toList _ _ '{' ['N', '}'] rfl hc]

/-! ### The repeated fields of the form -/

theorem repeatedFields_flatMap (container : RepeatContainer) (l : List Nat) :
    ((l.flatMap fun j => repeatedField container (j + 1)).filter
        fun el => el.repeatIndex.isSome).length = l.length := by
  induction l with
  | nil => rfl
  | cons x xs ih =>
    rw [List.flatMap_cons, List.filter_append, List.length_append, ih, List.length_cons]
    have : ((repeatedField container (x + 1)).filter fun el => el.repeatIndex.isSome).length
        = 1 := by
      unfold repeatedField
      simp only []
      cases container.needsConfirmation <;> rfl
    omega

/-! ### The domain section of the encoder -/

theorem saveDomainValues_ids (form : Form) (domains saved : List Domain) (index : Nat)
    (h : saveDomainValues form domains index = some saved) :
    saved.map Domain.id = domains.map Domain.id := by
  unfold saveDomainValues at h
  split at h
  · rename_i domain hd
    rw [Option.some.injEq] at h
    subst h
    rw [List.map_set]
    have hlt : index < domains.length := by
      by_contra hge
      rw [List.getElem?_eq_none (by omega)] at hd
      cases hd
    have hget : domains[index] = domain := by
      rw [List.getElem?_eq_getElem hlt] at hd
      exact Option.some.inj hd
    apply List.ext_getElem
    · simp
    · intro i h1 h2
      rw [List.getElem_set]
      split
      · rename_i hi
        subst hi
        simp [hget]
      · rfl
  · split at h
    · cases h
    · rw [Option.some.injEq] at h
      rw [h]

theorem writtenPairs_domainPropertyLines (domain : Domain) (prop : Property) :
    writtenPairs (domainPropertyLines domain prop)
      = [(expandDomainKey prop.key domain.id, domainValue domain prop)] := by
  unfold domainPropertyLines
  rw [writtenPairs_append, writtenPairs_descriptionLines]
  rfl

theorem writtenPairs_domainCategoryLines (domain : Domain) (category : Category) :
    writtenPairs (domainCategoryLines domain category)
      = category.properties.map fun p =>
          (expandDomainKey p.key domain.id, domainValue domain p) := by
  unfold domainCategoryLines
  rw [writtenPairs_append, writtenPairs_append, writtenPairs_flatMap]
  have : (category.properties.flatMap fun x => writtenPairs (domainPropertyLines domain x))
      = category.properties.map fun p =>
          (expandDomainKey p.key domain.id, domainValue domain p) := by
    induction category.properties with
    | nil => rfl
    | cons p ps ih => rw [List.flatMap_cons, ih, writtenPairs_domainPropertyLines]; rfl
  rw [this]
  simp [writtenPairs]

theorem writtenPairs_domainLines (configData : ConfigData) (domain : Domain) :
    writtenPairs (domainLines configData domain)
      = configData.domainProperties.flatMap fun category =>
          category.properties.map fun p =>
            (expandDomainKey p.key domain.id, domainValue domain p) := by
  unfold domainLines
  rw [writtenPairs_append, writtenPairs_flatMap]
  have : (configData.domainProperties.flatMap fun x => writtenPairs (domainCategoryLines domain x))
      = configData.domainProperties.flatMap fun category =>
          category.properties.map fun p =>
            (expandDomainKey p.key domain.id, domainValue domain p) := by
    congr 1
    funext category
    exact writtenPairs_domainCategoryLines domain category
  rw [this]
  simp [writtenPairs]

/-- What the encoder returns when `saveDomainValues` returns and no saved value
hides `hasOwnProperty`. -/
theorem generatePropertiesLines_eq (st : EncoderState) (timestamp : Str) (saved : List Domain)
    (hsave : saveDomainValues st.form st.domains st.currentDomainIndex = some saved)
    (hown : ∀ d ∈ saved, hasOwnPropertyFails st.configData d = false) :
    generatePropertiesLines st timestamp
      = some (headerLines timestamp ++
          st.configData.globalProperties.flatMap
            (globalCategoryLines st.form st.languageCount) ++
          saved.flatMap (domainLines st.configData)) := by
  unfold generatePropertiesLines
  rw [hsave]
  simp only []
  rw [if_neg]
  intro h
  obtain ⟨d, hd, hf⟩ := List.any_eq_true.mp h
  rw [hown d hd] at hf
  cases hf

theorem idsInOrder_range (n : Nat) :
    IdsInOrder ((List.range n).map fun j => newDomain (j + 1)) := by
  intro i h
  simp [newDomain]

/-- The list `initializeDomains` builds has the ids `1, 2, ...` in order. -/
theorem initializeDomains_ids (configData : ConfigData) :
    IdsInOrder (initializeDomains configData) := by
  unfold initializeDomains
  split
  · exact idsInOrder_range _
  · intro i h
    cases h

theorem booleanText_string (state : Bool) :
    booleanText "string".toList state = if state then "true".toList else "false".toList := rfl

theorem booleanText_number (state : Bool) :
    booleanText "number".toList state = if state then "1".toList else "0".toList := rfl

/-- The pairs the encoder writes do not depend on the timestamp. -/
theorem writtenPairs_timestamp (st : EncoderState) (t0 timestamp : Str) (lines0 : List Line)
    (h : generatePropertiesLines st t0 = some lines0) :
    ∃ lines, generatePropertiesLines st timestamp = some lines ∧
      writtenPairs lines = writtenPairs lines0 := by
  unfold generatePropertiesLines at h ⊢
  split at h
  · cases h
  · split at h
    · cases h
    · rename_i hne
      rw [if_neg hne]
      rw [Option.some.injEq] at h
      subst h
      refine ⟨_, rfl, ?_⟩
      rw [writtenPairs_append, writtenPairs_append, writtenPairs_append, writtenPairs_append]
      rfl

/-! ### The list of domains -/

theorem idsInOrder_iff (domains : List Domain) :
    IdsInOrder domains ↔ domains.map Domain.id = List.range' 1 domains.length := by
  constructor
  · intro h
    apply List.ext_getElem
    · simp
    · intro i h1 h2
      rw [List.getElem_map, List.getElem_range']
      have := h i (by simpa using h1)
      simp only [List.get_eq_getElem] at this
      omega
  · intro h i hi
    have h1 : (domains.map Domain.id)[i]? = (List.range' 1 domains.length)[i]? := by rw [h]
    rw [List.getElem?_map, List.getElem?_eq_getElem hi,
      List.getElem?_eq_getElem (by simpa using hi), List.getElem_range'] at h1
    simp only [Option.map_some', Option.some.injEq] at h1
    simp only [List.get_eq_getElem]
    omega

theorem idsInOrder_nil : IdsInOrder [] := fun i h => by cases h

theorem idsInOrder_push (domains : List Domain) (h : IdsInOrder domains) :
    IdsInOrder (domains ++ [newDomain (domains.length + 1)]) := by
  rw [idsInOrder_iff] at h ⊢
  rw [List.map_append, h, List.length_append, List.length_singleton, List.range'_concat]
  simp [newDomain, Nat.add_comm]

theorem idsInOrder_dropLast (domains : List Domain) (h : IdsInOrder domains) :
    IdsInOrder domains.dropLast := by
  intro i hi
  have hi' : i < domains.length := by
    rw [List.length_dropLast] at hi
    omega
  have := h i hi'
  simp only [List.get_eq_getElem] at this ⊢
  rw [List.getElem_dropLast]
  exact this

theorem idsInOrder_of_ids (a b : List Domain) (hab : a.map Domain.id = b.map Domain.id)
    (h : IdsInOrder b) : IdsInOrder a := by
  rw [idsInOrder_iff] at h ⊢
  have hl : a.length = b.length := by
    have := congrArg List.length hab
    simpa using this
  rw [hab, h, hl]

theorem growDomains_spec (newCount steps : Nat) (domains : List Domain)
    (hsteps : newCount ≤ domains.length + steps) :
    growDomains newCount steps domains
      = domains ++ (List.range (newCount - domains.length)).map
          fun j => newDomain (domains.length + j + 1) := by
  induction steps generalizing domains with
  | zero =>
    have : newCount - domains.length = 0 := by omega
    rw [this]
    simp [growDomains]
  | succ k ih =>
    unfold growDomains
    by_cases hlt : domains.length < newCount
    · rw [if_pos hlt, ih _ (by simp; omega)]
      have e : newCount - domains.length = (newCount - (domains.length + 1)) + 1 := by omega
      rw [e, List.range_succ_eq_map, List.map_cons, List.map_map, List.length_append,
        List.length_singleton, List.append_assoc]
      congr 1
      simp only [List.singleton_append, add_zero]
      congr 1
      apply List.map_congr_left
      intro j _
      simp only [Function.comp]
      congr 1
      omega
    · rw [if_neg hlt]
      have : newCount - domains.length = 0 := by omega
      rw [this]
      simp

theorem shrinkDomains_spec (newCount steps : Nat) (domains : List Domain)
    (hsteps : domains.length ≤ newCount + steps) :
    shrinkDomains newCount steps domains = domains.take newCount := by
  induction steps generalizing domains with
  | zero =>
    unfold shrinkDomains
    rw [List.take_of_length_le (by omega)]
  | succ k ih =>
    unfold shrinkDomains
    by_cases hlt : newCount < domains.length
    · rw [if_pos hlt, ih _ (by rw [List.length_dropLast]; omega), List.dropLast_eq_take,
        List.take_take]
      congr 1
      omega
    · rw [if_neg hlt, List.take_of_length_le (by omega)]

theorem clampCount_eq (newCount : Int) : clampCount newCount = (min (max newCount 1) 10).toNat := by
  unfold clampCount
  split
  · rename_i h
    rw [max_eq_right (by omega), min_eq_left (by omega)]
    rfl
  · split
    · rename_i h1 h2
      rw [max_eq_left (by omega), min_eq_right (by omega)]
      rfl
    · rename_i h1 h2
      rw [max_eq_left (by omega), min_eq_left (by omega)]

theorem clampCount_pos (newCount : Int) : 1 ≤ clampCount newCount ∧ clampCount newCount ≤ 10 := by
  unfold clampCount
  split
  · omega
  · split
    · omega
    · omega

/-- The list of domains after `handleDomainsCountChange`, from the list that
`saveDomainValues` leaves. -/
theorem handleDomainsCountChange_domains (form : Form) (state : DomainState) (newCount : Int)
    (saved : List Domain)
    (hsave : saveDomainValues form state.domains state.currentDomainIndex = some saved) :
    ∃ state', handleDomainsCountChange form state newCount = some state' ∧
      state'.domains
        = saved.take (clampCount newCount) ++
            (List.range (clampCount newCount - saved.length)).map
              fun j => newDomain (saved.length + j + 1) := by
  unfold handleDomainsCountChange
  rw [hsave]
  refine ⟨_, rfl, ?_⟩
  simp only []
  rw [growDomains_spec _ _ _ (by omega), shrinkDomains_spec _ _ _ (by omega)]
  by_cases h : saved.length ≤ clampCount newCount
  · have e : (saved ++ (List.range (clampCount newCount - saved.length)).map
        fun j => newDomain (saved.length + j + 1)).length = clampCount newCount := by
      simp; omega
    rw [List.take_of_length_le (by omega), List.take_of_length_le h]
  · have e : clampCount newCount - saved.length = 0 := by omega
    rw [e]
    simp

theorem saveDomainValues_length (form : Form) (domains saved : List Domain) (index : Nat)
    (h : saveDomainValues form domains index = some saved) : saved.length = domains.length := by
  have := congrArg List.length (saveDomainValues_ids form domains saved index h)
  simpa using this

/-- Saving changes the saved values of the current domain only. -/
theorem saveDomainValues_other (form : Form) (domains saved : List Domain) (index i : Nat)
    (h : saveDomainValues form domains index = some saved) (hi : i ≠ index) :
    saved[i]? = domains[i]? := by
  unfold saveDomainValues at h
  split at h
  · rw [Option.some.injEq] at h
    subst h
    rw [List.getElem?_set_ne (Ne.symm hi)]
  · split at h
    · cases h
    · rw [Option.some.injEq] at h
      rw [h]

theorem saveDomainValues_current (form : Form) (domains saved : List Domain) (index : Nat)
    (domain : Domain) (hd : domains[index]? = some domain)
    (h : saveDomainValues form domains index = some saved) :
    saved[index]? = some { domain with
      properties := (domainInputs form).foldl saveDomainValue domain.properties } := by
  unfold saveDomainValues at h
  rw [hd] at h
  simp only [Option.some.injEq] at h
  subst h
  have hlt : index < domains.length := by
    by_contra hge
    rw [List.getElem?_eq_none (by omega)] at hd
    cases hd
  rw [List.getElem?_set_self hlt]

/-- A save after a save with the same form and index returns too. -/
theorem saveDomainValues_isSome_of (form form' : Form) (domains saved pushed : List Domain)
    (index : Nat) (h : saveDomainValues form domains index = some saved)
    (hf : (domainInputs form').any savesValue = (domainInputs form).any savesValue)
    (hp : domains.length ≤ pushed.length) :
    (saveDomainValues form' pushed index).isSome = true := by
  unfold saveDomainValues at h ⊢
  split at h
  · rename_i domain hd
    have hlt : index < domains.length := by
      by_contra hge
      rw [List.getElem?_eq_none (by omega)] at hd
      cases hd
    rw [List.getElem?_eq_getElem (by omega : index < pushed.length)]
    rfl
  · split at h
    · cases h
    · rename_i hno
      rw [hf]
      split
      · rfl
      · rw [if_neg hno]
        rfl

/-! ### The operations on the list of domains -/

theorem modify_filter_any {α : Type} (f : α → α) (p q : α → Bool)
    (hp : ∀ x, p (f x) = p x) (hq : ∀ x, q (f x) = q x) (l : List α) (i : Nat) :
    ((l.modify f i).filter p).any q = (l.filter p).any q := by
  induction l generalizing i with
  | nil => cases i <;> rfl
  | cons x xs ih =>
    cases i with
    | zero =>
      simp only [List.modify_zero_cons, List.filter_cons, hp]
      split
      · simp only [List.any_cons, hq]
      · rfl
    | succ j =>
      simp only [List.modify_succ_cons, List.filter_cons]
      split
      · simp only [List.any_cons]
        rw [ih]
      · exact ih j

theorem setValueById_saves (form : Form) (id value : Str) :
    (domainInputs (setValueById form id value)).any savesValue
      = (domainInputs form).any savesValue := by
  unfold setValueById
  split
  · rfl
  · rename_i i _
    exact modify_filter_any
      (fun el : FormElement => { el with value := sanitizeValue el.isNumber value })
      (fun el => el.inDomainContainer && (el.tag != Tag.textarea)) savesValue
      (fun _ => rfl) (fun _ => rfl) form i

theorem addDomain_isSome (form : Form) (state : DomainState) :
    (addDomain form state).isSome
      = (saveDomainValues form state.domains state.currentDomainIndex).isSome := by
  unfold addDomain
  cases hs : saveDomainValues form state.domains state.currentDomainIndex with
  | none => rfl
  | some saved =>
    simp only []
    have h2 := saveDomainValues_isSome_of form
      (setValueById form ("global-".toList ++ totalDomainsKey)
        (natToStr (saved ++ [newDomain (saved.length + 1)]).length))
      state.domains saved (saved ++ [newDomain (saved.length + 1)]) state.currentDomainIndex hs
      (setValueById_saves _ _ _)
      (by rw [List.length_append, ← saveDomainValues_length _ _ _ _ hs]; omega)
    obtain ⟨saved', hs'⟩ := Option.isSome_iff_exists.mp h2
    rw [hs']
    rfl

theorem addDomain_ids (form : Form) (state state' : DomainState)
    (hids : IdsInOrder state.domains) (h : addDomain form state = some state') :
    IdsInOrder state'.domains ∧ state'.domains.length = state.domains.length + 1 := by
  unfold addDomain at h
  cases hs : saveDomainValues form state.domains state.currentDomainIndex with
  | none => rw [hs] at h; cases h
  | some saved =>
    rw [hs] at h
    simp only [] at h
    split at h
    · cases h
    · rename_i saved' hs'
      rw [Option.some.injEq] at h
      subst h
      have h1 : IdsInOrder saved :=
        idsInOrder_of_ids _ _ (saveDomainValues_ids _ _ _ _ hs) hids
      have h2 := idsInOrder_push saved h1
      refine ⟨idsInOrder_of_ids _ _ (saveDomainValues_ids _ _ _ _ hs') h2, ?_⟩
      show saved'.length = _
      rw [saveDomainValues_length _ _ _ _ hs', List.length_append,
        saveDomainValues_length _ _ _ _ hs]
      rfl

theorem removeDomain_ids (state : DomainState) (hids : IdsInOrder state.domains) :
    IdsInOrder (removeDomain state).domains := by
  unfold removeDomain
  split
  · exact hids
  · exact idsInOrder_dropLast _ hids

theorem removeDomain_ne_nil (state : DomainState) (h : state.domains ≠ []) :
    (removeDomain state).domains ≠ [] := by
  unfold removeDomain
  split
  · exact h
  · rename_i hlen
    intro hnil
    have := congrArg List.length hnil
    simp only [List.length_dropLast, List.length_nil] at this
    omega

theorem idsInOrder_take (domains : List Domain) (n : Nat) (h : IdsInOrder domains) :
    IdsInOrder (domains.take n) := by
  intro i hi
  have hi' : i < domains.length := by
    rw [List.length_take] at hi
    omega
  have := h i hi'
  simp only [List.get_eq_getElem] at this ⊢
  rw [List.getElem_take]
  exact this

theorem handleDomainsCountChange_ids (form : Form) (state state' : DomainState) (newCount : Int)
    (hids : IdsInOrder state.domains)
    (h : handleDomainsCountChange form state newCount = some state') :
    IdsInOrder state'.domains ∧ state'.domains.length = clampCount newCount := by
  cases hs : saveDomainValues form state.domains state.currentDomainIndex with
  | none =>
    unfold handleDomainsCountChange at h
    rw [hs] at h
    cases h
  | some saved =>
    obtain ⟨st, h1, h2⟩ := handleDomainsCountChange_domains form state newCount saved hs
    rw [h] at h1
    rw [Option.some.injEq] at h1
    subst h1
    have hsaved : IdsInOrder saved :=
      idsInOrder_of_ids _ _ (saveDomainValues_ids _ _ _ _ hs) hids
    have hlen : state'.domains.length = clampCount newCount := by
      rw [h2]
      simp only [List.length_append, List.length_take, List.length_map, List.length_range]
      omega
    refine ⟨?_, hlen⟩
    rw [h2]
    by_cases hle : saved.length ≤ clampCount newCount
    · rw [List.take_of_length_le hle]
      have hg := growDomains_spec (clampCount newCount) (clampCount newCount) saved (by omega)
      rw [← hg]
      clear hg h2 hlen h
      generalize clampCount newCount = c at hle ⊢
      have key : ∀ steps (ds : List Domain), IdsInOrder ds →
          IdsInOrder (growDomains c steps ds) := by
        intro steps
        induction steps with
        | zero => intro ds hds; exact hds
        | succ k ih =>
          intro ds hds
          unfold growDomains
          split
          · exact ih _ (idsInOrder_push ds hds)
          · exact hds
      exact key _ _ hsaved
    · have e : clampCount newCount - saved.length = 0 := by omega
      rw [e]
      simp only [List.range_zero, List.map_nil, List.append_nil]
      exact idsInOrder_take _ _ hsaved

theorem handleDomainsCountChange_isSome (form : Form) (state : DomainState) (newCount : Int) :
    (handleDomainsCountChange form state newCount).isSome
      = (saveDomainValues form state.domains state.currentDomainIndex).isSome := by
  unfold handleDomainsCountChange
  cases saveDomainValues form state.domains state.currentDomainIndex <;> rfl

/-! ### The codec on a file of three lines -/

/-- The parts of `str.split('.')`, joined by dots, give the string back. -/
theorem jsSplitGo_dot_join (cur s : Str) :
    List.intercalate ['.'] (jsSplitGo ['.'] 0 cur s) = cur ++ s := by
  induction s generalizing cur with
  | nil => simp [jsSplitGo, List.intercalate]
  | cons c cs ih =>
    rw [jsSplitGo]
    by_cases hp : List.isPrefixOf ['.'] (c :: cs) = true
    · rw [if_pos hp, intercalate_cons_of_ne_nil _ _ _ (jsSplitGo_ne_nil _ _ _ _)]
      have hc : c = '.' := by
        have := hp
        simp [List.isPrefixOf] at this
        exact this.symm
      have := ih []
      simp only [List.length_singleton, Nat.sub_self]
      rw [this, hc]
      simp
    · rw [if_neg hp, ih]
      simp

/-- A key whose category is `app.domain1` starts with `app.domain1`, so it
holds the domain marker. -/
theorem hasDomainMarker_of_category (k : Str)
    (h : categoryOf k = "app.domain1".toList) : hasDomainMarker k = true := by
  have hjoin := jsSplitGo_dot_join [] k
  unfold categoryOf at h
  simp only [] at h
  change List.intercalate ['.'] (jsSplit ['.'] k) = [] ++ k at hjoin
  rw [List.nil_append] at hjoin
  by_cases hl : 2 ≤ (jsSplit ['.'] k).length
  · rw [if_pos hl] at h
    obtain ⟨p0, p1, rest, hparts⟩ : ∃ p0 p1 rest, jsSplit ['.'] k = p0 :: p1 :: rest := by
      cases hs : jsSplit ['.'] k with
      | nil => rw [hs] at hl; simp at hl
      | cons p0 t =>
        cases t with
        | nil => rw [hs] at hl; simp at hl
        | cons p1 rest => exact ⟨p0, p1, rest, rfl⟩
    rw [hparts] at h hjoin
    have h2 : p0 ++ '.' :: p1 = "app.domain1".toList := by
      simpa [List.intercalate, List.intersperse, List.flatten] using h
    obtain ⟨tail, htail⟩ : ∃ tail, k = "app.domain1".toList ++ tail := by
      cases rest with
      | nil =>
        refine ⟨[], ?_⟩
        rw [← hjoin, ← h2]
        simp [List.intercalate, List.intersperse, List.flatten]
      | cons r rs =>
        refine ⟨'.' :: List.intercalate ['.'] (r :: rs), ?_⟩
        rw [← hjoin, ← h2, intercalate_cons_of_ne_nil _ _ _ (by simp),
          intercalate_cons_of_ne_nil _ _ _ (by simp)]
        simp
    unfold hasDomainMarker
    rw [Bool.or_eq_true]
    left
    rw [regexTest_iff]
    refine ⟨"app.".toList, "domain1".toList ++ tail, by rw [htail]; rfl, ?_⟩
    rw [matchAtoms_lits_isSome]
    refine ⟨"domain".toList, '1' :: tail, rfl, rfl, ?_⟩
    rw [matchAtoms, digitsThen_isSome]
    exact ⟨['1'], tail, rfl, by simp, by decide, rfl⟩
  · rw [if_neg hl] at h
    exact absurd h (by decide)

/-- A list whose only element with a result under `g` occurs once is mapped by
`filterMap g` to that result alone. -/
theorem filterMap_unique {α β : Type} (g : α → Option β) (l : List α) (a : α) (b : β)
    (hnd : l.Nodup) (ha : a ∈ l) (hg : g a = some b)
    (hother : ∀ x ∈ l, x ≠ a → g x = none) : l.filterMap g = [b] := by
  induction l with
  | nil => cases ha
  | cons x xs ih =>
    rw [List.nodup_cons] at hnd
    by_cases hx : x = a
    · subst hx
      rw [List.filterMap_cons, hg]
      have : xs.filterMap g = [] := by
        rw [List.filterMap_eq_nil_iff]
        intro y hy
        exact hother y (List.mem_cons_of_mem _ hy) (fun e => hnd.1 (e ▸ hy))
      rw [this]
    · rw [List.filterMap_cons, hother x (List.mem_cons_self _ _) hx]
      have ha' : a ∈ xs := by
        rcases List.mem_cons.mp ha with e | e
        · exact absurd e.symm hx
        · exact e
      exact ih hnd.2 ha' (fun y hy => hother y (List.mem_cons_of_mem _ hy))

/-- `mapM` of a function that returns on every element of the list returns the
list of the results. -/
theorem mapM_option_some {α β : Type} (f : α → Option β) (g : α → β) (l : List α)
    (h : ∀ x ∈ l, f x = some (g x)) : l.mapM f = some (l.map g) := by
  induction l with
  | nil => rfl
  | cons x xs ih =>
    rw [List.mapM_cons, h x (List.mem_cons_self _ _),
      ih (fun y hy => h y (List.mem_cons_of_mem _ hy))]
    rfl

/-- The first element with a property is the only element with it. -/
theorem find?_of_unique {α : Type} (p : α → Bool) (l : List α) (a : α) (ha : a ∈ l)
    (hp : p a = true) (hu : ∀ x ∈ l, p x = true → x = a) : l.find? p = some a := by
  cases hf : l.find? p with
  | none =>
    have := List.find?_eq_none.mp hf a ha
    exact absurd hp this
  | some x =>
    rw [hu x (List.mem_of_find?_eq_some hf) (List.find?_some hf)]

/-- A document of controls only is left as it is by `updateRepeatableFields`. -/
theorem updateRepeatableFieldsFrom_controls (before document : List Node)
    (h : ∀ node ∈ document, ∃ el, node = .control el) :
    updateRepeatableFieldsFrom before document = before ++ document := by
  induction document generalizing before with
  | nil => simp [updateRepeatableFieldsFrom]
  | cons node rest ih =>
    obtain ⟨el, rfl⟩ := h _ (List.mem_cons_self _ _)
    rw [updateRepeatableFieldsFrom, ih _ (fun n hn => h n (List.mem_cons_of_mem _ hn))]
    simp

/-- The pairs of an infix of the lines are among the pairs of the lines. -/
theorem writtenPairs_of_infix {a b : List Line} (h : a <:+: b) (pair : Str × Str)
    (hp : pair ∈ writtenPairs a) : pair ∈ writtenPairs b := by
  obtain ⟨s, t, rfl⟩ := h
  rw [writtenPairs_append, writtenPairs_append]
  exact List.mem_append_left _ (List.mem_append_right _ hp)


/-- The schema `parsePropertiesFile` gives for a file of three lines: the
boolean line, the domain line and a line without domain marker. -/
theorem parsePropertiesFile_three_lines (domainKeyPattern content k v : Str)
    (hpattern : getDomainKeyPattern domainKeyPattern = "domain{N}".toList)
    (hlines : (decodeLines content).Perm
      [("feature.enabled".toList, "true".toList), ("app.domain1.name".toList, "Acme".toList),
        (k, v)])
    (hplain : hasDomainMarker k = false) (hkey : k ≠ "feature.enabled".toList)
    (hproto : k ≠ "__proto__".toList) :
    (parsePropertiesFile domainKeyPattern content).domainProperties
      = [domainCategoryOf "domain{N}".toList "app.domain1".toList
          [importedProperty "app.domain1.name".toList "Acme".toList]] ∧
    (∀ C ∈ (parsePropertiesFile domainKeyPattern content).globalProperties,
      ∀ p ∈ C.properties,
        p = importedProperty "feature.enabled".toList "true".toList ∨ p = importedProperty k v) ∧
    (∃ C ∈ (parsePropertiesFile domainKeyPattern content).globalProperties,
      importedProperty "feature.enabled".toList "true".toList ∈ C.properties) ∧
    (∃ C ∈ (parsePropertiesFile domainKeyPattern content).globalProperties,
      importedProperty k v ∈ C.properties) := by
  have hkd : k ≠ "app.domain1.name".toList := by
    intro e
    rw [e] at hplain
    exact absurd hplain (by decide)
  have hcat : categoryOf k ≠ "app.domain1".toList := by
    intro e
    rw [hasDomainMarker_of_category k e] at hplain
    cases hplain
  -- the object `properties`
  have hkeys : ((decodeLines content).map Prod.fst).Perm
      ["feature.enabled".toList, "app.domain1.name".toList, k] := hlines.map Prod.fst
  have hprops : importedProperties content = decodeLines content := by
    unfold importedProperties
    have := foldl_objectSet_nodup (decodeLines content) ([] : List (Str × Str))
      (by
        intro hm
        have := hkeys.mem_iff.mp hm
        simp only [List.mem_cons, List.mem_singleton, List.not_mem_nil, or_false] at this
        rcases this with e | e | e
        · exact absurd e (by decide)
        · exact absurd e (by decide)
        · exact hproto e.symm)
      (by
        rw [List.map_nil, List.nil_append, hkeys.nodup_iff]
        simp only [List.nodup_cons, List.mem_cons, List.mem_singleton, List.not_mem_nil,
          List.nodup_nil, not_or, not_false_eq_true, and_true]
        exact ⟨⟨by decide, fun e => hkey e.symm⟩, fun e => hkd e.symm⟩)
    rw [this, List.nil_append]
  -- the properties in key order
  have horder : (importedInKeyOrder content).Perm
      [importedProperty "feature.enabled".toList "true".toList,
        importedProperty "app.domain1.name".toList "Acme".toList, importedProperty k v] := by
    have h1 := importedInKeyOrder_pairs content
    rw [hprops] at h1
    have h2 := (h1.trans hlines).map (fun q : Str × Str => importedProperty q.1 q.2)
    rw [List.map_map] at h2
    have h3 : (importedInKeyOrder content).map
        ((fun q : Str × Str => importedProperty q.1 q.2) ∘ fun p => (p.key, p.default))
        = importedInKeyOrder content := by
      conv_rhs => rw [← List.map_id (importedInKeyOrder content)]
      apply List.map_congr_left
      intro p hp
      exact (mem_importedInKeyOrder content p hp).2.symm
    rw [h3] at h2
    exact h2
  have hmemOrder : ∀ p, p ∈ importedInKeyOrder content ↔
      p = importedProperty "feature.enabled".toList "true".toList ∨
        p = importedProperty "app.domain1.name".toList "Acme".toList ∨
          p = importedProperty k v := by
    intro p
    rw [horder.mem_iff]
    simp
  have hmarkK : hasDomainMarker (importedProperty k v).key = false := hplain
  -- the categories
  obtain ⟨hnames, -, hmem⟩ := foldl_pushToCategory_spec (fun p : Property => categoryOf p.key)
    (importedInKeyOrder content)
  rw [← importedCategories_eq] at hnames hmem
  have hfilterDom : (importedInKeyOrder content).filter
      (fun p => categoryOf p.key = "app.domain1".toList)
      = [importedProperty "app.domain1.name".toList "Acme".toList] := by
    have := horder.filter (fun p => decide (categoryOf p.key = "app.domain1".toList))
    have hK : decide (categoryOf (importedProperty k v).key = "app.domain1".toList) = false := by
      simpa [importedProperty] using hcat
    rw [List.filter_cons_of_neg (by decide), List.filter_cons_of_pos (by decide),
      List.filter_cons_of_neg (by rw [hK]; exact Bool.false_ne_true), List.filter_nil] at this
    exact List.perm_singleton.mp this
  have hentryDom : ("app.domain1".toList,
      [importedProperty "app.domain1.name".toList "Acme".toList]) ∈ importedCategories content := by
    rw [hmem, hfilterDom]
    exact ⟨rfl, by simp⟩
  have hnoMarker : ∀ n items, (n, items) ∈ importedCategories content →
      (n, items) ≠ ("app.domain1".toList,
        [importedProperty "app.domain1.name".toList "Acme".toList]) →
      items.any (fun p => hasDomainMarker p.key) = false := by
    intro n items hin hne
    rw [hmem] at hin
    by_contra hany
    rw [Bool.not_eq_false, List.any_eq_true] at hany
    obtain ⟨p, hp, hpm⟩ := hany
    rw [hin.1, List.mem_filter] at hp
    rcases (hmemOrder p).mp hp.1 with e | e | e
    · rw [e] at hpm
      exact absurd hpm (by decide)
    · have hn : n = "app.domain1".toList := by
        have := hp.2
        rw [e] at this
        simp only [decide_eq_true_eq] at this
        rw [← this]
        decide
      apply hne
      rw [hin.1, hn, hfilterDom]
    · rw [e, hmarkK] at hpm
      cases hpm
  have hglobalEntry : ∀ p, p ∈ importedInKeyOrder content →
      categoryOf p.key ≠ "app.domain1".toList →
      ∃ C ∈ (importedCategories content).filterMap (fun entry =>
          if entry.2.any (fun p => hasDomainMarker p.key) then none
          else some { category := formatCategoryName entry.1, properties := entry.2 : Category }),
        p ∈ C.properties := by
    intro p hp hc
    have hin : (categoryOf p.key, (importedInKeyOrder content).filter
        (fun q => categoryOf q.key = categoryOf p.key)) ∈ importedCategories content := by
      rw [hmem]
      refine ⟨rfl, ?_⟩
      intro e
      have : p ∈ (importedInKeyOrder content).filter
          (fun q => categoryOf q.key = categoryOf p.key) := by
        rw [List.mem_filter]
        exact ⟨hp, by simp⟩
      rw [e] at this
      cases this
    have hno := hnoMarker _ _ hin (by
      intro e
      rw [Prod.mk.injEq] at e
      exact hc e.1)
    refine ⟨{ category := formatCategoryName (categoryOf p.key),
              properties := (importedInKeyOrder content).filter
                (fun q => categoryOf q.key = categoryOf p.key) }, ?_, ?_⟩
    · rw [List.mem_filterMap]
      exact ⟨_, hin, by simp only [hno]; rfl⟩
    · rw [List.mem_filter]
      exact ⟨hp, by simp⟩
  have hFe := hglobalEntry (importedProperty "feature.enabled".toList "true".toList)
    ((hmemOrder _).mpr (Or.inl rfl)) (by decide)
  have hK := hglobalEntry (importedProperty k v) ((hmemOrder _).mpr (Or.inr (Or.inr rfl))) hcat
  have hglobalNe : ((importedCategories content).filterMap (fun entry =>
      if entry.2.any (fun p => hasDomainMarker p.key) then none
      else some { category := formatCategoryName entry.1, properties := entry.2 : Category })).isEmpty
      = false := by
    obtain ⟨C, hC, -⟩ := hFe
    cases hl : (importedCategories content).filterMap (fun entry =>
      if entry.2.any (fun p => hasDomainMarker p.key) then none
      else some { category := formatCategoryName entry.1, properties := entry.2 : Category }) with
    | nil => rw [hl] at hC; cases hC
    | cons _ _ => rfl
  have hdomainList : (importedCategories content).filterMap (fun entry =>
      if entry.2.any (fun p => hasDomainMarker p.key) then
        some (domainCategoryOf (getDomainKeyPattern domainKeyPattern) entry.1 entry.2)
      else none)
      = [domainCategoryOf "domain{N}".toList "app.domain1".toList
          [importedProperty "app.domain1.name".toList "Acme".toList]] := by
    refine filterMap_unique _ _ _ _ (List.Nodup.of_map _ hnames) hentryDom ?_ ?_
    · have : List.any [importedProperty "app.domain1.name".toList "Acme".toList]
          (fun p => hasDomainMarker p.key) = true := by decide
      simp only [this, if_true, hpattern]
    · rintro ⟨n, items⟩ hin hne
      simp only [hnoMarker n items hin hne, Bool.false_eq_true, if_false]
  refine ⟨?_, ?_, ?_, ?_⟩
  · unfold parsePropertiesFile
    simp only [hdomainList]
    rfl
  · unfold parsePropertiesFile
    simp only [hglobalNe, Bool.false_eq_true, if_false]
    intro C hC p hp
    rw [List.mem_filterMap] at hC
    obtain ⟨⟨n, items⟩, hin, hsome⟩ := hC
    by_cases hany : items.any (fun p => hasDomainMarker p.key) = true
    · simp only [hany, if_true] at hsome
      cases hsome
    · simp only [hany, if_false, Option.some.injEq] at hsome
      rw [if_neg (by simp), Option.some.injEq] at hsome
      subst hsome
      have hitems := ((hmem n items).mp hin).1
      change p ∈ items at hp
      rw [hitems, List.mem_filter] at hp
      rcases (hmemOrder p).mp hp.1 with e | e | e
      · exact Or.inl e
      · exfalso
        apply hany
        rw [List.any_eq_true]
        refine ⟨p, ?_, by rw [e]; decide⟩
        rw [hitems, List.mem_filter]
        exact hp
      · exact Or.inr e
  · unfold parsePropertiesFile
    simp only [hglobalNe, Bool.false_eq_true, if_false]
    exact hFe
  · unfold parsePropertiesFile
    simp only [hglobalNe, Bool.false_eq_true, if_false]
    exact hK

/-- The field rendered for an imported text property: a text control with the
value and a confirmation checkbox. -/
theorem renderPropertyField_imported_text (k v : Str)
    (htext : inferType v = ("text".toList, [])) :
    renderPropertyField (importedProperty k v) none
      = some [.control { id := "global-".toList ++ k, dataKey := k, value := stripNewlines v },
          .control (confirmControl ("global-".toList ++ k) false)] := by
  have h1 : ("text".toList = "number".toList) = False := by decide
  have h2 : ("text".toList = "boolean".toList) = False := by decide
  have h3 : ("text".toList = "dynamicLanguages".toList) = False := by decide
  have h4 : ("text".toList = "select".toList) = False := by decide
  have h5 : ("text".toList = "mexicoStates".toList) = False := by decide
  have h6 : ("text".toList = "paymentPeriods".toList) = False := by decide
  have h7 : ("text".toList = "dynamicSelect".toList) = False := by decide
  have h8 : ("text".toList = "html".toList) = False := by decide
  simp only [renderPropertyField, renderPropertyField.renderPlain, importedProperty, htext,
    unmodelledKind, hasDynamicOptions, valueControl, fieldId, defaultValueOf, sanitizeValue,
    h1, h2, h3, h4, h5, h6, h7, h8, decide_False, decide_True, Bool.or_false, Bool.false_eq_true,
    if_false, true_or, if_true, Option.isSome_none, List.singleton_append]

/-- The lines written for an imported text property. -/
theorem globalPropertyLines_imported_text (form : Form) (languageCount : Nat) (k v : Str)
    (htext : inferType v = ("text".toList, [])) :
    writtenPairs (globalPropertyLines form languageCount (importedProperty k v))
      = [(k, match getElementById form ("global-".toList ++ k) with
          | some input =>
            if input.isCheckbox && input.isToggle then booleanText input.booleanType input.checked
            else if !input.isCheckbox then input.value
            else []
          | none => v)] := by
  have h3 : ("text".toList = "dynamicLanguages".toList) = False := by decide
  simp only [globalPropertyLines, plainPropertyLines, importedProperty, htext, hasDynamicOptions,
    h3, Bool.false_eq_true, if_false, writtenPairs_append, writtenPairs_descriptionLines,
    List.nil_append, globalValue]
  rfl

/-- The controls rendered for global categories that hold the imported
boolean property `feature.enabled` and an imported text property, and no
other property. -/
theorem globalNodes_imported (G : List Category) (k v : Str)
    (htext : inferType v = ("text".toList, []))
    (hG : ∀ C ∈ G, ∀ p ∈ C.properties,
      p = importedProperty "feature.enabled".toList "true".toList ∨ p = importedProperty k v)
    (hFe : ∃ C ∈ G, importedProperty "feature.enabled".toList "true".toList ∈ C.properties)
    (hK : ∃ C ∈ G, importedProperty k v ∈ C.properties) :
    (∀ node ∈ ((G.flatMap (·.properties)).map
        fun p => (renderPropertyField p none).getD []).flatMap id, ∃ el, node = .control el) ∧
    (∀ el ∈ formOf (((G.flatMap (·.properties)).map
        fun p => (renderPropertyField p none).getD []).flatMap id),
      el = booleanControl (importedProperty "feature.enabled".toList "true".toList) none ∨
        el = { id := "global-".toList ++ k, dataKey := k, value := stripNewlines v } ∨
        el = confirmControl ("global-".toList ++ k) false) ∧
    booleanControl (importedProperty "feature.enabled".toList "true".toList) none
      ∈ formOf (((G.flatMap (·.properties)).map
        fun p => (renderPropertyField p none).getD []).flatMap id) ∧
    ({ id := "global-".toList ++ k, dataKey := k, value := stripNewlines v } : FormElement)
      ∈ formOf (((G.flatMap (·.properties)).map
        fun p => (renderPropertyField p none).getD []).flatMap id) := by
  have hnode : ∀ node, node ∈ ((G.flatMap (·.properties)).map
        fun p => (renderPropertyField p none).getD []).flatMap id ↔
      ∃ C ∈ G, ∃ p ∈ C.properties, node ∈ (renderPropertyField p none).getD [] := by
    intro node
    simp only [List.mem_flatMap, List.mem_map, id]
    constructor
    · rintro ⟨nodes, ⟨p, ⟨C, hC, hp⟩, rfl⟩, hn⟩
      exact ⟨C, hC, p, hp, hn⟩
    · rintro ⟨C, hC, p, hp, hn⟩
      exact ⟨_, ⟨p, ⟨C, hC, hp⟩, rfl⟩, hn⟩
  have hrFe : (renderPropertyField (importedProperty "feature.enabled".toList "true".toList)
      none).getD []
      = [.control (booleanControl (importedProperty "feature.enabled".toList "true".toList)
          none)] := by
    decide
  have hrK : (renderPropertyField (importedProperty k v) none).getD []
      = [.control { id := "global-".toList ++ k, dataKey := k, value := stripNewlines v },
          .control (confirmControl ("global-".toList ++ k) false)] := by
    rw [renderPropertyField_imported_text k v htext]
    rfl
  have hel : ∀ el, el ∈ formOf (((G.flatMap (·.properties)).map
        fun p => (renderPropertyField p none).getD []).flatMap id) ↔
      ∃ node ∈ ((G.flatMap (·.properties)).map
        fun p => (renderPropertyField p none).getD []).flatMap id, el ∈ node.elements := by
    intro el
    unfold formOf
    rw [List.mem_flatMap]
  refine ⟨?_, ?_, ?_, ?_⟩
  · intro node hn
    obtain ⟨C, hC, p, hp, hn⟩ := (hnode node).mp hn
    rcases hG C hC p hp with e | e
    · rw [e, hrFe, List.mem_singleton] at hn
      exact ⟨_, hn⟩
    · rw [e, hrK] at hn
      simp only [List.mem_cons, List.mem_singleton, List.not_mem_nil, or_false] at hn
      rcases hn with hn | hn <;> exact ⟨_, hn⟩
  · intro el hel'
    obtain ⟨node, hn, hmem⟩ := (hel el).mp hel'
    obtain ⟨C, hC, p, hp, hn⟩ := (hnode node).mp hn
    rcases hG C hC p hp with e | e
    · rw [e, hrFe, List.mem_singleton] at hn
      subst hn
      left
      simpa [Node.elements] using hmem
    · rw [e, hrK] at hn
      simp only [List.mem_cons, List.mem_singleton, List.not_mem_nil, or_false] at hn
      rcases hn with hn | hn
      · subst hn
        right; left
        simpa [Node.elements] using hmem
      · subst hn
        right; right
        simpa [Node.elements] using hmem
  · obtain ⟨C, hC, hp⟩ := hFe
    rw [hel]
    refine ⟨.control (booleanControl (importedProperty "feature.enabled".toList "true".toList)
      none), (hnode _).mpr ⟨C, hC, _, hp, ?_⟩, ?_⟩
    · rw [hrFe]
      exact List.mem_singleton_self _
    · simp [Node.elements]
  · obtain ⟨C, hC, hp⟩ := hK
    rw [hel]
    refine ⟨.control { id := "global-".toList ++ k, dataKey := k, value := stripNewlines v },
      (hnode _).mpr ⟨C, hC, _, hp, ?_⟩, ?_⟩
    · rw [hrK]
      exact List.mem_cons_self _ _
    · simp [Node.elements]

/-- The lines written for the imported boolean property `feature.enabled`. -/
theorem globalPropertyLines_imported_boolean (form : Form) (languageCount : Nat) :
    writtenPairs (globalPropertyLines form languageCount
        (importedProperty "feature.enabled".toList "true".toList))
      = [("feature.enabled".toList,
          globalValue form (importedProperty "feature.enabled".toList "true".toList))] := by
  have hp : importedProperty "feature.enabled".toList "true".toList
      = { key := "feature.enabled".toList
          label := importLabel "feature.enabled".toList
          type := "boolean".toList
          default := "true".toList
          needsConfirmation := false
          description := "Propiedad importada: ".toList ++ "feature.enabled".toList
          booleanType := "string".toList
          checkService := false } := by decide
  have h3 : ("boolean".toList = "dynamicLanguages".toList) = False := by decide
  generalize hq : importedProperty "feature.enabled".toList "true".toList = q at hp ⊢
  simp only [globalPropertyLines, plainPropertyLines, hp, hasDynamicOptions,
    h3, Bool.false_eq_true, if_false, writtenPairs_append, writtenPairs_descriptionLines,
    List.nil_append]
  rfl

/-- C7: `valuesMatch(a, b)` is true exactly when the comparison keys of `a` and
`b` (string conversion, lower-casing, trimming, then the boolean spellings
`true/1/on/yes` and `false/0/off/no` collapsed to `"true"` and `"false"`) are
equal strings; and `valuesMatch("1","true")`, `valuesMatch("off","false")` hold
while `valuesMatch("2","true")` does not; letters outside ASCII are compared
without regard to case as well. -/
theorem valuesMatch_iff_specComparisonKey :
    (∀ a b : JsValue, valuesMatch a b = true ↔ specComparisonKey a = specComparisonKey b) ∧
    valuesMatch (.str "1".toList) (.str "true".toList) = true ∧
    valuesMatch (.str "off".toList) (.str "false".toList) = true ∧
    valuesMatch (.str "2".toList) (.str "true".toList) = false ∧
    valuesMatch (.str "SÍ".toList) (.str " sí".toList) = true := by
  refine ⟨?_, by decide, by decide, by decide, by decide⟩
  intro a b
  have key : ∀ v : JsValue, normalizeBooleanValue v = specComparisonKey v := by
    intro v
    simp only [normalizeBooleanValue, specComparisonKey, specTrueSpellings, specFalseSpellings,
      List.mem_cons, List.mem_singleton, List.not_mem_nil, or_false]
  simp only [valuesMatch, decide_eq_true_eq, key]

/-- C8: for a non-empty key and a pattern with one placeholder, of the form
prefix`{N}`suffix, `checkIfDomainProperty` is true exactly when the key
contains, compared case-insensitively, the prefix followed by one or more
decimal digits followed by the suffix, or the literal pattern text; an empty key
or an empty pattern gives false, and `"app.domain1.name"` with `"domain{N}"`
gives true. -/
theorem checkIfDomainProperty_iff_contains :
    (∀ key pattern pre suf : Str, key ≠ [] → jsSplit placeholder pattern = [pre, suf] →
      (checkIfDomainProperty key pattern = true ↔
        (∃ a x ds y b, key = a ++ x ++ ds ++ y ++ b ∧ ciEq x pre ∧ ds ≠ [] ∧
            (∀ c ∈ ds, isDecimalDigit c = true) ∧ ciEq y suf) ∨
        (∃ a m b, key = a ++ m ++ b ∧ ciEq m pattern))) ∧
    (∀ pattern : Str, checkIfDomainProperty [] pattern = false) ∧
    (∀ key : Str, checkIfDomainProperty key [] = false) ∧
    checkIfDomainProperty "app.domain1.name".toList "domain{N}".toList = true ∧
    checkIfDomainProperty "app.ESPAÑA1.x".toList "españa{N}".toList = true := by
  refine ⟨?_, ?_, ?_, by decide, by decide⟩
  · intro key pattern pre suf hkey hsplit
    obtain ⟨hpat, hatoms⟩ := jsSplit_pair pattern pre suf hsplit
    have hpne : pattern ≠ [] := by
      rw [hpat]; simp [placeholder]
    have e1 : pattern.isEmpty = false := by
      cases pattern with
      | nil => exact absurd rfl hpne
      | cons _ _ => rfl
    have e2 : key.isEmpty = false := by
      cases key with
      | nil => exact absurd rfl hkey
      | cons _ _ => rfl
    simp only [checkIfDomainProperty, e1, e2, Bool.or_self, Bool.false_eq_true, if_false,
      Bool.or_eq_true, regexTest_iff, hatoms, matchAtoms_numeric_isSome, matchAtoms_literal_isSome]
    constructor
    · rintro (⟨a, t, rfl, x, ds, y, b, rfl, h⟩ | ⟨a, t, rfl, m, b, rfl, h⟩)
      · exact Or.inl ⟨a, x, ds, y, b, by simp, h⟩
      · exact Or.inr ⟨a, m, b, by simp, h⟩
    · rintro (⟨a, x, ds, y, b, rfl, h⟩ | ⟨a, m, b, rfl, h⟩)
      · exact Or.inl ⟨a, x ++ ds ++ y ++ b, by simp, x, ds, y, b, rfl, h⟩
      · exact Or.inr ⟨a, m ++ b, by simp, m, b, rfl, h⟩
  · intro pattern
    simp [checkIfDomainProperty]
  · intro key
    simp [checkIfDomainProperty]

/-- The statement of C8 at the key `app.domain1.name` and the pattern `domain{N}`. -/
theorem checkIfDomainProperty_iff_contains_witness :
    "app.domain1.name".toList ≠ [] ∧
    jsSplit placeholder "domain{N}".toList = ["domain".toList, []] ∧
    (checkIfDomainProperty "app.domain1.name".toList "domain{N}".toList = true ↔
        (∃ a x ds y b, "app.domain1.name".toList = a ++ x ++ ds ++ y ++ b ∧
            ciEq x "domain".toList ∧ ds ≠ [] ∧
            (∀ c ∈ ds, isDecimalDigit c = true) ∧ ciEq y []) ∨
        (∃ a m b, "app.domain1.name".toList = a ++ m ++ b ∧ ciEq m "domain{N}".toList)) :=
  ⟨by decide, by decide,
    checkIfDomainProperty_iff_contains.1 _ _ _ _ (by decide) (by decide)⟩



theorem expandDomainKey_single (key x y : Str) (id : Nat)
    (h : jsSplit placeholder key = [x, y]) :
    expandDomainKey key id = x ++ natToStr id ++ y := by
  rw [expandDomainKey_eq_intercalate, h]
  simp [List.intercalate, List.intersperse, List.flatten]

/-- C1 (amended): for a pattern that splits into exactly the two parts `pre` and
`suf` around `{N}` and holds no `$`, and a template key `K = a ++ pre ++ {N} ++
suf ++ b` whose only placeholder is that one and whose parts `a` and `b` hold
no decimal digit, templating the expansion of `K` by any integer gives `K`
back. -/
theorem convertToDomainTemplate_expandDomainKey (pattern pre suf a b : Str) (K : Str) (i : Nat)
    (hsplit : jsSplit placeholder pattern = [pre, suf]) (hd : '$' ∉ pattern)
    (hK : jsSplit placeholder K = [a ++ pre, suf ++ b])
    (ha : ∀ c ∈ a, isDecimalDigit c = false) (hb : ∀ c ∈ b, isDecimalDigit c = false) :
    convertToDomainTemplate (expandDomainKey K i) pattern = K := by
  obtain ⟨hpat, -⟩ := jsSplit_pair pattern pre suf hsplit
  obtain ⟨hKeq, -⟩ := jsSplit_pair K _ _ hK
  have hds := natToStr_digits i
  have hdsne := natToStr_ne_nil i
  have hexp : expandDomainKey K i = a ++ (pre ++ natToStr i ++ suf) ++ b := by
    rw [expandDomainKey_single K _ _ i hK]
    simp
  generalize natToStr i = ds at hds hdsne hexp
  have hocc : NumericOccurrence pre suf (pre ++ ds ++ suf) :=
    ⟨pre, ds, suf, rfl, ciEq_refl _, hdsne, hds, ciEq_refl _⟩
  have ca := countP_digit_eq_zero ha
  have cb := countP_digit_eq_zero hb
  rw [convertToDomainTemplate_first_occurrence _ pattern pre suf a (pre ++ ds ++ suf) b hsplit hd
    hexp hocc ?first ?long]
  · rw [convertToDomainTemplate_no_occurrence b pattern pre suf hsplit hd
      (no_occurrence_of_no_digit pre suf b hb), hKeq, hpat]
    simp
  case first =>
    rintro a' m' b' e ⟨x, ds', y, rfl, hx, hne', hds', hy⟩
    by_contra hlt
    push_neg at hlt
    cases ds' with
    | nil => exact hne' rfl
    | cons d ds' =>
      have hd1 := hds' d (List.mem_cons_self _ _)
      have hp1 : (a' ++ x ++ [d]) <+: expandDomainKey K i := by
        rw [e]; exact ⟨ds' ++ y ++ b', by simp⟩
      have hp2 : (a ++ pre) <+: expandDomainKey K i := by
        rw [hexp]; exact ⟨ds ++ suf ++ b, by simp⟩
      have hlen : (a' ++ x ++ [d]).length ≤ (a ++ pre).length := by
        have := ciEq_length hx
        simp; omega
      have hpre := List.prefix_of_prefix_length_le hp1 hp2 hlen
      have hcnt := hpre.sublist.countP_le isDecimalDigit
      have cx := countP_digit_of_ciEq hx
      simp only [List.countP_append, List.countP_cons, List.countP_nil, hd1, if_true, ca] at hcnt
      omega
  case long =>
    rintro m' b' e ⟨x', ds', y', rfl, hx', hne', hds', hy'⟩
    by_contra hlt
    push_neg at hlt
    have hp1 : (pre ++ ds ++ suf) <+: (pre ++ ds ++ suf ++ b) := ⟨b, rfl⟩
    have hp2 : (x' ++ ds' ++ y') <+: (pre ++ ds ++ suf ++ b) := ⟨b', e.symm⟩
    obtain ⟨w, hw⟩ := List.prefix_of_prefix_length_le hp1 hp2 (Nat.le_of_lt hlt)
    have hwb : w <+: b := by
      have : pre ++ ds ++ suf ++ b = pre ++ ds ++ suf ++ (w ++ b') := by
        rw [e, ← hw]; simp
      have := List.append_cancel_left this
      exact ⟨b', this.symm⟩
    have cw : w.countP isDecimalDigit = 0 :=
      Nat.le_zero.mp (cb ▸ hwb.sublist.countP_le isDecimalDigit)
    have hc := congrArg (List.countP isDecimalDigit) hw
    have hl := congrArg List.length hw
    simp only [List.countP_append, countP_digit_eq_length hds, countP_digit_eq_length hds',
      countP_digit_of_ciEq hx', countP_digit_of_ciEq hy', cw] at hc
    have l1 := ciEq_length hx'
    have l2 := ciEq_length hy'
    simp only [List.length_append] at hl hlt
    omega


/-- The amended C1 at the key `app.domain{N}.name`, the id 3 and the pattern
`domain{N}`. -/
theorem convertToDomainTemplate_expandDomainKey_witness :
    jsSplit placeholder "domain{N}".toList = ["domain".toList, []] ∧
    '$' ∉ "domain{N}".toList ∧
    jsSplit placeholder "app.domain{N}.name".toList
      = ["app.".toList ++ "domain".toList, [] ++ ".name".toList] ∧
    (∀ c ∈ "app.".toList, isDecimalDigit c = false) ∧
    (∀ c ∈ ".name".toList, isDecimalDigit c = false) ∧
    convertToDomainTemplate (expandDomainKey "app.domain{N}.name".toList 3) "domain{N}".toList
      = "app.domain{N}.name".toList :=
  ⟨by decide, by decide, by decide, by decide, by decide,
    convertToDomainTemplate_expandDomainKey "domain{N}".toList "domain".toList [] "app.".toList
      ".name".toList "app.domain{N}.name".toList 3 (by decide) (by decide) (by decide)
      (by decide) (by decide)⟩

/-- C1 as stated fails: a template key whose placeholder follows the prefix in
another letter case, or does not follow the prefix of the pattern at all, is
not given back. -/
theorem convertToDomainTemplate_expandDomainKey_counterexample :
    jsSplit placeholder "domain{N}".toList = ["domain".toList, []] ∧
    convertToDomainTemplate (expandDomainKey "app.Domain{N}.name".toList 1) "domain{N}".toList
      = "app.domain{N}.name".toList ∧
    convertToDomainTemplate (expandDomainKey "app.Domain{N}.name".toList 1) "domain{N}".toList
      ≠ "app.Domain{N}.name".toList ∧
    convertToDomainTemplate (expandDomainKey "portal.language{N}".toList 2) "domain{N}".toList
      ≠ "portal.language{N}".toList := by
  decide

/-- C9 (amended): for a pattern that splits into the two parts `pre` and `suf`
around `{N}` and holds no `$`, `convertToDomainTemplate` rewrites every numeric
occurrence, left to right without overlap: a key without numeric occurrence is
unchanged; otherwise the text before the first occurrence is kept, the
occurrence (the longest one starting there) becomes the pattern text and the
rest of the key is templated in the same way; the prefix and the suffix are
compared as the flags `gi` compare them.  So `app.domain1.name` becomes
`app.domain{N}.name`, `app.domain1.domain2` becomes `app.domain{N}.domain{N}`
and, with the pattern `españa{N}`, `app.ESPAÑA1.x` becomes `app.españa{N}.x`. -/
theorem convertToDomainTemplate_rewrites_every_occurrence (key pattern pre suf : Str)
    (hsplit : jsSplit placeholder pattern = [pre, suf]) (hd : '$' ∉ pattern) :
    ((∀ a m b, key = a ++ m ++ b → ¬ NumericOccurrence pre suf m) →
      convertToDomainTemplate key pattern = key) ∧
    (∀ a m b, key = a ++ m ++ b → NumericOccurrence pre suf m →
      (∀ a' m' b', key = a' ++ m' ++ b' → NumericOccurrence pre suf m' →
        a.length ≤ a'.length) →
      (∀ m' b', m ++ b = m' ++ b' → NumericOccurrence pre suf m' → m'.length ≤ m.length) →
      convertToDomainTemplate key pattern
        = a ++ pattern ++ convertToDomainTemplate b pattern) ∧
    convertToDomainTemplate "app.domain1.name".toList "domain{N}".toList
      = "app.domain{N}.name".toList ∧
    convertToDomainTemplate "app.domain1.domain2".toList "domain{N}".toList
      = "app.domain{N}.domain{N}".toList ∧
    convertToDomainTemplate "app.ESPAÑA1.x".toList "españa{N}".toList
      = "app.españa{N}.x".toList :=
  ⟨convertToDomainTemplate_no_occurrence key pattern pre suf hsplit hd,
    fun a m b hkey hm hfirst hlong =>
      convertToDomainTemplate_first_occurrence key pattern pre suf a m b hsplit hd hkey hm
        hfirst hlong,
    by decide, by decide, by decide⟩

/-- The amended C9 at the key `app.domain1.name` and the pattern `domain{N}`:
the occurrence `domain1` is the first and the longest one, the rest `.name`
holds none. -/
theorem convertToDomainTemplate_rewrites_every_occurrence_witness :
    convertToDomainTemplate "app.domain1.name".toList "domain{N}".toList
      = "app.".toList ++ "domain{N}".toList ++
          convertToDomainTemplate ".name".toList "domain{N}".toList ∧
    convertToDomainTemplate ".name".toList "domain{N}".toList = ".name".toList := by
  have hocc : NumericOccurrence "domain".toList [] "domain1".toList :=
    ⟨"domain".toList, "1".toList, [], by decide, by decide, by decide, by decide, by decide⟩
  constructor
  · refine (convertToDomainTemplate_rewrites_every_occurrence "app.domain1.name".toList
      "domain{N}".toList "domain".toList [] (by decide) (by decide)).2.1
      "app.".toList "domain1".toList ".name".toList (by decide) hocc ?_ ?_
    · intro a' m' b' e hm'
      by_contra hlt
      push_neg at hlt
      have hnone : ∀ k, k < 4 → matchAtoms true
          (literalAtoms "domain".toList ++ [Atom.digits] ++ literalAtoms [])
          ("app.domain1.name".toList.drop k) = none := by decide
      have h1 := hnone a'.length (by simpa using hlt)
      rw [matchAtoms_numeric_eq_none] at h1
      refine h1 ⟨m', b', ?_, hm'⟩
      rw [e]; simp
    · exact matchAtoms_numeric_longest "domain".toList [] _ 7 (by decide)
  · exact (convertToDomainTemplate_rewrites_every_occurrence ".name".toList
      "domain{N}".toList "domain".toList [] (by decide) (by decide)).1
      (no_occurrence_of_no_digit _ _ _ (by decide))

/-- C9 as stated fails: with several numeric runs, every run is rewritten, not
only the first. -/
theorem convertToDomainTemplate_rewrites_second_run :
    convertToDomainTemplate "app.domain1.domain2".toList "domain{N}".toList
      = "app.domain{N}.domain{N}".toList ∧
    convertToDomainTemplate "app.domain1.domain2".toList "domain{N}".toList
      ≠ "app.domain{N}.domain2".toList := by
  decide
/-- The visibility rule on well-formed documents: on a well-formed document (acyclic dependencies, every
dependency referring to a rendered field, one field per row and no key twice)
the resolver returns, with any fuel from a bound on, and afterwards every
property with a dependency is visible exactly when `valuesMatch(current value
of K, V)` holds and the row that owns `K` is visible: after
`initializeDependencies` from any displays, and after `handleDependencies(K,
current value of K)` from displays in which the properties that do not depend
on `K` follow that rule. -/
theorem resolver_establishes_visibility_rule (rows : List Row) (hwf : WellFormed rows) :
    ∃ fuel₀, ∀ fuel, fuel₀ ≤ fuel →
      (∀ disp, ∃ disp', initializeDependencies rows fuel disp = some disp' ∧
        ∀ i row, rows[i]? = some row → row.dependsOn.isSome = true →
          isVisible disp' i = dependencyMet rows disp' row) ∧
      (∀ disp key o src, querySelector rows key = some (o, src) →
        (∀ i row, rows[i]? = some row → row.dependsOn.isSome = true →
          row.dependsOnKey ≠ some key → isVisible disp i = dependencyMet rows disp row) →
        ∃ disp', handleDependencies rows fuel disp key (fieldValue src) = some disp' ∧
          ∀ i row, rows[i]? = some row → row.dependsOn.isSome = true →
            isVisible disp' i = dependencyMet rows disp' row) := by
  obtain ⟨f1, hf1⟩ := initializeDependencies_isSome rows hwf.acyclic
  obtain ⟨f2, hf2⟩ := handleDependencies_isSome_of_acyclic rows hwf.acyclic
  refine ⟨max f1 f2, fun fuel hfuel => ⟨?_, ?_⟩⟩
  · intro disp
    have hsome := hf1 fuel (le_trans (le_max_left _ _) hfuel) disp
    cases h : initializeDependencies rows fuel disp with
    | none => rw [h] at hsome; cases hsome
    | some disp' =>
      exact ⟨disp', rfl, fun i row hrow hd =>
        initializeDependencies_consistent hwf fuel disp disp' h i row hrow hd⟩
  · intro disp key o src hq hpre
    have hsome := hf2 fuel (le_trans (le_max_right _ _) hfuel) disp key (fieldValue src)
    cases h : handleDependencies rows fuel disp key (fieldValue src) with
    | none => rw [h] at hsome; cases hsome
    | some disp' =>
      exact ⟨disp', rfl, fun i row hrow hd =>
        handleDependencies_restores hwf fuel disp disp' key o src hq hpre h i row hrow hd⟩

/-- The visibility rule at the document `exampleABC`, which is well-formed; there
the resolver, run with fuel 6 on the fresh displays, hides `B` and `C`. -/
theorem resolver_establishes_visibility_rule_witness :
    WellFormed exampleABC ∧
    (∃ fuel₀, ∀ fuel, fuel₀ ≤ fuel →
      (∀ disp, ∃ disp', initializeDependencies exampleABC fuel disp = some disp' ∧
        ∀ i row, exampleABC[i]? = some row → row.dependsOn.isSome = true →
          isVisible disp' i = dependencyMet exampleABC disp' row) ∧
      (∀ disp key o src, querySelector exampleABC key = some (o, src) →
        (∀ i row, exampleABC[i]? = some row → row.dependsOn.isSome = true →
          row.dependsOnKey ≠ some key → isVisible disp i = dependencyMet exampleABC disp row) →
        ∃ disp', handleDependencies exampleABC fuel disp key (fieldValue src) = some disp' ∧
          ∀ i row, exampleABC[i]? = some row → row.dependsOn.isSome = true →
            isVisible disp' i = dependencyMet exampleABC disp' row)) ∧
    (initializeDependencies exampleABC 6 freshDisplays).map
      (fun d => [isVisible d 0, isVisible d 1, isVisible d 2]) = some [true, false, false] :=
  ⟨⟨⟨exampleRank, by decide⟩, by decide, by decide⟩,
    resolver_establishes_visibility_rule exampleABC ⟨⟨exampleRank, by decide⟩, by decide, by decide⟩,
    by decide⟩

/-- C3: evaluation at the failing inputs. In a chain of eleven fields written
last field first, whose first field refers to a key that no field has, the ten
iterations of the cascade loop hide the first ten fields only; the eleventh
field (row 0) is left visible although the row that owns its source (row 1) is
hidden. In the document `exampleTwoKeys`, loaded while `A` holds `no`, the
change of `A` to `yes` shows the row of `B` again, but `handleDependencies`
cascades through the first keyed field of that row only: the row of `C`, which
depends on the second field, stays hidden although its dependency is met. -/
theorem resolver_visibility_rule_counterexample :
    (initializeDependencies (exampleChain 11) 40 freshDisplays).map
      (fun d => (isVisible d 0, isVisible d 1,
        (exampleChain 11)[0]?.map (fun row => dependencyMet (exampleChain 11) d row)))
      = some (true, false, some false) ∧
    ((initializeDependencies (exampleTwoKeys "no".toList) 8 freshDisplays).bind
      (fun d => handleDependencies (exampleTwoKeys "yes".toList) 8 d "A".toList "yes".toList)).map
      (fun d => (isVisible d 1, isVisible d 2,
        (exampleTwoKeys "yes".toList)[2]?.map
          (fun row => dependencyMet (exampleTwoKeys "yes".toList) d row)))
      = some (true, false, some true) := by
  refine ⟨by decide, by decide⟩



/-- Two iterations of the cascade loop hide a row whose dependency can never be
met and every row that depends on a key of that row. -/
theorem cascadeLoop_hides_chain (rows : List Row) (n : Nat) (disp : Displays) (b c : Nat)
    (rowB rowC : Row) (hB : rows[b]? = some rowB) (hBd : rowB.dependsOn.isSome = true)
    (hBu : ∀ disp' : Displays, dependencyMet rows disp' rowB = false)
    (hC : rows[c]? = some rowC) (hCd : rowC.dependsOn.isSome = true)
    (hCu : ∀ disp' : Displays, disp' b = Display.none → dependencyMet rows disp' rowC = false) :
    (cascadeLoop rows (n + 2) disp).1 b = Display.none ∧
      (cascadeLoop rows (n + 2) disp).1 c = Display.none := by
  have hb1 : (cascadePass rows disp).1 b = Display.none :=
    cascadePass_hides rows disp b rowB hB hBd (fun d _ => hBu d)
  rw [cascadeLoop]
  by_cases hch : (cascadePass rows disp).2 = true
  · simp only [hch, if_true]
    have hc2 : (cascadePass rows (cascadePass rows disp).1).1 c = Display.none :=
      cascadePass_hides rows _ c rowC hC hCd (fun d hd => hCu d (hd b hb1))
    have hb2 : (cascadePass rows (cascadePass rows disp).1).1 b = Display.none :=
      cascadePassFrom_none_mono rows 0 rows (_, false) b hb1
    rw [cascadeLoop]
    split
    · exact ⟨cascadeLoop_none_mono rows n _ b hb2, cascadeLoop_none_mono rows n _ c hc2⟩
    · exact ⟨hb2, hc2⟩
  · have hch' : (cascadePass rows disp).2 = false := by simpa using hch
    simp only [hch', Bool.false_eq_true, if_false]
    obtain ⟨h1, h2⟩ := cascadePass_unchanged rows disp hch'
    refine ⟨hb1, ?_⟩
    rw [h1] at hb1 ⊢
    by_contra hvis
    have := h2 c rowC hC hCd (by simpa [isVisible] using hvis)
    rw [hCu disp hb1] at this
    cases this

/-- In an acyclic document where the row `b` depends on the key `A` with the
value `"yes"`, the current value of `A` is `"no"`, and the row `c` depends on a
key of the row `b`, `initializeDependencies` returns (with any fuel from a
bound on) and hides both rows, whatever the current value of `B` and the value
`c` asks for. -/
theorem initializeDependencies_hides_transitively (rows : List Row) (hac : Acyclic rows)
    (a b c : Nat) (rowB rowC : Row) (keyA keyB V : Str) (srcA srcB : Input)
    (hB : rows[b]? = some rowB) (hBd : rowB.dependsOn = some (keyA, "yes".toList))
    (hA : querySelector rows keyA = some (a, srcA)) (hAv : fieldValue srcA = "no".toList)
    (hC : rows[c]? = some rowC) (hCd : rowC.dependsOn = some (keyB, V))
    (hBk : querySelector rows keyB = some (b, srcB)) :
    ∃ fuel₀, ∀ fuel, fuel₀ ≤ fuel → ∀ disp, ∃ disp',
      initializeDependencies rows fuel disp = some disp' ∧
        isVisible disp' b = false ∧ isVisible disp' c = false := by
  obtain ⟨fuel₀, hfuel⟩ := initializeDependencies_isSome rows hac
  refine ⟨fuel₀, fun fuel hf disp => ?_⟩
  have hsome := hfuel fuel hf disp
  unfold initializeDependencies at hsome ⊢
  cases ht : triggerSources rows fuel disp with
  | none => rw [ht] at hsome; cases hsome
  | some s =>
    refine ⟨_, rfl, ?_⟩
    have hBu : ∀ disp' : Displays, dependencyMet rows disp' rowB = false := by
      intro d
      have hv : valuesMatch (.str "no".toList) (.str "yes".toList) = false := by decide
      unfold dependencyMet
      rw [hBd]
      simp only
      rw [hA]
      simp only
      rw [hAv, hv]
      rfl
    have hCu : ∀ disp' : Displays, disp' b = Display.none →
        dependencyMet rows disp' rowC = false := by
      intro d hd
      simp [dependencyMet, hCd, hBk, isVisible, hd]
    have := cascadeLoop_hides_chain rows 8 s b c rowB rowC hB (by simp [hBd]) hBu hC
      (by simp [hCd]) hCu
    simp only [isVisible, maxIterations]
    simp [this.1, this.2]

/-- The theorem `initializeDependencies_hides_transitively` at the document
`exampleABC`, where the value of `B` matches what `C` asks for. -/
theorem initializeDependencies_hides_transitively_witness :
    ∃ fuel₀, ∀ fuel, fuel₀ ≤ fuel → ∀ disp, ∃ disp',
      initializeDependencies exampleABC fuel disp = some disp' ∧
        isVisible disp' 1 = false ∧ isVisible disp' 2 = false :=
  initializeDependencies_hides_transitively exampleABC ⟨exampleRank, by decide⟩ 0 1 2
    ⟨some ("A".toList, "yes".toList), [⟨"B".toList, false, false, "on".toList⟩]⟩
    ⟨some ("B".toList, "on".toList), [⟨"C".toList, false, false, []⟩]⟩
    "A".toList "B".toList "on".toList ⟨"A".toList, false, false, "no".toList⟩
    ⟨"B".toList, false, false, "on".toList⟩ (by decide) (by decide) (by decide) (by decide)
    (by decide) (by decide) (by decide)

/-- In an acyclic document where the row `b` depends on the key `A` with the
value `"yes"` and the row `c` depends on the key of the first keyed field of
the row `b`, the call `handleDependencies(A, "no")` that follows the change of
`A` returns (with any fuel from a bound on) and hides both rows, from any
displays and whatever the current value of `B` and the value `c` asks for. -/
theorem handleDependencies_hides_transitively (rows : List Row) (hac : Acyclic rows)
    (b c : Nat) (rowB rowC : Row) (keyA keyB V : Str) (srcB : Input)
    (hB : rows[b]? = some rowB) (hBd : rowB.dependsOn = some (keyA, "yes".toList))
    (hC : rows[c]? = some rowC) (hCd : rowC.dependsOn = some (keyB, V))
    (hBk : querySelector rows keyB = some (b, srcB)) (hne : keyB ≠ [])
    (hhead : rowB.childKey = some keyB) :
    ∃ fuel₀, ∀ fuel, fuel₀ ≤ fuel → ∀ disp, ∃ disp',
      handleDependencies rows fuel disp keyA "no".toList = some disp' ∧
        isVisible disp' b = false ∧ isVisible disp' c = false := by
  obtain ⟨fuel₀, hfuel⟩ := handleDependencies_isSome_of_acyclic rows hac
  obtain ⟨rank, hrank⟩ := hac
  refine ⟨fuel₀, fun fuel hf disp => ?_⟩
  have hsome := hfuel fuel hf disp keyA "no".toList
  cases hd : handleDependencies rows fuel disp keyA "no".toList with
  | none => rw [hd] at hsome; cases hsome
  | some disp' =>
    have hAB : rank keyA < rank keyB := by
      have hmem : rowB ∈ rows := (List.getElem?_eq_some_iff.mp hB).2 ▸ List.getElem_mem _
      unfold Row.childKey at hhead
      cases hh : rowB.inputs.head? with
      | none => rw [hh] at hhead; cases hhead
      | some input =>
        rw [hh, Option.map_some', Option.some.injEq] at hhead
        rw [← hhead]
        exact rankOk_lt (hrank rowB hmem) hBd (List.mem_of_mem_head? hh)
    have := handleDependencies_hides_chain hrank hB hBd hC hCd hne hBk hAB hhead fuel disp disp'
      "no".toList (by decide) hd
    exact ⟨disp', rfl, by simp [isVisible, this.1], by simp [isVisible, this.2]⟩

/-- The theorem `handleDependencies_hides_transitively` at the document
`exampleABC`. -/
theorem handleDependencies_hides_transitively_witness :
    ∃ fuel₀, ∀ fuel, fuel₀ ≤ fuel → ∀ disp, ∃ disp',
      handleDependencies exampleABC fuel disp "A".toList "no".toList = some disp' ∧
        isVisible disp' 1 = false ∧ isVisible disp' 2 = false :=
  handleDependencies_hides_transitively exampleABC ⟨exampleRank, by decide⟩ 1 2
    ⟨some ("A".toList, "yes".toList), [⟨"B".toList, false, false, "on".toList⟩]⟩
    ⟨some ("B".toList, "on".toList), [⟨"C".toList, false, false, []⟩]⟩
    "A".toList "B".toList "on".toList
    ⟨"B".toList, false, false, "on".toList⟩ (by decide) (by decide) (by decide) (by decide)
    (by decide) (by decide) (by decide)

/-- C4: evaluation at the failing input. The document `exampleTwoKeys` is
loaded while `A` holds `yes`, which shows its three rows. The row that depends
on `A` with the value `yes` holds the two keyed fields `B1` and `B2`, and the
row of `C` depends on `B2` with the value `B2` holds. When `A` changes to `no`,
`handleDependencies(A, "no")` hides the row of `B` and cascades with the key of
its first keyed field `B1` only: the row of `C` stays visible.
`initializeDependencies` on the same document and values hides both rows. -/
theorem transitive_hiding_counterexample :
    ((initializeDependencies (exampleTwoKeys "yes".toList) 8 freshDisplays).map
      (fun d => (isVisible d 0, isVisible d 1, isVisible d 2))
      = some (true, true, true)) ∧
    ((initializeDependencies (exampleTwoKeys "yes".toList) 8 freshDisplays).bind
      (fun d => handleDependencies (exampleTwoKeys "no".toList) 8 d "A".toList "no".toList)).map
      (fun d => (isVisible d 1, isVisible d 2)) = some (false, true) ∧
    (initializeDependencies (exampleTwoKeys "no".toList) 8 freshDisplays).map
      (fun d => (isVisible d 1, isVisible d 2)) = some (false, false) := by
  refine ⟨by decide, by decide, by decide⟩

/-- Termination and stability: on a document whose dependencies are acyclic the resolver
returns, with any fuel from a bound on; on a well-formed document (in addition
every dependency refers to a rendered field, one field per row and no key
twice) a second run on the result of the first shows the same rows. -/
theorem resolver_terminates_and_is_stable (rows : List Row) :
    (Acyclic rows → ∃ fuel₀, ∀ fuel, fuel₀ ≤ fuel → ∀ disp,
      (initializeDependencies rows fuel disp).isSome = true) ∧
    (WellFormed rows → ∃ fuel₀, ∀ fuel, fuel₀ ≤ fuel → ∀ disp, ∃ first second,
      initializeDependencies rows fuel disp = some first ∧
      initializeDependencies rows fuel first = some second ∧
      ∀ i, isVisible second i = isVisible first i) := by
  refine ⟨initializeDependencies_isSome rows, fun hwf => ?_⟩
  obtain ⟨f1, hf1⟩ := initializeDependencies_isSome rows hwf.acyclic
  refine ⟨f1, fun fuel hfuel disp => ?_⟩
  have hsome := hf1 fuel hfuel disp
  cases h1 : initializeDependencies rows fuel disp with
  | none => rw [h1] at hsome; cases hsome
  | some first =>
    have hsome2 := hf1 fuel hfuel first
    cases h2 : initializeDependencies rows fuel first with
    | none => rw [h2] at hsome2; cases hsome2
    | some second =>
      exact ⟨first, second, rfl, h2, initializeDependencies_stable hwf fuel disp first second h1 h2⟩

/-- Termination and stability at the document `exampleABC`, which is acyclic and
well-formed. -/
theorem resolver_terminates_and_is_stable_witness :
    Acyclic exampleABC ∧ WellFormed exampleABC ∧
    (∃ fuel₀, ∀ fuel, fuel₀ ≤ fuel → ∀ disp,
      (initializeDependencies exampleABC fuel disp).isSome = true) ∧
    (∃ fuel₀, ∀ fuel, fuel₀ ≤ fuel → ∀ disp, ∃ first second,
      initializeDependencies exampleABC fuel disp = some first ∧
      initializeDependencies exampleABC fuel first = some second ∧
      ∀ i, isVisible second i = isVisible first i) :=
  ⟨⟨exampleRank, by decide⟩, ⟨⟨exampleRank, by decide⟩, by decide, by decide⟩,
    (resolver_terminates_and_is_stable exampleABC).1 ⟨exampleRank, by decide⟩,
    (resolver_terminates_and_is_stable exampleABC).2
      ⟨⟨exampleRank, by decide⟩, by decide, by decide⟩⟩

/-- C5: evaluation at the failing input. The chain of eleven fields is
acyclic; the first run stops at the tenth iteration of the cascade loop and
leaves the eleventh field (row 0) visible; a second run on the same values
hides it. -/
theorem resolver_second_run_counterexample :
    Acyclic (exampleChain 11) ∧
    (initializeDependencies (exampleChain 11) 40 freshDisplays).map (fun d => isVisible d 0)
      = some true ∧
    ((initializeDependencies (exampleChain 11) 40 freshDisplays).bind
      (initializeDependencies (exampleChain 11) 40)).map (fun d => isVisible d 0)
      = some false := by
  refine ⟨⟨chainRank, by decide⟩, by decide, by decide⟩

/-- C6 (amended): where the dependencies contain a cycle, `handleDependencies`
called on a key of the cycle and `initializeDependencies` do not return,
whatever the fuel: their recursion has no bound and nothing is reported. Only
the cascade loop is bounded: on every document it runs at most 10
iterations. -/
theorem resolver_diverges_on_cycle (rows : List Row) (keys : List Str)
    (h : OnCycle rows keys) :
    (∀ fuel disp, initializeDependencies rows fuel disp = none) ∧
    (∀ fuel disp k v, k ∈ keys → handleDependencies rows fuel disp k v = none) ∧
    (∀ disp, (cascadeLoop rows maxIterations disp).2 ≤ 10) :=
  ⟨fun fuel disp => initializeDependencies_cycle rows keys h fuel disp,
    fun fuel disp k v hk => handleDependencies_cycle rows keys h fuel disp k v hk,
    fun disp => cascadeLoop_iterations_le rows maxIterations disp⟩

/-- The amended C6 at the document `exampleCycle`, whose two fields depend on
each other. -/
theorem resolver_diverges_on_cycle_witness :
    OnCycle exampleCycle ["A".toList, "B".toList] ∧
    (∀ fuel disp, initializeDependencies exampleCycle fuel disp = none) ∧
    (∀ fuel disp k v, k ∈ ["A".toList, "B".toList] →
      handleDependencies exampleCycle fuel disp k v = none) ∧
    (∀ disp, (cascadeLoop exampleCycle maxIterations disp).2 ≤ 10) :=
  ⟨by decide, resolver_diverges_on_cycle exampleCycle ["A".toList, "B".toList] (by decide)⟩

/-- C6 as stated fails: for a field that depends on itself the resolver does
not stop after a bounded number of steps to report the cycle, it never
returns; the cascade loop alone would end after one silent iteration. -/
theorem resolver_cycle_counterexample :
    OnCycle exampleSelfCycle ["A".toList] ∧
    (∀ fuel, initializeDependencies exampleSelfCycle fuel freshDisplays = none) ∧
    (∀ fuel, handleDependencies exampleSelfCycle fuel freshDisplays "A".toList "true".toList
      = none) ∧
    (cascadeLoop exampleSelfCycle maxIterations freshDisplays).2 = 1 :=
  ⟨by decide, fun fuel => initializeDependencies_cycle _ ["A".toList] (by decide) fuel _,
    fun fuel => handleDependencies_cycle _ ["A".toList] (by decide) fuel _ _ _ (by decide),
    by decide⟩

/-! ### C10: expansion in the encoder -/

/-- C10: for every domain property and every domain, the key the encoder writes
(and the key part of the id of the rendered control) is the template key with
every occurrence of `{N}` replaced by the decimal text of the domain id, that
is, the parts of the key around the placeholders joined by that text; the
written key holds no `{N}`. -/
theorem encoder_expands_every_placeholder (domain : Domain) (prop : Property) :
    writtenPairs (domainPropertyLines domain prop)
      = [(List.intercalate (natToStr domain.id) (jsSplit placeholder prop.key),
          domainValue domain prop)] ∧
    fieldId prop (some domain.id)
      = "domain-".toList ++ natToStr domain.id ++ "-".toList ++
          List.intercalate (natToStr domain.id) (jsSplit placeholder prop.key) ∧
    ¬ placeholder <:+: List.intercalate (natToStr domain.id) (jsSplit placeholder prop.key) := by
  refine ⟨?_, ?_, ?_⟩
  · unfold domainPropertyLines descriptionLines writtenPairs
    rw [expandDomainKey_eq_intercalate]
    split <;> rfl
  · rw [← expandDomainKey_eq_intercalate]
    rfl
  · rw [← expandDomainKey_eq_intercalate]
    exact expandDomainKey_no_placeholder _ _

/-! ### C2: round trip of the flat text -/

/-- C2, counterexample: a value with a leading blank is written as it is and
read back without the blank. -/
theorem flat_text_round_trip_counterexample :
    generatePropertiesLines (exampleState " Acme".toList) "hoy".toList
      = some (exampleLines "hoy".toList " Acme".toList) ∧
    ("app.name".toList, " Acme".toList)
      ∈ writtenPairs (exampleLines "hoy".toList " Acme".toList) ∧
    decodeLines (renderLines (exampleLines "hoy".toList " Acme".toList))
      = [("app.name".toList, "Acme".toList), ("app.domain1.name".toList, "Acme".toList)] ∧
    ("app.name".toList, " Acme".toList)
      ∉ decodeLines (renderLines (exampleLines "hoy".toList " Acme".toList)) := by
  decide

/-- C2 (amended): when the encoder returns and every line it wrote is clean (no
line break in a comment, a key or a value; keys and values trimmed; keys not
empty, without `=` and `:` and not starting with `#` or `!`), the text is that
of the lines and the line rules read back exactly the written pairs, keys and
values unchanged and in order; so does `parsePropertiesFileForEditor`, and so
does the object `properties` of `parsePropertiesFile` when no key was written
twice and none is `__proto__`. -/
theorem flat_text_round_trip (st : EncoderState) (timestamp domainKeyPattern : Str)
    (lines : List Line) (henc : generatePropertiesLines st timestamp = some lines)
    (hclean : ∀ line ∈ lines, CleanLine line) :
    generatePropertiesContent st timestamp = some (renderLines lines) ∧
    decodeLines (renderLines lines) = writtenPairs lines ∧
    (parsePropertiesFileForEditor domainKeyPattern (renderLines lines)).map
        (fun p => (p.key, p.default)) = writtenPairs lines ∧
    (((writtenPairs lines).map Prod.fst).Nodup →
      "__proto__".toList ∉ (writtenPairs lines).map Prod.fst →
      importedProperties (renderLines lines) = writtenPairs lines) := by
  have hdec := decodeLines_renderLines lines hclean
  refine ⟨?_, hdec, ?_, ?_⟩
  · unfold generatePropertiesContent
    rw [henc]
    rfl
  · rw [parsePropertiesFileForEditor_pairs, hdec]
  · intro hnd hproto
    unfold importedProperties
    rw [hdec, foldl_objectSet_nodup _ _ hproto (by simpa using hnd)]
    rfl

theorem flat_text_round_trip_witness :
    generatePropertiesLines (exampleState "Acme".toList) "hoy".toList
      = some (exampleLines "hoy".toList "Acme".toList) ∧
    (∀ line ∈ exampleLines "hoy".toList "Acme".toList, CleanLine line) ∧
    decodeLines (renderLines (exampleLines "hoy".toList "Acme".toList))
      = [("app.name".toList, "Acme".toList), ("app.domain1.name".toList, "Acme".toList)] :=
  ⟨by decide, by decide,
    (flat_text_round_trip (exampleState "Acme".toList) "hoy".toList [] _ (by decide)
      (by decide)).2.1⟩

/-! ### C11: one property per line -/

/-- C11, counterexample: two lines with the same key are two properties for
`parsePropertiesFileForEditor` and one property, with the later value, for
`parsePropertiesFile`. -/
theorem decode_one_property_per_line_counterexample :
    decodeLines "a.b=1\na.b=2".toList = [("a.b".toList, "1".toList), ("a.b".toList, "2".toList)] ∧
    (parsePropertiesFileForEditor [] "a.b=1\na.b=2".toList).map (fun p => (p.key, p.default))
      = [("a.b".toList, "1".toList), ("a.b".toList, "2".toList)] ∧
    (importedList "a.b=1\na.b=2".toList).map (fun p => (p.key, p.default))
      = [("a.b".toList, "2".toList)] ∧
    (parsePropertiesFile [] "a.b=1\na.b=2".toList).globalProperties.map
        (fun c => c.properties.map fun p => (p.key, p.default))
      = [[("a.b".toList, "2".toList)]] := by
  decide

/-- C11 (amended): `parsePropertiesFileForEditor` gives one property per line
that the line rule keeps, in file order; the line rule keeps exactly the lines
that, trimmed, are not empty, do not start with `#` or `!` and hold `=` or
`:`; the key is the trimmed text before the first separator of the trimmed
line, the value the trimmed text after it, and the key holds no `=` or `:`.
`parsePropertiesFile` gives one property per key of such lines other than
`__proto__`, with the value of the last line that has the key. -/
theorem decode_one_property_per_line :
    (∀ domainKeyPattern content : Str,
      (parsePropertiesFileForEditor domainKeyPattern content).map (fun p => (p.key, p.default))
        = (jsSplit ['\n'] content).filterMap decodeLine) ∧
    (∀ raw : Str, (decodeLine raw).isSome = true ↔
      trim raw ≠ [] ∧ (trim raw).head? ≠ some '#' ∧ (trim raw).head? ≠ some '!' ∧
        ('=' ∈ trim raw ∨ ':' ∈ trim raw)) ∧
    (∀ raw k v : Str, decodeLine raw = some (k, v) →
      (∃ a c b, trim raw = a ++ c :: b ∧ (c = '=' ∨ c = ':') ∧ '=' ∉ a ∧ ':' ∉ a ∧
        k = trim a ∧ v = trim b) ∧ '=' ∉ k ∧ ':' ∉ k) ∧
    (∀ content : Str,
      ((importedList content).map fun p => (p.key, p.default)).Perm
          (importedProperties content) ∧
      ((importedProperties content).map Prod.fst).Nodup ∧
      ∀ k v : Str, (k, v) ∈ importedProperties content ↔
        k ≠ "__proto__".toList ∧
          ((decodeLines content).filter fun line => line.1 = k).getLast? = some (k, v)) := by
  refine ⟨parsePropertiesFileForEditor_pairs, decodeLine_isSome, ?_, ?_⟩
  · intro raw k v h
    obtain ⟨-, -, hdec⟩ := (decodeLine_eq_some raw k v).mp h
    exact ⟨hdec, decodeLine_key raw k v h⟩
  · intro content
    exact ⟨importedList_pairs content, importedProperties_nodup content,
      mem_importedProperties content⟩

theorem decode_one_property_per_line_witness :
    decodeLine " a.b = 1 ".toList = some ("a.b".toList, "1".toList) ∧
    '=' ∉ "a.b".toList ∧ ':' ∉ "a.b".toList :=
  ⟨by decide, (decode_one_property_per_line.2.2.1 " a.b = 1 ".toList "a.b".toList "1".toList
    (by decide)).2⟩


/-! ### C12: the type rules -/

/-- C12: the type inferred from a decoded value is fixed by the first rule that
applies: `true`/`false` give boolean with the boolean type string; `1`/`0` give
boolean with the boolean type number; a non-empty text of decimal digits gives
number; a value starting with `http://` or `https://` gives url; a value with
an HTML tag pattern gives html; every other value gives text. Both decoders
store this type and boolean type. -/
theorem inferType_first_rule (value : Str) :
    ((value = "true".toList ∨ value = "false".toList) →
      inferType value = ("boolean".toList, "string".toList)) ∧
    (¬ (value = "true".toList ∨ value = "false".toList) →
      (value = "1".toList ∨ value = "0".toList) →
      inferType value = ("boolean".toList, "number".toList)) ∧
    (¬ (value = "true".toList ∨ value = "false".toList) →
      ¬ (value = "1".toList ∨ value = "0".toList) → AllDigits value →
      inferType value = ("number".toList, [])) ∧
    (¬ (value = "true".toList ∨ value = "false".toList) →
      ¬ (value = "1".toList ∨ value = "0".toList) → ¬ AllDigits value →
      ("http://".toList <+: value ∨ "https://".toList <+: value) →
      inferType value = ("url".toList, [])) ∧
    (¬ (value = "true".toList ∨ value = "false".toList) →
      ¬ (value = "1".toList ∨ value = "0".toList) → ¬ AllDigits value →
      ¬ ("http://".toList <+: value ∨ "https://".toList <+: value) → HasTagPattern value →
      inferType value = ("html".toList, [])) ∧
    (¬ (value = "true".toList ∨ value = "false".toList) →
      ¬ (value = "1".toList ∨ value = "0".toList) → ¬ AllDigits value →
      ¬ ("http://".toList <+: value ∨ "https://".toList <+: value) → ¬ HasTagPattern value →
      inferType value = ("text".toList, [])) ∧
    (∀ key : Str, (importedProperty key value).type = (inferType value).1 ∧
      (importedProperty key value).booleanType = (inferType value).2) ∧
    (∀ (domainPattern : Str) (index : Nat) (key : Str),
      (editorProperty domainPattern index key value).type = (inferType value).1 ∧
      (editorProperty domainPattern index key value).booleanType = (inferType value).2) := by
  have hd : (matchAtoms false [Atom.digits, Atom.eol] value).isSome = true ↔ AllDigits value :=
    allDigits_regex value
  have hu : ("http://".toList.isPrefixOf value || "https://".toList.isPrefixOf value) = true ↔
      ("http://".toList <+: value ∨ "https://".toList <+: value) := by
    rw [Bool.or_eq_true, List.isPrefixOf_iff_prefix, List.isPrefixOf_iff_prefix]
  have ht := hasTagPattern_regex value
  refine ⟨?_, ?_, ?_, ?_, ?_, ?_, fun _ => ⟨rfl, rfl⟩, fun _ _ _ => ⟨rfl, rfl⟩⟩
  · intro h1
    unfold inferType
    rw [if_pos h1]
  · intro h1 h2
    unfold inferType
    rw [if_neg h1, if_pos h2]
  · intro h1 h2 h3
    unfold inferType
    rw [if_neg h1, if_neg h2, if_pos (hd.mpr h3)]
  · intro h1 h2 h3 h4
    unfold inferType
    rw [if_neg h1, if_neg h2, if_neg (fun h => h3 (hd.mp h)), if_pos (hu.mpr h4)]
  · intro h1 h2 h3 h4 h5
    unfold inferType
    rw [if_neg h1, if_neg h2, if_neg (fun h => h3 (hd.mp h)), if_neg (fun h => h4 (hu.mp h)),
      if_pos (ht.mpr h5)]
  · intro h1 h2 h3 h4 h5
    unfold inferType
    rw [if_neg h1, if_neg h2, if_neg (fun h => h3 (hd.mp h)), if_neg (fun h => h4 (hu.mp h)),
      if_neg (fun h => h5 (ht.mp h))]

theorem inferType_first_rule_witness :
    AllDigits "8080".toList ∧ inferType "8080".toList = ("number".toList, []) ∧
    HasTagPattern "x<Br>".toList ∧ inferType "x<Br>".toList = ("html".toList, []) :=
  ⟨⟨by decide, by decide⟩,
    (inferType_first_rule "8080".toList).2.2.1 (by decide) (by decide) ⟨by decide, by decide⟩,
    ⟨['x'], 'B', ['r'], [], rfl, rfl⟩,
    (inferType_first_rule "x<Br>".toList).2.2.2.2.1 (by decide) (by decide)
      (fun h => absurd (h.2 'x' (by decide)) (by decide)) (by decide)
      ⟨['x'], 'B', ['r'], [], rfl, rfl⟩⟩

/-! ### C13: the stored key -/

/-- C13: evaluation at the failing inputs. With the pattern `tenant{N}` the key
`app.tenant1.name` is classified as a domain key, yet `parsePropertiesFile`
stores it unchanged, in a global category; the editor path stores the domain
key `app2.domain1.name` as `app{N}.domain{N}.name`, not as
`convertToDomainTemplate` gives it. -/
theorem stored_key_is_not_the_template :
    checkIfDomainProperty "app.tenant1.name".toList "tenant{N}".toList = true ∧
    convertToDomainTemplate "app.tenant1.name".toList "tenant{N}".toList
      = "app.tenant{N}.name".toList ∧
    (parsePropertiesFile "tenant{N}".toList "app.tenant1.name=Acme".toList).globalProperties.map
        (fun c => c.properties.map Property.key) = [["app.tenant1.name".toList]] ∧
    (parsePropertiesFile "tenant{N}".toList "app.tenant1.name=Acme".toList).domainProperties.map
        (fun c => c.properties.map Property.key) = [[]] ∧
    checkIfDomainProperty "app2.domain1.name".toList "domain{N}".toList = true ∧
    convertToDomainTemplate "app2.domain1.name".toList "domain{N}".toList
      = "app2.domain{N}.name".toList ∧
    (editorSchema [] "app2.domain1.name=Acme".toList).domainProperties.map
        (fun c => c.properties.map Property.key) = [["app{N}.domain{N}.name".toList]] := by
  decide

/-! ### C14: global and domain categories -/

/-- C14: evaluation at the failing inputs. With the pattern `tenant{N}` the
category of the classified key `app.tenant1.name` is emitted among the global
categories, and the category of `app.domain1.name`, which the pattern does not
classify, among the domain categories. -/
theorem category_split_ignores_pattern :
    categoryOf "app.tenant1.name".toList = "app.tenant1".toList ∧
    checkIfDomainProperty "app.tenant1.name".toList "tenant{N}".toList = true ∧
    (parsePropertiesFile "tenant{N}".toList "app.tenant1.name=Acme".toList).globalProperties
      = [{ category := "App -  Tenant1".toList,
           properties := [importedProperty "app.tenant1.name".toList "Acme".toList] }] ∧
    (parsePropertiesFile "tenant{N}".toList "app.tenant1.name=Acme".toList).domainProperties
      = [{ category := "Configuración del Dominio".toList, properties := [] }] ∧
    checkIfDomainProperty "app.domain1.name".toList "tenant{N}".toList = false ∧
    (parsePropertiesFile "tenant{N}".toList "app.domain1.name=Acme".toList).domainProperties
      = [{ category := "app.Dominio".toList,
           properties := [importedProperty "app.domain1.name".toList "Acme".toList] }] := by
  decide

/-! ### C15: one property per templated key -/

/-- C15, counterexample: the property kept for `a.b.domain{N}.x` has the value
of the third line, not that of the first line that maps to this key. -/
theorem domain_category_first_occurrence_counterexample :
    decodeLines "a.b.domain1.x=A\na.b.domain2.x=B\na.b.domain1.x=C".toList
      = [("a.b.domain1.x".toList, "A".toList), ("a.b.domain2.x".toList, "B".toList),
          ("a.b.domain1.x".toList, "C".toList)] ∧
    (parsePropertiesFile [] "a.b.domain1.x=A\na.b.domain2.x=B\na.b.domain1.x=C".toList
        ).domainProperties.map (fun c => c.properties.map fun p => (p.key, p.default))
      = [[("a.b.domain{N}.x".toList, "C".toList)]] := by
  decide

/-- C15 (amended): in every domain category emitted by `parsePropertiesFile` the
templated keys are distinct, and each property kept is the first property of
its category, in the order of `Object.keys(properties)`, that has its templated
key, with the value of the last line of the file that has that property's
key; the later properties with the same templated key are dropped. The keys of
`properties` are those of the lines in the order of their first appearance,
which is the order of `Object.keys` when no key is an array index. -/
theorem domain_category_keeps_first_key (domainKeyPattern content : Str) (D : Category)
    (hD : D ∈ (parsePropertiesFile domainKeyPattern content).domainProperties) :
    (D.properties.map Property.key).Nodup ∧
    (∀ q ∈ D.properties, ∃ name props p,
      (name, props) ∈ importedCategories content ∧
      props = (importedInKeyOrder content).filter (fun p => categoryOf p.key = name) ∧
      props.find? (fun p =>
        convertToDomainTemplate p.key (getDomainKeyPattern domainKeyPattern) = q.key) = some p ∧
      q = { p with key :=
        convertToDomainTemplate p.key (getDomainKeyPattern domainKeyPattern) } ∧
      ((decodeLines content).filter fun line => line.1 = p.key).getLast?
        = some (p.key, q.default)) ∧
    (importedProperties content).map Prod.fst
      = firstOccurrences (((decodeLines content).map Prod.fst).filter
          fun key => key ≠ "__proto__".toList) ∧
    ((∀ key ∈ (importedProperties content).map Prod.fst, arrayIndex key = none) →
      (importedInKeyOrder content).map Property.key
        = firstOccurrences (((decodeLines content).map Prod.fst).filter
            fun key => key ≠ "__proto__".toList)) := by
  refine ⟨?_, ?_, importedProperties_keys content, ?_⟩
  · rcases mem_domainProperties _ _ _ hD with h | ⟨name, props, -, -, rfl⟩
    · rw [h]; exact List.nodup_nil
    · exact (uniqueProps_spec
        (fun key => convertToDomainTemplate key (getDomainKeyPattern domainKeyPattern)) props).1
  · intro q hq
    rcases mem_domainProperties _ _ _ hD with h | ⟨name, props, hmem, -, rfl⟩
    · rw [h] at hq; cases hq
    · obtain ⟨p, hp, hpq⟩ := (uniqueProps_spec
        (fun key => convertToDomainTemplate key (getDomainKeyPattern domainKeyPattern))
        props).2 q hq
      have hprops := (mem_importedCategories content name props hmem).1
      have hp2 : p ∈ importedInKeyOrder content := by
        have := List.mem_of_find?_eq_some hp
        rw [hprops] at this
        exact (List.mem_filter.mp this).1
      have hlast := (mem_importedProperties content p.key p.default).mp
        (mem_importedInKeyOrder content p hp2).1
      refine ⟨name, props, p, hmem, hprops, ?_, hpq, ?_⟩
      · exact hp
      · rw [hpq]; exact hlast.2
  · intro h
    unfold importedInKeyOrder
    simp only []
    rw [List.map_map, objectKeys_of_no_index _ h, ← importedProperties_keys]
    conv_rhs => rw [← List.map_id (List.map Prod.fst (importedProperties content))]
    exact List.map_congr_left (fun _ _ => rfl)

theorem domain_category_keeps_first_key_witness :
    exampleDomainCategory ∈ (parsePropertiesFile [] exampleRepeatedKey).domainProperties ∧
    (exampleDomainCategory.properties.map Property.key).Nodup :=
  ⟨by decide,
    (domain_category_keeps_first_key [] exampleRepeatedKey exampleDomainCategory
      (by decide)).1⟩

/-! ### C16: the lines of a repeatable property -/

/-- C16: for a global property with `repeatBasedOn` (its key not empty) and the
count `n` read from the control of the source property (`0` when there is
none), the encoder writes `max(n, 0)` lines `key=value`, for the indexes `1`
to `n` in this order; the key of the line of index `i` is the property key with
the placeholder replaced by `i` when the placeholder occurs once in the key and
the rest of the key holds no `[` and no `{`. These lines stand in what
`generatePropertiesContent` writes. -/
theorem repeatable_property_lines (form : Form) (languageCount : Nat) (prop : Property)
    (basedOn : RepeatBasedOn) (hrep : prop.repeatBasedOn = some basedOn)
    (hkey : basedOn.key ≠ []) :
    writtenPairs (globalPropertyLines form languageCount prop)
      = (List.range (max (sourceCount form basedOn.key) 0).toNat).map (fun j =>
          (repeatFieldKey prop.key (repeatPlaceholder basedOn) (j + 1),
            globalInputValue form
              (repeatFieldKey prop.key (repeatPlaceholder basedOn) (j + 1)))) ∧
    (writtenPairs (globalPropertyLines form languageCount prop)).length
      = (max (sourceCount form basedOn.key) 0).toNat ∧
    (∀ (a b : Str) (c : Char) (cs : Str) (i : Nat), repeatPlaceholder basedOn = c :: cs →
      prop.key = a ++ (c :: cs) ++ b → c ∉ a → '[' ∉ a → '[' ∉ b → '{' ∉ a → '{' ∉ b →
      repeatFieldKey prop.key (repeatPlaceholder basedOn) i = a ++ natToStr i ++ b) ∧
    (∀ (st : EncoderState) (timestamp : Str) (lines : List Line) (category : Category),
      st.form = form → st.languageCount = languageCount →
      generatePropertiesLines st timestamp = some lines →
      category ∈ st.configData.globalProperties → prop ∈ category.properties →
      globalPropertyLines form languageCount prop <:+: lines) := by
  have hp := writtenPairs_repeatableLines form prop basedOn
  rw [← globalPropertyLines_repeatable form languageCount prop basedOn hrep hkey] at hp
  refine ⟨by rw [toNat_max_zero]; exact hp, by rw [hp, toNat_max_zero]; simp, ?_, ?_⟩
  · intro a b c cs i hph hk h0 h1 h2 h3 h4
    rw [hph, hk]
    exact repeatFieldKey_single a b c cs i h0 h1 h2 h3 h4
  · rintro st timestamp lines category rfl rfl h hc hpm
    exact globalPropertyLines_infix st timestamp lines category prop h hc hpm

theorem repeatable_property_lines_witness :
    exampleRepeatable.repeatBasedOn = some { key := "items.count".toList } ∧
    writtenPairs (globalPropertyLines (exampleCountForm "3".toList) 3 exampleRepeatable)
      = [("item1.name".toList, []), ("item2.name".toList, []), ("item3.name".toList, [])] ∧
    writtenPairs (globalPropertyLines (exampleCountForm "0".toList) 3 exampleRepeatable) = [] :=
  ⟨rfl,
    (repeatable_property_lines (exampleCountForm "3".toList) 3 exampleRepeatable
      { key := "items.count".toList } rfl (by decide)).1.trans (by decide),
    (repeatable_property_lines (exampleCountForm "0".toList) 3 exampleRepeatable
      { key := "items.count".toList } rfl (by decide)).1.trans (by decide)⟩

/-! ### C17: the count in the form and in the encoder -/

/-- C17: `updateRepeatableFields` fills the container of a repeatable property,
empty or filled before, with `min(max(n, 0), 20)` repeated fields, `n` being
the count read from the control of the source property in the document as it
stands when the container is reached; the encoder, reading the same control
afterwards, writes `max(n, 0)` lines `key=value` for the property. -/
theorem render_clamps_count_encoder_does_not (document : List Node) (i : Nat)
    (languageCount : Nat) (prop : Property) (basedOn : RepeatBasedOn)
    (container : RepeatContainer) (countInput : FormElement)
    (hrep : prop.repeatBasedOn = some basedOn) (hkey : basedOn.key ≠ [])
    (hbased : container.basedOn = basedOn.key)
    (hnode : document[i]? = some (.repeatContainer container))
    (hq : querySelectorKey
        (formOf ((updateRepeatableFields document).take i ++ document.drop i)) basedOn.key
      = some countInput)
    (hq2 : querySelectorKey (formOf (updateRepeatableFields document)) basedOn.key
      = some countInput) :
    (∃ filled, (updateRepeatableFields document)[i]? = some (.repeatContainer filled) ∧
      (repeatedFields filled).length
        = min (max ((parseInt countInput.value).getD 0) 0).toNat 20) ∧
    (writtenPairs (globalPropertyLines (formOf (updateRepeatableFields document)) languageCount
        prop)).length
      = (max ((parseInt countInput.value).getD 0) 0).toNat := by
  constructor
  · refine ⟨_, updateRepeatableFields_container document i _ hnode, ?_⟩
    unfold updateRepeatContainer repeatedFields
    rw [hbased, hq]
    simp only []
    rw [repeatedFields_flatMap, List.length_range]
    rfl
  · rw [globalPropertyLines_repeatable _ languageCount prop basedOn hrep hkey,
      writtenPairs_repeatableLines, List.length_map, List.length_range, toNat_max_zero]
    unfold sourceCount
    rw [hq2]

/-- C17 at the document `exampleCountDocument`, whose count control holds 25:
the container is filled with 20 fields and the encoder writes 25 lines. -/
theorem render_clamps_count_encoder_does_not_witness :
    exampleCountDocument[1]?
      = some (.repeatContainer
          (renderRepeatableField exampleRepeatable { key := "items.count".toList } none)) ∧
    (∃ filled, (updateRepeatableFields exampleCountDocument)[1]?
        = some (.repeatContainer filled) ∧ (repeatedFields filled).length = 20) ∧
    (writtenPairs (globalPropertyLines (formOf (updateRepeatableFields exampleCountDocument)) 3
        exampleRepeatable)).length = 25 :=
  ⟨by decide,
    (render_clamps_count_encoder_does_not exampleCountDocument 1 3 exampleRepeatable
      { key := "items.count".toList }
      (renderRepeatableField exampleRepeatable { key := "items.count".toList } none)
      { id := "global-items.count".toList, dataKey := "items.count".toList,
        value := "25".toList, isNumber := true } rfl (by decide) rfl (by decide) (by decide)
      (by decide)).1.imp fun _ h => ⟨h.1, h.2.trans (by decide)⟩,
    (render_clamps_count_encoder_does_not exampleCountDocument 1 3 exampleRepeatable
      { key := "items.count".toList }
      (renderRepeatableField exampleRepeatable { key := "items.count".toList } none)
      { id := "global-items.count".toList, dataKey := "items.count".toList,
        value := "25".toList, isNumber := true } rfl (by decide) rfl (by decide) (by decide)
      (by decide)).2.trans (by decide)⟩

/-! ### C18: the spelling of boolean values -/

/-- C18: the value written for a boolean property is `true`/`false` for the
boolean type `string` and `1`/`0` for the boolean type `number`, chosen by the
state of its checkbox for a global property and by the saved value for a domain
property; without control, respectively without saved value, it is the default
of the property (for a domain property without default, the spelling of
false). The checkbox is the one `renderPropertyField` builds, in any state. -/
theorem boolean_value_follows_booleanType (form : Form) (prop : Property) (state : Bool)
    (domain : Domain) (htype : prop.type = "boolean".toList)
    (hbt : prop.booleanType = "string".toList ∨ prop.booleanType = "number".toList) :
    (getElementById form ("global-".toList ++ prop.key)
        = some { booleanControl prop none with checked := state } →
      globalValue form prop
        = if prop.booleanType = "string".toList then
            (if state then "true".toList else "false".toList)
          else (if state then "1".toList else "0".toList)) ∧
    (getElementById form ("global-".toList ++ prop.key) = none →
      globalValue form prop = prop.default) ∧
    (∀ saved, objectGet domain.properties prop.key = some saved →
      domainValue domain prop
        = if prop.booleanType = "string".toList then
            (if jsTruthy saved then "true".toList else "false".toList)
          else (if jsTruthy saved then "1".toList else "0".toList)) ∧
    (objectGet domain.properties prop.key = none → prop.autoFillDomainId = false →
      domainValue domain prop
        = if prop.default ≠ [] then prop.default
          else if prop.booleanType = "string".toList then "false".toList else "0".toList) := by
  have hne : prop.booleanType.isEmpty = false := by
    rcases hbt with h | h <;> rw [h] <;> rfl
  refine ⟨?_, ?_, ?_, ?_⟩
  · intro h
    unfold globalValue
    rw [h]
    simp only [booleanControl, hne, Bool.and_self, if_true, booleanText]
    rfl
  · intro h
    unfold globalValue
    rw [h]
  · intro saved h
    unfold domainValue
    rw [h]
    simp only [htype, if_true, booleanText]
  · intro h hauto
    unfold domainValue
    rw [h]
    simp only [hauto, htype, if_true, booleanText, Bool.false_eq_true, if_false]
    cases hd : prop.default with
    | nil => simp
    | cons c cs => simp

theorem boolean_value_follows_booleanType_witness :
    exampleFlag.type = "boolean".toList ∧
    (exampleFlag.booleanType = "string".toList ∨ exampleFlag.booleanType = "number".toList) ∧
    domainValue { id := 1, properties := [("app.domain{N}.flag".toList, .bool true)] }
      exampleFlag = "1".toList :=
  ⟨rfl, Or.inr rfl,
    ((boolean_value_follows_booleanType [] exampleFlag true
      { id := 1, properties := [("app.domain{N}.flag".toList, .bool true)] } rfl
      (Or.inr rfl)).2.2.1 (.bool true) (by decide)).trans (by decide)⟩

/-! ### C19: the domain section -/

/-- C19, counterexample: the saved value `true` of a boolean property with the
boolean type `number` is written as `1`. -/
theorem domain_value_counterexample :
    objectGet ({ id := 1, properties := [("app.domain{N}.flag".toList, .bool true)] } :
      Domain).properties exampleFlag.key = some (.bool true) ∧
    jsString (.bool true) = "true".toList ∧
    (generatePropertiesLines exampleFlagState "hoy".toList).map writtenPairs
      = some [("app.domain1.flag".toList, "1".toList)] := by
  decide

/-- C19 (amended): when `saveDomainValues` returns (and no saved value is named
`hasOwnProperty`), the encoder returns, and for every domain, in the order of
the list, every domain category and every property of it, in their order, it
writes one line `key=value`: the key is the property key with every `{N}`
replaced by the id; the value comes from the saved value for the template key
when there is one (the spelling of its truth value by the boolean type for a
boolean property, the saved text otherwise), else it is the id for a property
that fills in the domain id, else the default (for a boolean property without
default, the spelling of false). Saving keeps the ids and their order, and the
list `initializeDomains` builds has the ids `1, 2, ...` in order. -/
theorem domain_section_lines (st : EncoderState) (timestamp : Str) (saved : List Domain)
    (hsave : saveDomainValues st.form st.domains st.currentDomainIndex = some saved)
    (hown : ∀ d ∈ saved, hasOwnPropertyFails st.configData d = false) :
    generatePropertiesLines st timestamp
      = some (headerLines timestamp ++
          st.configData.globalProperties.flatMap
            (globalCategoryLines st.form st.languageCount) ++
          saved.flatMap (domainLines st.configData)) ∧
    writtenPairs (saved.flatMap (domainLines st.configData))
      = saved.flatMap (fun d => st.configData.domainProperties.flatMap fun category =>
          category.properties.map fun p =>
            (List.intercalate (natToStr d.id) (jsSplit placeholder p.key), domainValue d p)) ∧
    saved.map Domain.id = st.domains.map Domain.id ∧
    (∀ (d : Domain) (p : Property),
      domainValue d p
        = match objectGet d.properties p.key with
          | some value =>
            if p.type = "boolean".toList then booleanText p.booleanType (jsTruthy value)
            else jsString value
          | none =>
            if p.autoFillDomainId then natToStr d.id
            else if p.type = "boolean".toList ∧ p.default = [] then
              booleanText p.booleanType false
            else p.default) ∧
    (∀ configData : ConfigData, IdsInOrder (initializeDomains configData)) := by
  refine ⟨generatePropertiesLines_eq st timestamp saved hsave hown, ?_,
    saveDomainValues_ids _ _ _ _ hsave, ?_, ?_⟩
  · rw [writtenPairs_flatMap]
    congr 1
    funext d
    rw [writtenPairs_domainLines]
    congr 1
    funext category
    apply List.map_congr_left
    intro p _
    rw [expandDomainKey_eq_intercalate]
  · intro d p
    unfold domainValue
    cases objectGet d.properties p.key with
    | some value => rfl
    | none =>
      simp only []
      by_cases ha : p.autoFillDomainId = true
      · rw [if_pos ha, if_pos ha]
      · rw [if_neg ha, if_neg ha]
        by_cases hb : p.type = "boolean".toList
        · rw [if_pos hb]
          cases hd : p.default with
          | nil => simp [hb]
          | cons c cs => simp [hb]
        · rw [if_neg hb, if_neg (fun h => hb h.1)]
  · exact initializeDomains_ids

theorem domain_section_lines_witness :
    saveDomainValues exampleFlagState.form exampleFlagState.domains
      exampleFlagState.currentDomainIndex = some exampleFlagState.domains ∧
    writtenPairs (exampleFlagState.domains.flatMap (domainLines exampleFlagState.configData))
      = [("app.domain1.flag".toList, "1".toList)] :=
  ⟨by decide,
    (domain_section_lines exampleFlagState "hoy".toList exampleFlagState.domains (by decide)
      (by decide)).2.1.trans (by decide)⟩

/-! ### C20: decoding, loading and encoding again -/

/-- A flat file that holds the boolean line `feature.enabled=true`, the domain
line `app.domain1.name=Acme` and one text line `k=v` (in any order, blank and
comment lines apart), decoded by `parsePropertiesFile` with the pattern
`domain{N}`, loaded and encoded again without any edit: the encoder returns,
and the file it writes holds the three pairs. The text line is one whose
value has the inferred type `text` and no line break, and whose key has no
domain marker, is not `feature.enabled` and not `__proto__`; when it is the
line of the number of domains, its value does not start with a negative
number. -/
theorem decode_load_encode_keeps_pairs (domainKeyPattern content k v : Str)
    (domainFirst : Bool) (timestamp : Str)
    (hpattern : getDomainKeyPattern domainKeyPattern = "domain{N}".toList)
    (hlines : (decodeLines content).Perm
      [("feature.enabled".toList, "true".toList), ("app.domain1.name".toList, "Acme".toList),
        (k, v)])
    (htext : inferType v = ("text".toList, [])) (hbreak : stripNewlines v = v)
    (hplain : hasDomainMarker k = false) (hkey : k ≠ "feature.enabled".toList)
    (hproto : k ≠ "__proto__".toList)
    (hcount : k = totalDomainsKey → ∀ n, parseInt v = some n → 0 ≤ n) :
    ∃ st lines,
      loadConfigFromData (parsePropertiesFile domainKeyPattern content) domainFirst = some st ∧
      generatePropertiesLines st timestamp = some lines ∧
      ("feature.enabled".toList, "true".toList) ∈ writtenPairs lines ∧
      ("app.domain1.name".toList, "Acme".toList) ∈ writtenPairs lines ∧
      (k, v) ∈ writtenPairs lines := by
  obtain ⟨hD, hG, ⟨CFe, hCFe, hpFe⟩, ⟨CK, hCK, hpK⟩⟩ :=
    parsePropertiesFile_three_lines domainKeyPattern content k v hpattern hlines hplain hkey
      hproto
  generalize parsePropertiesFile domainKeyPattern content = P at hD hG hCFe hCK
  -- the number of domains
  have hdefault : ∀ r, getDefaultValue P totalDomainsKey = some r → k = totalDomainsKey ∧ r = v := by
    intro r hr
    unfold getDefaultValue at hr
    obtain ⟨C, hC, hfind⟩ := List.exists_of_findSome?_eq_some hr
    cases hf : C.properties.find? (fun p => p.key = totalDomainsKey) with
    | none => rw [hf] at hfind; cases hfind
    | some p =>
      rw [hf, Option.map_some', Option.some.injEq] at hfind
      have hkeyp : p.key = totalDomainsKey := by simpa using List.find?_some hf
      rcases hG C hC p (List.mem_of_find?_eq_some hf) with e | e
      · rw [e] at hkeyp
        exact absurd hkeyp (by decide)
      · rw [e] at hkeyp hfind
        exact ⟨hkeyp, hfind.symm⟩
  have htotal : 1 ≤ defaultTotalDomains P := by
    unfold defaultTotalDomains
    cases hg : getDefaultValue P totalDomainsKey with
    | none => simp
    | some r =>
      obtain ⟨hk, rfl⟩ := hdefault r hg
      rw [Option.some_bind]
      cases hp : parseInt r with
      | none => simp
      | some n =>
        have := hcount hk n hp
        simp only
        split <;> omega
  obtain ⟨m, hm⟩ : ∃ m, (defaultTotalDomains P).toNat = m + 1 :=
    ⟨(defaultTotalDomains P).toNat - 1, by omega⟩
  have hdomains : initializeDomains P
      = newDomain 1 :: (List.range m).map (fun j => newDomain (j + 2)) := by
    unfold initializeDomains
    rw [hD, if_pos (by decide), hm, List.range_succ_eq_map, List.map_cons, List.map_map]
    rfl
  -- the rendered nodes
  have hrenderG : renderCategories P.globalProperties none
      = some (((P.globalProperties.flatMap (·.properties)).map
          fun p => (renderPropertyField p none).getD []).flatMap id) := by
    unfold renderCategories
    rw [mapM_option_some _ (fun p => (renderPropertyField p none).getD [])]
    · rfl
    · intro p hp
      rw [List.mem_flatMap] at hp
      obtain ⟨C, hC, hpC⟩ := hp
      rcases hG C hC p hpC with e | e
      · rw [e]; decide
      · rw [e, renderPropertyField_imported_text k v htext]; rfl
  have hrenderD : renderDomainProperties P (initializeDomains P) 0
      = some [.control { id := "domain-1-app.domain1.name".toList,
                         dataKey := "app.domain{N}.name".toList, value := "Acme".toList,
                         inDomainContainer := true },
          .control (confirmControl "domain-1-app.domain1.name".toList true)] := by
    unfold renderDomainProperties
    rw [hdomains, hD, List.getElem?_cons_zero]
    decide
  obtain ⟨hctl, hgel, hFeIn, hKIn⟩ := globalNodes_imported P.globalProperties k v htext hG
    ⟨CFe, hCFe, hpFe⟩ ⟨CK, hCK, hpK⟩
  generalize hgn : ((P.globalProperties.flatMap (·.properties)).map
    fun p => (renderPropertyField p none).getD []).flatMap id = gn at hrenderG hctl hgel hFeIn hKIn
  -- the document and its controls
  have hdoc : ∀ document : List Node,
      (document = gn ++ [.control ({ id := "domain-1-app.domain1.name".toList, dataKey := "app.domain{N}.name".toList, value := "Acme".toList, inDomainContainer := true } : FormElement),
          .control (confirmControl "domain-1-app.domain1.name".toList true)] ∨
        document = [.control ({ id := "domain-1-app.domain1.name".toList, dataKey := "app.domain{N}.name".toList, value := "Acme".toList, inDomainContainer := true } : FormElement),
          .control (confirmControl "domain-1-app.domain1.name".toList true)] ++ gn) →
      updateRepeatableFields document = document ∧
      (∀ el, el ∈ formOf document ↔ (el ∈ formOf gn ∨
        el = ({ id := "domain-1-app.domain1.name".toList, dataKey := "app.domain{N}.name".toList, value := "Acme".toList, inDomainContainer := true } : FormElement) ∨
        el = confirmControl "domain-1-app.domain1.name".toList true)) ∧
      domainInputs (formOf document)
        = [({ id := "domain-1-app.domain1.name".toList, dataKey := "app.domain{N}.name".toList, value := "Acme".toList, inDomainContainer := true } : FormElement),
            confirmControl "domain-1-app.domain1.name".toList true] := by
    intro document hd
    have hfilter : domainInputs (formOf gn) = [] := by
      unfold domainInputs
      rw [List.filter_eq_nil_iff]
      intro el hel
      rcases hgel el hel with e | e | e <;> rw [e] <;> simp [booleanControl, confirmControl]
    refine ⟨?_, ?_, ?_⟩
    · unfold updateRepeatableFields
      rw [updateRepeatableFieldsFrom_controls, List.nil_append]
      intro node hn
      rcases hd with e | e <;> rw [e] at hn <;>
        simp only [List.mem_append, List.mem_cons, List.mem_singleton, List.not_mem_nil,
          or_false] at hn
      · rcases hn with h | h | h
        · exact hctl node h
        · exact ⟨_, h⟩
        · exact ⟨_, h⟩
      · rcases hn with (h | h) | h
        · exact ⟨_, h⟩
        · exact ⟨_, h⟩
        · exact hctl node h
    · intro el
      rcases hd with e | e <;> rw [e] <;> unfold formOf <;>
        simp only [List.flatMap_append, List.mem_append, List.flatMap_cons, List.flatMap_nil,
          Node.elements, List.mem_cons, List.mem_singleton, List.not_mem_nil, or_false,
          List.append_nil, List.singleton_append]
      tauto
    · have hsplit : ∀ a b : List Node, domainInputs (formOf (a ++ b))
          = domainInputs (formOf a) ++ domainInputs (formOf b) := by
        intro a b
        unfold domainInputs formOf
        rw [List.flatMap_append, List.filter_append]
      rcases hd with e | e <;> rw [e, hsplit, hfilter]
      · rw [List.nil_append]
        decide
      · rw [List.append_nil]
        decide
  have hload : ∃ st, loadConfigFromData P domainFirst = some st ∧ st.configData = P ∧
      st.domains = initializeDomains P ∧ st.currentDomainIndex = 0 ∧ st.languageCount = 3 ∧
      (∀ el, el ∈ st.form ↔ (el ∈ formOf gn ∨
        el = ({ id := "domain-1-app.domain1.name".toList, dataKey := "app.domain{N}.name".toList, value := "Acme".toList, inDomainContainer := true } : FormElement) ∨
        el = confirmControl "domain-1-app.domain1.name".toList true)) ∧
      domainInputs st.form
        = [({ id := "domain-1-app.domain1.name".toList, dataKey := "app.domain{N}.name".toList, value := "Acme".toList, inDomainContainer := true } : FormElement),
            confirmControl "domain-1-app.domain1.name".toList true] := by
    unfold loadConfigFromData
    simp only [hrenderG, hrenderD]
    refine ⟨_, rfl, rfl, rfl, rfl, rfl, ?_⟩
    cases domainFirst
    · simp only [Bool.false_eq_true, if_false]
      obtain ⟨h1, h2, h3⟩ := hdoc _ (Or.inl rfl)
      rw [h1]
      exact ⟨h2, h3⟩
    · simp only [if_true]
      obtain ⟨h1, h2, h3⟩ := hdoc _ (Or.inr rfl)
      rw [h1]
      exact ⟨h2, h3⟩
  obtain ⟨st, hst, hcfg, hdom, hidx, hlang, hform, hinputs⟩ := hload
  -- the saved domains
  have hsave : saveDomainValues st.form st.domains st.currentDomainIndex
      = some ({ id := 1, properties := [(domainIdKey, .num 1),
            ("app.domain{N}.name".toList, .str "Acme".toList)] } ::
          (List.range m).map (fun j => newDomain (j + 2))) := by
    unfold saveDomainValues
    rw [hdom, hidx, hdomains, List.getElem?_cons_zero]
    simp only [hinputs, List.set_cons_zero]
    rfl
  have hown : ∀ d ∈ ({ id := 1, properties := [(domainIdKey, .num 1),
            ("app.domain{N}.name".toList, .str "Acme".toList)] } ::
          (List.range m).map (fun j => newDomain (j + 2)) : List Domain),
      hasOwnPropertyFails st.configData d = false := by
    intro d hd
    unfold hasOwnPropertyFails
    rw [Bool.and_eq_false_iff]
    right
    rcases List.mem_cons.mp hd with e | e
    · rw [e]
      decide
    · rw [List.mem_map] at e
      obtain ⟨j, -, rfl⟩ := e
      have hne : decide (domainIdKey = "hasOwnProperty".toList) = false := by decide
      simp only [newDomain, objectGet, List.find?, hne]
      rfl
  have hgen := generatePropertiesLines_eq st timestamp _ hsave hown
  refine ⟨st, _, hst, hgen, ?_, ?_, ?_⟩
  · -- the boolean line
    have hinfix := globalPropertyLines_infix st timestamp _ CFe _ hgen (hcfg ▸ hCFe) hpFe
    refine writtenPairs_of_infix hinfix _ ?_
    rw [globalPropertyLines_imported_boolean, List.mem_singleton]
    have hfind : getElementById st.form
        ("global-".toList ++ (importedProperty "feature.enabled".toList "true".toList).key)
        = some (booleanControl (importedProperty "feature.enabled".toList "true".toList)
            none) := by
      unfold getElementById
      refine find?_of_unique _ _ _ ((hform _).mpr (Or.inl hFeIn)) (by decide) ?_
      intro el hel hid
      simp only [decide_eq_true_eq] at hid
      rcases (hform el).mp hel with h | h | h
      · rcases hgel el h with e | e | e
        · exact e
        · exfalso
          rw [e] at hid
          exact hkey (List.append_cancel_left hid)
        · exfalso
          rw [e] at hid
          unfold confirmControl at hid
          simp only at hid
          rw [List.append_assoc] at hid
          have h2 := congrArg List.getLast? (List.append_cancel_left hid)
          have h3 : ("-confirm".toList).getLast? = some 'm' := by decide
          have h4 : (some 'm' : Option Char).or (List.getLast? k) = some 'm' := rfl
          rw [List.getLast?_append, h3, h4] at h2
          exact absurd h2 (by decide)
      · exfalso
        rw [h] at hid
        exact absurd hid (by decide)
      · exfalso
        rw [h] at hid
        exact absurd hid (by decide)
    unfold globalValue
    rw [hfind]
    decide
  · -- the domain line
    rw [writtenPairs_append]
    apply List.mem_append_right
    rw [writtenPairs_flatMap, List.mem_flatMap]
    refine ⟨_, List.mem_cons_self _ _, ?_⟩
    rw [writtenPairs_domainLines, hcfg, hD]
    decide
  · -- the text line
    have hinfix := globalPropertyLines_infix st timestamp _ CK _ hgen (hcfg ▸ hCK) hpK
    refine writtenPairs_of_infix hinfix _ ?_
    rw [globalPropertyLines_imported_text _ _ k v htext, List.mem_singleton]
    have hfind : getElementById st.form ("global-".toList ++ k)
        = some { id := "global-".toList ++ k, dataKey := k, value := stripNewlines v } := by
      unfold getElementById
      refine find?_of_unique _ _ _ ((hform _).mpr (Or.inl hKIn)) (by simp) ?_
      intro el hel hid
      simp only [decide_eq_true_eq] at hid
      rcases (hform el).mp hel with h | h | h
      · rcases hgel el h with e | e | e
        · exfalso
          rw [e] at hid
          have hid' : "global-".toList ++ "feature.enabled".toList = "global-".toList ++ k := hid
          have : "feature.enabled".toList = k := List.append_cancel_left hid'
          exact hkey this.symm
        · exact e
        · exfalso
          rw [e] at hid
          unfold confirmControl at hid
          simp only at hid
          have := List.append_right_eq_self.mp hid
          exact absurd this (by decide)
      · exfalso
        rw [h] at hid
        have h2 := congrArg List.head? hid
        have h3 : ("global-".toList ++ k).head? = some 'g' := rfl
        rw [h3] at h2
        exact absurd h2 (by decide)
      · exfalso
        rw [h] at hid
        have h2 := congrArg List.head? hid
        have h3 : ("global-".toList ++ k).head? = some 'g' := rfl
        rw [h3] at h2
        exact absurd h2 (by decide)
    rw [hfind]
    simp only [Bool.false_and, Bool.false_eq_true, if_false, Bool.not_false, if_true, hbreak]

/-- The theorem `decode_load_encode_keeps_pairs` at the file
`exampleFlatFileReordered`, whose text line is `site.title=Hello world`, for
the page that puts the global container first. -/
theorem decode_load_encode_keeps_pairs_witness :
    ∃ st lines,
      loadConfigFromData (parsePropertiesFile "domain{N}".toList exampleFlatFileReordered) false
        = some st ∧
      generatePropertiesLines st "5/11/2026, 10:00:00".toList = some lines ∧
      ("feature.enabled".toList, "true".toList) ∈ writtenPairs lines ∧
      ("app.domain1.name".toList, "Acme".toList) ∈ writtenPairs lines ∧
      ("site.title".toList, "Hello world".toList) ∈ writtenPairs lines :=
  decode_load_encode_keeps_pairs "domain{N}".toList exampleFlatFileReordered "site.title".toList
    "Hello world".toList false "5/11/2026, 10:00:00".toList (by decide)
    (by
      rw [show decodeLines exampleFlatFileReordered
        = [("site.title".toList, "Hello world".toList),
            ("app.domain1.name".toList, "Acme".toList),
            ("feature.enabled".toList, "true".toList)] from by decide]
      exact (List.Perm.swap _ _ _).trans
        (((List.Perm.swap _ _ _).cons _).trans (List.Perm.swap _ _ _)))
    (by decide) (by decide) (by decide) (by decide) (by decide)
    (fun h => absurd h (by decide))

/-- C20: evaluation at the failing input. The flat file holds the boolean line
`feature.enabled=true`, the domain line `app.domain1.name=Acme` and the line
`hrvertical.portalfirma.dominios.totalconfigurados=-1`, whose value has the
inferred type `text`. Decoded with the pattern `domain{N}` and loaded,
`initializeDomains` reads the count `parseInt("-1") || 2`, which is `-1`, and
creates no domain; the encoder then writes the boolean and the text pair and no
line for the domain property, for either order of the containers. With the
text line `__proto__=x` the encoder writes the boolean pair and the domain
property for two domains, and no line for the text pair. -/
theorem decode_load_encode_drops_pair :
    decodeLines exampleFlatFileNegativeCount
      = [("feature.enabled".toList, "true".toList), ("app.domain1.name".toList, "Acme".toList),
          (totalDomainsKey, "-1".toList)] ∧
    inferType "-1".toList = ("text".toList, []) ∧
    parseInt "-1".toList = some (-1) ∧
    (∀ domainFirst : Bool,
      ((loadConfigFromData (parsePropertiesFile "domain{N}".toList exampleFlatFileNegativeCount)
          domainFirst).bind
        fun st => (generatePropertiesLines st "5/11/2026, 10:00:00".toList).map
          fun lines => (st.domains, writtenPairs lines))
        = some ([], [("feature.enabled".toList, "true".toList),
            (totalDomainsKey, "-1".toList)])) ∧
    decodeLines exampleFlatFileProto
      = [("feature.enabled".toList, "true".toList), ("app.domain1.name".toList, "Acme".toList),
          ("__proto__".toList, "x".toList)] ∧
    (∀ domainFirst : Bool,
      ((loadConfigFromData (parsePropertiesFile "domain{N}".toList exampleFlatFileProto)
          domainFirst).bind
        fun st => (generatePropertiesLines st "5/11/2026, 10:00:00".toList).map writtenPairs)
        = some [("feature.enabled".toList, "true".toList),
            ("app.domain1.name".toList, "Acme".toList),
            ("app.domain2.name".toList, "Acme".toList)]) := by
  refine ⟨by decide, by decide, by decide, by decide, by decide, by decide⟩

/-! ### C21: a dependency on a missing field -/

/-- C21: a property whose `dependsOn.key` is the key of no element of the form
has its dependency unmet in every display state; whenever
`initializeDependencies` returns, the property is hidden, and on an acyclic
document it returns; a later `handleDependencies` for the key of an element of
the form leaves the property as it is, so it stays hidden. -/
theorem missing_source_is_hidden (rows : List Row) (i : Nat) (row : Row) (key value : Str)
    (hrow : rows[i]? = some row) (hdep : row.dependsOn = some (key, value))
    (hmissing : querySelector rows key = none) :
    (∀ disp : Displays, dependencyMet rows disp row = false) ∧
    (∀ (fuel : Nat) (disp disp' : Displays),
      initializeDependencies rows fuel disp = some disp' → isVisible disp' i = false) ∧
    (Acyclic rows → ∃ fuel₀, ∀ fuel, fuel₀ ≤ fuel → ∀ disp : Displays,
      ∃ disp', initializeDependencies rows fuel disp = some disp' ∧ isVisible disp' i = false) ∧
    (∀ (fuel : Nat) (disp disp' : Displays) (k v : Str),
      (querySelector rows k).isSome = true →
      handleDependencies rows fuel disp k v = some disp' →
      isVisible disp' i = isVisible disp i) := by
  have hunmet : ∀ disp : Displays, dependencyMet rows disp row = false := by
    intro disp
    unfold dependencyMet
    rw [hdep]
    simp only [hmissing]
  have hinit : ∀ (fuel : Nat) (disp disp' : Displays),
      initializeDependencies rows fuel disp = some disp' → isVisible disp' i = false := by
    intro fuel disp disp' h
    unfold initializeDependencies at h
    cases ht : triggerSources rows fuel disp with
    | none => rw [ht] at h; cases h
    | some s =>
      rw [ht] at h
      simp only [Option.some.injEq] at h
      subst h
      have hpass : (cascadePass rows s).1 i = Display.none :=
        cascadePass_hides rows s i row hrow (by rw [hdep]; rfl) (fun d _ => hunmet d)
      have : (cascadeLoop rows maxIterations s).1 i = Display.none := by
        show (cascadeLoop rows (9 + 1) s).1 i = Display.none
        simp only [cascadeLoop]
        split
        · exact cascadeLoop_none_mono rows 9 _ i hpass
        · exact hpass
      simp [isVisible, this]
  refine ⟨hunmet, hinit, ?_, ?_⟩
  · intro hac
    obtain ⟨fuel₀, h0⟩ := initializeDependencies_isSome rows hac
    refine ⟨fuel₀, fun fuel hf disp => ?_⟩
    obtain ⟨disp', hd⟩ := Option.isSome_iff_exists.mp (h0 fuel hf disp)
    exact ⟨disp', hd, hinit fuel disp disp' hd⟩
  · intro fuel disp disp' k v hk h
    unfold isVisible
    rw [handleDependencies_skips_missing hrow hdep hmissing fuel disp disp' k v hk h]

theorem missing_source_is_hidden_witness :
    (exampleChain 2)[1]? = some (chainRow 1) ∧
    (chainRow 1).dependsOn = some ("Z".toList, "v".toList) ∧
    querySelector (exampleChain 2) "Z".toList = none ∧
    (initializeDependencies (exampleChain 2) 10 freshDisplays).map (fun d => isVisible d 1)
      = some false ∧
    ∀ disp : Displays, dependencyMet (exampleChain 2) disp (chainRow 1) = false :=
  ⟨by decide, by decide, by decide, by decide,
    (missing_source_is_hidden (exampleChain 2) 1 (chainRow 1) "Z".toList "v".toList
      (by decide) (by decide) (by decide)).1⟩

/-! ### C22: changing the number of domains -/

/-- C22, counterexample: the count is left at two; the first domain, which is
the current one, survives but its saved values change, because
`handleDomainsCountChange` saves the values of the form first. -/
theorem handleDomainsCountChange_saved_values_counterexample :
    exampleDomainState.domains.map Domain.properties
      = [[(domainIdKey, .num 1)], [(domainIdKey, .num 2)]] ∧
    (handleDomainsCountChange exampleDomainForm exampleDomainState 2).map
        (fun state => state.domains.map Domain.properties)
      = some [[(domainIdKey, .num 1), ("app.domain{N}.name".toList, .str "Acme".toList)],
          [(domainIdKey, .num 2)]] := by
  decide

/-- C22 (amended): when `saveDomainValues` returns, `handleDomainsCountChange`
returns and leaves `min(max(n, 1), 10)` domains: the first ones of the list
that saving leaves, then new domains with the ids that continue from the
previous length, each holding only its own id. The domains cut off are the
last ones. A domain that stays keeps its id; it keeps its saved values unless
it is the current domain, whose saved values are those that
`saveDomainValues` stores from the form. -/
theorem handleDomainsCountChange_count (form : Form) (state : DomainState) (newCount : Int)
    (saved : List Domain)
    (hsave : saveDomainValues form state.domains state.currentDomainIndex = some saved) :
    ∃ state', handleDomainsCountChange form state newCount = some state' ∧
      state'.domains.length = (min (max newCount 1) 10).toNat ∧
      state'.domains
        = saved.take (min (max newCount 1) 10).toNat ++
            (List.range ((min (max newCount 1) 10).toNat - state.domains.length)).map
              (fun j => newDomain (state.domains.length + j + 1)) ∧
      saved.map Domain.id = state.domains.map Domain.id ∧
      (∀ i, i ≠ state.currentDomainIndex → saved[i]? = state.domains[i]?) ∧
      (∀ domain, state.domains[state.currentDomainIndex]? = some domain →
        saved[state.currentDomainIndex]? = some { domain with
          properties := (domainInputs form).foldl saveDomainValue domain.properties }) := by
  obtain ⟨state', h1, h2⟩ := handleDomainsCountChange_domains form state newCount saved hsave
  have hlen := saveDomainValues_length _ _ _ _ hsave
  refine ⟨state', h1, ?_, ?_, saveDomainValues_ids _ _ _ _ hsave,
    fun i hi => saveDomainValues_other _ _ _ _ i hsave hi,
    fun domain hd => saveDomainValues_current _ _ _ _ domain hd hsave⟩
  · rw [← clampCount_eq, h2]
    simp only [List.length_append, List.length_take, List.length_map, List.length_range]
    omega
  · rw [← clampCount_eq, ← hlen]
    exact h2

theorem handleDomainsCountChange_count_witness :
    saveDomainValues exampleDomainForm exampleDomainState.domains
        exampleDomainState.currentDomainIndex
      = some [{ id := 1, properties := [(domainIdKey, .num 1),
          ("app.domain{N}.name".toList, .str "Acme".toList)] }, newDomain 2] ∧
    ∃ state', handleDomainsCountChange exampleDomainForm exampleDomainState 25 = some state' ∧
      state'.domains.length = 10 :=
  ⟨by decide,
    (handleDomainsCountChange_count exampleDomainForm exampleDomainState 25
      [{ id := 1, properties := [(domainIdKey, .num 1),
          ("app.domain{N}.name".toList, .str "Acme".toList)] }, newDomain 2] (by decide)).imp
      fun _ h => ⟨h.1, h.2.1.trans (by decide)⟩⟩

/-! ### C23: the placeholders of a stored key -/

/-- C23, counterexample: the key `app.domain1.domain2` holds no placeholder and
`convertToDomainTemplate` stores it with two; the editor rewrite stores the
domain key `app2.domain1.name` with two placeholders as well; and with the
pattern `N}x{N}` the key `{n}x1`, which has one run of digits only, is stored
as `{N}x{N}`. -/
theorem stored_key_placeholders_counterexample :
    placeholderCount "app.domain1.domain2".toList = 0 ∧
    placeholderCount (convertToDomainTemplate "app.domain1.domain2".toList "domain{N}".toList)
      = 2 ∧
    placeholderCount "app2.domain1.name".toList = 0 ∧
    placeholderCount (editorStoredKey
      (editorProperty "domain{N}".toList 0 "app2.domain1.name".toList "Acme".toList)) = 2 ∧
    placeholderCount "{n}x1".toList = 0 ∧
    jsSplit placeholder ['N', '}', 'x', '{', 'N', '}'] = [['N', '}', 'x'], []] ∧
    placeholderCount (convertToDomainTemplate "{n}x1".toList ['N', '}', 'x', '{', 'N', '}'])
      = 2 := by
  decide

/-- C23 (amended): for a flat key that holds no placeholder and at most one run
of decimal digits, the key that `convertToDomainTemplate` stores for the
default pattern `domain{N}` holds at most one placeholder `{N}`, and so does
the key that `buildConfigJsonFromEditor` stores for an editor property with
that key. -/
theorem stored_key_placeholders (key a ds b : Str) (hkey : key = a ++ ds ++ b)
    (ha : ∀ c ∈ a, isDecimalDigit c = false) (hds : ∀ c ∈ ds, isDecimalDigit c = true)
    (hb : ∀ c ∈ b, isDecimalDigit c = false) (hno : placeholderCount key = 0) :
    placeholderCount (convertToDomainTemplate key "domain{N}".toList) ≤ 1 ∧
    ∀ prop : EditorProperty, prop.key = key → placeholderCount (editorStoredKey prop) ≤ 1 := by
  subst hkey
  have hb0 : placeholderCount b = 0 :=
    Nat.le_zero.mp (hno ▸ placeholderCount_append_ge (a ++ ds) b)
  constructor
  · rcases convertToDomainTemplate_one_run a ds b ha hds hb with h | ⟨a1, x, ds', e, h⟩
    · rw [h, hno]
      omega
    · rw [h, placeholderCount_context a1 ("domain{N}".toList ++ b) (x ++ ds' ++ b) 'd'
        ("omain{N}".toList ++ b) rfl (by decide) (by decide) (by rw [← e]; exact hno),
        placeholderCount_domain, hb0]
  · intro prop hp
    unfold editorStoredKey
    split
    · rw [hp]
      cases ds with
      | nil =>
        rw [replaceDigits_no_digit _ (by
          intro c hc
          rcases List.mem_append.mp hc with hc | hc
          · rcases List.mem_append.mp hc with hc | hc
            · exact ha c hc
            · cases hc
          · exact hb c hc), hno]
        omega
      | cons d ds =>
        rw [replaceDigits_one_run a (d :: ds) b (List.cons_ne_nil _ _) ha hds hb,
          placeholderCount_context a ("{N}".toList ++ b) (d :: ds ++ b) '{'
            ('N' :: '}' :: b) rfl (by decide) (by decide)
            (by rw [← List.append_assoc]; exact hno),
          placeholderCount_braces, hb0]
    · rw [hp, hno]
      omega

theorem stored_key_placeholders_witness :
    placeholderCount "app.domain12.name".toList = 0 ∧
    convertToDomainTemplate "app.domain12.name".toList "domain{N}".toList
      = "app.domain{N}.name".toList ∧
    placeholderCount (convertToDomainTemplate "app.domain12.name".toList "domain{N}".toList)
      ≤ 1 :=
  ⟨by decide, by decide,
    (stored_key_placeholders "app.domain12.name".toList "app.domain".toList "12".toList
      ".name".toList (by decide) (by decide) (by decide) (by decide) (by decide)).1⟩

/-! ### C24: labels -/

/-- C24, counterexample: for the key `app.myKey`, `parsePropertiesFile` assigns
the label `my Key`, whose first word is not title-cased, while
`parsePropertiesFileForEditor` (`generateLabel`) assigns `My Key`; for the key
`app.my_key`, `generateLabel` assigns `My Key`, with the underscore turned into
a blank, where a space before each capital letter and title-casing alone give
`My_key`; for the key `app.ñandúÁrbol` it assigns `Ñandúárbol`: the capital
letters that get a blank are the letters `A` to `Z`, while the title-casing
covers every letter. -/
theorem import_label_counterexample :
    (importedList "app.myKey=1".toList).map (fun p => (p.key, p.label))
      = [("app.myKey".toList, "my Key".toList)] ∧
    (parsePropertiesFileForEditor [] "app.myKey=1".toList).map (fun p => (p.key, p.label))
      = [("app.myKey".toList, "My Key".toList)] ∧
    (parsePropertiesFileForEditor [] "app.my_key=1".toList).map (fun p => (p.key, p.label))
      = [("app.my_key".toList, "My Key".toList)] ∧
    (parsePropertiesFileForEditor [] "app.ñandúÁrbol=1".toList).map (fun p => p.label)
      = ["Ñandúárbol".toList] ∧
    (importedList "app.ñandúÁrbol=1".toList).map (fun p => p.label)
      = ["ñandúÁrbol".toList] := by
  decide

/-- C24 (amended): the label `parsePropertiesFileForEditor` assigns is
`generateLabel` of the key. It is built from the final dot-separated segment
of the key, the text after the last dot: a blank is put before each capital
letter `A` to `Z`, every `_` and `-` is turned into a blank, the text is
trimmed and split at the blanks, every word is title-cased (first character
upper-cased, the others lower-cased) and the words are joined by blanks. -/
theorem editor_label (key : Str) :
    (∃ front, key = front ++ (jsSplit ['.'] key).getLast?.getD [] ∧
      '.' ∉ (jsSplit ['.'] key).getLast?.getD [] ∧
      (front = [] ∨ front.getLast? = some '.')) ∧
    generateLabel key
      = List.intercalate [' ']
          ((jsSplit [' '] (trim ((insertSpaces ((jsSplit ['.'] key).getLast?.getD [])).map
            fun c => if c = '_' ∨ c = '-' then ' ' else c))).map titleCase) ∧
    titleCase [] = [] ∧
    (∀ c cs, titleCase (c :: cs) = upperFirst c ++ toLowerCase cs) ∧
    (∀ domainKeyPattern content : Str,
      ∀ p ∈ parsePropertiesFileForEditor domainKeyPattern content,
        p.label = generateLabel p.key) := by
  refine ⟨?_, ?_, rfl, fun _ _ => rfl, ?_⟩
  · have := jsSplitGo_dot_last [] key (List.not_mem_nil _)
    simpa [jsSplit] using this
  · unfold generateLabel
    simp only []
    rw [spaceCapitals_eq]
  · intro domainKeyPattern content p hp
    obtain ⟨index, h⟩ := mem_parsePropertiesFileForEditor domainKeyPattern content p hp
    rw [h]
    rfl

/-- The amended C24 at the key `app.my_key`: the property of the line
`app.my_key=1` has the label `My Key`. -/
theorem editor_label_witness :
    editorProperty "domain{N}".toList 0 "app.my_key".toList "1".toList
      ∈ parsePropertiesFileForEditor [] "app.my_key=1".toList ∧
    (editorProperty "domain{N}".toList 0 "app.my_key".toList "1".toList).label
      = generateLabel "app.my_key".toList ∧
    generateLabel "app.my_key".toList = "My Key".toList :=
  ⟨by decide,
    (editor_label "app.my_key".toList).2.2.2.2 [] "app.my_key=1".toList
      (editorProperty "domain{N}".toList 0 "app.my_key".toList "1".toList) (by decide),
    by decide⟩

/-- The label `parsePropertiesFile` assigns is the final dot-separated segment
of the key with a blank before each capital letter `A` to `Z`, trimmed. -/
theorem import_label (key : Str) :
    importLabel key = trim (insertSpaces ((jsSplit ['.'] key).getLast?.getD [])) ∧
    (∀ content : Str, ∀ p ∈ importedList content, p.label = importLabel p.key) := by
  refine ⟨?_, ?_⟩
  · unfold importLabel
    rw [spaceCapitals_eq]
  · intro content p hp
    have h := (mem_importedInKeyOrder content p (mem_importedList content p hp)).2
    rw [h]
    rfl

/-! ### C25: the ids of the domains -/

/-- C25: the ids of the list of domains are `1, 2, ...` in the order of the
list. `initializeDomains` builds such a list; `addDomain`, `removeDomain` and
`handleDomainsCountChange` keep the property (the two that save first return
exactly when `saveDomainValues` returns, and change nothing otherwise);
`removeDomain` and `handleDomainsCountChange` never leave the list empty. Such
a list is visited in strictly ascending id order without gaps. -/
theorem domain_ids_in_order :
    (∀ configData : ConfigData, IdsInOrder (initializeDomains configData)) ∧
    (∀ (form : Form) (state state' : DomainState), IdsInOrder state.domains →
      addDomain form state = some state' →
      IdsInOrder state'.domains ∧ state'.domains.length = state.domains.length + 1) ∧
    (∀ (form : Form) (state : DomainState),
      (addDomain form state).isSome
        = (saveDomainValues form state.domains state.currentDomainIndex).isSome) ∧
    (∀ state : DomainState, IdsInOrder state.domains → IdsInOrder (removeDomain state).domains) ∧
    (∀ (form : Form) (state state' : DomainState) (newCount : Int), IdsInOrder state.domains →
      handleDomainsCountChange form state newCount = some state' →
      IdsInOrder state'.domains) ∧
    (∀ (form : Form) (state : DomainState) (newCount : Int),
      (handleDomainsCountChange form state newCount).isSome
        = (saveDomainValues form state.domains state.currentDomainIndex).isSome) ∧
    (∀ state : DomainState, state.domains ≠ [] → (removeDomain state).domains ≠ []) ∧
    (∀ (form : Form) (state state' : DomainState) (newCount : Int),
      handleDomainsCountChange form state newCount = some state' → state'.domains ≠ []) ∧
    (∀ domains : List Domain, IdsInOrder domains →
      domains.map Domain.id = List.range' 1 domains.length ∧
      (domains.map Domain.id).Pairwise (· < ·)) := by
  refine ⟨initializeDomains_ids, addDomain_ids, addDomain_isSome, removeDomain_ids,
    fun form state state' newCount hids h =>
      (handleDomainsCountChange_ids form state state' newCount hids h).1,
    handleDomainsCountChange_isSome, removeDomain_ne_nil, ?_, ?_⟩
  · intro form state state' newCount h hnil
    cases hs : saveDomainValues form state.domains state.currentDomainIndex with
    | none =>
      unfold handleDomainsCountChange at h
      rw [hs] at h
      cases h
    | some saved =>
      obtain ⟨st, h1, h2⟩ := handleDomainsCountChange_domains form state newCount saved hs
      rw [h, Option.some.injEq] at h1
      subst h1
      have hl := congrArg List.length h2
      rw [hnil] at hl
      simp only [List.length_nil, List.length_append, List.length_take, List.length_map,
        List.length_range] at hl
      have := clampCount_pos newCount
      omega
  · intro domains h
    have h1 := (idsInOrder_iff domains).mp h
    refine ⟨h1, ?_⟩
    rw [h1]
    exact List.pairwise_lt_range' 1 domains.length

theorem domain_ids_in_order_witness :
    IdsInOrder exampleDomainState.domains ∧
    handleDomainsCountChange exampleDomainForm exampleDomainState 3
      = some { domains :=
                [{ id := 1, properties := [(domainIdKey, .num 1),
                    ("app.domain{N}.name".toList, .str "Acme".toList)] },
                  newDomain 2, newDomain 3]
               currentDomainIndex := 0 } ∧
    IdsInOrder [{ id := 1, properties := [(domainIdKey, .num 1),
        ("app.domain{N}.name".toList, .str "Acme".toList)] }, newDomain 2, newDomain 3] :=
  ⟨by decide, by decide,
    domain_ids_in_order.2.2.2.2.1 exampleDomainForm exampleDomainState
      { domains :=
          [{ id := 1, properties := [(domainIdKey, .num 1),
              ("app.domain{N}.name".toList, .str "Acme".toList)] },
            newDomain 2, newDomain 3]
        currentDomainIndex := 0 } 3 (by decide) (by decide)⟩

/-! ### C26: the cascade loop only hides -/

/-- C26: evaluation at the failing input. The chain of eleven fields has eleven
dependent fields; the cascade loop of `initializeDependencies` runs its ten iterations
and stops, and one more pass over the displays it leaves would still record a
change: no pass without changes was reached. -/
theorem cascade_loop_cap_counterexample :
    dependentCount (exampleChain 11) = 11 ∧
    (triggerSources (exampleChain 11) 40 freshDisplays).map
      (fun d => ((cascadeLoop (exampleChain 11) maxIterations d).2,
        (cascadePass (exampleChain 11) (cascadeLoop (exampleChain 11) maxIterations d).1).2))
      = some (10, true) := by
  refine ⟨by decide, by decide⟩

/-- The passes of the cascade loop. A pass of the cascade loop only hides: a row that is hidden
when the pass starts is hidden when it ends, and a pass that records a change
hides a dependent row that was visible. The loop with any cap `remaining`
therefore runs at most `min(remaining, visible dependent fields + 1)`
iterations, which is at most the number of dependent fields + 1; when the cap
is at least the number of visible dependent fields + 1, its last pass records
no change: a further pass leaves the displays as they are. -/
theorem cascade_loop_only_hides (rows : List Row) (remaining : Nat) (disp : Displays) :
    (∀ x, isVisible disp x = false → isVisible (cascadePass rows disp).1 x = false) ∧
    ((cascadePass rows disp).2 = true →
      ∃ x row, rows[x]? = some row ∧ row.dependsOn.isSome = true ∧
        isVisible disp x = true ∧ isVisible (cascadePass rows disp).1 x = false) ∧
    (cascadeLoop rows remaining disp).2 ≤ min remaining (visibleDependents rows disp + 1) ∧
    visibleDependents rows disp + 1 ≤ dependentCount rows + 1 ∧
    (∀ x, isVisible disp x = false → isVisible (cascadeLoop rows remaining disp).1 x = false) ∧
    (visibleDependents rows disp + 1 ≤ remaining →
      cascadePass rows (cascadeLoop rows remaining disp).1
        = ((cascadeLoop rows remaining disp).1, false)) := by
  refine ⟨cascadePass_none_mono rows disp, cascadePass_changed rows disp,
    Nat.le_min.mpr ⟨cascadeLoop_iterations_le rows remaining disp,
      cascadeLoop_iterations_le_visible rows remaining disp⟩,
    Nat.succ_le_succ (visibleDependents_le rows disp), ?_, cascadeLoop_fixed rows remaining disp⟩
  intro x hx
  have h1 : disp x = Display.none := by simpa [isVisible] using hx
  simp [isVisible, cascadeLoop_none_mono rows remaining disp x h1]

theorem cascade_loop_only_hides_witness :
    visibleDependents exampleABC freshDisplays + 1 ≤ maxIterations ∧
    cascadePass exampleABC (cascadeLoop exampleABC maxIterations freshDisplays).1
      = ((cascadeLoop exampleABC maxIterations freshDisplays).1, false) :=
  ⟨by decide,
    (cascade_loop_only_hides exampleABC maxIterations freshDisplays).2.2.2.2.2 (by decide)⟩

/-! ### C27: `valuesMatch` as a relation -/

/-- C27: `valuesMatch` is an equivalence relation on values: it holds between a
value and itself, it does not depend on the order of its arguments, and it
carries over from `a`, `b` and `b`, `c` to `a`, `c`. -/
theorem valuesMatch_equivalence :
    (∀ a : JsValue, valuesMatch a a = true) ∧
    (∀ a b : JsValue, valuesMatch a b = valuesMatch b a) ∧
    (∀ a b c : JsValue, valuesMatch a b = true → valuesMatch b c = true →
      valuesMatch a c = true) := by
  refine ⟨?_, ?_, ?_⟩
  · intro a
    unfold valuesMatch
    exact decide_eq_true rfl
  · intro a b
    unfold valuesMatch
    simp only []
    rw [Bool.eq_iff_iff, decide_eq_true_iff, decide_eq_true_iff]
    exact eq_comm
  · intro a b c h1 h2
    unfold valuesMatch at *
    simp only [decide_eq_true_eq] at *
    exact h1.trans h2

theorem valuesMatch_equivalence_witness :
    valuesMatch (.str " YES ".toList) (.bool true) = true ∧
    valuesMatch (.bool true) (.num 1) = true ∧
    valuesMatch (.str " YES ".toList) (.num 1) = true :=
  ⟨by decide, by decide,
    valuesMatch_equivalence.2.2 (.str " YES ".toList) (.bool true) (.num 1) (by decide)
      (by decide)⟩

/-! ### C28: templating twice -/

/-- C28: for the default pattern `domain{N}`, `convertToDomainTemplate` is
idempotent: templating a templated key changes nothing. -/
theorem convertToDomainTemplate_idempotent (key : Str) :
    convertToDomainTemplate (convertToDomainTemplate key "domain{N}".toList) "domain{N}".toList
      = convertToDomainTemplate key "domain{N}".toList := by
  have hsplit : jsSplit placeholder "domain{N}".toList = ["domain".toList, []] := by decide
  have hd : '$' ∉ "domain{N}".toList := by decide
  rw [convertToDomainTemplate_eq _ _ _ _ hsplit hd, convertToDomainTemplate_eq _ _ _ _ hsplit hd]
  apply regexReplaceAllGo_no_match
  intro a t e
  exact replace_domain_no_occurrence key.length key (Nat.le_refl _) []
    (fun u1 u2 e2 hne => absurd (List.append_eq_nil.mp e2.symm).2 hne) a t (by simpa using e)

/-! ### C29: classification after templating -/

/-- C29: evaluation at the failing input. The pattern `a$${N}` splits into two parts and
classifies the key `a$$1`; the replacement text of `convertToDomainTemplate`
is the pattern itself, in which `$$` stands for one `$`, so the key becomes
`a${N}`, which the pattern no longer classifies. -/
theorem classification_stable_counterexample :
    jsSplit placeholder "a$${N}".toList = ["a$$".toList, []] ∧
    checkIfDomainProperty "a$$1".toList "a$${N}".toList = true ∧
    convertToDomainTemplate "a$$1".toList "a$${N}".toList = "a${N}".toList ∧
    checkIfDomainProperty (convertToDomainTemplate "a$$1".toList "a$${N}".toList)
      "a$${N}".toList = false := by
  decide

/-- Patterns without `$`: for every pattern that splits into exactly two parts around
`{N}` and holds no `$`, a key the pattern classifies as a domain key is still
classified after templating. -/
theorem classification_stable (key pattern pre suf : Str)
    (hsplit : jsSplit placeholder pattern = [pre, suf]) (hd : '$' ∉ pattern)
    (h : checkIfDomainProperty key pattern = true) :
    checkIfDomainProperty (convertToDomainTemplate key pattern) pattern = true := by
  obtain ⟨hpat, hatoms⟩ := jsSplit_pair pattern pre suf hsplit
  have hpne : pattern ≠ [] := by rw [hpat]; simp [placeholder]
  have hkne : key ≠ [] := by
    intro e
    rw [e] at h
    simp [checkIfDomainProperty] at h
  by_cases hnum : regexTest true (literalAtoms pre ++ [Atom.digits] ++ literalAtoms suf) key = true
  · obtain ⟨a, rest, hconv⟩ := convertToDomainTemplate_holds_pattern key pattern pre suf hsplit hd hnum
    rw [hconv]
    have hne : a ++ pattern ++ rest ≠ [] := by
      intro e
      have := congrArg List.length e
      have hl : 0 < pattern.length := List.length_pos.mpr hpne
      simp only [List.length_append, List.length_nil] at this
      omega
    unfold checkIfDomainProperty
    rw [isEmpty_eq_false_of_ne_nil hpne, isEmpty_eq_false_of_ne_nil hne]
    simp only [Bool.or_self, Bool.false_eq_true, if_false, Bool.or_eq_true]
    right
    rw [regexTest_iff]
    refine ⟨a, pattern ++ rest, by simp, ?_⟩
    rw [matchAtoms_literal_isSome]
    exact ⟨pattern, rest, rfl, ciEq_refl _⟩
  · have hno : ∀ a t, key = a ++ t →
        matchAtoms true (literalAtoms pre ++ [Atom.digits] ++ literalAtoms suf) t = none := by
      intro a t e
      by_contra hsome
      apply hnum
      rw [regexTest_iff]
      exact ⟨a, t, e, by
        cases hm : matchAtoms true (literalAtoms pre ++ [Atom.digits] ++ literalAtoms suf) t with
        | none => exact absurd hm hsome
        | some n => rfl⟩
    rw [convertToDomainTemplate_eq key pattern pre suf hsplit hd,
      regexReplaceAllGo_no_match true _ (fun _ _ _ => pattern) [] key hno]
    exact h

theorem classification_stable_witness :
    jsSplit placeholder "domain{N}".toList = ["domain".toList, []] ∧
    checkIfDomainProperty "app.domain1.name".toList "domain{N}".toList = true ∧
    checkIfDomainProperty
      (convertToDomainTemplate "app.domain1.name".toList "domain{N}".toList)
      "domain{N}".toList = true :=
  ⟨by decide, by decide,
    classification_stable "app.domain1.name".toList "domain{N}".toList "domain".toList []
      (by decide) (by decide) (by decide)⟩

/-! ### C30: the two decoders -/

/-- C30: evaluation at the failing input. On the one line `__proto__=x`, whose key occurs once,
`parsePropertiesFileForEditor` yields a property and `parsePropertiesFile`
yields none: the assignment `properties['__proto__'] = 'x'` creates no
property of the object. -/
theorem decoders_agree_counterexample :
    (decodeLines "__proto__=x".toList).map Prod.fst = ["__proto__".toList] ∧
    (importedList "__proto__=x".toList).map (fun p => (p.key, p.default)) = [] ∧
    (parsePropertiesFileForEditor [] "__proto__=x".toList).map (fun p => (p.key, p.default))
      = [("__proto__".toList, "x".toList)] := by
  decide

/-- Texts without the key `__proto__`: for every flat text in which no key occurs on more than one
line and no key is `__proto__`, the properties of `parsePropertiesFile` and of
`parsePropertiesFileForEditor` are the same collection when compared by
original key, default value, inferred type, booleanType and
needsConfirmation; in both, needsConfirmation is true exactly for the types
text and url. -/
theorem decoders_agree (domainKeyPattern content : Str)
    (hnodup : ((decodeLines content).map Prod.fst).Nodup)
    (hproto : "__proto__".toList ∉ (decodeLines content).map Prod.fst) :
    ((importedList content).map fun p =>
        (p.key, p.default, p.type, p.booleanType, p.needsConfirmation)).Perm
      ((parsePropertiesFileForEditor domainKeyPattern content).map fun p =>
        (p.key, p.default, p.type, p.booleanType, p.needsConfirmation)) ∧
    (∀ p ∈ importedList content,
      p.needsConfirmation = decide (p.type = "text".toList ∨ p.type = "url".toList)) ∧
    (∀ p ∈ parsePropertiesFileForEditor domainKeyPattern content,
      p.needsConfirmation = decide (p.type = "text".toList ∨ p.type = "url".toList)) := by
  have himp : ∀ p ∈ importedList content, p = importedProperty p.key p.default :=
    fun p hp => (mem_importedInKeyOrder content p (mem_importedList content p hp)).2
  have hed : ∀ p ∈ parsePropertiesFileForEditor domainKeyPattern content,
      ∃ index, p = editorProperty (getDomainKeyPattern domainKeyPattern) index p.key p.default :=
    fun p hp => mem_parsePropertiesFileForEditor domainKeyPattern content p hp
  refine ⟨?_, ?_, ?_⟩
  · have h1 : ((importedList content).map fun p =>
          (p.key, p.default, p.type, p.booleanType, p.needsConfirmation))
        = ((importedList content).map fun p => (p.key, p.default)).map
            (fun kv => (kv.1, kv.2, (inferType kv.2).1, (inferType kv.2).2,
              decide ((inferType kv.2).1 = "text".toList ∨ (inferType kv.2).1 = "url".toList))) := by
      rw [List.map_map]
      apply List.map_congr_left
      intro p hp
      rw [himp p hp]
      rfl
    have h2 : ((parsePropertiesFileForEditor domainKeyPattern content).map fun p =>
          (p.key, p.default, p.type, p.booleanType, p.needsConfirmation))
        = ((parsePropertiesFileForEditor domainKeyPattern content).map
            fun p => (p.key, p.default)).map
            (fun kv => (kv.1, kv.2, (inferType kv.2).1, (inferType kv.2).2,
              decide ((inferType kv.2).1 = "text".toList ∨ (inferType kv.2).1 = "url".toList))) := by
      rw [List.map_map]
      apply List.map_congr_left
      intro p hp
      obtain ⟨index, h⟩ := hed p hp
      rw [h]
      rfl
    rw [h1, h2, parsePropertiesFileForEditor_pairs]
    apply List.Perm.map
    have := importedList_pairs content
    rw [importedProperties_of_nodup content hnodup hproto] at this
    exact this
  · intro p hp
    rw [himp p hp]
    rfl
  · intro p hp
    obtain ⟨index, h⟩ := hed p hp
    rw [h]
    rfl

theorem decoders_agree_witness :
    ((decodeLines exampleFlatFile).map Prod.fst).Nodup ∧
    ((importedList exampleFlatFile).map fun p =>
        (p.key, p.default, p.type, p.booleanType, p.needsConfirmation)).Perm
      ((parsePropertiesFileForEditor [] exampleFlatFile).map fun p =>
        (p.key, p.default, p.type, p.booleanType, p.needsConfirmation)) :=
  ⟨by decide, (decoders_agree [] exampleFlatFile (by decide) (by decide)).1⟩

end BuildBag
